import Mathlib

/-! # malang: bytecode compiler and stack virtual machine

A shallow embedding of the compiler (`compiler/compiler.go`) and of the virtual
machine (`vm/vm.go`) of the malang repository, followed by theorems about them.

* Go `int`, positions and operands are natural numbers; `int64` object values
  are integers, wrapped by `wrap64` wherever Go arithmetic wraps.
* A function that returns a Go `error` returns `Result.error` together with the
  state it leaves behind; a Go run-time panic (index out of range, nil
  dereference, integer division by zero) is `Result.panic`.
* The dispatch loop of `Run` takes a step budget; `none` means the budget ran
  out before the loop ended.
-/

set_option autoImplicit false

/-! ## Results -/

/-- Outcome of a Go function that mutates a state of type `α` and may return an
error or panic. -/
inductive Result (α : Type) where
  | ok (a : α)
  | error (msg : String) (a : α)
  | panic
  deriving Repr, DecidableEq

/-! ## Package `code` -/

namespace code

/-- An opcode is one byte (`type Opcode byte`). -/
abbrev Opcode := Nat

/-- An instruction stream is a byte sequence (`type Instructions []byte`). -/
abbrev Instructions := List Nat

/- Modelled from the spec: the opcode catalogue. Package `code` is not among the
sources; the opcodes are numbered in the order in which the stages of the
repository introduce them. -/
abbrev OpConstant : Opcode := 0
abbrev OpAdd : Opcode := 1
abbrev OpPop : Opcode := 2
abbrev OpSub : Opcode := 3
abbrev OpMul : Opcode := 4
abbrev OpDiv : Opcode := 5
abbrev OpTrue : Opcode := 6
abbrev OpFalse : Opcode := 7
abbrev OpEqual : Opcode := 8
abbrev OpNotEqual : Opcode := 9
abbrev OpGreaterThan : Opcode := 10
abbrev OpMinus : Opcode := 11
abbrev OpBang : Opcode := 12
abbrev OpJumpNotTruthy : Opcode := 13
abbrev OpJump : Opcode := 14
abbrev OpNull : Opcode := 15
abbrev OpGetGlobal : Opcode := 16
abbrev OpSetGlobal : Opcode := 17
abbrev OpArray : Opcode := 18
abbrev OpHash : Opcode := 19
abbrev OpIndex : Opcode := 20
abbrev OpCall : Opcode := 21
abbrev OpReturnValue : Opcode := 22
abbrev OpReturn : Opcode := 23
abbrev OpGetLocal : Opcode := 24
abbrev OpSetLocal : Opcode := 25
abbrev OpGetBuiltin : Opcode := 26
abbrev OpClosure : Opcode := 27
abbrev OpGetFree : Opcode := 28
abbrev OpCurrentClosure : Opcode := 29

/-- Modelled from the spec: the operand widths (in bytes) that the catalogue
declares for each opcode; `none` for a byte that is no opcode. -/
def operandWidths (op : Opcode) : Option (List Nat) :=
  if op = OpConstant ∨ op = OpJumpNotTruthy ∨ op = OpJump ∨ op = OpGetGlobal
      ∨ op = OpSetGlobal ∨ op = OpArray ∨ op = OpHash then some [2]
  else if op = OpCall ∨ op = OpGetLocal ∨ op = OpSetLocal ∨ op = OpGetBuiltin
      ∨ op = OpGetFree then some [1]
  else if op = OpClosure then some [2, 1]
  else if op ≤ OpCurrentClosure then some []
  else none

/-- Big-endian bytes of one operand of the given width; the value is cut to the
width as Go's `uint16(o)` and `byte(o)` conversions do. -/
def putOperand (width o : Nat) : List Nat :=
  if width = 2 then [o / 256 % 256, o % 256]
  else if width = 1 then [o % 256]
  else List.replicate width 0

/-- Operand bytes of an instruction: one field per declared width; a field with
no operand given stays zero. -/
def putOperands : List Nat → List Nat → List Nat
  | [], _ => []
  | w :: ws, [] => List.replicate w 0 ++ putOperands ws []
  | w :: ws, o :: os => putOperand w o ++ putOperands ws os

/-- Modelled from the spec: `code.Make` returns the opcode byte followed by the
big-endian operands; an undefined opcode gives the empty sequence. -/
def Make (op : Opcode) (operands : List Nat) : List Nat :=
  match operandWidths op with
  | none => []
  | some ws => op :: putOperands ws operands

/-- Modelled from the spec: `code.ReadUint16` decodes a big-endian 16-bit
operand from the first two bytes; `none` is the panic on fewer than two. -/
def ReadUint16 (ins : List Nat) : Option Nat :=
  match ins with
  | hi :: lo :: _ => some (hi * 256 + lo)
  | _ => none

end code

/-! ## Package `object` -/

namespace object

/-- The type tag of a value (`type ObjectType string`). -/
abbrev ObjectType := String

/- Modelled from the spec: the type tags of the value kinds (package `object`
is not among the sources). -/
abbrev INTEGER_OBJ : ObjectType := "INTEGER"
abbrev BOOLEAN_OBJ : ObjectType := "BOOLEAN"
abbrev NULL_OBJ : ObjectType := "NULL"
abbrev STRING_OBJ : ObjectType := "STRING"
abbrev ARRAY_OBJ : ObjectType := "ARRAY"
abbrev HASH_OBJ : ObjectType := "HASH"

/-- Modelled from the spec: a hash key is derived from an Integer, a Boolean or a
String only; it is the kind of the key together with its content. -/
inductive HashKey where
  | Integer (Value : Int)
  | Boolean (Value : Bool)
  | String (Value : List Nat)
  deriving DecidableEq, Repr

/-- Modelled from the spec: the runtime values the machine of `vm/vm.go`
handles. Go values are pointers: `ptr` is the address of the object, which is
what `==` on two values compares. Integers are only ever compared by value, so
no address is kept for them. `nil` is the nil interface value that fills unused
stack and globals slots. A string is its byte sequence. A hash is the Go map
from hash keys to key/value pairs, kept as an association list without
repeated keys. -/
inductive Object where
  | nil
  | Integer (Value : Int)
  | Boolean (ptr : Nat) (Value : Bool)
  | Null (ptr : Nat)
  | String (ptr : Nat) (Value : List Nat)
  | Array (ptr : Nat) (Elements : List Object)
  | Hash (ptr : Nat) (Pairs : List (HashKey × Object × Object))
  deriving Repr

instance : Inhabited Object := ⟨Object.nil⟩

/- Decidable equality of values, by recursion on the value. -/
mutual
def Object.decEq : (a b : Object) → Decidable (a = b)
  | .nil, .nil => isTrue rfl
  | .Integer x, .Integer y =>
    if h : x = y then isTrue (by rw [h]) else isFalse (fun e => h (by cases e; rfl))
  | .Boolean p x, .Boolean q y =>
    if h : p = q ∧ x = y then isTrue (by rw [h.1, h.2]) else isFalse (fun e => h (by cases e; exact ⟨rfl, rfl⟩))
  | .Null p, .Null q =>
    if h : p = q then isTrue (by rw [h]) else isFalse (fun e => h (by cases e; rfl))
  | .String p x, .String q y =>
    if h : p = q ∧ x = y then isTrue (by rw [h.1, h.2]) else isFalse (fun e => h (by cases e; exact ⟨rfl, rfl⟩))
  | .Array p x, .Array q y =>
    match Object.decEqList x y with
    | isTrue h2 => if h : p = q then isTrue (by rw [h, h2]) else isFalse (fun e => h (by cases e; rfl))
    | isFalse h2 => isFalse (fun e => h2 (by cases e; rfl))
  | .Hash p x, .Hash q y =>
    match Object.decEqPairs x y with
    | isTrue h2 => if h : p = q then isTrue (by rw [h, h2]) else isFalse (fun e => h (by cases e; rfl))
    | isFalse h2 => isFalse (fun e => h2 (by cases e; rfl))
  | .nil, .Integer _ | .nil, .Boolean _ _ | .nil, .Null _ | .nil, .String _ _ | .nil, .Array _ _ | .nil, .Hash _ _
  | .Integer _, .nil | .Integer _, .Boolean _ _ | .Integer _, .Null _ | .Integer _, .String _ _ | .Integer _, .Array _ _ | .Integer _, .Hash _ _
  | .Boolean _ _, .nil | .Boolean _ _, .Integer _ | .Boolean _ _, .Null _ | .Boolean _ _, .String _ _ | .Boolean _ _, .Array _ _ | .Boolean _ _, .Hash _ _
  | .Null _, .nil | .Null _, .Integer _ | .Null _, .Boolean _ _ | .Null _, .String _ _ | .Null _, .Array _ _ | .Null _, .Hash _ _
  | .String _ _, .nil | .String _ _, .Integer _ | .String _ _, .Boolean _ _ | .String _ _, .Null _ | .String _ _, .Array _ _ | .String _ _, .Hash _ _
  | .Array _ _, .nil | .Array _ _, .Integer _ | .Array _ _, .Boolean _ _ | .Array _ _, .Null _ | .Array _ _, .String _ _ | .Array _ _, .Hash _ _
  | .Hash _ _, .nil | .Hash _ _, .Integer _ | .Hash _ _, .Boolean _ _ | .Hash _ _, .Null _ | .Hash _ _, .String _ _ | .Hash _ _, .Array _ _ =>
    isFalse (fun e => by cases e)
def Object.decEqList : (a b : List Object) → Decidable (a = b)
  | [], [] => isTrue rfl
  | [], _ :: _ => isFalse (fun e => by cases e)
  | _ :: _, [] => isFalse (fun e => by cases e)
  | a :: as, b :: bs =>
    match Object.decEq a b, Object.decEqList as bs with
    | isTrue h1, isTrue h2 => isTrue (by rw [h1, h2])
    | isFalse h1, _ => isFalse (fun e => h1 (by cases e; rfl))
    | _, isFalse h2 => isFalse (fun e => h2 (by cases e; rfl))
def Object.decEqPairs : (a b : List (HashKey × Object × Object)) → Decidable (a = b)
  | [], [] => isTrue rfl
  | [], _ :: _ => isFalse (fun e => by cases e)
  | _ :: _, [] => isFalse (fun e => by cases e)
  | (k, a, a') :: as, (l, b, b') :: bs =>
    match Object.decEq a b, Object.decEq a' b', Object.decEqPairs as bs with
    | isTrue h1, isTrue h2, isTrue h3 =>
      if h : k = l then isTrue (by rw [h, h1, h2, h3]) else isFalse (fun e => h (by cases e; rfl))
    | isFalse h1, _, _ => isFalse (fun e => h1 (by cases e; rfl))
    | _, isFalse h2, _ => isFalse (fun e => h2 (by cases e; rfl))
    | _, _, isFalse h3 => isFalse (fun e => h3 (by cases e; rfl))
end
instance : DecidableEq Object := Object.decEq

/-- The method `Type()`; `none` is the panic of a method call on nil. -/
def Object.Type : Object → Option ObjectType
  | .nil => none
  | .Integer _ => some INTEGER_OBJ
  | .Boolean _ _ => some BOOLEAN_OBJ
  | .Null _ => some NULL_OBJ
  | .String _ _ => some STRING_OBJ
  | .Array _ _ => some ARRAY_OBJ
  | .Hash _ _ => some HASH_OBJ

/-- The type assertion `key.(object.Hashable)` followed by `HashKey()`: defined
for Integer, Boolean and String only. -/
def Object.HashKey : Object → Option HashKey
  | .Integer v => some (.Integer v)
  | .Boolean _ v => some (.Boolean v)
  | .String _ s => some (.String s)
  | _ => none

/-- Go `==` on two interface values holding pointers: the same kind of object
at the same address. An Integer is never identical to a value of another kind;
two Integers are never compared this way. -/
def Object.same : Object → Object → Bool
  | .nil, .nil => true
  | .Boolean p _, .Boolean q _ => p == q
  | .Null p, .Null q => p == q
  | .String p _, .String q _ => p == q
  | .Array p _, .Array q _ => p == q
  | .Hash p _, .Hash q _ => p == q
  | _, _ => false

/-- Assignment `m[k] = v` on a Go map kept as an association list. -/
def mapSet {α : Type} (m : List (HashKey × α)) (k : HashKey) (v : α) : List (HashKey × α) :=
  match m with
  | [] => [(k, v)]
  | (k', v') :: rest => if k' = k then (k, v) :: rest else (k', v') :: mapSet rest k v

/-- Lookup `m[k]` with the comma-ok form. -/
def mapGet {α : Type} (m : List (HashKey × α)) (k : HashKey) : Option α :=
  match m with
  | [] => none
  | (k', v') :: rest => if k' = k then some v' else mapGet rest k

end object

/-! ## Package `ast` -/

namespace ast

mutual
/-- Modelled from the spec: the expression nodes of the AST contract. -/
inductive Expression where
  | IntegerLiteral (Value : Int)
  | StringLiteral (Value : String)
  | Boolean (Value : Bool)
  | Identifier (Value : String)
  | PrefixExpression (Operator : String) (Right : Expression)
  | InfixExpression (Left : Expression) (Operator : String) (Right : Expression)
  | IfExpression (Condition : Expression) (Consequence : List Statement)
      (Alternative : Option (List Statement))
  | ArrayLiteral (Elements : List Expression)
  | HashLiteral (Pairs : List (Expression × Expression))
  | IndexExpression (Left : Expression) (Index : Expression)
  | CallExpression (Function : Expression) (Arguments : List Expression)
  | FunctionLiteral (Parameters : List String) (Body : List Statement)
/-- Modelled from the spec: the statement nodes of the AST contract; a block
statement is the list of its statements. -/
inductive Statement where
  | ExpressionStatement (Expression : Expression)
  | LetStatement (Name : String) (Value : Expression)
  | ReturnStatement (ReturnValue : Expression)
end

/-- A node handed to `Compile`: a program, a statement, a block or an
expression. -/
inductive Node where
  | Program (Statements : List Statement)
  | Statement (s : Statement)
  | BlockStatement (Statements : List Statement)
  | Expression (e : Expression)

end ast

/-! ## Package `compiler` (`compiler/compiler.go`, the stage with conditionals
and global bindings) -/

namespace compiler

/-- Modelled from the spec: the scope of a symbol. -/
inductive SymbolScope where
  | GlobalScope
  | LocalScope
  | BuiltinScope
  | FreeScope
  | FunctionScope
  deriving DecidableEq, Repr

/-- Modelled from the spec: a compile-time binding record. -/
structure Symbol where
  Name : String
  Scope : SymbolScope
  Index : Nat
  deriving DecidableEq, Repr

/-- Modelled from the spec: the symbol table that `NewSymbolTable` creates (the
file that declares it is not among the sources): one scope without an outer
table, a mapping from names to symbols and the counter `numDefinitions`. The
mapping is an association list in which the most recent entry of a name is the
one in force. -/
structure SymbolTable where
  store : List (String × Symbol)
  numDefinitions : Nat
  deriving DecidableEq, Repr

/-- Modelled from the spec: an empty table. -/
def NewSymbolTable : SymbolTable := { store := [], numDefinitions := 0 }

/-- Modelled from the spec: `Define` uses the scope's counter as index; the
scope is Global because the table has no outer table. -/
def SymbolTable.Define (s : SymbolTable) (name : String) : Symbol × SymbolTable :=
  let symbol : Symbol := { Name := name, Scope := .GlobalScope, Index := s.numDefinitions }
  (symbol, { store := (name, symbol) :: s.store, numDefinitions := s.numDefinitions + 1 })

/-- Modelled from the spec: `Resolve` searches the scope for the name. -/
def SymbolTable.Resolve (s : SymbolTable) (name : String) : Option Symbol :=
  s.store.lookup name

structure EmittedInstruction where
  Opcode : code.Opcode
  Position : Nat
  deriving DecidableEq, Repr

structure Bytecode where
  Instructions : code.Instructions
  Constants : List object.Object
  deriving DecidableEq

structure Compiler where
  instructions : code.Instructions
  constants : List object.Object
  lastInstruction : EmittedInstruction
  previousInstruction : EmittedInstruction
  symbolTable : SymbolTable
  deriving DecidableEq

def New : Compiler :=
  { instructions := []
    constants := []
    lastInstruction := { Opcode := 0, Position := 0 }
    previousInstruction := { Opcode := 0, Position := 0 }
    symbolTable := NewSymbolTable }

/-- Appends to the constant pool and returns the index of the new entry. -/
def Compiler.addConstant (c : Compiler) (obj : object.Object) : Compiler × Nat :=
  let c1 := { c with constants := c.constants ++ [obj] }
  (c1, c1.constants.length - 1)

/-- Cuts the stream at the position of the last instruction; `none` is the
panic of slicing beyond the stream. -/
def Compiler.removeLastPop (c : Compiler) : Option Compiler :=
  if c.lastInstruction.Position ≤ c.instructions.length then
    some { c with instructions := c.instructions.take c.lastInstruction.Position
                  lastInstruction := c.previousInstruction }
  else none

def Compiler.lastInstructionsIsPop (c : Compiler) : Bool :=
  c.lastInstruction.Opcode == code.OpPop

def Compiler.addInstruction (c : Compiler) (ins : List Nat) : Compiler × Nat :=
  let posNewInstruction := c.instructions.length
  ({ c with instructions := c.instructions ++ ins }, posNewInstruction)

def Compiler.setLastInstruction (c : Compiler) (op : code.Opcode) (pos : Nat) : Compiler :=
  let previous := c.lastInstruction
  let last : EmittedInstruction := { Opcode := op, Position := pos }
  { c with previousInstruction := previous, lastInstruction := last }

def Compiler.emit (c : Compiler) (op : code.Opcode) (operands : List Nat) : Compiler × Nat :=
  let ins := code.Make op operands
  let r := c.addInstruction ins
  (r.1.setLastInstruction op r.2, r.2)

/-- The loop `c.instructions[pos+i] = newInstruction[i]`; `none` is the panic
of an index out of range. -/
def replaceBytes (ins : List Nat) (pos : Nat) : List Nat → Option (List Nat)
  | [] => some ins
  | b :: rest =>
    if pos < ins.length then replaceBytes (ins.set pos b) (pos + 1) rest else none

def Compiler.replaceInstruction (c : Compiler) (pos : Nat) (newInstruction : List Nat) :
    Option Compiler :=
  match replaceBytes c.instructions pos newInstruction with
  | some ins => some { c with instructions := ins }
  | none => none

def Compiler.changeOperand (c : Compiler) (opPos : Nat) (operand : Nat) : Option Compiler :=
  match c.instructions[opPos]? with
  | none => none
  | some op =>
    let newInstruction := code.Make op [operand]
    c.replaceInstruction opPos newInstruction

/-- The call `if c.lastInstructionsIsPop() { c.removeLastPop() }`. -/
def Compiler.dropLastPop (c : Compiler) : Option Compiler :=
  if c.lastInstructionsIsPop then c.removeLastPop else some c

mutual
/-- The cases of `Compile` for expression nodes. A node kind without a case
leaves the switch and `Compile` returns nil. -/
def Compiler.CompileExpression (c : Compiler) : ast.Expression → Result Compiler
  | .InfixExpression left operator right =>
    if operator = "<" then
      match c.CompileExpression right with
      | .ok c1 =>
        match c1.CompileExpression left with
        | .ok c2 => .ok (c2.emit code.OpGreaterThan []).1
        | r => r
      | r => r
    else
      match c.CompileExpression left with
      | .ok c1 =>
        match c1.CompileExpression right with
        | .ok c2 =>
          if operator = "+" then .ok (c2.emit code.OpAdd []).1
          else if operator = "-" then .ok (c2.emit code.OpSub []).1
          else if operator = "*" then .ok (c2.emit code.OpMul []).1
          else if operator = "/" then .ok (c2.emit code.OpDiv []).1
          else if operator = ">" then .ok (c2.emit code.OpGreaterThan []).1
          else if operator = "==" then .ok (c2.emit code.OpEqual []).1
          else if operator = "!=" then .ok (c2.emit code.OpNotEqual []).1
          else .error ("unknown operator " ++ operator) c2
        | r => r
      | r => r
  | .IntegerLiteral value =>
    let integer := object.Object.Integer value
    let r := c.addConstant integer
    .ok (r.1.emit code.OpConstant [r.2]).1
  | .Boolean value =>
    if value then .ok (c.emit code.OpTrue []).1 else .ok (c.emit code.OpFalse []).1
  | .PrefixExpression operator right =>
    match c.CompileExpression right with
    | .ok c1 =>
      if operator = "!" then .ok (c1.emit code.OpBang []).1
      else if operator = "-" then .ok (c1.emit code.OpMinus []).1
      else .error ("unknown operator " ++ operator) c1
    | r => r
  | .IfExpression condition consequence alternative =>
    match c.CompileExpression condition with
    | .ok c1 =>
      let e1 := c1.emit code.OpJumpNotTruthy [9999]
      let jumpNotTruthyPos := e1.2
      match e1.1.CompileStatements consequence with
      | .ok c2 =>
        match c2.dropLastPop with
        | none => .panic
        | some c3 =>
          let e2 := c3.emit code.OpJump [9999]
          let jumpPos := e2.2
          let afterConsequencePos := e2.1.instructions.length
          match e2.1.changeOperand jumpNotTruthyPos afterConsequencePos with
          | none => .panic
          | some c4 =>
            match alternative with
            | none =>
              let c5 := (c4.emit code.OpNull []).1
              let afterAlternativePos := c5.instructions.length
              match c5.changeOperand jumpPos afterAlternativePos with
              | none => .panic
              | some c6 => .ok c6
            | some alt =>
              match c4.CompileStatements alt with
              | .ok c5 =>
                match c5.dropLastPop with
                | none => .panic
                | some c6 =>
                  let afterAlternativePos := c6.instructions.length
                  match c6.changeOperand jumpPos afterAlternativePos with
                  | none => .panic
                  | some c7 => .ok c7
              | r => r
      | r => r
    | r => r
  | .Identifier value =>
    match c.symbolTable.Resolve value with
    | none => .error ("undefined variable " ++ value) c
    | some symbol => .ok (c.emit code.OpGetGlobal [symbol.Index]).1
  | _ => .ok c
/-- The cases of `Compile` for statement nodes. -/
def Compiler.CompileStatement (c : Compiler) : ast.Statement → Result Compiler
  | .ExpressionStatement expression =>
    match c.CompileExpression expression with
    | .ok c1 => .ok (c1.emit code.OpPop []).1
    | r => r
  | .LetStatement name value =>
    match c.CompileExpression value with
    | .ok c1 =>
      let d := c1.symbolTable.Define name
      .ok ({ c1 with symbolTable := d.2 }.emit code.OpSetGlobal [d.1.Index]).1
    | r => r
  | _ => .ok c
/-- The loop over the statements of a program or of a block. -/
def Compiler.CompileStatements (c : Compiler) : List ast.Statement → Result Compiler
  | [] => .ok c
  | s :: rest =>
    match c.CompileStatement s with
    | .ok c1 => c1.CompileStatements rest
    | r => r
end

/-- The method `Compile`, by the kind of the node. -/
def Compiler.Compile (c : Compiler) : ast.Node → Result Compiler
  | .Program statements => c.CompileStatements statements
  | .Statement s => c.CompileStatement s
  | .BlockStatement statements => c.CompileStatements statements
  | .Expression e => c.CompileExpression e

def Compiler.Bytecode (c : Compiler) : Bytecode :=
  { Instructions := c.instructions, Constants := c.constants }

def NewWithState (s : SymbolTable) (constants : List object.Object) : Compiler :=
  { New with symbolTable := s, constants := constants }

end compiler

/-! ## Package `compiler` of the stage with arithmetic, booleans and prefix
operators (`src/2/compiler/compiler.go`) -/

namespace compiler2

structure Bytecode where
  Instructions : code.Instructions
  Constants : List object.Object
  deriving DecidableEq

structure Compiler where
  instructions : code.Instructions
  constants : List object.Object
  deriving DecidableEq

def New : Compiler :=
  { instructions := []
    constants := [] }

/-- Appends to the constant pool and returns the index of the new entry. -/
def Compiler.addConstant (c : Compiler) (obj : object.Object) : Compiler × Nat :=
  let c1 := { c with constants := c.constants ++ [obj] }
  (c1, c1.constants.length - 1)

def Compiler.addInstruction (c : Compiler) (ins : List Nat) : Compiler × Nat :=
  let posNewInstruction := c.instructions.length
  ({ c with instructions := c.instructions ++ ins }, posNewInstruction)

def Compiler.emit (c : Compiler) (op : code.Opcode) (operands : List Nat) : Compiler × Nat :=
  let ins := code.Make op operands
  c.addInstruction ins

def Compiler.Bytecode (c : Compiler) : Bytecode :=
  { Instructions := c.instructions, Constants := c.constants }

/-- The cases of the method `Compiler` for expression nodes. A node kind without
a case leaves the switch and the method returns nil. -/
def Compiler.CompilerExpression (c : Compiler) : ast.Expression → Result Compiler
  | .InfixExpression left operator right =>
    if operator = "<" then
      match c.CompilerExpression right with
      | .ok c1 =>
        match c1.CompilerExpression left with
        | .ok c2 => .ok (c2.emit code.OpGreaterThan []).1
        | r => r
      | r => r
    else
      match c.CompilerExpression left with
      | .ok c1 =>
        match c1.CompilerExpression right with
        | .ok c2 =>
          if operator = "+" then .ok (c2.emit code.OpAdd []).1
          else if operator = "-" then .ok (c2.emit code.OpSub []).1
          else if operator = "*" then .ok (c2.emit code.OpMul []).1
          else if operator = "/" then .ok (c2.emit code.OpDiv []).1
          else if operator = ">" then .ok (c2.emit code.OpGreaterThan []).1
          else if operator = "==" then .ok (c2.emit code.OpEqual []).1
          else if operator = "!=" then .ok (c2.emit code.OpNotEqual []).1
          else .error ("unknown operator " ++ operator) c2
        | r => r
      | r => r
  | .IntegerLiteral value =>
    let integer := object.Object.Integer value
    let r := c.addConstant integer
    .ok (r.1.emit code.OpConstant [r.2]).1
  | .Boolean value =>
    if value then .ok (c.emit code.OpTrue []).1 else .ok (c.emit code.OpFalse []).1
  | .PrefixExpression operator right =>
    match c.CompilerExpression right with
    | .ok c1 =>
      if operator = "!" then .ok (c1.emit code.OpBang []).1
      else if operator = "-" then .ok (c1.emit code.OpMinus []).1
      else .error ("unknown operator " ++ operator) c1
    | r => r
  | _ => .ok c

/-- The cases of the method `Compiler` for statement nodes. -/
def Compiler.CompilerStatement (c : Compiler) : ast.Statement → Result Compiler
  | .ExpressionStatement expression =>
    match c.CompilerExpression expression with
    | .ok c1 => .ok (c1.emit code.OpPop []).1
    | r => r
  | _ => .ok c

/-- The loop over the statements of a program. -/
def Compiler.CompilerStatements (c : Compiler) : List ast.Statement → Result Compiler
  | [] => .ok c
  | s :: rest =>
    match c.CompilerStatement s with
    | .ok c1 => c1.CompilerStatements rest
    | r => r

/-- The method `Compiler`, by the kind of the node. -/
def Compiler.Compiler (c : Compiler) : ast.Node → Result Compiler
  | .Program statements => c.CompilerStatements statements
  | .Statement s => c.CompilerStatement s
  | .BlockStatement _ => .ok c
  | .Expression e => c.CompilerExpression e

end compiler2

/-! ## Package `vm` (`vm/vm.go`, the stage with strings, arrays, hashes and
indexing) -/

namespace vm

open object

abbrev StackSize : Nat := 2048
abbrev GlobalsSize : Nat := 65536

/-- The canonical singletons `True`, `False` and `Null`, at fixed addresses. -/
abbrev True : Object := .Boolean 1 true
abbrev False : Object := .Boolean 2 false
abbrev Null : Object := .Null 3

/-- Wrap-around of a 64-bit signed integer. -/
def wrap64 (x : Int) : Int := (x + 2 ^ 63) % 2 ^ 64 - 2 ^ 63

/-- The state of the machine. The field `heap` stands for the Go allocator: it
is the address the next allocated object gets. -/
structure VM where
  constants : List Object
  instructions : code.Instructions
  stack : List Object
  sp : Nat
  globals : List Object
  heap : Nat
  deriving DecidableEq

def New (bytecode : compiler.Bytecode) : VM :=
  { instructions := bytecode.Instructions
    constants := bytecode.Constants
    stack := List.replicate StackSize Object.nil
    sp := 0
    globals := List.replicate GlobalsSize Object.nil
    heap := 4 }

def VM.StackTop (vm : VM) : Option Object :=
  if vm.sp = 0 then some Object.nil else vm.stack[vm.sp - 1]?

def VM.push (vm : VM) (o : Object) : Result VM :=
  if vm.sp ≥ StackSize then .error "stack overflow" vm
  else if vm.sp < vm.stack.length then
    .ok { vm with stack := vm.stack.set vm.sp o, sp := vm.sp + 1 }
  else .panic

/-- Reads `stack[sp-1]` and decrements `sp`; `none` is the panic of the index
out of range (in particular of `sp == 0`). -/
def VM.pop (vm : VM) : Option (Object × VM) :=
  if vm.sp = 0 then none
  else
    match vm.stack[vm.sp - 1]? with
    | none => none
    | some o => some (o, { vm with sp := vm.sp - 1 })

/-- Reads `stack[sp]`; `none` is the panic of the index out of range. -/
def VM.LastPoppedStackElem (vm : VM) : Option Object :=
  vm.stack[vm.sp]?

def VM.executeBinaryIntegerOperation (vm : VM) (op : code.Opcode) (leftValue rightValue : Int) :
    Result VM :=
  if op = code.OpAdd then vm.push (.Integer (wrap64 (leftValue + rightValue)))
  else if op = code.OpSub then vm.push (.Integer (wrap64 (leftValue - rightValue)))
  else if op = code.OpMul then vm.push (.Integer (wrap64 (leftValue * rightValue)))
  else if op = code.OpDiv then
    if rightValue = 0 then .panic
    else vm.push (.Integer (wrap64 (Int.tdiv leftValue rightValue)))
  else .error ("unknown integer operator: " ++ toString op) vm

def VM.executeBinaryStringOperation (vm : VM) (op : code.Opcode) (leftValue rightValue : List Nat) :
    Result VM :=
  if op ≠ code.OpAdd then .error ("unknown string operation: " ++ toString op) vm
  else { vm with heap := vm.heap + 1 }.push (.String vm.heap (leftValue ++ rightValue))

def VM.executeBinaryOperation (vm : VM) (op : code.Opcode) : Result VM :=
  match vm.pop with
  | none => .panic
  | some (right, vm1) =>
    match vm1.pop with
    | none => .panic
    | some (left, vm2) =>
      match left.Type, right.Type with
      | some leftType, some rightType =>
        match left, right with
        | .Integer l, .Integer r => vm2.executeBinaryIntegerOperation op l r
        | .String _ l, .String _ r => vm2.executeBinaryStringOperation op l r
        | _, _ =>
          .error ("unsupported types for binary operation: " ++ leftType ++ " " ++ rightType) vm2
      | _, _ => .panic

def nativeBoolToBooleanObject (input : Bool) : Object :=
  if input then True else False

def VM.executeIntegerComparison (vm : VM) (op : code.Opcode) (leftValue rightValue : Int) :
    Result VM :=
  if op = code.OpEqual then vm.push (nativeBoolToBooleanObject (rightValue == leftValue))
  else if op = code.OpNotEqual then vm.push (nativeBoolToBooleanObject (rightValue != leftValue))
  else if op = code.OpGreaterThan then
    vm.push (nativeBoolToBooleanObject (decide (leftValue > rightValue)))
  else .error ("unknown operator: " ++ toString op) vm

/-- The switch of `executeComparison` for operands that are not both Integers;
the message of its default case calls `Type()` on both operands. -/
def VM.executeObjectComparison (vm : VM) (op : code.Opcode) (left right : Object) : Result VM :=
  if op = code.OpEqual then vm.push (nativeBoolToBooleanObject (right.same left))
  else if op = code.OpNotEqual then vm.push (nativeBoolToBooleanObject (!(right.same left)))
  else
    match left.Type, right.Type with
    | some leftType, some rightType =>
      .error ("unknown operator: " ++ toString op ++ " (" ++ leftType ++ " " ++ rightType ++ ")") vm
    | _, _ => .panic

def VM.executeComparison (vm : VM) (op : code.Opcode) : Result VM :=
  match vm.pop with
  | none => .panic
  | some (right, vm1) =>
    match vm1.pop with
    | none => .panic
    | some (left, vm2) =>
      match left with
      | .nil => .panic
      | .Integer l =>
        match right with
        | .nil => .panic
        | .Integer r => vm2.executeIntegerComparison op l r
        | _ => vm2.executeObjectComparison op left right
      | _ => vm2.executeObjectComparison op left right

def VM.executeMinusOperator (vm : VM) : Result VM :=
  match vm.pop with
  | none => .panic
  | some (operand, vm1) =>
    match operand with
    | .Integer value => vm1.push (.Integer (wrap64 (-value)))
    | _ =>
      match operand.Type with
      | none => .panic
      | some t => .error ("unsupported type for negation: " ++ t) vm1

def VM.executeBangOperator (vm : VM) : Result VM :=
  match vm.pop with
  | none => .panic
  | some (operand, vm1) =>
    if operand.same True then vm1.push False
    else if operand.same False then vm1.push True
    else if operand.same Null then vm1.push True
    else vm1.push False

def isTruthy : Object → Bool
  | .Boolean _ value => value
  | .Null _ => false
  | _ => true

/-- The elements `stack[startIndex..endIndex)`; `none` is the panic of a
negative length or of an index out of range. -/
def VM.buildArray (vm : VM) (startIndex endIndex : Int) : Option Object :=
  if endIndex < startIndex then none
  else if endIndex = startIndex then some (.Array vm.heap [])
  else if startIndex < 0 ∨ (vm.stack.length : Int) < endIndex then none
  else
    some (.Array vm.heap
      ((vm.stack.drop startIndex.toNat).take (endIndex.toNat - startIndex.toNat)))

/-- The loop of `buildHash` from slot `i`, with `n` rounds left. -/
def buildHashLoop (stack : List Object) :
    Nat → Nat → List (HashKey × Object × Object) → Result (List (HashKey × Object × Object))
  | 0, _, hashedPairs => .ok hashedPairs
  | n + 1, i, hashedPairs =>
    match stack[i]?, stack[i + 1]? with
    | some key, some value =>
      match key.HashKey with
      | none =>
        match key.Type with
        | none => .panic
        | some t => .error ("unusable as hash key: " ++ t) hashedPairs
      | some hashKey => buildHashLoop stack n (i + 2) (mapSet hashedPairs hashKey (key, value))
    | _, _ => .panic

/-- Builds the hash of the pairs in `stack[startIndex..endIndex)`. -/
def VM.buildHash (vm : VM) (startIndex endIndex : Int) : Result Object :=
  if endIndex ≤ startIndex then .ok (.Hash vm.heap [])
  else if startIndex < 0 then .panic
  else
    match buildHashLoop vm.stack ((endIndex.toNat - startIndex.toNat + 1) / 2) startIndex.toNat [] with
    | .ok hashedPairs => .ok (.Hash vm.heap hashedPairs)
    | .error msg _ => .error msg .nil
    | .panic => .panic

/-- Go's conversion `string(b)` of a byte: the UTF-8 encoding of the code point
`b`. -/
def byteToString (b : Nat) : List Nat :=
  if b < 128 then [b] else [192 + b / 64, 128 + b % 64]

def VM.executeStringIndex (vm : VM) (str : List Nat) (i : Int) : Result VM :=
  let max : Int := (str.length : Int) - 1
  if i < 0 ∨ i > max then vm.push Null
  else
    match str[i.toNat]? with
    | none => .panic
    | some b => { vm with heap := vm.heap + 1 }.push (.String vm.heap (byteToString b))

def VM.executeHashIndex (vm : VM) (pairs : List (HashKey × Object × Object)) (index : Object) :
    Result VM :=
  match index.HashKey with
  | none =>
    match index.Type with
    | none => .panic
    | some t => .error ("unusable as hash key: " ++ t) vm
  | some key =>
    match mapGet pairs key with
    | none => vm.push Null
    | some pair => vm.push pair.2

def VM.executeArrayIndex (vm : VM) (elements : List Object) (i : Int) : Result VM :=
  let max : Int := (elements.length : Int) - 1
  if i < 0 ∨ i > max then vm.push Null
  else
    match elements[i.toNat]? with
    | none => .panic
    | some e => vm.push e

def VM.executeIndexExpression (vm : VM) (left index : Object) : Result VM :=
  match left with
  | .nil => .panic
  | .Array _ elements =>
    match index with
    | .nil => .panic
    | .Integer i => vm.executeArrayIndex elements i
    | _ => .error ("index operator not supported: " ++ ARRAY_OBJ) vm
  | .Hash _ pairs => vm.executeHashIndex pairs index
  | .String _ str =>
    match index with
    | .nil => .panic
    | .Integer i => vm.executeStringIndex str i
    | _ => .error ("index operator not supported: " ++ STRING_OBJ) vm
  | .Integer _ => .error ("index operator not supported: " ++ INTEGER_OBJ) vm
  | .Boolean _ _ => .error ("index operator not supported: " ++ BOOLEAN_OBJ) vm
  | .Null _ => .error ("index operator not supported: " ++ NULL_OBJ) vm

/-- The operand `code.ReadUint16(vm.instructions[ip+1:])`. -/
def VM.operand (vm : VM) (ip : Nat) : Option Nat :=
  code.ReadUint16 (vm.instructions.drop (ip + 1))

/-- Lifts a result on machines to a result of one round of the loop that goes
on at `next`. -/
def goOn (next : Nat) : Result VM → Result (VM × Nat)
  | .ok vm => .ok (vm, next)
  | .error msg vm => .error msg (vm, next)
  | .panic => .panic

/-- One round of the loop of `Run` at `ip < len(vm.instructions)`: the body of
the loop followed by `ip++`. The result holds the machine and the `ip` of the
next round; a jump sets `ip = pos - 1`, so the next round is at `pos`. A byte
without a case in the switch only advances `ip`. -/
def VM.step (vm : VM) (ip : Nat) : Result (VM × Nat) :=
  match vm.instructions[ip]? with
  | none => .panic
  | some op =>
    if op = code.OpConstant then
      match vm.operand ip with
      | none => .panic
      | some constIndex =>
        match vm.constants[constIndex]? with
        | none => .panic
        | some o => goOn (ip + 3) (vm.push o)
    else if op = code.OpAdd ∨ op = code.OpSub ∨ op = code.OpMul ∨ op = code.OpDiv then
      goOn (ip + 1) (vm.executeBinaryOperation op)
    else if op = code.OpPop then
      match vm.pop with
      | none => .panic
      | some (_, vm1) => .ok (vm1, ip + 1)
    else if op = code.OpTrue then goOn (ip + 1) (vm.push True)
    else if op = code.OpFalse then goOn (ip + 1) (vm.push False)
    else if op = code.OpEqual ∨ op = code.OpNotEqual ∨ op = code.OpGreaterThan then
      goOn (ip + 1) (vm.executeComparison op)
    else if op = code.OpBang then goOn (ip + 1) vm.executeBangOperator
    else if op = code.OpMinus then goOn (ip + 1) vm.executeMinusOperator
    else if op = code.OpJump then
      match vm.operand ip with
      | none => .panic
      | some pos => .ok (vm, pos)
    else if op = code.OpJumpNotTruthy then
      match vm.operand ip with
      | none => .panic
      | some pos =>
        match vm.pop with
        | none => .panic
        | some (condition, vm1) =>
          if !isTruthy condition then .ok (vm1, pos) else .ok (vm1, ip + 3)
    else if op = code.OpNull then goOn (ip + 1) (vm.push Null)
    else if op = code.OpSetGlobal then
      match vm.operand ip with
      | none => .panic
      | some globalIndex =>
        match vm.pop with
        | none => .panic
        | some (o, vm1) =>
          if globalIndex < vm1.globals.length then
            .ok ({ vm1 with globals := vm1.globals.set globalIndex o }, ip + 3)
          else .panic
    else if op = code.OpGetGlobal then
      match vm.operand ip with
      | none => .panic
      | some globalIndex =>
        match vm.globals[globalIndex]? with
        | none => .panic
        | some o => goOn (ip + 3) (vm.push o)
    else if op = code.OpArray then
      match vm.operand ip with
      | none => .panic
      | some numElements =>
        match vm.buildArray ((vm.sp : Int) - numElements) vm.sp with
        | none => .panic
        | some array =>
          goOn (ip + 3) ({ vm with sp := vm.sp - numElements, heap := vm.heap + 1 }.push array)
    else if op = code.OpHash then
      match vm.operand ip with
      | none => .panic
      | some numElements =>
        match vm.buildHash ((vm.sp : Int) - numElements) vm.sp with
        | .panic => .panic
        | .error msg _ => .error msg (vm, ip + 3)
        | .ok hash =>
          goOn (ip + 3) ({ vm with sp := vm.sp - numElements, heap := vm.heap + 1 }.push hash)
    else if op = code.OpIndex then
      match vm.pop with
      | none => .panic
      | some (index, vm1) =>
        match vm1.pop with
        | none => .panic
        | some (left, vm2) => goOn (ip + 1) (vm2.executeIndexExpression left index)
    else .ok (vm, ip + 1)

/-- The loop of `Run` from `ip`, for at most `fuel` rounds; `none` when the
rounds are used up before the loop has ended. -/
def VM.runFrom : Nat → VM → Nat → Option (Result VM)
  | 0, _, _ => none
  | fuel + 1, vm, ip =>
    if ip < vm.instructions.length then
      match vm.step ip with
      | .ok (vm1, next) => VM.runFrom fuel vm1 next
      | .error msg (vm1, _) => some (.error msg vm1)
      | .panic => some .panic
    else some (.ok vm)

/-- The method `Run`: the loop from `ip = 0`. -/
def VM.Run (fuel : Nat) (vm : VM) : Option (Result VM) :=
  VM.runFrom fuel vm 0

def NewWithState (bytecode : compiler.Bytecode) (s : List Object) : VM :=
  { New bytecode with globals := s }

end vm

/-! ## Stage 1: the compiler and the machine for sums of integer literals
(`src/1/compiler/compiler.go`, `src/1/vm/vm.go`) -/

namespace compiler1

structure Bytecode where
  Instructions : code.Instructions
  Constants : List object.Object
  deriving DecidableEq

structure Compiler where
  instructions : code.Instructions
  constants : List object.Object
  deriving DecidableEq

def New : Compiler :=
  { instructions := []
    constants := [] }

/-- Appends to the constant pool and returns the index of the new entry. -/
def Compiler.addConstant (c : Compiler) (obj : object.Object) : Compiler × Nat :=
  let c1 := { c with constants := c.constants ++ [obj] }
  (c1, c1.constants.length - 1)

def Compiler.addInstruction (c : Compiler) (ins : List Nat) : Compiler × Nat :=
  let posNewInstruction := c.instructions.length
  ({ c with instructions := c.instructions ++ ins }, posNewInstruction)

def Compiler.emit (c : Compiler) (op : code.Opcode) (operands : List Nat) : Compiler × Nat :=
  let ins := code.Make op operands
  c.addInstruction ins

def Compiler.Bytecode (c : Compiler) : Bytecode :=
  { Instructions := c.instructions, Constants := c.constants }

/-- The cases of the method `Compiler` for expression nodes. A node kind without
a case leaves the switch and the method returns nil. -/
def Compiler.CompilerExpression (c : Compiler) : ast.Expression → Result Compiler
  | .InfixExpression left operator right =>
    match c.CompilerExpression left with
    | .ok c1 =>
      match c1.CompilerExpression right with
      | .ok c2 =>
        if operator = "+" then .ok (c2.emit code.OpAdd []).1
        else .error ("unknown operator " ++ operator) c2
      | r => r
    | r => r
  | .IntegerLiteral value =>
    let integer := object.Object.Integer value
    let r := c.addConstant integer
    .ok (r.1.emit code.OpConstant [r.2]).1
  | _ => .ok c

/-- The cases of the method `Compiler` for statement nodes: an expression
statement is the code of its expression, nothing is emitted behind it. -/
def Compiler.CompilerStatement (c : Compiler) : ast.Statement → Result Compiler
  | .ExpressionStatement expression => c.CompilerExpression expression
  | _ => .ok c

/-- The loop over the statements of a program. -/
def Compiler.CompilerStatements (c : Compiler) : List ast.Statement → Result Compiler
  | [] => .ok c
  | s :: rest =>
    match c.CompilerStatement s with
    | .ok c1 => c1.CompilerStatements rest
    | r => r

/-- The method `Compiler`, by the kind of the node. -/
def Compiler.Compiler (c : Compiler) : ast.Node → Result Compiler
  | .Program statements => c.CompilerStatements statements
  | .Statement s => c.CompilerStatement s
  | .BlockStatement _ => .ok c
  | .Expression e => c.CompilerExpression e

end compiler1

namespace vm1

open object
open vm (wrap64)

abbrev StackSize : Nat := 2048

structure VM where
  constants : List Object
  instructions : code.Instructions
  stack : List Object
  sp : Nat
  deriving DecidableEq

def New (bytecode : compiler1.Bytecode) : VM :=
  { instructions := bytecode.Instructions
    constants := bytecode.Constants
    stack := List.replicate StackSize Object.nil
    sp := 0 }

def VM.StackTop (vm : VM) : Option Object :=
  if vm.sp = 0 then some Object.nil else vm.stack[vm.sp - 1]?

def VM.push (vm : VM) (o : Object) : Result VM :=
  if vm.sp ≥ StackSize then .error "stack overflow" vm
  else if vm.sp < vm.stack.length then
    .ok { vm with stack := vm.stack.set vm.sp o, sp := vm.sp + 1 }
  else .panic

/-- Reads `stack[sp-1]` and decrements `sp`; `none` is the panic of the index
out of range (in particular of `sp == 0`). -/
def VM.pop (vm : VM) : Option (Object × VM) :=
  if vm.sp = 0 then none
  else
    match vm.stack[vm.sp - 1]? with
    | none => none
    | some o => some (o, { vm with sp := vm.sp - 1 })

/-- One round of the loop of `Run` at `ip < len(vm.instructions)`, followed by
`ip++`. The two type assertions of OpAdd panic on a value that is no Integer;
the error of the push of the sum is not looked at. -/
def VM.step (vm : VM) (ip : Nat) : Result (VM × Nat) :=
  match vm.instructions[ip]? with
  | none => .panic
  | some op =>
    if op = code.OpConstant then
      match code.ReadUint16 (vm.instructions.drop (ip + 1)) with
      | none => .panic
      | some constIndex =>
        match vm.constants[constIndex]? with
        | none => .panic
        | some o =>
          match vm.push o with
          | .ok vm1 => .ok (vm1, ip + 3)
          | .error msg vm1 => .error msg (vm1, ip + 3)
          | .panic => .panic
    else if op = code.OpAdd then
      match vm.pop with
      | none => .panic
      | some (right, vm1) =>
        match vm1.pop with
        | none => .panic
        | some (left, vm2) =>
          match left, right with
          | .Integer leftValue, .Integer rightValue =>
            match vm2.push (.Integer (wrap64 (leftValue + rightValue))) with
            | .ok vm3 => .ok (vm3, ip + 1)
            | .error _ vm3 => .ok (vm3, ip + 1)
            | .panic => .panic
          | _, _ => .panic
    else .ok (vm, ip + 1)

/-- The loop of `Run` from `ip`, for at most `fuel` rounds; `none` when the
rounds are used up before the loop has ended. -/
def VM.runFrom : Nat → VM → Nat → Option (Result VM)
  | 0, _, _ => none
  | fuel + 1, vm, ip =>
    if ip < vm.instructions.length then
      match vm.step ip with
      | .ok (vm1, next) => VM.runFrom fuel vm1 next
      | .error msg (vm1, _) => some (.error msg vm1)
      | .panic => some .panic
    else some (.ok vm)

/-- The method `Run`: the loop from `ip = 0`. -/
def VM.Run (fuel : Nat) (vm : VM) : Option (Result VM) :=
  VM.runFrom fuel vm 0

end vm1

/-! ## Decoding of operands (package `code`) -/

namespace code

/-- Modelled from the spec: `code.ReadUint8` decodes an 8-bit operand from the
first byte; `none` is the panic on no byte. -/
def ReadUint8 (ins : List Nat) : Option Nat :=
  match ins with
  | b :: _ => some b
  | [] => none

/-- Modelled from the spec: `code.ReadOperands` reads one operand for each
declared width from the bytes behind the opcode and returns the operands with
the number of bytes read; an operand of another width than 1 or 2 is left zero.
`none` is the panic on too few bytes. -/
def ReadOperands : List Nat → List Nat → Option (List Nat × Nat)
  | [], _ => some ([], 0)
  | w :: ws, ins =>
    match (if w = 2 then ReadUint16 ins else if w = 1 then ReadUint8 ins else some 0) with
    | none => none
    | some o =>
      match ReadOperands ws (ins.drop w) with
      | none => none
      | some (os, n) => some (o :: os, w + n)

/-- The big-endian bytes of `k` in `w` bytes, the most significant byte first. -/
def bigEndian : Nat → Nat → List Nat
  | 0, _ => []
  | w + 1, k => (k / 256 ^ w % 256) :: bigEndian w k

/-- An operand tuple is legal for declared widths when it has one operand per
width and each operand fits into its width. -/
def Legal : List Nat → List Nat → Prop
  | [], [] => True
  | w :: ws, o :: os => o < 256 ^ w ∧ (w = 1 ∨ w = 2) ∧ Legal ws os
  | _, _ => False

/-- The bytes of the operands of a tuple, each in its declared width. -/
def operandBytes : List Nat → List Nat → List Nat
  | w :: ws, o :: os => bigEndian w o ++ operandBytes ws os
  | _, _ => []

end code

/-! ## Vocabulary of the statements -/

namespace vm

/-- The machine and the `ip` reached after exactly `n` rounds of the loop of
`Run` that all end without error; `none` when a round fails or the loop ends
before. -/
def VM.steps : Nat → VM → Nat → Option (VM × Nat)
  | 0, vm, ip => some (vm, ip)
  | n + 1, vm, ip =>
    if ip < vm.instructions.length then
      match vm.step ip with
      | .ok (vm1, next) => VM.steps n vm1 next
      | _ => none
    else none

/-- The loop of `Run` started at `(vm, ip)` comes to `(vm1, ip1)`. -/
def Reach (vm : VM) (ip : Nat) (vm1 : VM) (ip1 : Nat) : Prop :=
  ∃ n, VM.steps n vm ip = some (vm1, ip1)

/-- The loop of `Run` started at `(vm, ip)` ends with an error or a panic. -/
def Fault (vm : VM) (ip : Nat) : Prop :=
  ∃ n, (∃ msg vm1, VM.runFrom n vm ip = some (.error msg vm1)) ∨ VM.runFrom n vm ip = some .panic

end vm

namespace ast

open vm in
/-- The integer value of an expression over integer literals, bound names,
prefix `-` and infix `+`, `-`, `*`, `/` under 64-bit wrapping arithmetic, with
the values `env` of the names; `none` for an unbound name, a division by zero
and every other expression. -/
def Expression.intValue (env : String → Option Int) : Expression → Option Int
  | .IntegerLiteral v => some v
  | .Identifier x => env x
  | .PrefixExpression op r =>
    match r.intValue env with
    | some a => if op = "-" then some (wrap64 (-a)) else none
    | none => none
  | .InfixExpression l op r =>
    match l.intValue env, r.intValue env with
    | some a, some b =>
      if op = "+" then some (wrap64 (a + b))
      else if op = "-" then some (wrap64 (a - b))
      else if op = "*" then some (wrap64 (a * b))
      else if op = "/" then (if b = 0 then none else some (wrap64 (Int.tdiv a b)))
      else none
    | _, _ => none
  | _ => none

/-- The integer literals of an expression of that kind, from left to right. -/
def Expression.literals : Expression → List Int
  | .IntegerLiteral v => [v]
  | .PrefixExpression _ r => r.literals
  | .InfixExpression l _ r => l.literals ++ r.literals
  | _ => []

/-- The number of stack slots the evaluation of an expression of that kind
needs: the left operand stays on the stack while the right one is computed. -/
def Expression.stackNeed : Expression → Nat
  | .PrefixExpression _ r => r.stackNeed
  | .InfixExpression l _ r => max l.stackNeed (r.stackNeed + 1)
  | _ => 1

/-- An expression built from integer literals with infix `+`, `-`, `*` and
prefix `-`. -/
def Expression.isArith : Expression → Bool
  | .IntegerLiteral _ => true
  | .PrefixExpression op r => op == "-" && r.isArith
  | .InfixExpression l op r => (op == "+" || op == "-" || op == "*") && l.isArith && r.isArith
  | _ => false

open vm in
/-- The value of such an expression under 64-bit wrapping arithmetic. -/
def Expression.arithValue : Expression → Int
  | .IntegerLiteral v => v
  | .PrefixExpression _ r => wrap64 (-r.arithValue)
  | .InfixExpression l op r =>
    if op = "+" then wrap64 (l.arithValue + r.arithValue)
    else if op = "-" then wrap64 (l.arithValue - r.arithValue)
    else wrap64 (l.arithValue * r.arithValue)
  | _ => 0

end ast

namespace vm

open object

/-- The machine `vm1` is `vm` after one push of `v`: nothing else changed. -/
def Pushed (vm vm1 : VM) (v : Object) : Prop :=
  vm1.sp = vm.sp + 1 ∧ vm1.stack[vm.sp]? = some v
  ∧ (∀ i, i < vm.sp → vm1.stack[i]? = vm.stack[i]?)
  ∧ vm1.stack.length = vm.stack.length ∧ vm1.globals = vm.globals
  ∧ vm1.constants = vm.constants ∧ vm1.instructions = vm.instructions ∧ vm1.heap = vm.heap

/-- The code `code` computes the Integer `v`: on every machine that holds it
after `pre`, whose constants from `k0` on are the literals `lits`, whose
globals hold the values `env` of the names at the indices of the symbol table
`st`, and that has `need` free stack slots, the loop of `Run` goes from the
start of the code to its end and has then pushed the Integer `v`. -/
def ComputesInt (code : List Nat) (k0 : Nat) (lits : List Int) (env : String → Option Int)
    (st : compiler.SymbolTable) (need : Nat) (v : Int) : Prop :=
  ∀ (vm : VM) (pre post : List Nat), vm.instructions = pre ++ code ++ post →
    (∀ i n, lits[i]? = some n → vm.constants[k0 + i]? = some (.Integer n)) →
    (∀ x n, env x = some n → ∃ sym, st.Resolve x = some sym ∧ sym.Index < 65536
      ∧ vm.globals[sym.Index]? = some (.Integer n)) →
    vm.sp + need ≤ StackSize → vm.sp + need ≤ vm.stack.length →
    ∃ vm1, Reach vm pre.length vm1 (pre.length + code.length) ∧ Pushed vm vm1 (.Integer v)

end vm

namespace ast

/-- The values of the names after `name` has been bound to `v`. -/
def bind (env : String → Option Int) (name : String) (v : Int) : String → Option Int :=
  fun y => if y = name then some v else env y

/-- The values of the names after a sequence of let statements, each value
being computed with the bindings in force before its let; `none` when one of
the values is not defined. -/
def letsEnv (env : String → Option Int) : List (String × Expression) → Option (String → Option Int)
  | [] => some env
  | (name, value) :: rest =>
    match value.intValue env with
    | some v => letsEnv (bind env name v) rest
    | none => none

/-- The integer literals of a sequence of let statements, from left to right. -/
def letsLiterals : List (String × Expression) → List Int
  | [] => []
  | (_, value) :: rest => value.literals ++ letsLiterals rest

/-- The let statements of a sequence of bindings. -/
def letStatements (lets : List (String × Expression)) : List Statement :=
  lets.map (fun p => Statement.LetStatement p.1 p.2)

end ast

namespace vm

open object

/-- The globals hold the values `env` of the names at the indices that the
symbol table `st` gives them. -/
def Agree (env : String → Option Int) (st : compiler.SymbolTable) (globals : List Object) : Prop :=
  ∀ x n, env x = some n → ∃ sym, st.Resolve x = some sym ∧ sym.Index < st.numDefinitions
    ∧ globals[sym.Index]? = some (.Integer n)

end vm

namespace vm

open object

/-- The code `code` runs a sequence of let statements: on every machine at a
statement boundary (`sp = 0`) that holds it after `pre`, whose constants from
`k0` on are the literals `lits` and whose globals hold the values `env` at the
indices of `st`, the loop of `Run` goes from the start of the code to its end,
is then again at a statement boundary and the globals hold the values `env1`
at the indices of `st1`. -/
def RunsLets (code : List Nat) (k0 : Nat) (lits : List Int) (env env1 : String → Option Int)
    (st st1 : compiler.SymbolTable) : Prop :=
  ∀ (vm : VM) (pre post : List Nat), vm.instructions = pre ++ code ++ post →
    (∀ i n, lits[i]? = some n → vm.constants[k0 + i]? = some (.Integer n)) →
    Agree env st vm.globals → 65536 ≤ vm.globals.length → vm.sp = 0 →
    StackSize ≤ vm.stack.length →
    ∃ vm1, Reach vm pre.length vm1 (pre.length + code.length) ∧ vm1.sp = 0
      ∧ Agree env1 st1 vm1.globals ∧ vm1.globals.length = vm.globals.length
      ∧ vm1.constants = vm.constants ∧ vm1.instructions = vm.instructions
      ∧ vm1.stack.length = vm.stack.length

end vm

namespace ast

/-- The expression `1 + (1 + (... + 1))` with `n` additions, nested to the
right. -/
def deepSum : Nat → Expression
  | 0 => .IntegerLiteral 1
  | n + 1 => .InfixExpression (.IntegerLiteral 1) "+" (deepSum n)

end ast

namespace ast

/-- A condition that is a boolean literal, an integer literal or a comparison
of two integer literals. -/
def Expression.isCondition : Expression → Bool
  | .Boolean _ => true
  | .IntegerLiteral _ => true
  | .InfixExpression (.IntegerLiteral _) op (.IntegerLiteral _) =>
    op == "<" || op == ">" || op == "==" || op == "!="
  | _ => false

/-- Whether the value of such a condition is truthy: an integer always is. -/
def Expression.conditionTruthy : Expression → Bool
  | .Boolean b => b
  | .InfixExpression (.IntegerLiteral x) op (.IntegerLiteral y) =>
    if op = "<" then decide (x < y)
    else if op = ">" then decide (x > y)
    else if op = "==" then decide (x = y)
    else decide (x ≠ y)
  | _ => true

/-- The program `if (c) { a } else { b }`. -/
def ifElseProgram (c : Expression) (a b : Int) : List Statement :=
  [.ExpressionStatement (.IfExpression c [.ExpressionStatement (.IntegerLiteral a)]
    (some [.ExpressionStatement (.IntegerLiteral b)]))]

/-- The program `if (c) { a }`. -/
def ifProgram (c : Expression) (a : Int) : List Statement :=
  [.ExpressionStatement (.IfExpression c [.ExpressionStatement (.IntegerLiteral a)] none)]

end ast

namespace ast

mutual
/-- The expressions that C4 speaks of: literals, identifiers, prefix, infix and
if expressions over them. -/
def Expression.supported : Expression → Bool
  | .IntegerLiteral _ => true
  | .Boolean _ => true
  | .Identifier _ => true
  | .PrefixExpression _ r => r.supported
  | .InfixExpression l _ r => l.supported && r.supported
  | .IfExpression c cons none => c.supported && supportedBlock cons
  | .IfExpression c cons (some alt) => c.supported && supportedBlock cons && supportedBlock alt
  | _ => false
/-- Expression statements and let statements over supported expressions. -/
def Statement.supported : Statement → Bool
  | .ExpressionStatement e => e.supported
  | .LetStatement _ e => e.supported
  | _ => false
/-- A list of supported statements. -/
def supportedBlock : List Statement → Bool
  | [] => true
  | s :: rest => s.supported && supportedBlock rest
end

end ast

namespace compiler

/-- What a piece of compiled code stands for: an expression, a statement, a
list of statements, or a block whose last OpPop has been removed. -/
inductive Kind where
  | expr
  | stmt
  | block
  | value

/-- The stack slots that code of a kind may add at most. -/
def Kind.delta : Kind → Nat
  | .expr => 1
  | .stmt => 0
  | .block => 0
  | .value => 1

/-- The layout of the code that `Compile` appends at the offset `off`. With
`strict` the nodes without a case in `Compile`, which emit nothing, are left
out. The operands of the two jumps of a conditional are the offsets behind the
OpJump and behind the alternative, as two big-endian bytes. -/
inductive Shape (strict : Bool) : Kind → Nat → List Nat → Prop where
  | skipExpr (off : Nat) : strict = false → Shape strict .expr off []
  | skipStmt (off : Nat) : strict = false → Shape strict .stmt off []
  | simple (off op : Nat) : op = code.OpTrue ∨ op = code.OpFalse → Shape strict .expr off [op]
  | wide (off op hi lo : Nat) : op = code.OpConstant ∨ op = code.OpGetGlobal →
      Shape strict .expr off [op, hi, lo]
  | unary (off op : Nat) (c1 : List Nat) : op = code.OpBang ∨ op = code.OpMinus →
      Shape strict .expr off c1 → Shape strict .expr off (c1 ++ [op])
  | binary (off op : Nat) (c1 c2 : List Nat) :
      op = code.OpAdd ∨ op = code.OpSub ∨ op = code.OpMul ∨ op = code.OpDiv
        ∨ op = code.OpGreaterThan ∨ op = code.OpEqual ∨ op = code.OpNotEqual →
      Shape strict .expr off c1 → Shape strict .expr (off + c1.length) c2 →
      Shape strict .expr off (c1 ++ c2 ++ [op])
  | ifThen (off : Nat) (cc cons : List Nat) :
      Shape strict .expr off cc → Shape strict .value (off + cc.length + 3) cons →
      Shape strict .expr off
        (cc ++ [code.OpJumpNotTruthy, (off + cc.length + 3 + cons.length + 3) / 256 % 256,
                (off + cc.length + 3 + cons.length + 3) % 256]
          ++ cons
          ++ [code.OpJump, (off + cc.length + 3 + cons.length + 3 + 1) / 256 % 256,
              (off + cc.length + 3 + cons.length + 3 + 1) % 256]
          ++ [code.OpNull])
  | ifThenElse (off : Nat) (cc cons alt : List Nat) :
      Shape strict .expr off cc → Shape strict .value (off + cc.length + 3) cons →
      Shape strict .value (off + cc.length + 3 + cons.length + 3) alt →
      Shape strict .expr off
        (cc ++ [code.OpJumpNotTruthy, (off + cc.length + 3 + cons.length + 3) / 256 % 256,
                (off + cc.length + 3 + cons.length + 3) % 256]
          ++ cons
          ++ [code.OpJump, (off + cc.length + 3 + cons.length + 3 + alt.length) / 256 % 256,
              (off + cc.length + 3 + cons.length + 3 + alt.length) % 256]
          ++ alt)
  | exprStmt (off : Nat) (c1 : List Nat) :
      Shape strict .expr off c1 → Shape strict .stmt off (c1 ++ [code.OpPop])
  | letStmt (off : Nat) (c1 : List Nat) (hi lo : Nat) :
      Shape strict .expr off c1 → Shape strict .stmt off (c1 ++ [code.OpSetGlobal, hi, lo])
  | nil (off : Nat) : Shape strict .block off []
  | snoc (off : Nat) (c1 c2 : List Nat) :
      Shape strict .block off c1 → Shape strict .stmt (off + c1.length) c2 →
      Shape strict .block off (c1 ++ c2)
  | ofBlock (off : Nat) (c1 : List Nat) : Shape strict .block off c1 → Shape strict .value off c1
  | ofExpr (off : Nat) (c1 c2 : List Nat) :
      Shape strict .block off c1 → Shape strict .expr (off + c1.length) c2 →
      Shape strict .value off (c1 ++ c2)

/-- The record of the last instruction, when it is an OpPop, points at the last
byte of the stream and that byte is an OpPop. -/
def LastValid (c : Compiler) : Prop :=
  c.lastInstruction.Opcode = code.OpPop →
    ∃ Y, c.instructions = Y ++ [code.OpPop] ∧ c.lastInstruction.Position = Y.length

/-- The record of the instruction before the last, when both are an OpPop,
points at the byte before the last and that byte is an OpPop. -/
def PrevValid (c : Compiler) : Prop :=
  c.lastInstruction.Opcode = code.OpPop → c.previousInstruction.Opcode = code.OpPop →
    ∃ Z, c.instructions = Z ++ [code.OpPop, code.OpPop] ∧ c.previousInstruction.Position = Z.length

/-- The state of the compiler inside a block that started behind `pre`: the
stream is `pre` and the code of the statements so far, and a last instruction
OpPop is the one that closes an expression statement of the block. -/
def BlockInv (strict : Bool) (pre : List Nat) (c : Compiler) : Prop :=
  ∃ cd, c.instructions = pre ++ cd ∧ Shape strict .block pre.length cd
    ∧ LastValid c ∧ PrevValid c
    ∧ (c.lastInstruction.Opcode = code.OpPop →
        ∃ c0 ce, cd = c0 ++ ce ++ [code.OpPop] ∧ Shape strict .block pre.length c0
          ∧ Shape strict .expr (pre.length + c0.length) ce)

end compiler

namespace vm

/-- From the offset `off`, where `cd` lies in a stream shorter than 65536
bytes, the loop of `Run` either ends in an error or a panic, or comes to the
end of `cd` with `sp + a` at most the `sp` of the start plus `b`. -/
def ExecLe (off : Nat) (cd : List Nat) (a b : Nat) : Prop :=
  ∀ (vm : VM) (pre post : List Nat), vm.instructions = pre ++ cd ++ post →
    pre.length = off → vm.instructions.length < 65536 →
    Fault vm off ∨ ∃ vm1, Reach vm off vm1 (off + cd.length) ∧ vm1.sp + a ≤ vm.sp + b
      ∧ vm1.instructions = vm.instructions

end vm

namespace code

/-- The number of operand bytes behind an opcode byte. -/
def width (op : Opcode) : Nat :=
  match operandWidths op with
  | some ws => ws.sum
  | none => 0

/-- The instructions of a stream from the offset `pos`, after `skip` more
operand bytes: each opcode byte with its offset and its operand bytes. -/
def instructionsFrom : Nat → Nat → List Nat → List (Nat × Opcode × List Nat)
  | _, _, [] => []
  | 0, pos, op :: rest => (pos, op, rest.take (width op)) :: instructionsFrom (width op) (pos + 1) rest
  | k + 1, pos, _ :: rest => instructionsFrom k (pos + 1) rest

/-- The instructions of a stream, read from its first byte. -/
def instructionsOf (ins : List Nat) : List (Nat × Opcode × List Nat) :=
  instructionsFrom 0 0 ins

end code

namespace ast

/-- The statement `true;`. -/
def trueStatement : Statement := .ExpressionStatement (.Boolean true)

/-- The program `!true; true; ... true; if (true) { 1 }` with 4993 statements
`true;`. -/
def jumpTo9999 : List Statement :=
  [.ExpressionStatement (.PrefixExpression "!" (.Boolean true))]
    ++ List.replicate 4993 trueStatement ++ ifProgram (.Boolean true) 1

end ast

namespace compiler

/-- The code of `n` statements `true;`. -/
def truePad : Nat → List Nat
  | 0 => []
  | n + 1 => [code.OpTrue, code.OpPop] ++ truePad n

/-- An instruction that is a jump has as operand the two bytes of an offset
behind its own and not behind `hi`. -/
def JumpOk (hi : Nat) (e : Nat × Nat × List Nat) : Prop :=
  (e.2.1 = code.OpJump ∨ e.2.1 = code.OpJumpNotTruthy) →
    ∃ t, e.1 < t ∧ t ≤ hi ∧ e.2.2 = [t / 256 % 256, t % 256]

/-- The bytes `cd` at the offset `off` are whole instructions whose jumps are
patched to offsets up to `hi`. -/
def DecodesTo (hi off : Nat) (cd : List Nat) : Prop :=
  ∃ D, (∀ post, code.instructionsFrom 0 off (cd ++ post)
      = D ++ code.instructionsFrom 0 (off + cd.length) post) ∧ ∀ e ∈ D, JumpOk hi e

/-- The bytes that follow code of a kind in its statement. -/
def Kind.slack : Kind → Nat
  | .stmt => 1
  | .block => 1
  | _ => 0

end compiler

namespace ast

/-- The statement `if (true) { true } else { let g = false; true };`. -/
def wrapFirst : Statement :=
  .ExpressionStatement (.IfExpression (.Boolean true) [trueStatement]
    (some [.LetStatement "g" (.Boolean false), trueStatement]))

/-- The statement `if (g) { true } else { true; true; true; true; true; !true };`. -/
def wrapLast : Statement :=
  .ExpressionStatement (.IfExpression (.Identifier "g") [trueStatement]
    (some (List.replicate 5 trueStatement
      ++ [.ExpressionStatement (.PrefixExpression "!" (.Boolean true))])))

/-- The program of `wrapFirst`, `n` statements `true;` and `wrapLast`. -/
def wrapProgram (n : Nat) : List Statement :=
  [wrapFirst] ++ List.replicate n trueStatement ++ [wrapLast]

end ast

namespace compiler

/-- The code of `wrapFirst` at the start of a program. -/
def wrapFirstCode : List Nat := [6, 13, 0, 8, 6, 14, 0, 13, 7, 17, 0, 0, 6, 2]

/-- The code of `wrapLast` at the offset 65522, where the global `g` has the
index 0: the offset 65544 behind the alternative is written as 8. -/
def wrapLastCode : List Nat :=
  [16, 0, 0, 13, 255, 252, 6, 14, 0, 8, 6, 2, 6, 2, 6, 2, 6, 2, 6, 2, 6, 12, 2]

end compiler

namespace vm

open object

/-- A machine on the stream `ins` with the given `sp`, a stack of `StackSize`
slots and the value `g` in the global 0. -/
def Mach (ins : List Nat) (vm : VM) (sp : Nat) (g : Object) : Prop :=
  vm.instructions = ins ∧ vm.sp = sp ∧ vm.stack.length = StackSize ∧ vm.globals[0]? = some g

end vm

namespace ast

/-- An expression without conditionals in its operands: only the blocks of a
conditional can hold let statements. -/
def Expression.isPlain : Expression → Bool
  | .IfExpression _ _ _ => false
  | .PrefixExpression _ r => r.isPlain
  | .InfixExpression l _ r => l.isPlain && r.isPlain
  | _ => true

/-- The identifier `x` occurs in the expression as an operand: the expression
is `x`, or a prefix or infix expression with an operand in which `x` occurs. -/
def Expression.mentions (x : String) : Expression → Bool
  | .Identifier y => y == x
  | .PrefixExpression _ r => r.mentions x
  | .InfixExpression l _ r => l.mentions x || r.mentions x
  | _ => false

end ast

namespace ast

/-- A tree of `+` over integer literals. -/
def Expression.isSum : Expression → Bool
  | .IntegerLiteral _ => true
  | .InfixExpression l op r => op == "+" && l.isSum && r.isSum
  | _ => false

/-- The post-order encoding of a tree of `+` over integer literals whose first
literal is the constant `k`: OpConstant with the index of each literal, from
left to right, and OpAdd behind the code of its two operands. -/
def Expression.postOrder (k : Nat) : Expression → List Nat
  | .IntegerLiteral _ => code.Make code.OpConstant [k]
  | .InfixExpression l _ r =>
    l.postOrder k ++ r.postOrder (k + l.literals.length) ++ code.Make code.OpAdd []
  | _ => []

end ast

namespace compiler

open object

/-- The pool `K1` is the pool `K` with Integer constants appended. -/
def Extends (K K1 : List Object) : Prop :=
  ∃ ks, K1 = K ++ ks ∧ ∀ k ∈ ks, ∃ n, k = Object.Integer n

/-- The result of a call of `Compile` on the compiler `c`, when the call
returns, with or without an error, leaves a pool that extends the pool of `c`. -/
def Grows (c : Compiler) : Result Compiler → Prop
  | .ok c1 => Extends c.constants c1.constants
  | .error _ c1 => Extends c.constants c1.constants
  | .panic => True

end compiler

namespace vm1

/-- The loop of `Run` started at `(vm, ip)` comes to `(vm1, ip1)` after some
rounds without error: from there on it goes on as the loop started at
`(vm1, ip1)`. -/
def Reach (vm : VM) (ip : Nat) (vm1 : VM) (ip1 : Nat) : Prop :=
  ∃ n, ∀ m, VM.runFrom (n + m) vm ip = VM.runFrom m vm1 ip1

end vm1

namespace object

/-- A value that is no String, Array or Hash: an Integer, a Boolean, a Null or
the nil of an unused slot. -/
def Object.isScalar : Object → Bool
  | .String _ _ => false
  | .Array _ _ => false
  | .Hash _ _ => false
  | _ => true

end object

namespace vm

open object

/-- The machine `m1`, whose constants are `K`, is in step with the machine `m`:
both have the same `sp`, the same values below `sp` and the same globals, every
constant of `m` is a constant of `m1` at the same index, the stack of `m1` has
at least `StackSize` slots, and the values that `m` can reach are scalars.
Their instruction streams and what is left in the slots from `sp` on may
differ. -/
def InStep (K : List Object) (m m1 : VM) : Prop :=
  m1.sp = m.sp ∧ StackSize ≤ m1.stack.length
  ∧ (∀ i, i < m.sp → m1.stack[i]? = m.stack[i]?)
  ∧ m1.globals = m.globals
  ∧ (∀ (i : Nat) (o : Object), m.constants[i]? = some o → m1.constants[i]? = some o)
  ∧ (∀ (i : Nat) (o : Object), i < m.sp → m.stack[i]? = some o → o.isScalar = true)
  ∧ (∀ o ∈ m.globals, o.isScalar = true)
  ∧ (∀ o ∈ m.constants, o.isScalar = true)
  ∧ m1.constants = K

/-- The code `cd1` at the offset `off1` does what the code `cd` at the offset
`off` does: on machines in step, in streams shorter than 65536 bytes, when the
loop of `Run` on the first machine does not end in an error or a panic, it comes
to the end of `cd`, the loop on the second machine comes to the end of `cd1`,
and the machines are in step again. With `pop` the slot at `sp`, which the last
instruction of the code has popped, holds the same value in both. -/
def Twin (pop : Bool) (off off1 : Nat) (cd cd1 : List Nat) : Prop :=
  cd1.length = cd.length ∧
  ∀ (K : List Object) (m m1 : VM) (pre post pre1 post1 : List Nat),
    m.instructions = pre ++ cd ++ post → pre.length = off →
    m1.instructions = pre1 ++ cd1 ++ post1 → pre1.length = off1 →
    m.instructions.length < 65536 → m1.instructions.length < 65536 →
    InStep K m m1 → ¬ Fault m off →
    ∃ n n1, Reach m off n (off + cd.length) ∧ Reach m1 off1 n1 (off1 + cd.length)
      ∧ InStep K n n1 ∧ n.instructions = m.instructions ∧ n1.instructions = m1.instructions
      ∧ (pop = true → n1.stack[n1.sp]? = n.stack[n.sp]?)

end vm

namespace compiler

open vm

/-- Two compiler states with the same constant pool, which holds scalars only,
and the same symbol table. -/
def Same (c d : Compiler) : Prop :=
  c.constants = d.constants ∧ c.symbolTable = d.symbolTable
    ∧ ∀ o ∈ d.constants, o.isScalar = true

/-- The state of two compilers inside a block that started behind `pre` in the
first and behind `pre1` in the second: they hold the same constants and symbol
table, and the code of the statements so far does the same in both. With `tail`
either the last instruction is no OpPop in both, or in both it is the OpPop
that closes the last expression statement of the block. -/
def TwinInv (tail : Bool) (pre pre1 : List Nat) (d c : Compiler) : Prop :=
  Same c d ∧ ∃ cd cd1, d.instructions = pre ++ cd ∧ c.instructions = pre1 ++ cd1
    ∧ Twin false pre.length pre1.length cd cd1
    ∧ (tail = true →
        (d.lastInstruction.Opcode ≠ code.OpPop ∧ c.lastInstruction.Opcode ≠ code.OpPop)
        ∨ ∃ v v1, cd = v ++ [code.OpPop] ∧ cd1 = v1 ++ [code.OpPop]
            ∧ Twin false pre.length pre1.length v v1
            ∧ d.lastInstruction = { Opcode := code.OpPop, Position := (pre ++ v).length }
            ∧ c.lastInstruction = { Opcode := code.OpPop, Position := (pre1 ++ v1).length })

end compiler

namespace ast

/-- A return statement, for which `Compile` has no case and emits nothing. -/
def Statement.isReturn : Statement → Bool
  | .ReturnStatement _ => true
  | _ => false

end ast

namespace vm

open object

mutual
/-- A value all of whose Booleans, also those inside arrays and hashes, are the
singletons `True` and `False`. -/
def canonical : Object → Bool
  | .Boolean p v => (p == 1 && v) || (p == 2 && !v)
  | .Array _ es => canonicalList es
  | .Hash _ ps => canonicalPairs ps
  | _ => true
/-- A list of values whose Booleans are the singletons. -/
def canonicalList : List Object → Bool
  | [] => true
  | o :: os => canonical o && canonicalList os
/-- The pairs of a hash whose Booleans are the singletons. -/
def canonicalPairs : List (HashKey × Object × Object) → Bool
  | [] => true
  | (_, k, v) :: ps => canonical k && canonical v && canonicalPairs ps
end

mutual
/-- A value that is no Boolean and holds none inside. -/
def boolFree : Object → Bool
  | .Boolean _ _ => false
  | .Array _ es => boolFreeList es
  | .Hash _ ps => boolFreePairs ps
  | _ => true
/-- A list of values without Booleans. -/
def boolFreeList : List Object → Bool
  | [] => true
  | o :: os => boolFree o && boolFreeList os
/-- The pairs of a hash without Booleans. -/
def boolFreePairs : List (HashKey × Object × Object) → Bool
  | [] => true
  | (_, k, v) :: ps => boolFree k && boolFree v && boolFreePairs ps
end

/-- A machine with its stack of `StackSize` slots in which every Boolean, in
the stack, the globals and the constants, is `True` or `False`. -/
def VM.Canonical (vm : VM) : Prop :=
  vm.stack.length = StackSize ∧ (∀ o ∈ vm.stack, canonical o = true)
    ∧ (∀ o ∈ vm.globals, canonical o = true) ∧ (∀ o ∈ vm.constants, canonical o = true)

end vm

namespace compiler

/-- The record `r` of an emitted instruction names the opcode that is stored at
its position in the stream. -/
def Recorded (ins : List Nat) (r : EmittedInstruction) : Prop :=
  ins[r.Position]? = some r.Opcode

/-- The call `if c.lastInstructionsIsPop() { c.removeLastPop() }` in the state
`s` does what `removeLastPop` is meant to do: when the last instruction is
recorded as an OpPop, the stream is cut by its final byte, which is an OpPop,
and the record of the last instruction then names the opcode that is stored at
its position in the shortened stream. -/
def CutsPop (s : Compiler) : Prop :=
  s.lastInstructionsIsPop = true →
    ∃ s1, s.removeLastPop = some s1 ∧ s.instructions = s1.instructions ++ [code.OpPop]
      ∧ Recorded s1.instructions s1.lastInstruction

/-- The state at the start of a block: the last instruction, the jump in front
of the block, is recorded at its position and is no OpPop. -/
def Start (b0 : Compiler) : Prop :=
  Recorded b0.instructions b0.lastInstruction ∧ b0.lastInstruction.Opcode ≠ code.OpPop

/-- The state `s` inside a block that started in the state `b0`: the stream
is that of `b0` and whole instructions behind it; the last instruction is
still that of `b0` or is recorded at its position inside the block; and a last
instruction OpPop is the final byte, with the instruction before it being that
of `b0` or recorded at its position inside the block. -/
def InBlock (b0 s : Compiler) : Prop :=
  (∃ cd, s.instructions = b0.instructions ++ cd
      ∧ DecodesTo (b0.instructions.length + cd.length) b0.instructions.length cd)
  ∧ (s.lastInstruction = b0.lastInstruction
      ∨ (b0.instructions.length ≤ s.lastInstruction.Position
          ∧ Recorded s.instructions s.lastInstruction))
  ∧ (s.lastInstruction.Opcode = code.OpPop →
      ∃ v, s.instructions = b0.instructions ++ v ++ [code.OpPop]
        ∧ DecodesTo (b0.instructions.length + v.length) b0.instructions.length v
        ∧ s.lastInstruction.Position = (b0.instructions ++ v).length
        ∧ (s.previousInstruction = b0.lastInstruction
            ∨ (b0.instructions.length ≤ s.previousInstruction.Position
                ∧ Recorded (b0.instructions ++ v) s.previousInstruction)))

end compiler

namespace compiler

/-- What an expression leaves behind: whole instructions appended, and either
the state as it was or a record of the last instruction that is in the new code
and true. -/
def ExprPost (c c1 : Compiler) : Prop :=
  (∃ cd, c1.instructions = c.instructions ++ cd
      ∧ DecodesTo (c.instructions.length + cd.length) c.instructions.length cd)
  ∧ (c1 = c ∨ (c.instructions.length ≤ c1.lastInstruction.Position
        ∧ Recorded c1.instructions c1.lastInstruction))

end compiler

namespace vm

/-- The loop of `Run` started at `(vm, ip)` ends with an error or a panic within
`n` rounds, the round of the failing instruction included. -/
def FaultIn (n : Nat) (vm : VM) (ip : Nat) : Prop :=
  (∃ msg vm1, VM.runFrom n vm ip = some (.error msg vm1)) ∨ VM.runFrom n vm ip = some .panic

/-- From the offset `off`, where `cd` lies in a stream shorter than 65536
bytes, the loop of `Run` either ends in an error or a panic within as many
rounds as `cd` has bytes, or comes to the end of `cd` after at most as many
instructions as `cd` has bytes. -/
def ExecIn (off : Nat) (cd : List Nat) : Prop :=
  ∀ (vm : VM) (pre post : List Nat), vm.instructions = pre ++ cd ++ post →
    pre.length = off → vm.instructions.length < 65536 →
    FaultIn cd.length vm off ∨ ∃ k vm1, k ≤ cd.length
      ∧ VM.steps k vm off = some (vm1, off + cd.length)
      ∧ vm1.instructions = vm.instructions

end vm

/-! ## Theorems -/

namespace vm

open object

/-! ### Stack primitives -/

theorem pop_eq (vm : VM) (x : Object) (h0 : 0 < vm.sp) (hx : vm.stack[vm.sp - 1]? = some x) :
    vm.pop = some (x, { vm with sp := vm.sp - 1 }) := by
  unfold VM.pop
  rw [if_neg (Nat.pos_iff_ne_zero.mp h0), hx]

theorem push_eq (vm : VM) (o : Object) (h1 : vm.sp < StackSize) (h2 : vm.sp < vm.stack.length) :
    vm.push o = .ok { vm with stack := vm.stack.set vm.sp o, sp := vm.sp + 1 } := by
  unfold VM.push
  rw [if_neg (Nat.not_le.mpr h1), if_pos h2]

/-- C7: `isTruthy` is false exactly for a Null and for a Boolean whose value is
false, and true for every other value; in particular Integer 0 and the empty
String are truthy. -/
theorem isTruthy_false_iff (v : Object) :
    (isTruthy v = false ↔ (∃ p, v = .Null p) ∨ (∃ p, v = .Boolean p false))
    ∧ (isTruthy v = true ↔ ¬ ((∃ p, v = .Null p) ∨ (∃ p, v = .Boolean p false)))
    ∧ isTruthy (.Integer 0) = true ∧ (∀ p, isTruthy (.String p []) = true) := by
  refine ⟨?_, ?_, rfl, fun _ => rfl⟩
  · cases v <;> simp [isTruthy]
  · cases v <;> simp [isTruthy]

/-! ### Unary operators -/

/-- The value `executeBangOperator` pushes for the operand `x`. -/
theorem bang_step (vm : VM) (ip : Nat) (x : Object)
    (hi : vm.instructions[ip]? = some code.OpBang)
    (h0 : 0 < vm.sp) (h1 : vm.sp ≤ StackSize) (h2 : vm.sp ≤ vm.stack.length)
    (hx : vm.stack[vm.sp - 1]? = some x) :
    vm.step ip = .ok ({ vm with
      stack := vm.stack.set (vm.sp - 1)
        (if x.same True then False else if x.same False then True
          else if x.same Null then True else False) }, ip + 1) := by
  have hsp : vm.sp - 1 + 1 = vm.sp := Nat.sub_add_cancel h0
  rw [VM.step, hi]
  simp only [code.OpBang, code.OpConstant, code.OpAdd, code.OpSub, code.OpMul, code.OpDiv,
    code.OpPop, code.OpTrue, code.OpFalse, code.OpEqual, code.OpNotEqual, code.OpGreaterThan,
    Nat.reduceEqDiff, if_false, if_true, or_self, VM.executeBangOperator, pop_eq vm x h0 hx]
  have hp : ∀ o, ({ vm with sp := vm.sp - 1 } : VM).push o
      = .ok { vm with stack := vm.stack.set (vm.sp - 1) o } := by
    intro o
    rw [push_eq _ o (by show vm.sp - 1 < StackSize; omega) (by show vm.sp - 1 < vm.stack.length; omega)]
    simp only [hsp]
  simp only [hp]
  split_ifs <;> rfl

theorem stackTop_set (vm : VM) (o : Object) (h0 : 0 < vm.sp) (h2 : vm.sp ≤ vm.stack.length) :
    ({ vm with stack := vm.stack.set (vm.sp - 1) o } : VM).StackTop = some o := by
  unfold VM.StackTop
  rw [if_neg (Nat.pos_iff_ne_zero.mp h0)]
  show (vm.stack.set (vm.sp - 1) o)[vm.sp - 1]? = some o
  rw [List.getElem?_set_self (by omega)]

theorem bang_once_value (x : Object)
    (hc : x = True ∨ x = False ∨ x = Null ∨ ((∀ p b, x ≠ .Boolean p b) ∧ ∀ p, x ≠ .Null p)) :
    (if x.same True then False else if x.same False then True
      else if x.same Null then True else False)
    = (if x = False ∨ x = Null then True else False) := by
  rcases hc with h | h | h | ⟨hb, hn⟩
  · subst h; decide
  · subst h; decide
  · subst h; decide
  · cases x <;> simp_all [Object.same]

theorem bang_twice_value (x : Object)
    (hc : x = True ∨ x = False ∨ x = Null ∨ ((∀ p b, x ≠ .Boolean p b) ∧ ∀ p, x ≠ .Null p)) :
    (if (if x = False ∨ x = Null then True else False).same True then False
      else if (if x = False ∨ x = Null then True else False).same False then True
      else if (if x = False ∨ x = Null then True else False).same Null then True else False)
    = (if isTruthy x = true then True else False) := by
  rcases hc with h | h | h | ⟨hb, hn⟩
  · subst h; decide
  · subst h; decide
  · subst h; decide
  · cases x <;> simp_all [Object.same, isTruthy]

/-- C8: on the canonical True, False or Null, or on a value that is neither a
Boolean nor a Null, one OpBang leaves the canonical True exactly for False and
Null (and the canonical False otherwise), and a second OpBang leaves the
canonical True when the value is truthy and the canonical False when not. -/
theorem bang_twice (vm : VM) (ip : Nat) (x : Object)
    (hi1 : vm.instructions[ip]? = some code.OpBang)
    (hi2 : vm.instructions[ip + 1]? = some code.OpBang)
    (h0 : 0 < vm.sp) (h1 : vm.sp ≤ StackSize) (h2 : vm.sp ≤ vm.stack.length)
    (hx : vm.stack[vm.sp - 1]? = some x)
    (hc : x = True ∨ x = False ∨ x = Null ∨ ((∀ p b, x ≠ .Boolean p b) ∧ ∀ p, x ≠ .Null p)) :
    ∃ vm1 vm2, vm.step ip = .ok (vm1, ip + 1) ∧ vm1.sp = vm.sp
      ∧ vm1.StackTop = some (if x = False ∨ x = Null then True else False)
      ∧ vm1.step (ip + 1) = .ok (vm2, ip + 2) ∧ vm2.sp = vm.sp
      ∧ vm2.StackTop = some (if isTruthy x = true then True else False) := by
  have s1 := bang_step vm ip x hi1 h0 h1 h2 hx
  have hlen : ∀ o, (vm.stack.set (vm.sp - 1) o).length = vm.stack.length := fun o => by simp
  have s2 := fun o => bang_step { vm with stack := vm.stack.set (vm.sp - 1) o } (ip + 1) o hi2 h0 h1
    (by show vm.sp ≤ (vm.stack.set (vm.sp - 1) o).length; rw [hlen]; exact h2)
    (by show (vm.stack.set (vm.sp - 1) o)[vm.sp - 1]? = some o
        rw [List.getElem?_set_self (by omega)])
  rw [bang_once_value x hc] at s1
  refine ⟨_, _, s1, rfl, stackTop_set vm _ h0 h2, s2 _, rfl, ?_⟩
  show VM.StackTop { vm with stack := (vm.stack.set (vm.sp - 1) _).set (vm.sp - 1) _ } = _
  rw [List.set_set, stackTop_set vm _ h0 h2, bang_twice_value x hc]

/-! ### Indexing -/

theorem index_step (vm : VM) (ip : Nat) (left index : Object)
    (hi : vm.instructions[ip]? = some code.OpIndex)
    (h0 : 2 ≤ vm.sp)
    (hl : vm.stack[vm.sp - 2]? = some left) (hx : vm.stack[vm.sp - 1]? = some index) :
    vm.step ip
      = goOn (ip + 1) (VM.executeIndexExpression { vm with sp := vm.sp - 2 } left index) := by
  rw [VM.step, hi]
  have e1 := pop_eq vm index (by omega) hx
  have e2 := pop_eq { vm with sp := vm.sp - 1 } left (by show 0 < vm.sp - 1; omega)
    (by show vm.stack[vm.sp - 1 - 1]? = some left; rw [Nat.sub_sub]; exact hl)
  simp only [code.OpIndex, code.OpBang, code.OpConstant, code.OpAdd, code.OpSub, code.OpMul,
    code.OpDiv, code.OpPop, code.OpTrue, code.OpFalse, code.OpEqual, code.OpNotEqual,
    code.OpGreaterThan, code.OpMinus, code.OpJump, code.OpJumpNotTruthy, code.OpNull,
    code.OpSetGlobal, code.OpGetGlobal, code.OpArray, code.OpHash,
    Nat.reduceEqDiff, if_false, if_true, or_self, e1, e2, Nat.sub_sub]

theorem push_after_index (vm : VM) (o : Object)
    (h0 : 2 ≤ vm.sp) (h1 : vm.sp ≤ StackSize) (h2 : vm.sp ≤ vm.stack.length) :
    VM.push { vm with sp := vm.sp - 2 } o
      = .ok { vm with stack := vm.stack.set (vm.sp - 2) o, sp := vm.sp - 1 } := by
  rw [push_eq _ o (by show vm.sp - 2 < StackSize; omega)
    (by show vm.sp - 2 < vm.stack.length; omega)]
  have : vm.sp - 2 + 1 = vm.sp - 1 := by omega
  simp only [this]

theorem mapGet_eq_none {α : Type} (m : List (HashKey × α)) (k : HashKey)
    (h : ∀ e ∈ m, e.1 ≠ k) : mapGet m k = none := by
  induction m with
  | nil => rfl
  | cons e rest ih =>
    obtain ⟨k', v'⟩ := e
    have hk : k' ≠ k := h (k', v') (List.mem_cons_self _ _)
    simp only [mapGet, if_neg hk]
    exact ih (fun e he => h e (List.mem_cons_of_mem _ he))

/-- C9: an index that misses is no error: an Array or a String indexed by an
Integer below zero or not below the length, and a Hash indexed by a hashable key
it does not hold, make OpIndex replace the two operands by the canonical Null
and go on. -/
theorem index_miss (vm : VM) (ip : Nat) (left index : Object)
    (hi : vm.instructions[ip]? = some code.OpIndex)
    (h0 : 2 ≤ vm.sp) (h1 : vm.sp ≤ StackSize) (h2 : vm.sp ≤ vm.stack.length)
    (hl : vm.stack[vm.sp - 2]? = some left) (hx : vm.stack[vm.sp - 1]? = some index)
    (hmiss : (∃ p a i, left = .Array p a ∧ index = .Integer i ∧ (i < 0 ∨ i ≥ (a.length : Int)))
      ∨ (∃ p s i, left = .String p s ∧ index = .Integer i ∧ (i < 0 ∨ i ≥ (s.length : Int)))
      ∨ (∃ p h k, left = .Hash p h ∧ index.HashKey = some k ∧ ∀ e ∈ h, e.1 ≠ k)) :
    vm.step ip
      = .ok ({ vm with stack := vm.stack.set (vm.sp - 2) Null, sp := vm.sp - 1 }, ip + 1) := by
  rw [index_step vm ip left index hi h0 hl hx]
  have hp := push_after_index vm Null h0 h1 h2
  rcases hmiss with ⟨p, a, i, rfl, rfl, hr⟩ | ⟨p, s, i, rfl, rfl, hr⟩ | ⟨p, h, k, rfl, hk, hn⟩
  · have : i < 0 ∨ i > (a.length : Int) - 1 := by omega
    simp only [VM.executeIndexExpression, VM.executeArrayIndex, if_pos this, hp, goOn]
  · have : i < 0 ∨ i > (s.length : Int) - 1 := by omega
    simp only [VM.executeIndexExpression, VM.executeStringIndex, if_pos this, hp, goOn]
  · simp only [VM.executeIndexExpression, VM.executeHashIndex, hk, mapGet_eq_none h k hn, hp, goOn]

theorem mapGet_mapSet {α : Type} (m : List (HashKey × α)) (k k' : HashKey) (v : α) :
    mapGet (mapSet m k v) k' = if k = k' then some v else mapGet m k' := by
  induction m with
  | nil => simp [mapSet, mapGet]
  | cons e rest ih =>
    obtain ⟨k₀, v₀⟩ := e
    by_cases h1 : k₀ = k
    · subst h1
      simp only [mapSet, if_true, mapGet]
      split_ifs <;> rfl
    · simp only [mapSet, if_neg h1, mapGet, ih]
      by_cases h2 : k₀ = k'
      · subst h2
        simp [Ne.symm h1]
      · simp [h2]

/-- The map that `buildHash` builds from key/value pairs with hashable keys,
added to `acc` from left to right. -/
theorem buildHashLoop_ok (stack : List Object) (kvs : List (Object × Object)) :
    ∀ (i : Nat) (acc : List (HashKey × Object × Object)),
      (∀ j (hj : j < kvs.length), stack[i + 2 * j]? = some kvs[j].1
        ∧ stack[i + 2 * j + 1]? = some kvs[j].2) →
      (∀ kv ∈ kvs, kv.1.HashKey ≠ none) →
      ∃ m, buildHashLoop stack kvs.length i acc = .ok m
        ∧ ∀ k, mapGet m k
          = match kvs.reverse.find? (fun kv => kv.1.HashKey = some k) with
            | some kv => some kv
            | none => mapGet acc k := by
  induction kvs with
  | nil => intro i acc _ _; exact ⟨acc, rfl, fun k => rfl⟩
  | cons kv rest ih =>
    intro i acc hs hk
    have h0 := hs 0 (by simp)
    simp only [Nat.mul_zero, Nat.add_zero, List.getElem_cons_zero] at h0
    obtain ⟨key, hkey⟩ := Option.ne_none_iff_exists'.mp (hk kv (List.mem_cons_self _ _))
    obtain ⟨m, hm, hget⟩ := ih (i + 2) (mapSet acc key (kv.1, kv.2))
      (fun j hj => by
        have := hs (j + 1) (by simp; omega)
        simp only [List.getElem_cons_succ] at this
        have e : i + 2 * (j + 1) = i + 2 + 2 * j := by omega
        rw [e] at this
        exact this)
      (fun kv' h' => hk kv' (List.mem_cons_of_mem _ h'))
    refine ⟨m, ?_, ?_⟩
    · simp only [List.length_cons, buildHashLoop, h0.1, h0.2, hkey]
      exact hm
    · intro k
      rw [hget k, List.reverse_cons, List.find?_append]
      cases hf : List.find? (fun kv => decide (kv.1.HashKey = some k)) rest.reverse with
      | some kv' => simp
      | none =>
        simp only [Option.none_or, mapGet_mapSet, List.find?_cons, List.find?_nil, hkey]
        by_cases hkk : key = k
        · subst hkk; simp
        · simp [hkk]

theorem find?_of_nodup_map {α β : Type} [DecidableEq β] (f : α → β) (l : List α) (x : α)
    (hx : x ∈ l) (hn : (l.map f).Nodup) : l.find? (fun y => f y = f x) = some x := by
  induction l with
  | nil => cases hx
  | cons y rest ih =>
    rw [List.map_cons, List.nodup_cons] at hn
    rcases List.mem_cons.mp hx with rfl | hmem
    · simp
    · have hne : f y ≠ f x := fun h => hn.1 (h ▸ List.mem_map_of_mem f hmem)
      rw [List.find?_cons_of_neg _ (by simpa using hne)]
      exact ih hmem hn.2

/-- On slots that hold pairs with pairwise distinct hashable keys, `buildHash`
returns a Hash in which every key leads to its own pair. -/
theorem buildHash_ok (vm : VM) (kvs : List (Object × Object))
    (hsp : 2 * kvs.length ≤ vm.sp)
    (hs : ∀ j (hj : j < kvs.length),
      vm.stack[vm.sp - 2 * kvs.length + 2 * j]? = some kvs[j].1
      ∧ vm.stack[vm.sp - 2 * kvs.length + 2 * j + 1]? = some kvs[j].2)
    (hk : ∀ kv ∈ kvs, kv.1.HashKey ≠ none)
    (hn : (kvs.map (fun kv => kv.1.HashKey)).Nodup) :
    ∃ pairs, vm.buildHash ((vm.sp : Int) - (2 * kvs.length : Nat)) vm.sp = .ok (.Hash vm.heap pairs)
      ∧ ∀ kv ∈ kvs, ∀ k, kv.1.HashKey = some k → mapGet pairs k = some kv := by
  obtain ⟨m, hm, hget⟩ := buildHashLoop_ok vm.stack kvs (vm.sp - 2 * kvs.length) [] hs hk
  by_cases h0 : kvs = []
  · subst h0
    refine ⟨[], ?_, fun kv h => by cases h⟩
    simp [VM.buildHash]
  · have hpos : 0 < kvs.length := List.length_pos.mpr h0
    refine ⟨m, ?_, ?_⟩
    · have e1 : ¬ ((vm.sp : Int) ≤ (vm.sp : Int) - ((2 * kvs.length : Nat) : Int)) := by omega
      have e2 : ¬ ((vm.sp : Int) - ((2 * kvs.length : Nat) : Int) < 0) := by omega
      have e3 : ((vm.sp : Int) - ((2 * kvs.length : Nat) : Int)).toNat = vm.sp - 2 * kvs.length := by
        omega
      have e4 : ((vm.sp : Int).toNat - (vm.sp - 2 * kvs.length) + 1) / 2 = kvs.length := by
        have : (vm.sp : Int).toNat = vm.sp := by omega
        omega
      simp only [VM.buildHash, if_neg e1, if_neg e2, e3, e4, hm]
    · intro kv hmem k hkey
      rw [hget k]
      have hn' : (kvs.reverse.map (fun kv => kv.1.HashKey)).Nodup := by
        rw [List.map_reverse]; exact List.nodup_reverse.mpr hn
      have := find?_of_nodup_map (fun kv : Object × Object => kv.1.HashKey) kvs.reverse kv
        (List.mem_reverse.mpr hmem) hn'
      simp only [hkey] at this
      rw [this]

/-- C10: an index that hits returns the stored element: an Array indexed by an
Integer `i` with `0 <= i < len` gives element `i`, and a Hash that `buildHash`
(the body of OpHash) built from pairs with pairwise distinct hashable keys,
indexed by one of those keys, gives the value paired with that key. OpIndex
replaces the two operands by that value and goes on. -/
theorem index_hit (vm : VM) (ip : Nat) (left index e : Object)
    (hi : vm.instructions[ip]? = some code.OpIndex)
    (h0 : 2 ≤ vm.sp) (h1 : vm.sp ≤ StackSize) (h2 : vm.sp ≤ vm.stack.length)
    (hl : vm.stack[vm.sp - 2]? = some left) (hx : vm.stack[vm.sp - 1]? = some index)
    (hhit : (∃ p a, ∃ i : Nat, left = .Array p a ∧ index = .Integer i ∧ a[i]? = some e)
      ∨ (∃ (vm0 : VM) (kvs : List (Object × Object)) (kv : Object × Object),
          2 * kvs.length ≤ vm0.sp
          ∧ (∀ j (hj : j < kvs.length),
              vm0.stack[vm0.sp - 2 * kvs.length + 2 * j]? = some kvs[j].1
              ∧ vm0.stack[vm0.sp - 2 * kvs.length + 2 * j + 1]? = some kvs[j].2)
          ∧ (∀ kv ∈ kvs, kv.1.HashKey ≠ none)
          ∧ (kvs.map (fun kv => kv.1.HashKey)).Nodup
          ∧ vm0.buildHash ((vm0.sp : Int) - (2 * kvs.length : Nat)) vm0.sp = .ok left
          ∧ kv ∈ kvs ∧ index.HashKey = kv.1.HashKey ∧ e = kv.2)) :
    vm.step ip
      = .ok ({ vm with stack := vm.stack.set (vm.sp - 2) e, sp := vm.sp - 1 }, ip + 1) := by
  rw [index_step vm ip left index hi h0 hl hx]
  have hp := push_after_index vm e h0 h1 h2
  rcases hhit with ⟨p, a, i, rfl, rfl, he⟩ | ⟨vm0, kvs, kv, hsp, hs, hk, hn, hb, hmem, hkey, rfl⟩
  · have hlt : i < a.length := by
      rcases Nat.lt_or_ge i a.length with h | h
      · exact h
      · rw [List.getElem?_eq_none h] at he; cases he
    have : ¬ ((i : Int) < 0 ∨ (i : Int) > (a.length : Int) - 1) := by omega
    simp only [VM.executeIndexExpression, VM.executeArrayIndex, if_neg this, Int.toNat_ofNat, he,
      hp, goOn]
  · obtain ⟨pairs, hb', hget⟩ := buildHash_ok vm0 kvs hsp hs hk hn
    rw [hb] at hb'
    injection hb' with hb'
    subst hb'
    obtain ⟨k, hk'⟩ := Option.ne_none_iff_exists'.mp (hk kv hmem)
    simp only [VM.executeIndexExpression, VM.executeHashIndex, hkey, hk', hget kv hmem k hk', hp,
      goOn]

/-- Witness of C8: two OpBang on the Integer 5. -/
theorem bang_twice_witness :
    ∃ vm1 vm2,
      VM.step ⟨[], [code.OpBang, code.OpBang], [.Integer 5, .nil], 1, [], 4⟩ 0 = .ok (vm1, 0 + 1)
      ∧ vm1.sp = 1
      ∧ vm1.StackTop = some (if Object.Integer 5 = False ∨ Object.Integer 5 = Null then True else False)
      ∧ vm1.step (0 + 1) = .ok (vm2, 0 + 2) ∧ vm2.sp = 1
      ∧ vm2.StackTop = some (if isTruthy (.Integer 5) = true then True else False) :=
  bang_twice ⟨[], [code.OpBang, code.OpBang], [.Integer 5, .nil], 1, [], 4⟩ 0 (.Integer 5)
    (by decide) (by decide) (by decide) (by decide) (by decide) (by decide)
    (Or.inr (Or.inr (Or.inr ⟨fun _ _ h => (by cases h), fun _ h => (by cases h)⟩)))

/-- Witness of C9: `[1][-1]` is Null. -/
theorem index_miss_witness :
    VM.step ⟨[], [code.OpIndex], [.Array 4 [.Integer 1], .Integer (-1)], 2, [], 5⟩ 0
      = .ok (⟨[], [code.OpIndex], [Null, .Integer (-1)], 1, [], 5⟩, 1) :=
  index_miss ⟨[], [code.OpIndex], [.Array 4 [.Integer 1], .Integer (-1)], 2, [], 5⟩ 0
    (.Array 4 [.Integer 1]) (.Integer (-1)) (by decide) (by decide) (by decide) (by decide)
    (by decide) (by decide) (Or.inl ⟨4, [.Integer 1], -1, rfl, rfl, Or.inl (by decide)⟩)

/-- Witness of C10: `{1: 10, 2: 20}[2]` is 20, the hash being built from the
four slots of a machine. -/
theorem index_hit_witness :
    VM.step ⟨[], [code.OpIndex],
        [.Hash 4 [(.Integer 1, .Integer 1, .Integer 10), (.Integer 2, .Integer 2, .Integer 20)],
          .Integer 2], 2, [], 5⟩ 0
      = .ok (⟨[], [code.OpIndex], [.Integer 20, .Integer 2], 1, [], 5⟩, 1) :=
  index_hit ⟨[], [code.OpIndex],
      [.Hash 4 [(.Integer 1, .Integer 1, .Integer 10), (.Integer 2, .Integer 2, .Integer 20)],
        .Integer 2], 2, [], 5⟩ 0
    (.Hash 4 [(.Integer 1, .Integer 1, .Integer 10), (.Integer 2, .Integer 2, .Integer 20)])
    (.Integer 2) (.Integer 20) (by decide) (by decide) (by decide) (by decide) (by decide)
    (by decide)
    (Or.inr ⟨⟨[], [], [.Integer 1, .Integer 10, .Integer 2, .Integer 20], 4, [], 4⟩,
      [(.Integer 1, .Integer 10), (.Integer 2, .Integer 20)], (.Integer 2, .Integer 20),
      (by decide), (by decide), (by decide), (by decide), (by decide), (by decide), (by decide),
      rfl⟩)

end vm

namespace vm

open object

/-! ### The loop of `Run` -/

theorem steps_trans {n m : Nat} {vm vm1 vm2 : VM} {ip ip1 ip2 : Nat} :
    VM.steps n vm ip = some (vm1, ip1) → VM.steps m vm1 ip1 = some (vm2, ip2) →
    VM.steps (n + m) vm ip = some (vm2, ip2) := by
  induction n generalizing vm ip with
  | zero =>
    intro h1 h2
    simp only [VM.steps, Option.some.injEq, Prod.mk.injEq] at h1
    obtain ⟨rfl, rfl⟩ := h1
    simpa using h2
  | succ k ih =>
    intro h1 h2
    rw [show k + 1 + m = (k + m) + 1 by omega]
    simp only [VM.steps] at h1 ⊢
    by_cases hlt : ip < vm.instructions.length
    · rw [if_pos hlt] at h1 ⊢
      cases hstep : vm.step ip with
      | ok a => rw [hstep] at h1; exact ih h1 h2
      | error msg a => rw [hstep] at h1; cases h1
      | panic => rw [hstep] at h1; cases h1
    · rw [if_neg hlt] at h1; cases h1

theorem Reach.refl (vm : VM) (ip : Nat) : Reach vm ip vm ip := ⟨0, rfl⟩

theorem Reach.trans {vm vm1 vm2 : VM} {ip ip1 ip2 : Nat}
    (h1 : Reach vm ip vm1 ip1) (h2 : Reach vm1 ip1 vm2 ip2) : Reach vm ip vm2 ip2 := by
  obtain ⟨n, hn⟩ := h1
  obtain ⟨m, hm⟩ := h2
  exact ⟨n + m, steps_trans hn hm⟩

theorem Reach.step {vm vm1 : VM} {ip ip1 : Nat} (hlt : ip < vm.instructions.length)
    (h : vm.step ip = .ok (vm1, ip1)) : Reach vm ip vm1 ip1 :=
  ⟨1, by simp [VM.steps, hlt, h]⟩

theorem runFrom_steps {n : Nat} {vm vm1 : VM} {ip ip1 : Nat} (m : Nat) :
    VM.steps n vm ip = some (vm1, ip1) → VM.runFrom (n + m) vm ip = VM.runFrom m vm1 ip1 := by
  induction n generalizing vm ip with
  | zero =>
    intro h1
    simp only [VM.steps, Option.some.injEq, Prod.mk.injEq] at h1
    obtain ⟨rfl, rfl⟩ := h1
    simp
  | succ k ih =>
    intro h1
    rw [show k + 1 + m = (k + m) + 1 by omega]
    simp only [VM.steps] at h1
    simp only [VM.runFrom]
    by_cases hlt : ip < vm.instructions.length
    · rw [if_pos hlt] at h1 ⊢
      cases hstep : vm.step ip with
      | ok a => rw [hstep] at h1; exact ih h1
      | error msg a => rw [hstep] at h1; cases h1
      | panic => rw [hstep] at h1; cases h1
    · rw [if_neg hlt] at h1; cases h1

theorem runFrom_mono {n : Nat} {vm : VM} {ip : Nat} {r : Result VM} (k : Nat) :
    VM.runFrom n vm ip = some r → VM.runFrom (n + k) vm ip = some r := by
  induction n generalizing vm ip with
  | zero => intro h; cases h
  | succ j ih =>
    intro h
    rw [show j + 1 + k = (j + k) + 1 by omega]
    simp only [VM.runFrom] at h ⊢
    by_cases hlt : ip < vm.instructions.length
    · rw [if_pos hlt] at h ⊢
      cases hstep : vm.step ip with
      | ok a => rw [hstep] at h; exact ih h
      | error msg a => rw [hstep] at h; exact h
      | panic => rw [hstep] at h; exact h
    · rw [if_neg hlt] at h ⊢
      exact h

/-- The result of the loop does not depend on the budget of rounds. -/
theorem runFrom_det {n m : Nat} {vm : VM} {ip : Nat} {r r' : Result VM}
    (h1 : VM.runFrom n vm ip = some r) (h2 : VM.runFrom m vm ip = some r') : r = r' := by
  have e1 := runFrom_mono m h1
  have e2 := runFrom_mono n h2
  rw [Nat.add_comm] at e2
  rw [e1] at e2
  exact Option.some.inj e2

theorem Fault.of_reach {vm vm1 : VM} {ip ip1 : Nat}
    (h1 : Reach vm ip vm1 ip1) (h2 : Fault vm1 ip1) : Fault vm ip := by
  obtain ⟨n, hn⟩ := h1
  obtain ⟨m, hm⟩ := h2
  refine ⟨n + m, ?_⟩
  rw [runFrom_steps m hn]
  exact hm

theorem Fault.of_step_error {vm vm1 : VM} {ip ip1 : Nat} {msg : String}
    (hlt : ip < vm.instructions.length)
    (h : vm.step ip = .error msg (vm1, ip1)) : Fault vm ip :=
  ⟨1, Or.inl ⟨msg, vm1, by simp [VM.runFrom, hlt, h]⟩⟩

theorem Fault.of_step_panic {vm : VM} {ip : Nat}
    (hlt : ip < vm.instructions.length)
    (h : vm.step ip = .panic) : Fault vm ip :=
  ⟨1, Or.inr (by simp [VM.runFrom, hlt, h])⟩

/-- A machine that comes to the end of the stream makes `Run` return it. -/
theorem runFrom_of_reach_end {vm vm1 : VM} {ip ip1 : Nat}
    (h : Reach vm ip vm1 ip1) (hend : vm1.instructions.length ≤ ip1) :
    ∃ n, VM.runFrom n vm ip = some (.ok vm1) := by
  obtain ⟨n, hn⟩ := h
  refine ⟨n + 1, ?_⟩
  rw [runFrom_steps 1 hn]
  simp [VM.runFrom, Nat.not_lt.mpr hend]

theorem not_ok_of_fault {vm : VM} {ip n : Nat} {vm1 : VM}
    (hf : Fault vm ip) : ¬ (VM.runFrom n vm ip = some (.ok vm1)) := by
  intro h
  obtain ⟨m, hm | hm⟩ := hf
  · obtain ⟨msg, vm2, hm⟩ := hm
    cases runFrom_det h hm
  · cases runFrom_det h hm

end vm

namespace vm

open object

/-! ### The cases of the switch of `Run` -/

theorem step_OpConstant (vm : VM) (ip : Nat)
    (hi : vm.instructions[ip]? = some code.OpConstant) :
    vm.step ip = (match vm.operand ip with
      | none => .panic
      | some constIndex =>
        match vm.constants[constIndex]? with
        | none => .panic
        | some o => goOn (ip + 3) (vm.push o)) := by
  rw [VM.step, hi]
  simp only [code.OpConstant, code.OpAdd, code.OpPop, code.OpSub, code.OpMul, code.OpDiv, code.OpTrue, code.OpFalse, code.OpEqual, code.OpNotEqual, code.OpGreaterThan, code.OpMinus, code.OpBang, code.OpJumpNotTruthy, code.OpJump, code.OpNull, code.OpGetGlobal, code.OpSetGlobal, code.OpArray, code.OpHash, code.OpIndex,
    Nat.reduceEqDiff, if_false, if_true, or_self, or_false, false_or, or_true, true_or]

theorem step_OpAdd (vm : VM) (ip : Nat)
    (hi : vm.instructions[ip]? = some code.OpAdd) :
    vm.step ip = goOn (ip + 1) (vm.executeBinaryOperation code.OpAdd) := by
  rw [VM.step, hi]
  simp only [code.OpConstant, code.OpAdd, code.OpPop, code.OpSub, code.OpMul, code.OpDiv, code.OpTrue, code.OpFalse, code.OpEqual, code.OpNotEqual, code.OpGreaterThan, code.OpMinus, code.OpBang, code.OpJumpNotTruthy, code.OpJump, code.OpNull, code.OpGetGlobal, code.OpSetGlobal, code.OpArray, code.OpHash, code.OpIndex,
    Nat.reduceEqDiff, if_false, if_true, or_self, or_false, false_or, or_true, true_or]

theorem step_OpSub (vm : VM) (ip : Nat)
    (hi : vm.instructions[ip]? = some code.OpSub) :
    vm.step ip = goOn (ip + 1) (vm.executeBinaryOperation code.OpSub) := by
  rw [VM.step, hi]
  simp only [code.OpConstant, code.OpAdd, code.OpPop, code.OpSub, code.OpMul, code.OpDiv, code.OpTrue, code.OpFalse, code.OpEqual, code.OpNotEqual, code.OpGreaterThan, code.OpMinus, code.OpBang, code.OpJumpNotTruthy, code.OpJump, code.OpNull, code.OpGetGlobal, code.OpSetGlobal, code.OpArray, code.OpHash, code.OpIndex,
    Nat.reduceEqDiff, if_false, if_true, or_self, or_false, false_or, or_true, true_or]

theorem step_OpMul (vm : VM) (ip : Nat)
    (hi : vm.instructions[ip]? = some code.OpMul) :
    vm.step ip = goOn (ip + 1) (vm.executeBinaryOperation code.OpMul) := by
  rw [VM.step, hi]
  simp only [code.OpConstant, code.OpAdd, code.OpPop, code.OpSub, code.OpMul, code.OpDiv, code.OpTrue, code.OpFalse, code.OpEqual, code.OpNotEqual, code.OpGreaterThan, code.OpMinus, code.OpBang, code.OpJumpNotTruthy, code.OpJump, code.OpNull, code.OpGetGlobal, code.OpSetGlobal, code.OpArray, code.OpHash, code.OpIndex,
    Nat.reduceEqDiff, if_false, if_true, or_self, or_false, false_or, or_true, true_or]

theorem step_OpDiv (vm : VM) (ip : Nat)
    (hi : vm.instructions[ip]? = some code.OpDiv) :
    vm.step ip = goOn (ip + 1) (vm.executeBinaryOperation code.OpDiv) := by
  rw [VM.step, hi]
  simp only [code.OpConstant, code.OpAdd, code.OpPop, code.OpSub, code.OpMul, code.OpDiv, code.OpTrue, code.OpFalse, code.OpEqual, code.OpNotEqual, code.OpGreaterThan, code.OpMinus, code.OpBang, code.OpJumpNotTruthy, code.OpJump, code.OpNull, code.OpGetGlobal, code.OpSetGlobal, code.OpArray, code.OpHash, code.OpIndex,
    Nat.reduceEqDiff, if_false, if_true, or_self, or_false, false_or, or_true, true_or]

theorem step_OpPop (vm : VM) (ip : Nat)
    (hi : vm.instructions[ip]? = some code.OpPop) :
    vm.step ip = (match vm.pop with
      | none => .panic
      | some (_, vm1) => .ok (vm1, ip + 1)) := by
  rw [VM.step, hi]
  simp only [code.OpConstant, code.OpAdd, code.OpPop, code.OpSub, code.OpMul, code.OpDiv, code.OpTrue, code.OpFalse, code.OpEqual, code.OpNotEqual, code.OpGreaterThan, code.OpMinus, code.OpBang, code.OpJumpNotTruthy, code.OpJump, code.OpNull, code.OpGetGlobal, code.OpSetGlobal, code.OpArray, code.OpHash, code.OpIndex,
    Nat.reduceEqDiff, if_false, if_true, or_self, or_false, false_or, or_true, true_or]

theorem step_OpTrue (vm : VM) (ip : Nat)
    (hi : vm.instructions[ip]? = some code.OpTrue) :
    vm.step ip = goOn (ip + 1) (vm.push True) := by
  rw [VM.step, hi]
  simp only [code.OpConstant, code.OpAdd, code.OpPop, code.OpSub, code.OpMul, code.OpDiv, code.OpTrue, code.OpFalse, code.OpEqual, code.OpNotEqual, code.OpGreaterThan, code.OpMinus, code.OpBang, code.OpJumpNotTruthy, code.OpJump, code.OpNull, code.OpGetGlobal, code.OpSetGlobal, code.OpArray, code.OpHash, code.OpIndex,
    Nat.reduceEqDiff, if_false, if_true, or_self, or_false, false_or, or_true, true_or]

theorem step_OpFalse (vm : VM) (ip : Nat)
    (hi : vm.instructions[ip]? = some code.OpFalse) :
    vm.step ip = goOn (ip + 1) (vm.push False) := by
  rw [VM.step, hi]
  simp only [code.OpConstant, code.OpAdd, code.OpPop, code.OpSub, code.OpMul, code.OpDiv, code.OpTrue, code.OpFalse, code.OpEqual, code.OpNotEqual, code.OpGreaterThan, code.OpMinus, code.OpBang, code.OpJumpNotTruthy, code.OpJump, code.OpNull, code.OpGetGlobal, code.OpSetGlobal, code.OpArray, code.OpHash, code.OpIndex,
    Nat.reduceEqDiff, if_false, if_true, or_self, or_false, false_or, or_true, true_or]

theorem step_OpNull (vm : VM) (ip : Nat)
    (hi : vm.instructions[ip]? = some code.OpNull) :
    vm.step ip = goOn (ip + 1) (vm.push Null) := by
  rw [VM.step, hi]
  simp only [code.OpConstant, code.OpAdd, code.OpPop, code.OpSub, code.OpMul, code.OpDiv, code.OpTrue, code.OpFalse, code.OpEqual, code.OpNotEqual, code.OpGreaterThan, code.OpMinus, code.OpBang, code.OpJumpNotTruthy, code.OpJump, code.OpNull, code.OpGetGlobal, code.OpSetGlobal, code.OpArray, code.OpHash, code.OpIndex,
    Nat.reduceEqDiff, if_false, if_true, or_self, or_false, false_or, or_true, true_or]

theorem step_OpEqual (vm : VM) (ip : Nat)
    (hi : vm.instructions[ip]? = some code.OpEqual) :
    vm.step ip = goOn (ip + 1) (vm.executeComparison code.OpEqual) := by
  rw [VM.step, hi]
  simp only [code.OpConstant, code.OpAdd, code.OpPop, code.OpSub, code.OpMul, code.OpDiv, code.OpTrue, code.OpFalse, code.OpEqual, code.OpNotEqual, code.OpGreaterThan, code.OpMinus, code.OpBang, code.OpJumpNotTruthy, code.OpJump, code.OpNull, code.OpGetGlobal, code.OpSetGlobal, code.OpArray, code.OpHash, code.OpIndex,
    Nat.reduceEqDiff, if_false, if_true, or_self, or_false, false_or, or_true, true_or]

theorem step_OpNotEqual (vm : VM) (ip : Nat)
    (hi : vm.instructions[ip]? = some code.OpNotEqual) :
    vm.step ip = goOn (ip + 1) (vm.executeComparison code.OpNotEqual) := by
  rw [VM.step, hi]
  simp only [code.OpConstant, code.OpAdd, code.OpPop, code.OpSub, code.OpMul, code.OpDiv, code.OpTrue, code.OpFalse, code.OpEqual, code.OpNotEqual, code.OpGreaterThan, code.OpMinus, code.OpBang, code.OpJumpNotTruthy, code.OpJump, code.OpNull, code.OpGetGlobal, code.OpSetGlobal, code.OpArray, code.OpHash, code.OpIndex,
    Nat.reduceEqDiff, if_false, if_true, or_self, or_false, false_or, or_true, true_or]

theorem step_OpGreaterThan (vm : VM) (ip : Nat)
    (hi : vm.instructions[ip]? = some code.OpGreaterThan) :
    vm.step ip = goOn (ip + 1) (vm.executeComparison code.OpGreaterThan) := by
  rw [VM.step, hi]
  simp only [code.OpConstant, code.OpAdd, code.OpPop, code.OpSub, code.OpMul, code.OpDiv, code.OpTrue, code.OpFalse, code.OpEqual, code.OpNotEqual, code.OpGreaterThan, code.OpMinus, code.OpBang, code.OpJumpNotTruthy, code.OpJump, code.OpNull, code.OpGetGlobal, code.OpSetGlobal, code.OpArray, code.OpHash, code.OpIndex,
    Nat.reduceEqDiff, if_false, if_true, or_self, or_false, false_or, or_true, true_or]

theorem step_OpBang (vm : VM) (ip : Nat)
    (hi : vm.instructions[ip]? = some code.OpBang) :
    vm.step ip = goOn (ip + 1) vm.executeBangOperator := by
  rw [VM.step, hi]
  simp only [code.OpConstant, code.OpAdd, code.OpPop, code.OpSub, code.OpMul, code.OpDiv, code.OpTrue, code.OpFalse, code.OpEqual, code.OpNotEqual, code.OpGreaterThan, code.OpMinus, code.OpBang, code.OpJumpNotTruthy, code.OpJump, code.OpNull, code.OpGetGlobal, code.OpSetGlobal, code.OpArray, code.OpHash, code.OpIndex,
    Nat.reduceEqDiff, if_false, if_true, or_self, or_false, false_or, or_true, true_or]

theorem step_OpMinus (vm : VM) (ip : Nat)
    (hi : vm.instructions[ip]? = some code.OpMinus) :
    vm.step ip = goOn (ip + 1) vm.executeMinusOperator := by
  rw [VM.step, hi]
  simp only [code.OpConstant, code.OpAdd, code.OpPop, code.OpSub, code.OpMul, code.OpDiv, code.OpTrue, code.OpFalse, code.OpEqual, code.OpNotEqual, code.OpGreaterThan, code.OpMinus, code.OpBang, code.OpJumpNotTruthy, code.OpJump, code.OpNull, code.OpGetGlobal, code.OpSetGlobal, code.OpArray, code.OpHash, code.OpIndex,
    Nat.reduceEqDiff, if_false, if_true, or_self, or_false, false_or, or_true, true_or]

theorem step_OpJump (vm : VM) (ip : Nat)
    (hi : vm.instructions[ip]? = some code.OpJump) :
    vm.step ip = (match vm.operand ip with
      | none => .panic
      | some pos => .ok (vm, pos)) := by
  rw [VM.step, hi]
  simp only [code.OpConstant, code.OpAdd, code.OpPop, code.OpSub, code.OpMul, code.OpDiv, code.OpTrue, code.OpFalse, code.OpEqual, code.OpNotEqual, code.OpGreaterThan, code.OpMinus, code.OpBang, code.OpJumpNotTruthy, code.OpJump, code.OpNull, code.OpGetGlobal, code.OpSetGlobal, code.OpArray, code.OpHash, code.OpIndex,
    Nat.reduceEqDiff, if_false, if_true, or_self, or_false, false_or, or_true, true_or]

theorem step_OpJumpNotTruthy (vm : VM) (ip : Nat)
    (hi : vm.instructions[ip]? = some code.OpJumpNotTruthy) :
    vm.step ip = (match vm.operand ip with
      | none => .panic
      | some pos =>
        match vm.pop with
        | none => .panic
        | some (condition, vm1) =>
          if !isTruthy condition then .ok (vm1, pos) else .ok (vm1, ip + 3)) := by
  rw [VM.step, hi]
  simp only [code.OpConstant, code.OpAdd, code.OpPop, code.OpSub, code.OpMul, code.OpDiv, code.OpTrue, code.OpFalse, code.OpEqual, code.OpNotEqual, code.OpGreaterThan, code.OpMinus, code.OpBang, code.OpJumpNotTruthy, code.OpJump, code.OpNull, code.OpGetGlobal, code.OpSetGlobal, code.OpArray, code.OpHash, code.OpIndex,
    Nat.reduceEqDiff, if_false, if_true, or_self, or_false, false_or, or_true, true_or]

theorem step_OpSetGlobal (vm : VM) (ip : Nat)
    (hi : vm.instructions[ip]? = some code.OpSetGlobal) :
    vm.step ip = (match vm.operand ip with
      | none => .panic
      | some globalIndex =>
        match vm.pop with
        | none => .panic
        | some (o, vm1) =>
          if globalIndex < vm1.globals.length then
            .ok ({ vm1 with globals := vm1.globals.set globalIndex o }, ip + 3)
          else .panic) := by
  rw [VM.step, hi]
  simp only [code.OpConstant, code.OpAdd, code.OpPop, code.OpSub, code.OpMul, code.OpDiv, code.OpTrue, code.OpFalse, code.OpEqual, code.OpNotEqual, code.OpGreaterThan, code.OpMinus, code.OpBang, code.OpJumpNotTruthy, code.OpJump, code.OpNull, code.OpGetGlobal, code.OpSetGlobal, code.OpArray, code.OpHash, code.OpIndex,
    Nat.reduceEqDiff, if_false, if_true, or_self, or_false, false_or, or_true, true_or]

theorem step_OpGetGlobal (vm : VM) (ip : Nat)
    (hi : vm.instructions[ip]? = some code.OpGetGlobal) :
    vm.step ip = (match vm.operand ip with
      | none => .panic
      | some globalIndex =>
        match vm.globals[globalIndex]? with
        | none => .panic
        | some o => goOn (ip + 3) (vm.push o)) := by
  rw [VM.step, hi]
  simp only [code.OpConstant, code.OpAdd, code.OpPop, code.OpSub, code.OpMul, code.OpDiv, code.OpTrue, code.OpFalse, code.OpEqual, code.OpNotEqual, code.OpGreaterThan, code.OpMinus, code.OpBang, code.OpJumpNotTruthy, code.OpJump, code.OpNull, code.OpGetGlobal, code.OpSetGlobal, code.OpArray, code.OpHash, code.OpIndex,
    Nat.reduceEqDiff, if_false, if_true, or_self, or_false, false_or, or_true, true_or]

end vm

namespace vm

open object

/-! ### Instructions in their context -/

theorem ins_at (vm : VM) (pre rest : List Nat) (b : Nat)
    (h : vm.instructions = pre ++ b :: rest) :
    vm.instructions[pre.length]? = some b ∧ pre.length < vm.instructions.length := by
  rw [h]
  constructor
  · rw [List.getElem?_append_right (Nat.le_refl _)]
    simp
  · simp

theorem operand_at (vm : VM) (pre rest : List Nat) (op hi lo : Nat)
    (h : vm.instructions = pre ++ op :: hi :: lo :: rest) :
    vm.operand pre.length = some (hi * 256 + lo) := by
  unfold VM.operand
  rw [h]
  have : (pre ++ op :: hi :: lo :: rest).drop (pre.length + 1) = hi :: lo :: rest := by
    rw [show pre ++ op :: hi :: lo :: rest = (pre ++ [op]) ++ (hi :: lo :: rest) by simp]
    rw [List.drop_left' (by simp)]
  rw [this]
  rfl

theorem u16_decode (k : Nat) : k / 256 % 256 * 256 + k % 256 = k % 65536 := by omega

theorem pushed_of_push (vm : VM) (o : Object) (h1 : vm.sp < StackSize)
    (h2 : vm.sp < vm.stack.length) :
    ∃ vm1, vm.push o = .ok vm1 ∧ Pushed vm vm1 o := by
  refine ⟨_, push_eq vm o h1 h2, rfl, ?_, ?_, ?_, rfl, rfl, rfl, rfl⟩
  · show (vm.stack.set vm.sp o)[vm.sp]? = some o
    rw [List.getElem?_set_self h2]
  · intro i hi
    show (vm.stack.set vm.sp o)[i]? = vm.stack[i]?
    rw [List.getElem?_set_ne (by omega)]
  · show (vm.stack.set vm.sp o).length = vm.stack.length
    simp

/-- OpConstant in its context pushes the constant. -/
theorem exec_OpConstant (vm : VM) (pre post : List Nat) (k : Nat) (o : Object)
    (h : vm.instructions = pre ++ [code.OpConstant, k / 256 % 256, k % 256] ++ post)
    (hk : k < 65536) (hc : vm.constants[k]? = some o)
    (h1 : vm.sp < StackSize) (h2 : vm.sp < vm.stack.length) :
    ∃ vm1, Reach vm pre.length vm1 (pre.length + 3) ∧ Pushed vm vm1 o := by
  have h' : vm.instructions = pre ++ code.OpConstant :: (k / 256 % 256) :: (k % 256) :: post := by
    simpa using h
  obtain ⟨hi, hlt⟩ := ins_at vm pre _ _ h'
  have hop := operand_at vm pre _ _ _ _ h'
  rw [u16_decode, Nat.mod_eq_of_lt hk] at hop
  obtain ⟨vm1, hp, hpushed⟩ := pushed_of_push vm o h1 h2
  refine ⟨vm1, Reach.step hlt ?_, hpushed⟩
  rw [step_OpConstant vm _ hi]
  simp only [hop, hc, hp, goOn]

/-- OpGetGlobal in its context pushes the global. -/
theorem exec_OpGetGlobal (vm : VM) (pre post : List Nat) (k : Nat) (o : Object)
    (h : vm.instructions = pre ++ [code.OpGetGlobal, k / 256 % 256, k % 256] ++ post)
    (hk : k < 65536) (hc : vm.globals[k]? = some o)
    (h1 : vm.sp < StackSize) (h2 : vm.sp < vm.stack.length) :
    ∃ vm1, Reach vm pre.length vm1 (pre.length + 3) ∧ Pushed vm vm1 o := by
  have h' : vm.instructions = pre ++ code.OpGetGlobal :: (k / 256 % 256) :: (k % 256) :: post := by
    simpa using h
  obtain ⟨hi, hlt⟩ := ins_at vm pre _ _ h'
  have hop := operand_at vm pre _ _ _ _ h'
  rw [u16_decode, Nat.mod_eq_of_lt hk] at hop
  obtain ⟨vm1, hp, hpushed⟩ := pushed_of_push vm o h1 h2
  refine ⟨vm1, Reach.step hlt ?_, hpushed⟩
  rw [step_OpGetGlobal vm _ hi]
  simp only [hop, hc, hp, goOn]

/-- The machine after an operator has replaced the topmost two values of `vm0`
pushed one after the other by the value `r`. -/
theorem pushed_binary (vm0 vm1 vm2 : VM) (a b r : Object)
    (p1 : Pushed vm0 vm1 a) (p2 : Pushed vm1 vm2 b) (hsz : vm0.sp < StackSize) :
    VM.pop vm2 = some (b, { vm2 with sp := vm2.sp - 1 })
    ∧ VM.pop { vm2 with sp := vm2.sp - 1 } = some (a, { vm2 with sp := vm2.sp - 2 })
    ∧ ∃ vm3, VM.push { vm2 with sp := vm2.sp - 2 } r = .ok vm3 ∧ Pushed vm0 vm3 r := by
  obtain ⟨s1, t1, f1, l1, g1, c1, i1, e1⟩ := p1
  obtain ⟨s2, t2, f2, l2, g2, c2, i2, e2⟩ := p2
  have hb : vm2.stack[vm2.sp - 1]? = some b := by
    rw [s2, Nat.add_sub_cancel]; exact t2
  have ha : vm2.stack[vm2.sp - 2]? = some a := by
    rw [s2, s1, show vm0.sp + 1 + 1 - 2 = vm0.sp by omega, f2 vm0.sp (by omega)]; exact t1
  have hlen : vm0.sp < vm2.stack.length := by
    rcases Nat.lt_or_ge vm0.sp vm2.stack.length with h | h
    · exact h
    · rw [s2, s1, show vm0.sp + 1 + 1 - 2 = vm0.sp by omega, List.getElem?_eq_none h] at ha
      cases ha
  refine ⟨pop_eq vm2 b (by omega) hb, ?_, ?_⟩
  · have := pop_eq { vm2 with sp := vm2.sp - 1 } a (by show 0 < vm2.sp - 1; omega)
      (by show vm2.stack[vm2.sp - 1 - 1]? = some a; rw [Nat.sub_sub]; exact ha)
    simpa [Nat.sub_sub] using this
  · have hsp : vm2.sp - 2 = vm0.sp := by omega
    rw [hsp]
    obtain ⟨vm3, hp, q⟩ := pushed_of_push { vm2 with sp := vm0.sp } r hsz hlen
    refine ⟨vm3, hp, ?_⟩
    obtain ⟨s3, t3, f3, l3, g3, c3, i3, e3⟩ := q
    refine ⟨s3, t3, ?_, ?_, ?_, ?_, ?_, ?_⟩
    · intro i hi
      rw [f3 i hi]
      show vm2.stack[i]? = vm0.stack[i]?
      rw [f2 i (by omega), f1 i hi]
    · rw [l3]; show vm2.stack.length = _; rw [l2, l1]
    · rw [g3]; show vm2.globals = _; rw [g2, g1]
    · rw [c3]; show vm2.constants = _; rw [c2, c1]
    · rw [i3]; show vm2.instructions = _; rw [i2, i1]
    · rw [e3]; show vm2.heap = _; rw [e2, e1]

end vm

namespace vm

open object

/-- The machine after an operator has replaced the topmost value pushed on
`vm0` by the value `r`. -/
theorem pushed_unary (vm0 vm1 : VM) (a r : Object)
    (p1 : Pushed vm0 vm1 a) (hsz : vm0.sp < StackSize) :
    VM.pop vm1 = some (a, { vm1 with sp := vm1.sp - 1 })
    ∧ ∃ vm2, VM.push { vm1 with sp := vm1.sp - 1 } r = .ok vm2 ∧ Pushed vm0 vm2 r := by
  obtain ⟨s1, t1, f1, l1, g1, c1, i1, e1⟩ := p1
  have ha : vm1.stack[vm1.sp - 1]? = some a := by
    rw [s1, Nat.add_sub_cancel]; exact t1
  have hlen : vm0.sp < vm1.stack.length := by
    rcases Nat.lt_or_ge vm0.sp vm1.stack.length with h | h
    · exact h
    · rw [List.getElem?_eq_none h] at t1
      cases t1
  refine ⟨pop_eq vm1 a (by omega) ha, ?_⟩
  have hsp : vm1.sp - 1 = vm0.sp := by omega
  rw [hsp]
  obtain ⟨vm2, hp, q⟩ := pushed_of_push { vm1 with sp := vm0.sp } r hsz hlen
  refine ⟨vm2, hp, ?_⟩
  obtain ⟨s3, t3, f3, l3, g3, c3, i3, e3⟩ := q
  refine ⟨s3, t3, ?_, ?_, ?_, ?_, ?_, ?_⟩
  · intro i hi
    rw [f3 i hi]
    show vm1.stack[i]? = vm0.stack[i]?
    rw [f1 i hi]
  · rw [l3]; show vm1.stack.length = _; rw [l1]
  · rw [g3]; show vm1.globals = _; rw [g1]
  · rw [c3]; show vm1.constants = _; rw [c1]
  · rw [i3]; show vm1.instructions = _; rw [i1]
  · rw [e3]; show vm1.heap = _; rw [e1]

/-- An arithmetic opcode in its context, on two Integers pushed one after the
other, leaves the Integer result in their place. -/
theorem exec_arith (vm0 vm1 vm2 : VM) (pre post : List Nat) (op : Nat) (a b r : Int)
    (p1 : Pushed vm0 vm1 (.Integer a)) (p2 : Pushed vm1 vm2 (.Integer b))
    (h : vm2.instructions = pre ++ [op] ++ post) (hsz : vm0.sp < StackSize)
    (hop : (op = code.OpAdd ∧ r = wrap64 (a + b)) ∨ (op = code.OpSub ∧ r = wrap64 (a - b))
      ∨ (op = code.OpMul ∧ r = wrap64 (a * b))
      ∨ (op = code.OpDiv ∧ b ≠ 0 ∧ r = wrap64 (Int.tdiv a b))) :
    ∃ vm3, Reach vm2 pre.length vm3 (pre.length + 1) ∧ Pushed vm0 vm3 (.Integer r) := by
  have h' : vm2.instructions = pre ++ op :: post := by simpa using h
  obtain ⟨hi, hlt⟩ := ins_at vm2 pre _ _ h'
  obtain ⟨e1, e2, vm3, hp, q⟩ := pushed_binary vm0 vm1 vm2 _ _ (.Integer r) p1 p2 hsz
  refine ⟨vm3, Reach.step hlt ?_, q⟩
  rcases hop with ⟨rfl, rfl⟩ | ⟨rfl, rfl⟩ | ⟨rfl, rfl⟩ | ⟨rfl, hb, rfl⟩
  · rw [step_OpAdd vm2 _ hi]
    simp only [VM.executeBinaryOperation, e1, e2, Object.Type, VM.executeBinaryIntegerOperation,
      if_true, hp, goOn]
  · rw [step_OpSub vm2 _ hi]
    simp only [VM.executeBinaryOperation, e1, e2, Object.Type, VM.executeBinaryIntegerOperation,
      code.OpSub, code.OpAdd, Nat.reduceEqDiff, if_false, if_true, hp, goOn]
  · rw [step_OpMul vm2 _ hi]
    simp only [VM.executeBinaryOperation, e1, e2, Object.Type, VM.executeBinaryIntegerOperation,
      code.OpSub, code.OpAdd, code.OpMul, Nat.reduceEqDiff, if_false, if_true, hp, goOn]
  · rw [step_OpDiv vm2 _ hi]
    simp only [VM.executeBinaryOperation, e1, e2, Object.Type, VM.executeBinaryIntegerOperation,
      code.OpSub, code.OpAdd, code.OpMul, code.OpDiv, Nat.reduceEqDiff, if_false, if_true, hb,
      hp, goOn]

/-- OpMinus in its context, on an Integer just pushed, leaves its negation. -/
theorem exec_OpMinus (vm0 vm1 : VM) (pre post : List Nat) (a : Int)
    (p1 : Pushed vm0 vm1 (.Integer a))
    (h : vm1.instructions = pre ++ [code.OpMinus] ++ post) (hsz : vm0.sp < StackSize) :
    ∃ vm2, Reach vm1 pre.length vm2 (pre.length + 1)
      ∧ Pushed vm0 vm2 (.Integer (wrap64 (-a))) := by
  have h' : vm1.instructions = pre ++ code.OpMinus :: post := by simpa using h
  obtain ⟨hi, hlt⟩ := ins_at vm1 pre _ _ h'
  obtain ⟨e1, vm2, hp, q⟩ := pushed_unary vm0 vm1 _ (.Integer (wrap64 (-a))) p1 hsz
  refine ⟨vm2, Reach.step hlt ?_, q⟩
  rw [step_OpMinus vm1 _ hi]
  simp only [VM.executeMinusOperator, e1, hp, goOn]

end vm

namespace compiler

open object vm

/-! ### Emission -/

theorem make_OpConstant (k : Nat) :
    code.Make code.OpConstant [k] = [code.OpConstant, k / 256 % 256, k % 256] := rfl

theorem make_OpGetGlobal (k : Nat) :
    code.Make code.OpGetGlobal [k] = [code.OpGetGlobal, k / 256 % 256, k % 256] := rfl

theorem make_OpSetGlobal (k : Nat) :
    code.Make code.OpSetGlobal [k] = [code.OpSetGlobal, k / 256 % 256, k % 256] := rfl

theorem make_OpJump (k : Nat) :
    code.Make code.OpJump [k] = [code.OpJump, k / 256 % 256, k % 256] := rfl

theorem make_OpJumpNotTruthy (k : Nat) :
    code.Make code.OpJumpNotTruthy [k] = [code.OpJumpNotTruthy, k / 256 % 256, k % 256] := rfl

theorem emit_fst (c : Compiler) (op : Nat) (operands : List Nat) :
    (c.emit op operands).1
      = { c with instructions := c.instructions ++ code.Make op operands
                 lastInstruction := { Opcode := op, Position := c.instructions.length }
                 previousInstruction := c.lastInstruction } := rfl

theorem emit_snd (c : Compiler) (op : Nat) (operands : List Nat) :
    (c.emit op operands).2 = c.instructions.length := rfl

end compiler

namespace ast

theorem Expression.stackNeed_pos : ∀ (e : Expression), 1 ≤ e.stackNeed
  | .PrefixExpression _ r => by
    rw [Expression.stackNeed]; exact Expression.stackNeed_pos r
  | .InfixExpression l _ r => by
    rw [Expression.stackNeed]; have := Expression.stackNeed_pos l; omega
  | .IntegerLiteral _ => by simp [Expression.stackNeed]
  | .StringLiteral _ => by simp [Expression.stackNeed]
  | .Boolean _ => by simp [Expression.stackNeed]
  | .Identifier _ => by simp [Expression.stackNeed]
  | .IfExpression _ _ _ => by simp [Expression.stackNeed]
  | .ArrayLiteral _ => by simp [Expression.stackNeed]
  | .HashLiteral _ => by simp [Expression.stackNeed]
  | .IndexExpression _ _ => by simp [Expression.stackNeed]
  | .CallExpression _ _ => by simp [Expression.stackNeed]
  | .FunctionLiteral _ _ => by simp [Expression.stackNeed]

end ast

namespace compiler

open object vm ast

/-! ### The cases of `Compile` -/

theorem compile_IntegerLiteral (c : Compiler) (n : Int) :
    c.CompileExpression (.IntegerLiteral n)
      = .ok ((c.addConstant (.Integer n)).1.emit code.OpConstant [(c.addConstant (.Integer n)).2]).1 :=
  rfl

theorem compile_Boolean (c : Compiler) (b : Bool) :
    c.CompileExpression (.Boolean b)
      = if b then .ok (c.emit code.OpTrue []).1 else .ok (c.emit code.OpFalse []).1 :=
  rfl

theorem compile_Identifier (c : Compiler) (x : String) :
    c.CompileExpression (.Identifier x)
      = match c.symbolTable.Resolve x with
        | none => .error ("undefined variable " ++ x) c
        | some symbol => .ok (c.emit code.OpGetGlobal [symbol.Index]).1 :=
  rfl

theorem compile_PrefixExpression (c : Compiler) (op : String) (r : Expression) :
    c.CompileExpression (.PrefixExpression op r)
      = match c.CompileExpression r with
        | .ok c1 =>
          if op = "!" then .ok (c1.emit code.OpBang []).1
          else if op = "-" then .ok (c1.emit code.OpMinus []).1
          else .error ("unknown operator " ++ op) c1
        | r => r :=
  rfl

theorem compile_InfixExpression_lt (c : Compiler) (l r : Expression) :
    c.CompileExpression (.InfixExpression l "<" r)
      = match c.CompileExpression r with
        | .ok c1 =>
          match c1.CompileExpression l with
          | .ok c2 => .ok (c2.emit code.OpGreaterThan []).1
          | r => r
        | r => r :=
  rfl

theorem compile_InfixExpression (c : Compiler) (l r : Expression) (op : String)
    (hop : op ≠ "<") :
    c.CompileExpression (.InfixExpression l op r)
      = match c.CompileExpression l with
        | .ok c1 =>
          match c1.CompileExpression r with
          | .ok c2 =>
            if op = "+" then .ok (c2.emit code.OpAdd []).1
            else if op = "-" then .ok (c2.emit code.OpSub []).1
            else if op = "*" then .ok (c2.emit code.OpMul []).1
            else if op = "/" then .ok (c2.emit code.OpDiv []).1
            else if op = ">" then .ok (c2.emit code.OpGreaterThan []).1
            else if op = "==" then .ok (c2.emit code.OpEqual []).1
            else if op = "!=" then .ok (c2.emit code.OpNotEqual []).1
            else .error ("unknown operator " ++ op) c2
          | r => r
        | r => r := by
  show (if op = "<" then _ else _) = _
  rw [if_neg hop]

theorem compile_IfExpression (c : Compiler) (condition : Expression)
    (consequence : List Statement) (alternative : Option (List Statement)) :
    c.CompileExpression (.IfExpression condition consequence alternative)
      = match c.CompileExpression condition with
        | .ok c1 =>
          match (c1.emit code.OpJumpNotTruthy [9999]).1.CompileStatements consequence with
          | .ok c2 =>
            match c2.dropLastPop with
            | none => .panic
            | some c3 =>
              match (c3.emit code.OpJump [9999]).1.changeOperand
                  (c1.emit code.OpJumpNotTruthy [9999]).2
                  (c3.emit code.OpJump [9999]).1.instructions.length with
              | none => .panic
              | some c4 =>
                match alternative with
                | none =>
                  match (c4.emit code.OpNull []).1.changeOperand (c3.emit code.OpJump [9999]).2
                      (c4.emit code.OpNull []).1.instructions.length with
                  | none => .panic
                  | some c6 => .ok c6
                | some alt =>
                  match c4.CompileStatements alt with
                  | .ok c5 =>
                    match c5.dropLastPop with
                    | none => .panic
                    | some c6 =>
                      match c6.changeOperand (c3.emit code.OpJump [9999]).2
                          c6.instructions.length with
                      | none => .panic
                      | some c7 => .ok c7
                  | r => r
          | r => r
        | r => r := by
  cases alternative <;> rfl

theorem compile_ExpressionStatement (c : Compiler) (e : Expression) :
    c.CompileStatement (.ExpressionStatement e)
      = match c.CompileExpression e with
        | .ok c1 => .ok (c1.emit code.OpPop []).1
        | r => r :=
  rfl

theorem compile_LetStatement (c : Compiler) (name : String) (value : Expression) :
    c.CompileStatement (.LetStatement name value)
      = match c.CompileExpression value with
        | .ok c1 =>
          .ok (Compiler.emit { c1 with symbolTable := (c1.symbolTable.Define name).2 }
            code.OpSetGlobal [(c1.symbolTable.Define name).1.Index]).1
        | r => r :=
  rfl

theorem compile_nil (c : Compiler) : c.CompileStatements [] = .ok c := rfl

theorem compile_cons (c : Compiler) (s : Statement) (rest : List Statement) :
    c.CompileStatements (s :: rest)
      = match c.CompileStatement s with
        | .ok c1 => c1.CompileStatements rest
        | r => r :=
  rfl

end compiler

namespace compiler

open object vm ast

/-! ### Integer expressions -/

/-- An expression with an integer value compiles without error, adds its
literals to the constant pool and appends code that computes its value. -/
theorem compile_int (env : String → Option Int) :
    ∀ (e : Expression) (c : Compiler) (v : Int),
      e.intValue env = some v →
      (∀ x n, env x = some n → ∃ sym, c.symbolTable.Resolve x = some sym) →
      c.constants.length + e.literals.length ≤ 65536 →
      ∃ c1, c.CompileExpression e = .ok c1
        ∧ c1.constants = c.constants ++ e.literals.map Object.Integer
        ∧ c1.symbolTable = c.symbolTable
        ∧ c1.lastInstruction.Opcode ≠ code.OpPop
        ∧ ∃ code, c1.instructions = c.instructions ++ code
          ∧ ComputesInt code c.constants.length e.literals env c.symbolTable e.stackNeed v
  | .IntegerLiteral n, c, v, hv, _, hk => by
    simp only [Expression.intValue, Option.some.injEq] at hv
    subst hv
    simp only [Expression.literals, List.length_singleton] at hk
    refine ⟨_, compile_IntegerLiteral c n, ?_, rfl, ?_,
      [code.OpConstant, c.constants.length / 256 % 256, c.constants.length % 256], ?_, ?_⟩
    · simp [Compiler.addConstant, emit_fst, Expression.literals]
    · simp only [emit_fst]; decide
    · simp only [Compiler.addConstant, emit_fst, List.length_append, List.length_singleton,
        Nat.add_sub_cancel, make_OpConstant]
    · intro vm pre post hins hconst _ h1 h2
      simp only [Expression.stackNeed] at h1 h2
      have h0 := hconst 0 n (by simp [Expression.literals])
      simp only [Nat.add_zero] at h0
      exact exec_OpConstant vm pre post c.constants.length _ hins (by omega) h0 (by omega)
        (by omega)
  | .Identifier x, c, v, hv, hres, _ => by
    simp only [Expression.intValue] at hv
    obtain ⟨sym, hsym⟩ := hres x v hv
    refine ⟨(c.emit code.OpGetGlobal [sym.Index]).1, by rw [compile_Identifier, hsym], ?_, rfl,
      ?_, [code.OpGetGlobal, sym.Index / 256 % 256, sym.Index % 256], ?_, ?_⟩
    · simp [emit_fst, Expression.literals]
    · simp only [emit_fst]; decide
    · simp only [emit_fst, make_OpGetGlobal]
    · intro vm pre post hins _ hglob h1 h2
      simp only [Expression.stackNeed] at h1 h2
      obtain ⟨sym', hs', hlt, hg⟩ := hglob x v hv
      rw [hsym] at hs'
      cases hs'
      exact exec_OpGetGlobal vm pre post sym.Index _ hins hlt hg (by omega) (by omega)
  | .PrefixExpression op r, c, v, hv, hres, hk => by
    simp only [Expression.intValue] at hv
    cases hr : r.intValue env with
    | none => rw [hr] at hv; cases hv
    | some a =>
      rw [hr] at hv
      simp only at hv
      by_cases hop : op = "-"
      · subst hop
        simp only [if_true, Option.some.injEq] at hv
        subst hv
        simp only [Expression.literals] at hk
        obtain ⟨c1, hc1, hconst, hst, _, code1, hcode1, hrun⟩ := compile_int env r c a hr hres hk
        refine ⟨(c1.emit code.OpMinus []).1, by rw [compile_PrefixExpression, hc1]; rfl,
          ?_, ?_, ?_, code1 ++ [code.OpMinus], ?_, ?_⟩
        · simpa [emit_fst, Expression.literals] using hconst
        · simpa [emit_fst] using hst
        · simp only [emit_fst]; decide
        · show c1.instructions ++ [code.OpMinus] = c.instructions ++ (code1 ++ [code.OpMinus])
          rw [hcode1, List.append_assoc]
        · intro vm pre post hins hconst' hglob h1 h2
          simp only [Expression.stackNeed] at h1 h2
          have hpos := Expression.stackNeed_pos r
          obtain ⟨vm1, hreach1, hp1⟩ := hrun vm pre ([code.OpMinus] ++ post)
            (by rw [hins]; simp) hconst' hglob h1 h2
          obtain ⟨vm2, hreach2, hp2⟩ := exec_OpMinus vm vm1 (pre ++ code1) post a hp1
            (by rw [hp1.2.2.2.2.2.2.1, hins]; simp) (by omega)
          refine ⟨vm2, ?_, hp2⟩
          rw [List.length_append] at hreach2
          rw [List.length_append, List.length_singleton, ← Nat.add_assoc]
          exact Reach.trans hreach1 hreach2
      · rw [if_neg hop] at hv; cases hv
  | .InfixExpression l op r, c, v, hv, hres, hk => by
    simp only [Expression.intValue] at hv
    cases hl : l.intValue env with
    | none => rw [hl] at hv; cases hv
    | some a =>
      cases hr : r.intValue env with
      | none => rw [hl, hr] at hv; cases hv
      | some b =>
        rw [hl, hr] at hv
        simp only at hv
        simp only [Expression.literals, List.length_append] at hk
        obtain ⟨c1, hc1, hconst1, hst1, _, code1, hcode1, hrun1⟩ :=
          compile_int env l c a hl hres (by omega)
        obtain ⟨c2, hc2, hconst2, hst2, _, code2, hcode2, hrun2⟩ :=
          compile_int env r c1 b hr (by rw [hst1]; exact hres)
            (by rw [hconst1]; simp; omega)
        have hops : ∃ opc, (op = "+" ∧ opc = code.OpAdd ∧ v = wrap64 (a + b))
            ∨ (op = "-" ∧ opc = code.OpSub ∧ v = wrap64 (a - b))
            ∨ (op = "*" ∧ opc = code.OpMul ∧ v = wrap64 (a * b))
            ∨ (op = "/" ∧ opc = code.OpDiv ∧ b ≠ 0 ∧ v = wrap64 (Int.tdiv a b)) := by
          by_cases h1 : op = "+"
          · rw [if_pos h1] at hv; exact ⟨_, Or.inl ⟨h1, rfl, (Option.some.inj hv).symm⟩⟩
          rw [if_neg h1] at hv
          by_cases h2 : op = "-"
          · rw [if_pos h2] at hv
            exact ⟨_, Or.inr (Or.inl ⟨h2, rfl, (Option.some.inj hv).symm⟩)⟩
          rw [if_neg h2] at hv
          by_cases h3 : op = "*"
          · rw [if_pos h3] at hv
            exact ⟨_, Or.inr (Or.inr (Or.inl ⟨h3, rfl, (Option.some.inj hv).symm⟩))⟩
          rw [if_neg h3] at hv
          by_cases h4 : op = "/"
          · rw [if_pos h4] at hv
            by_cases hb : b = 0
            · rw [if_pos hb] at hv; cases hv
            · rw [if_neg hb] at hv
              exact ⟨_, Or.inr (Or.inr (Or.inr ⟨h4, rfl, hb, (Option.some.inj hv).symm⟩))⟩
          rw [if_neg h4] at hv
          cases hv
        obtain ⟨opc, hopc⟩ := hops
        have hcomp : c.CompileExpression (.InfixExpression l op r) = .ok (c2.emit opc []).1 := by
          rcases hopc with ⟨rfl, rfl, _⟩ | ⟨rfl, rfl, _⟩ | ⟨rfl, rfl, _⟩ | ⟨rfl, rfl, _⟩ <;>
            (rw [compile_InfixExpression _ _ _ _ (by decide), hc1]; simp only [hc2]; rfl)
        have hmake : code.Make opc [] = [opc] := by
          rcases hopc with ⟨_, rfl, _⟩ | ⟨_, rfl, _⟩ | ⟨_, rfl, _⟩ | ⟨_, rfl, _⟩ <;> rfl
        have hnp : opc ≠ code.OpPop := by
          rcases hopc with ⟨_, rfl, _⟩ | ⟨_, rfl, _⟩ | ⟨_, rfl, _⟩ | ⟨_, rfl, _⟩ <;> decide
        refine ⟨_, hcomp, ?_, ?_, hnp, code1 ++ code2 ++ [opc], ?_, ?_⟩
        · simp [emit_fst, hconst2, hconst1, Expression.literals]
        · simp [emit_fst, hst2, hst1]
        · simp [emit_fst, hmake, hcode2, hcode1]
        · intro vm pre post hins hconst' hglob h1 h2
          simp only [Expression.stackNeed] at h1 h2
          have hposl := Expression.stackNeed_pos l
          have hposr := Expression.stackNeed_pos r
          obtain ⟨vm1, hreach1, hp1⟩ := hrun1 vm pre (code2 ++ [opc] ++ post)
            (by rw [hins]; simp)
            (fun i n hi => hconst' i n (by
              have hlt : i < l.literals.length := by
                rcases Nat.lt_or_ge i l.literals.length with h | h
                · exact h
                · rw [List.getElem?_eq_none h] at hi; cases hi
              rw [Expression.literals, List.getElem?_append_left hlt]; exact hi))
            hglob (by omega) (by omega)
          obtain ⟨s1, t1, f1, l1, g1, k1, i1, e1⟩ := hp1
          obtain ⟨vm2, hreach2, hp2⟩ := hrun2 vm1 (pre ++ code1) ([opc] ++ post)
            (by rw [i1, hins]; simp)
            (fun i n hi => by
              have := hconst' (l.literals.length + i) n (by
                rw [Expression.literals, List.getElem?_append_right (by omega)]
                simpa using hi)
              rw [k1, hconst1, List.length_append, List.length_map, Nat.add_assoc]
              exact this)
            (fun x n hx => by
              obtain ⟨sym, hs, hlt, hg⟩ := hglob x n hx
              exact ⟨sym, by rw [hst1]; exact hs, hlt, by rw [g1]; exact hg⟩)
            (by omega) (by omega)
          have hp1 : Pushed vm vm1 (.Integer a) := ⟨s1, t1, f1, l1, g1, k1, i1, e1⟩
          obtain ⟨vm3, hreach3, hp3⟩ := exec_arith vm vm1 vm2 (pre ++ code1 ++ code2) post opc
            a b v hp1 hp2 (by rw [hp2.2.2.2.2.2.2.1, i1, hins]; simp) (by omega)
            (by
              rcases hopc with ⟨_, rfl, hv'⟩ | ⟨_, rfl, hv'⟩ | ⟨_, rfl, hv'⟩ | ⟨_, rfl, hb, hv'⟩
              · exact Or.inl ⟨rfl, hv'⟩
              · exact Or.inr (Or.inl ⟨rfl, hv'⟩)
              · exact Or.inr (Or.inr (Or.inl ⟨rfl, hv'⟩))
              · exact Or.inr (Or.inr (Or.inr ⟨rfl, hb, hv'⟩)))
          refine ⟨vm3, ?_, hp3⟩
          rw [List.length_append] at hreach2
          rw [List.length_append, List.length_append] at hreach3
          rw [List.length_append, List.length_append, List.length_singleton, ← Nat.add_assoc,
            ← Nat.add_assoc]
          exact Reach.trans hreach1 (Reach.trans hreach2 hreach3)
  | .StringLiteral _, _, _, hv, _, _ => by simp [Expression.intValue] at hv
  | .Boolean _, _, _, hv, _, _ => by simp [Expression.intValue] at hv
  | .IfExpression _ _ _, _, _, hv, _, _ => by simp [Expression.intValue] at hv
  | .ArrayLiteral _, _, _, hv, _, _ => by simp [Expression.intValue] at hv
  | .HashLiteral _, _, _, hv, _, _ => by simp [Expression.intValue] at hv
  | .IndexExpression _ _, _, _, hv, _, _ => by simp [Expression.intValue] at hv
  | .CallExpression _ _, _, _, hv, _, _ => by simp [Expression.intValue] at hv
  | .FunctionLiteral _ _, _, _, hv, _, _ => by simp [Expression.intValue] at hv

end compiler

namespace ast

open vm

theorem Expression.intValue_of_isArith (env : String → Option Int) :
    ∀ (e : Expression), e.isArith = true → e.intValue env = some e.arithValue
  | .IntegerLiteral _, _ => rfl
  | .PrefixExpression op r, h => by
    simp only [Expression.isArith, Bool.and_eq_true, beq_iff_eq] at h
    simp only [Expression.intValue, Expression.intValue_of_isArith env r h.2, h.1, if_true,
      Expression.arithValue]
  | .InfixExpression l op r, h => by
    simp only [Expression.isArith, Bool.and_eq_true, Bool.or_eq_true, beq_iff_eq] at h
    simp only [Expression.intValue, Expression.intValue_of_isArith env l h.1.2,
      Expression.intValue_of_isArith env r h.2, Expression.arithValue]
    rcases h.1.1 with (h1 | h1) | h1 <;> subst h1 <;> simp
  | .StringLiteral _, h => by simp [Expression.isArith] at h
  | .Boolean _, h => by simp [Expression.isArith] at h
  | .Identifier _, h => by simp [Expression.isArith] at h
  | .IfExpression _ _ _, h => by simp [Expression.isArith] at h
  | .ArrayLiteral _, h => by simp [Expression.isArith] at h
  | .HashLiteral _, h => by simp [Expression.isArith] at h
  | .IndexExpression _ _, h => by simp [Expression.isArith] at h
  | .CallExpression _ _, h => by simp [Expression.isArith] at h
  | .FunctionLiteral _ _, h => by simp [Expression.isArith] at h

end ast

namespace vm

open object

/-- OpPop in its context takes the value just pushed off the stack and leaves
it in the slot above the top. -/
theorem exec_OpPop (vm0 vm1 : VM) (pre post : List Nat) (a : Object)
    (p1 : Pushed vm0 vm1 a) (h : vm1.instructions = pre ++ [code.OpPop] ++ post) :
    Reach vm1 pre.length { vm1 with sp := vm0.sp } (pre.length + 1) := by
  have h' : vm1.instructions = pre ++ code.OpPop :: post := by simpa using h
  obtain ⟨hi, hlt⟩ := ins_at vm1 pre _ _ h'
  obtain ⟨s1, t1, _⟩ := p1
  have ha : vm1.stack[vm1.sp - 1]? = some a := by
    rw [s1, Nat.add_sub_cancel]; exact t1
  refine Reach.step hlt ?_
  rw [step_OpPop vm1 _ hi, pop_eq vm1 a (by omega) ha]
  simp only [s1, Nat.add_sub_cancel]

end vm

namespace compiler

open object vm ast

/-- C1: a program that is one expression statement over integer literals with
infix `+`, `-`, `*` and prefix `-`, needing at most 2048 stack slots and at most
65536 constants, compiles without error; `Run` on its bytecode returns no error
and the last popped element is the Integer with the value of the expression
under 64-bit wrapping arithmetic. -/
theorem arith_statement_runs (e : Expression) (harith : e.isArith = true)
    (hneed : e.stackNeed ≤ StackSize) (hlits : e.literals.length ≤ 65536) :
    ∃ c, New.Compile (.Program [.ExpressionStatement e]) = .ok c
      ∧ ∃ fuel vm1, (vm.New c.Bytecode).Run fuel = some (.ok vm1)
        ∧ vm1.LastPoppedStackElem = some (.Integer e.arithValue) := by
  have hv := Expression.intValue_of_isArith (fun _ => none) e harith
  obtain ⟨c1, hc1, hconst, _, _, code1, hcode1, hrun⟩ :=
    compile_int (fun _ => none) e New e.arithValue hv (fun _ _ h => by cases h)
      (by simpa [New] using hlits)
  refine ⟨(c1.emit code.OpPop []).1, ?_, ?_⟩
  · show Compiler.CompileStatements New [.ExpressionStatement e] = _
    rw [compile_cons, compile_ExpressionStatement, hc1]
    rfl
  · have hins : (vm.New (c1.emit code.OpPop []).1.Bytecode).instructions
        = [] ++ code1 ++ [code.OpPop] := by
      show c1.instructions ++ [code.OpPop] = _
      rw [hcode1]; rfl
    obtain ⟨vm1, hreach1, hp1⟩ := hrun (vm.New (c1.emit code.OpPop []).1.Bytecode) []
      [code.OpPop] hins
      (fun i n hi => by
        show c1.constants[New.constants.length + i]? = _
        rw [hconst]
        simp [New, hi])
      (fun _ _ h => by cases h)
      (by simpa [vm.New] using hneed) (by simpa [vm.New] using hneed)
    have hreach2 := exec_OpPop _ vm1 ([] ++ code1) [] _ hp1
      (by rw [hp1.2.2.2.2.2.2.1, hins]; simp)
    rw [List.length_append] at hreach2
    obtain ⟨n, hn⟩ := runFrom_of_reach_end (Reach.trans hreach1 hreach2)
      (by
        show vm1.instructions.length ≤ _
        rw [hp1.2.2.2.2.2.2.1, hins]
        simp)
    exact ⟨n, _, hn, hp1.2.1⟩

end compiler

namespace compiler

open object vm ast

/-- Witness of C1: `(1 + 2) * -3` leaves -9. -/
theorem arith_statement_runs_witness :
    ∃ c, New.Compile (.Program [.ExpressionStatement
        (.InfixExpression (.InfixExpression (.IntegerLiteral 1) "+" (.IntegerLiteral 2)) "*"
          (.PrefixExpression "-" (.IntegerLiteral 3)))]) = .ok c
      ∧ ∃ fuel vm1, (vm.New c.Bytecode).Run fuel = some (.ok vm1)
        ∧ vm1.LastPoppedStackElem = some (.Integer (-9)) :=
  arith_statement_runs
    (.InfixExpression (.InfixExpression (.IntegerLiteral 1) "+" (.IntegerLiteral 2)) "*"
      (.PrefixExpression "-" (.IntegerLiteral 3)))
    (by decide) (by decide) (by decide)

end compiler

namespace vm

open object

/-- OpSetGlobal in its context stores the value just pushed in the global and
takes it off the stack. -/
theorem exec_OpSetGlobal (vm0 vm1 : VM) (pre post : List Nat) (k : Nat) (a : Object)
    (p1 : Pushed vm0 vm1 a)
    (h : vm1.instructions = pre ++ [code.OpSetGlobal, k / 256 % 256, k % 256] ++ post)
    (hk : k < 65536) (hg : k < vm1.globals.length) :
    Reach vm1 pre.length { vm1 with sp := vm0.sp, globals := vm1.globals.set k a }
      (pre.length + 3) := by
  have h' : vm1.instructions = pre ++ code.OpSetGlobal :: (k / 256 % 256) :: (k % 256) :: post := by
    simpa using h
  obtain ⟨hi, hlt⟩ := ins_at vm1 pre _ _ h'
  have hop := operand_at vm1 pre _ _ _ _ h'
  rw [u16_decode, Nat.mod_eq_of_lt hk] at hop
  obtain ⟨s1, t1, _⟩ := p1
  have ha : vm1.stack[vm1.sp - 1]? = some a := by
    rw [s1, Nat.add_sub_cancel]; exact t1
  refine Reach.step hlt ?_
  rw [step_OpSetGlobal vm1 _ hi, pop_eq vm1 a (by omega) ha]
  simp only [hop]
  rw [if_pos (by exact hg)]
  simp only [s1, Nat.add_sub_cancel]

theorem agree_bind (env : String → Option Int) (st : compiler.SymbolTable) (globals : List Object)
    (name : String) (v : Int) (hag : Agree env st globals)
    (hlen : st.numDefinitions < globals.length) :
    Agree (ast.bind env name v) (st.Define name).2
      (globals.set st.numDefinitions (.Integer v)) := by
  intro y n hy
  unfold ast.bind at hy
  by_cases hyn : y = name
  · subst hyn
    rw [if_pos rfl] at hy
    cases hy
    refine ⟨(st.Define y).1, ?_, ?_, ?_⟩
    · simp [compiler.SymbolTable.Resolve, compiler.SymbolTable.Define, List.lookup]
    · simp [compiler.SymbolTable.Define]
    · show (globals.set st.numDefinitions _)[st.numDefinitions]? = _
      rw [List.getElem?_set_self hlen]
  · rw [if_neg hyn] at hy
    obtain ⟨sym, hs, hlt, hg⟩ := hag y n hy
    refine ⟨sym, ?_, ?_, ?_⟩
    · simp only [compiler.SymbolTable.Resolve, compiler.SymbolTable.Define, List.lookup]
      have : (y == name) = false := by simpa using hyn
      rw [this]
      exact hs
    · show sym.Index < st.numDefinitions + 1
      omega
    · rw [List.getElem?_set_ne (by omega)]
      exact hg

end vm

namespace compiler

open object vm ast

/-! ### Let statements -/

/-- A sequence of let statements whose values are defined compiles without
error and appends code that runs them. -/
theorem compile_lets :
    ∀ (lets : List (String × Expression)) (c : Compiler) (env env1 : String → Option Int)
      (rest : List Statement),
      letsEnv env lets = some env1 →
      (∀ x n, env x = some n → ∃ sym, c.symbolTable.Resolve x = some sym) →
      c.constants.length + (letsLiterals lets).length ≤ 65536 →
      c.symbolTable.numDefinitions + lets.length ≤ 65536 →
      (∀ p ∈ lets, p.2.stackNeed ≤ StackSize) →
      ∃ c1 : Compiler, c.CompileStatements (letStatements lets ++ rest) = c1.CompileStatements rest
        ∧ c1.constants = c.constants ++ (letsLiterals lets).map Object.Integer
        ∧ (∀ x n, env1 x = some n → ∃ sym, c1.symbolTable.Resolve x = some sym)
        ∧ ∃ code, c1.instructions = c.instructions ++ code
          ∧ RunsLets code c.constants.length (letsLiterals lets) env env1 c.symbolTable
              c1.symbolTable := by
  intro lets
  induction lets with
  | nil =>
    intro c env env1 rest henv hres _ _ _
    simp only [letsEnv, Option.some.injEq] at henv
    subst henv
    refine ⟨c, rfl, by simp [letsLiterals], hres, [], by simp, ?_⟩
    intro vm pre post _ _ hag _ hsp _
    exact ⟨vm, by simpa using Reach.refl vm pre.length, hsp, hag, rfl, rfl, rfl, rfl⟩
  | cons p lets ih =>
    obtain ⟨name, value⟩ := p
    intro c env env1 rest henv hres hk hd hneed
    simp only [letsEnv] at henv
    cases hv : value.intValue env with
    | none => rw [hv] at henv; cases henv
    | some v =>
      rw [hv] at henv
      simp only at henv
      simp only [letsLiterals, List.length_append, List.length_cons] at hk hd
      obtain ⟨c1, hc1, hconst1, hst1, _, code1, hcode1, hrun1⟩ :=
        compile_int env value c v hv hres (by omega)
      have hres2 : ∀ x n, ast.bind env name v x = some n →
          ∃ sym, (c1.symbolTable.Define name).2.Resolve x = some sym := by
        intro x n hx
        unfold ast.bind at hx
        by_cases hxn : x = name
        · subst hxn
          exact ⟨(c1.symbolTable.Define x).1,
            by simp [SymbolTable.Resolve, SymbolTable.Define, List.lookup]⟩
        · rw [if_neg hxn] at hx
          obtain ⟨sym, hs⟩ := hres x n hx
          refine ⟨sym, ?_⟩
          simp only [SymbolTable.Resolve, SymbolTable.Define, List.lookup]
          have : (x == name) = false := by simpa using hxn
          rw [this, hst1]
          exact hs
      obtain ⟨c2, hc2, hconst2, hres3, code2, hcode2, hrun2⟩ :=
        ih (Compiler.emit { c1 with symbolTable := (c1.symbolTable.Define name).2 }
            code.OpSetGlobal [(c1.symbolTable.Define name).1.Index]).1
          (ast.bind env name v) env1 rest henv hres2
          (by simp only [emit_fst]; rw [hconst1]; simp; omega)
          (by simp only [emit_fst, SymbolTable.Define]; rw [hst1]; omega)
          (fun p hp => hneed p (List.mem_cons_of_mem _ hp))
      refine ⟨c2, ?_, ?_, hres3,
        code1 ++ [code.OpSetGlobal, c.symbolTable.numDefinitions / 256 % 256,
          c.symbolTable.numDefinitions % 256] ++ code2, ?_, ?_⟩
      · rw [← hc2]
        show Compiler.CompileStatements c (Statement.LetStatement name value
          :: (letStatements lets ++ rest)) = _
        rw [compile_cons, compile_LetStatement, hc1]
      · rw [hconst2]
        simp only [emit_fst]
        rw [hconst1]
        simp [letsLiterals]
      · rw [hcode2]
        simp only [emit_fst, make_OpSetGlobal, SymbolTable.Define]
        rw [hcode1, hst1]
        simp
      · intro vm pre post hins hconst hag hglen hsp hslen
        obtain ⟨vm1, hreach1, hp1⟩ := hrun1 vm pre
          ([code.OpSetGlobal, c.symbolTable.numDefinitions / 256 % 256,
            c.symbolTable.numDefinitions % 256] ++ code2 ++ post)
          (by rw [hins]; simp)
          (fun i n hi => hconst i n (by
            have hlt : i < value.literals.length := by
              rcases Nat.lt_or_ge i value.literals.length with h | h
              · exact h
              · rw [List.getElem?_eq_none h] at hi; cases hi
            rw [letsLiterals, List.getElem?_append_left hlt]; exact hi))
          (fun x n hx => by
            obtain ⟨sym, hs, hlt, hg⟩ := hag x n hx
            exact ⟨sym, hs, by omega, hg⟩)
          (by rw [hsp]; simpa using hneed (name, value) (List.mem_cons_self _ _))
          (by rw [hsp]; have := hneed (name, value) (List.mem_cons_self _ _); simp at this ⊢; omega)
        have hp1' := hp1
        obtain ⟨s1, t1, f1, l1, g1, k1, i1, e1⟩ := hp1'
        have hreach2 := exec_OpSetGlobal vm vm1 (pre ++ code1) (code2 ++ post)
          c.symbolTable.numDefinitions _ hp1 (by rw [i1, hins]; simp) (by omega)
          (by rw [g1]; omega)
        rw [List.length_append] at hreach2
        obtain ⟨vm3, hreach3, hsp3, hag3, hgl3, hk3, hi3, hl3⟩ := hrun2
          { vm1 with sp := vm.sp
                     globals := vm1.globals.set c.symbolTable.numDefinitions (.Integer v) }
          (pre ++ code1 ++ [code.OpSetGlobal, c.symbolTable.numDefinitions / 256 % 256,
            c.symbolTable.numDefinitions % 256]) post
          (by show vm1.instructions = _; rw [i1, hins]; simp)
          (fun i n hi => by
            show vm1.constants[_]? = _
            have := hconst (value.literals.length + i) n (by
              rw [letsLiterals, List.getElem?_append_right (by omega)]
              simpa using hi)
            simp only [emit_fst]
            rw [k1, hconst1, List.length_append, List.length_map, Nat.add_assoc]
            exact this)
          (by
            show Agree _ _ (vm1.globals.set c.symbolTable.numDefinitions (.Integer v))
            simp only [emit_fst]
            rw [hst1, g1]
            exact agree_bind env c.symbolTable vm.globals name v hag (by omega))
          (by show 65536 ≤ (vm1.globals.set _ _).length; rw [List.length_set, g1]; exact hglen)
          hsp (by show StackSize ≤ vm1.stack.length; rw [l1]; exact hslen)
        refine ⟨vm3, ?_, hsp3, hag3, ?_, ?_, ?_, ?_⟩
        · have e : pre.length + (code1 ++ [code.OpSetGlobal,
              c.symbolTable.numDefinitions / 256 % 256,
              c.symbolTable.numDefinitions % 256] ++ code2).length
              = (pre ++ code1 ++ [code.OpSetGlobal, c.symbolTable.numDefinitions / 256 % 256,
                c.symbolTable.numDefinitions % 256]).length + code2.length := by
            simp only [List.length_append, List.length_cons, List.length_nil]; omega
          rw [e]
          refine Reach.trans hreach1 (Reach.trans hreach2 ?_)
          have e2 : (pre ++ code1 ++ [code.OpSetGlobal, c.symbolTable.numDefinitions / 256 % 256,
              c.symbolTable.numDefinitions % 256]).length = pre.length + code1.length + 3 := by
            simp only [List.length_append, List.length_cons, List.length_nil]
          rw [e2] at hreach3 ⊢
          exact hreach3
        · rw [hgl3]; show (vm1.globals.set _ _).length = _; rw [List.length_set, g1]
        · rw [hk3]; exact k1
        · rw [hi3]; exact i1
        · rw [hl3]; exact l1

end compiler

namespace compiler

open object vm ast

/-- C3 as amended: a program of let statements over integer literals and bound
names, each value being defined and needing at most 2048 stack slots, with at
most 65536 integer literals and at most 65536 let statements, followed by the
expression statement `x` for a bound name, compiles without error; `Run`
returns no error and the last popped element is the Integer most recently bound
to `x`, each value being computed with the bindings in force before its let. -/
theorem let_program_runs (lets : List (String × Expression)) (x : String)
    (env1 : String → Option Int) (v : Int)
    (henv : letsEnv (fun _ => none) lets = some env1) (hx : env1 x = some v)
    (hneed : ∀ p ∈ lets, p.2.stackNeed ≤ StackSize)
    (hlits : (letsLiterals lets).length ≤ 65536) (hlen : lets.length ≤ 65536) :
    ∃ c, New.Compile (.Program (letStatements lets ++ [.ExpressionStatement (.Identifier x)]))
        = .ok c
      ∧ ∃ fuel vm1, (vm.New c.Bytecode).Run fuel = some (.ok vm1)
        ∧ vm1.LastPoppedStackElem = some (.Integer v) := by
  obtain ⟨c1, hc1, hconst1, hres1, code1, hcode1, hrun1⟩ :=
    compile_lets lets New (fun _ => none) env1 [.ExpressionStatement (.Identifier x)] henv
      (fun _ _ h => by cases h) (by simpa [New] using hlits) (by simpa [New, NewSymbolTable] using hlen)
      hneed
  obtain ⟨sym, hsym⟩ := hres1 x v hx
  have hcomp : New.Compile (.Program (letStatements lets ++ [.ExpressionStatement (.Identifier x)]))
      = .ok ((c1.emit code.OpGetGlobal [sym.Index]).1.emit code.OpPop []).1 := by
    show Compiler.CompileStatements New _ = _
    rw [hc1, compile_cons, compile_ExpressionStatement, compile_Identifier, hsym]
    rfl
  refine ⟨_, hcomp, ?_⟩
  have hins : (vm.New ((c1.emit code.OpGetGlobal [sym.Index]).1.emit code.OpPop []).1.Bytecode).instructions
      = [] ++ code1 ++ ([code.OpGetGlobal, sym.Index / 256 % 256, sym.Index % 256]
          ++ [code.OpPop]) := by
    show (c1.instructions ++ code.Make code.OpGetGlobal [sym.Index]) ++ code.Make code.OpPop [] = _
    rw [hcode1, make_OpGetGlobal]
    show _ ++ [code.OpPop] = _
    simp [New]
  obtain ⟨vm1, hreach1, hsp1, hag1, hgl1, hk1, hi1, hl1⟩ :=
    hrun1 (vm.New ((c1.emit code.OpGetGlobal [sym.Index]).1.emit code.OpPop []).1.Bytecode) []
      ([code.OpGetGlobal, sym.Index / 256 % 256, sym.Index % 256] ++ [code.OpPop]) hins
      (fun i n hi => by
        show c1.constants[New.constants.length + i]? = _
        rw [hconst1]
        simp [New, hi])
      (fun _ _ h => by cases h)
      (by simp [vm.New]) rfl (by simp [vm.New])
  obtain ⟨sym', hs', _, hg⟩ := hag1 x v hx
  rw [hsym] at hs'
  cases hs'
  have hlt : sym.Index < 65536 := by
    have hlen' : vm1.globals.length = 65536 := by rw [hgl1]; simp [vm.New]
    rcases Nat.lt_or_ge sym.Index vm1.globals.length with h | h
    · omega
    · rw [List.getElem?_eq_none h] at hg; cases hg
  obtain ⟨vm2, hreach2, hp2⟩ := exec_OpGetGlobal vm1 ([] ++ code1) [code.OpPop] sym.Index _
    (by rw [hi1, hins]; simp) hlt hg (by rw [hsp1]; decide)
    (by rw [hsp1, hl1]; simp [vm.New])
  have hreach3 := exec_OpPop vm1 vm2
    ([] ++ code1 ++ [code.OpGetGlobal, sym.Index / 256 % 256, sym.Index % 256]) [] _ hp2
    (by rw [hp2.2.2.2.2.2.2.1, hi1, hins]; simp)
  rw [List.length_append] at hreach2
  rw [List.length_append, List.length_append] at hreach3
  obtain ⟨n, hn⟩ := runFrom_of_reach_end (Reach.trans hreach1 (Reach.trans hreach2 hreach3))
    (by
      show vm2.instructions.length ≤ _
      rw [hp2.2.2.2.2.2.2.1, hi1, hins]
      simp)
  refine ⟨n, _, hn, ?_⟩
  show vm2.stack[vm1.sp]? = _
  exact hp2.2.1

/-- Witness of the amended C3: `let one = 1; let two = one + one;
let one = one + two; one` leaves 3. -/
theorem let_program_runs_witness :
    ∃ c, New.Compile (.Program (letStatements
          [("one", .IntegerLiteral 1),
           ("two", .InfixExpression (.Identifier "one") "+" (.Identifier "one")),
           ("one", .InfixExpression (.Identifier "one") "+" (.Identifier "two"))]
          ++ [.ExpressionStatement (.Identifier "one")])) = .ok c
      ∧ ∃ fuel vm1, (vm.New c.Bytecode).Run fuel = some (.ok vm1)
        ∧ vm1.LastPoppedStackElem = some (.Integer 3) :=
  let_program_runs
    [("one", .IntegerLiteral 1),
     ("two", .InfixExpression (.Identifier "one") "+" (.Identifier "one")),
     ("one", .InfixExpression (.Identifier "one") "+" (.Identifier "two"))]
    "one"
    (ast.bind (ast.bind (ast.bind (fun _ => none) "one" 1) "two" 2) "one" 3) 3
    rfl (by decide) (by decide) (by decide) (by decide)

end compiler

namespace compiler

open object vm ast

/-! ### An expression too deep for the stack -/

theorem push_overflow (vm : VM) (o : Object) (h : StackSize ≤ vm.sp) :
    vm.push o = .error "stack overflow" vm := by
  unfold VM.push
  rw [if_pos h]

theorem overflow_OpConstant (vm : VM) (pre post : List Nat) (k : Nat) (o : Object)
    (h : vm.instructions = pre ++ [code.OpConstant, k / 256 % 256, k % 256] ++ post)
    (hk : k < 65536) (hc : vm.constants[k]? = some o) (hsp : StackSize ≤ vm.sp) :
    VM.runFrom 1 vm pre.length = some (.error "stack overflow" vm) := by
  have h' : vm.instructions = pre ++ code.OpConstant :: (k / 256 % 256) :: (k % 256) :: post := by
    simpa using h
  obtain ⟨hi, hlt⟩ := ins_at vm pre _ _ h'
  have hop := operand_at vm pre _ _ _ _ h'
  rw [u16_decode, Nat.mod_eq_of_lt hk] at hop
  simp only [VM.runFrom, if_pos hlt, step_OpConstant vm _ hi, hop, hc, push_overflow vm o hsp,
    goOn]

/-- The expression `deepSum n` compiles without error, and its code ends with
the error "stack overflow" on a machine with fewer than `n + 1` free slots. -/
theorem deepSum_overflows :
    ∀ (n : Nat) (c : Compiler), c.constants.length + (n + 1) ≤ 65536 →
      ∃ c1 code, c.CompileExpression (deepSum n) = .ok c1
        ∧ c1.instructions = c.instructions ++ code
        ∧ c1.symbolTable = c.symbolTable
        ∧ c1.constants = c.constants ++ List.replicate (n + 1) (.Integer 1)
        ∧ ∀ (vm : VM) (pre post : List Nat), vm.instructions = pre ++ code ++ post →
            (∀ i, i < n + 1 → vm.constants[c.constants.length + i]? = some (.Integer 1)) →
            StackSize ≤ vm.stack.length → StackSize < vm.sp + (n + 1) →
            ∃ m vm1, VM.runFrom m vm pre.length = some (.error "stack overflow" vm1) := by
  intro n
  induction n with
  | zero =>
    intro c hk
    refine ⟨_, [code.OpConstant, c.constants.length / 256 % 256, c.constants.length % 256],
      compile_IntegerLiteral c 1, ?_, rfl, ?_, ?_⟩
    · simp only [Compiler.addConstant, emit_fst, List.length_append, List.length_singleton,
        Nat.add_sub_cancel, make_OpConstant]
    · simp [Compiler.addConstant, emit_fst]
    · intro vm pre post hins hconst _ hsp
      exact ⟨1, vm, overflow_OpConstant vm pre post _ _ hins (by omega)
        (by simpa using hconst 0 (by omega)) (by omega)⟩
  | succ n ih =>
    intro c hk
    obtain ⟨c1, code1, hc1, hcode1, hst1, hconst1, hrun1⟩ :=
      ih ((c.addConstant (.Integer 1)).1.emit code.OpConstant [(c.addConstant (.Integer 1)).2]).1
        (by simp [Compiler.addConstant, emit_fst]; omega)
    refine ⟨(c1.emit code.OpAdd []).1,
      [code.OpConstant, c.constants.length / 256 % 256, c.constants.length % 256] ++ code1
        ++ [code.OpAdd], ?_, ?_, ?_, ?_, ?_⟩
    · show Compiler.CompileExpression c (.InfixExpression (.IntegerLiteral 1) "+" (deepSum n)) = _
      rw [compile_InfixExpression _ _ _ _ (by decide), compile_IntegerLiteral]
      simp only [hc1]
      rfl
    · simp only [emit_fst]
      rw [hcode1]
      simp [Compiler.addConstant, emit_fst, make_OpConstant]
      rfl
    · simp only [emit_fst]
      rw [hst1]
      rfl
    · simp only [emit_fst]
      rw [hconst1]
      simp [Compiler.addConstant, emit_fst, List.replicate_succ]
    · intro vm pre post hins hconst hlen hsp
      have h0 := hconst 0 (by omega)
      rw [Nat.add_zero] at h0
      rcases Nat.lt_or_ge vm.sp StackSize with hlt | hge
      · obtain ⟨vm1, hreach1, hp1⟩ := exec_OpConstant vm pre (code1 ++ [code.OpAdd] ++ post)
          c.constants.length _ (by rw [hins]; simp) (by omega) h0 hlt (by omega)
        obtain ⟨s1, _, _, l1, _, k1, i1, _⟩ := hp1
        obtain ⟨m, vm2, hm⟩ := hrun1 vm1
          (pre ++ [code.OpConstant, c.constants.length / 256 % 256, c.constants.length % 256])
          ([code.OpAdd] ++ post) (by rw [i1, hins]; simp)
          (fun i hi => by
            have := hconst (i + 1) (by omega)
            rw [k1]
            simpa [Compiler.addConstant, emit_fst, Nat.add_assoc, Nat.add_comm 1 i] using this)
          (by rw [l1]; exact hlen) (by rw [s1]; omega)
        obtain ⟨j, hj⟩ := hreach1
        refine ⟨j + m, vm2, ?_⟩
        rw [runFrom_steps m hj]
        simpa using hm
      · exact ⟨1, vm, overflow_OpConstant vm pre (code1 ++ [code.OpAdd] ++ post) _ _
          (by rw [hins]; simp) (by omega) h0 hge⟩

theorem wrap64_small (x : Int) (h1 : -9223372036854775808 ≤ x) (h2 : x < 9223372036854775808) :
    wrap64 x = x := by
  unfold wrap64
  have e63 : (2 : Int) ^ 63 = 9223372036854775808 := by norm_num
  have e64 : (2 : Int) ^ 64 = 18446744073709551616 := by norm_num
  rw [e63, e64]
  omega

theorem deepSum_intValue (env : String → Option Int) :
    ∀ n : Nat, n < 4096 → (deepSum n).intValue env = some ((n : Int) + 1) := by
  intro n
  induction n with
  | zero => intro _; rfl
  | succ n ih =>
    intro h
    simp only [deepSum, Expression.intValue, ih (by omega), if_true]
    rw [wrap64_small _ (by omega) (by omega)]
    congr 1
    push_cast
    omega

end compiler

namespace compiler

open object vm ast

/-- Counterexample to C3 as stated: in `let x = 1 + (1 + (... + 1)); x` with
2049 literals the value bound to `x` is 2049, the program compiles without
error, and `Run` returns the error "stack overflow" (so it never returns
without error): nothing is left as last popped. -/
theorem let_program_overflow :
    (letsEnv (fun _ => none) [("x", deepSum 2048)]).map (fun env => env "x") = some (some 2049)
    ∧ ∃ c, New.Compile (.Program (letStatements [("x", deepSum 2048)]
          ++ [.ExpressionStatement (.Identifier "x")])) = .ok c
      ∧ (∃ fuel vm1, (vm.New c.Bytecode).Run fuel = some (.error "stack overflow" vm1))
      ∧ ¬ ∃ fuel vm1, (vm.New c.Bytecode).Run fuel = some (.ok vm1) := by
  constructor
  · simp only [letsEnv, deepSum_intValue (fun _ => none) 2048 (by decide)]
    simp [ast.bind]
  · obtain ⟨c1, code1, hc1, hcode1, hst1, hconst1, hrun1⟩ :=
      deepSum_overflows 2048 New (by decide)
    have hres : (c1.symbolTable.Define "x").2.Resolve "x" = some (c1.symbolTable.Define "x").1 := by
      simp [SymbolTable.Resolve, SymbolTable.Define, List.lookup]
    have hcomp : New.Compile (.Program (letStatements [("x", deepSum 2048)]
          ++ [.ExpressionStatement (.Identifier "x")]))
        = .ok ((Compiler.emit (Compiler.emit { c1 with symbolTable := (c1.symbolTable.Define "x").2 }
            code.OpSetGlobal [(c1.symbolTable.Define "x").1.Index]).1
            code.OpGetGlobal [(c1.symbolTable.Define "x").1.Index]).1.emit code.OpPop []).1 := by
      show Compiler.CompileStatements New [.LetStatement "x" (deepSum 2048),
        .ExpressionStatement (.Identifier "x")] = _
      rw [compile_cons, compile_LetStatement, hc1]
      simp only
      rw [compile_cons, compile_ExpressionStatement, compile_Identifier]
      simp only [emit_fst, hres]
      rfl
    refine ⟨_, hcomp, ?_⟩
    have herr : ∃ fuel vm1, VM.Run fuel (vm.New ((Compiler.emit (Compiler.emit
          { c1 with symbolTable := (c1.symbolTable.Define "x").2 }
          code.OpSetGlobal [(c1.symbolTable.Define "x").1.Index]).1
          code.OpGetGlobal [(c1.symbolTable.Define "x").1.Index]).1.emit code.OpPop []).1.Bytecode)
        = some (.error "stack overflow" vm1) := by
      apply hrun1 _ []
        (code.Make code.OpSetGlobal [(c1.symbolTable.Define "x").1.Index]
          ++ code.Make code.OpGetGlobal [(c1.symbolTable.Define "x").1.Index]
          ++ code.Make code.OpPop [])
      · show ((c1.instructions ++ _) ++ _) ++ _ = _
        rw [hcode1]
        simp [New]
      · intro i hi
        show c1.constants[New.constants.length + i]? = _
        rw [hconst1]
        show ([] ++ List.replicate (2048 + 1) (Object.Integer 1))[0 + i]? = _
        rw [List.nil_append, Nat.zero_add, List.getElem?_replicate, if_pos hi]
      · simp [vm.New]
      · simp [vm.New]
    refine ⟨herr, ?_⟩
    rintro ⟨fuel, vm1, hok⟩
    obtain ⟨fuel', vm2, he⟩ := herr
    cases runFrom_det hok he

end compiler

namespace vm

open object

/-! ### Booleans, comparisons and jumps in their context -/

/-- OpTrue, OpFalse and OpNull in their context push their singleton. -/
theorem exec_singleton (vm : VM) (pre post : List Nat) (op : Nat) (o : Object)
    (h : vm.instructions = pre ++ [op] ++ post)
    (hop : (op = code.OpTrue ∧ o = True) ∨ (op = code.OpFalse ∧ o = False)
      ∨ (op = code.OpNull ∧ o = Null))
    (h1 : vm.sp < StackSize) (h2 : vm.sp < vm.stack.length) :
    ∃ vm1, Reach vm pre.length vm1 (pre.length + 1) ∧ Pushed vm vm1 o := by
  have h' : vm.instructions = pre ++ op :: post := by simpa using h
  obtain ⟨hi, hlt⟩ := ins_at vm pre _ _ h'
  obtain ⟨vm1, hp, hpushed⟩ := pushed_of_push vm o h1 h2
  refine ⟨vm1, Reach.step hlt ?_, hpushed⟩
  rcases hop with ⟨rfl, rfl⟩ | ⟨rfl, rfl⟩ | ⟨rfl, rfl⟩
  · rw [step_OpTrue vm _ hi, hp]; rfl
  · rw [step_OpFalse vm _ hi, hp]; rfl
  · rw [step_OpNull vm _ hi, hp]; rfl

/-- A comparison opcode in its context, on two Integers pushed one after the
other, leaves the canonical Boolean of the comparison in their place. -/
theorem exec_compare (vm0 vm1 vm2 : VM) (pre post : List Nat) (op : Nat) (a b : Int) (r : Bool)
    (p1 : Pushed vm0 vm1 (.Integer a)) (p2 : Pushed vm1 vm2 (.Integer b))
    (h : vm2.instructions = pre ++ [op] ++ post) (hsz : vm0.sp < StackSize)
    (hop : (op = code.OpGreaterThan ∧ r = decide (a > b)) ∨ (op = code.OpEqual ∧ r = (b == a))
      ∨ (op = code.OpNotEqual ∧ r = (b != a))) :
    ∃ vm3, Reach vm2 pre.length vm3 (pre.length + 1)
      ∧ Pushed vm0 vm3 (nativeBoolToBooleanObject r) := by
  have h' : vm2.instructions = pre ++ op :: post := by simpa using h
  obtain ⟨hi, hlt⟩ := ins_at vm2 pre _ _ h'
  obtain ⟨e1, e2, vm3, hp, q⟩ :=
    pushed_binary vm0 vm1 vm2 _ _ (nativeBoolToBooleanObject r) p1 p2 hsz
  refine ⟨vm3, Reach.step hlt ?_, q⟩
  rcases hop with ⟨rfl, rfl⟩ | ⟨rfl, rfl⟩ | ⟨rfl, rfl⟩
  · rw [step_OpGreaterThan vm2 _ hi]
    simp only [VM.executeComparison, e1, e2, VM.executeIntegerComparison, code.OpEqual,
      code.OpNotEqual, code.OpGreaterThan, Nat.reduceEqDiff, if_false, if_true, hp, goOn]
  · rw [step_OpEqual vm2 _ hi]
    simp only [VM.executeComparison, e1, e2, VM.executeIntegerComparison, if_true, hp, goOn]
  · rw [step_OpNotEqual vm2 _ hi]
    simp only [VM.executeComparison, e1, e2, VM.executeIntegerComparison, code.OpEqual,
      code.OpNotEqual, Nat.reduceEqDiff, if_false, if_true, hp, goOn]

/-- OpJumpNotTruthy in its context takes the condition just pushed off the
stack, and goes on behind itself when it is truthy and at its target when not. -/
theorem exec_OpJumpNotTruthy (vm0 vm1 : VM) (pre post : List Nat) (t : Nat) (o : Object)
    (p1 : Pushed vm0 vm1 o)
    (h : vm1.instructions = pre ++ [code.OpJumpNotTruthy, t / 256 % 256, t % 256] ++ post)
    (ht : t < 65536) :
    Reach vm1 pre.length { vm1 with sp := vm0.sp } (if isTruthy o then pre.length + 3 else t) := by
  have h' : vm1.instructions
      = pre ++ code.OpJumpNotTruthy :: (t / 256 % 256) :: (t % 256) :: post := by
    simpa using h
  obtain ⟨hi, hlt⟩ := ins_at vm1 pre _ _ h'
  have hop := operand_at vm1 pre _ _ _ _ h'
  rw [u16_decode, Nat.mod_eq_of_lt ht] at hop
  obtain ⟨s1, t1, _⟩ := p1
  have ha : vm1.stack[vm1.sp - 1]? = some o := by
    rw [s1, Nat.add_sub_cancel]; exact t1
  refine Reach.step hlt ?_
  rw [step_OpJumpNotTruthy vm1 _ hi, pop_eq vm1 o (by omega) ha]
  simp only [hop, s1, Nat.add_sub_cancel]
  cases isTruthy o <;> rfl

/-- OpJump in its context goes on at its target. -/
theorem exec_OpJump (vm : VM) (pre post : List Nat) (t : Nat)
    (h : vm.instructions = pre ++ [code.OpJump, t / 256 % 256, t % 256] ++ post)
    (ht : t < 65536) :
    Reach vm pre.length vm t := by
  have h' : vm.instructions = pre ++ code.OpJump :: (t / 256 % 256) :: (t % 256) :: post := by
    simpa using h
  obtain ⟨hi, hlt⟩ := ins_at vm pre _ _ h'
  have hop := operand_at vm pre _ _ _ _ h'
  rw [u16_decode, Nat.mod_eq_of_lt ht] at hop
  refine Reach.step hlt ?_
  rw [step_OpJump vm _ hi]
  simp only [hop]

end vm

namespace vm

open object

/-! ### Conditionals over integer literals -/

theorem pushed_after_pop (vm0 vm1 : VM) (o : Object) (p : Pushed vm0 vm1 o) :
    ({ vm1 with sp := vm0.sp } : VM).stack.length = vm0.stack.length
    ∧ ({ vm1 with sp := vm0.sp } : VM).constants = vm0.constants
    ∧ ({ vm1 with sp := vm0.sp } : VM).instructions = vm0.instructions :=
  ⟨p.2.2.2.1, p.2.2.2.2.2.1, p.2.2.2.2.2.2.1⟩

/-- The code of `if (c) { a } else { b }` as an expression statement, behind
code of the condition that pushes `o`: the last popped element is `a` when `o`
is truthy and `b` when not. -/
theorem if_else_runs (m0 m1 : VM) (codeC : List Nat) (ka kb : Nat) (a b : Int) (o : Object)
    (hins : m0.instructions = codeC ++
      [code.OpJumpNotTruthy, (codeC.length + 9) / 256 % 256, (codeC.length + 9) % 256,
       code.OpConstant, ka / 256 % 256, ka % 256,
       code.OpJump, (codeC.length + 12) / 256 % 256, (codeC.length + 12) % 256,
       code.OpConstant, kb / 256 % 256, kb % 256, code.OpPop])
    (hreach : Reach m0 0 m1 codeC.length) (hp : Pushed m0 m1 o)
    (hka : m0.constants[ka]? = some (.Integer a)) (hka' : ka < 65536)
    (hkb : m0.constants[kb]? = some (.Integer b)) (hkb' : kb < 65536)
    (hn : codeC.length + 12 < 65536)
    (hsp : m0.sp < StackSize) (hlen : m0.sp < m0.stack.length) :
    ∃ fuel m2, VM.runFrom fuel m0 0 = some (.ok m2)
      ∧ m2.LastPoppedStackElem = some (if isTruthy o then .Integer a else .Integer b) := by
  obtain ⟨l1, k1, i1⟩ := pushed_after_pop m0 m1 o hp
  have hj := exec_OpJumpNotTruthy m0 m1 codeC
    [code.OpConstant, ka / 256 % 256, ka % 256,
     code.OpJump, (codeC.length + 12) / 256 % 256, (codeC.length + 12) % 256,
     code.OpConstant, kb / 256 % 256, kb % 256, code.OpPop] (codeC.length + 9) o hp
    (by rw [hp.2.2.2.2.2.2.1, hins]; simp) (by omega)
  cases ht : isTruthy o with
  | true =>
    rw [ht] at hj
    simp only [if_true] at hj ⊢
    obtain ⟨m2, hr2, hp2⟩ := exec_OpConstant { m1 with sp := m0.sp }
      (codeC ++ [code.OpJumpNotTruthy, (codeC.length + 9) / 256 % 256, (codeC.length + 9) % 256])
      [code.OpJump, (codeC.length + 12) / 256 % 256, (codeC.length + 12) % 256,
       code.OpConstant, kb / 256 % 256, kb % 256, code.OpPop] ka _
      (by rw [i1, hins]; simp) hka' (by rw [k1]; exact hka) hsp (by rw [l1]; exact hlen)
    have hr3 := exec_OpJump m2
      (codeC ++ [code.OpJumpNotTruthy, (codeC.length + 9) / 256 % 256, (codeC.length + 9) % 256,
        code.OpConstant, ka / 256 % 256, ka % 256])
      [code.OpConstant, kb / 256 % 256, kb % 256, code.OpPop] (codeC.length + 12)
      (by rw [hp2.2.2.2.2.2.2.1, i1, hins]; simp) hn
    have hr4 := exec_OpPop { m1 with sp := m0.sp } m2
      (codeC ++ [code.OpJumpNotTruthy, (codeC.length + 9) / 256 % 256, (codeC.length + 9) % 256,
        code.OpConstant, ka / 256 % 256, ka % 256,
        code.OpJump, (codeC.length + 12) / 256 % 256, (codeC.length + 12) % 256,
        code.OpConstant, kb / 256 % 256, kb % 256]) [] _ hp2
      (by rw [hp2.2.2.2.2.2.2.1, i1, hins]; simp)
    simp only [List.length_append, List.length_cons, List.length_nil] at hr2 hr3 hr4
    obtain ⟨n, hn'⟩ := runFrom_of_reach_end
      (Reach.trans hreach (Reach.trans hj (Reach.trans hr2 (Reach.trans hr3 hr4))))
      (by
        show m2.instructions.length ≤ _
        rw [hp2.2.2.2.2.2.2.1, i1, hins]
        simp)
    exact ⟨n, _, hn', hp2.2.1⟩
  | false =>
    rw [ht] at hj
    simp only [Bool.false_eq_true, if_false] at hj ⊢
    obtain ⟨m2, hr2, hp2⟩ := exec_OpConstant { m1 with sp := m0.sp }
      (codeC ++ [code.OpJumpNotTruthy, (codeC.length + 9) / 256 % 256, (codeC.length + 9) % 256,
        code.OpConstant, ka / 256 % 256, ka % 256,
        code.OpJump, (codeC.length + 12) / 256 % 256, (codeC.length + 12) % 256])
      [code.OpPop] kb _
      (by rw [i1, hins]; simp) hkb' (by rw [k1]; exact hkb) hsp (by rw [l1]; exact hlen)
    have hr4 := exec_OpPop { m1 with sp := m0.sp } m2
      (codeC ++ [code.OpJumpNotTruthy, (codeC.length + 9) / 256 % 256, (codeC.length + 9) % 256,
        code.OpConstant, ka / 256 % 256, ka % 256,
        code.OpJump, (codeC.length + 12) / 256 % 256, (codeC.length + 12) % 256,
        code.OpConstant, kb / 256 % 256, kb % 256]) [] _ hp2
      (by rw [hp2.2.2.2.2.2.2.1, i1, hins]; simp)
    simp only [List.length_append, List.length_cons, List.length_nil] at hr2 hr4
    obtain ⟨n, hn'⟩ := runFrom_of_reach_end
      (Reach.trans hreach (Reach.trans hj (Reach.trans hr2 hr4)))
      (by
        show m2.instructions.length ≤ _
        rw [hp2.2.2.2.2.2.2.1, i1, hins]
        simp)
    exact ⟨n, _, hn', hp2.2.1⟩

/-- The code of `if (c) { a }` as an expression statement, behind code of the
condition that pushes `o`: the last popped element is `a` when `o` is truthy
and the canonical Null when not. -/
theorem if_runs (m0 m1 : VM) (codeC : List Nat) (ka : Nat) (a : Int) (o : Object)
    (hins : m0.instructions = codeC ++
      [code.OpJumpNotTruthy, (codeC.length + 9) / 256 % 256, (codeC.length + 9) % 256,
       code.OpConstant, ka / 256 % 256, ka % 256,
       code.OpJump, (codeC.length + 10) / 256 % 256, (codeC.length + 10) % 256,
       code.OpNull, code.OpPop])
    (hreach : Reach m0 0 m1 codeC.length) (hp : Pushed m0 m1 o)
    (hka : m0.constants[ka]? = some (.Integer a)) (hka' : ka < 65536)
    (hn : codeC.length + 10 < 65536)
    (hsp : m0.sp < StackSize) (hlen : m0.sp < m0.stack.length) :
    ∃ fuel m2, VM.runFrom fuel m0 0 = some (.ok m2)
      ∧ m2.LastPoppedStackElem = some (if isTruthy o then .Integer a else Null) := by
  obtain ⟨l1, k1, i1⟩ := pushed_after_pop m0 m1 o hp
  have hj := exec_OpJumpNotTruthy m0 m1 codeC
    [code.OpConstant, ka / 256 % 256, ka % 256,
     code.OpJump, (codeC.length + 10) / 256 % 256, (codeC.length + 10) % 256,
     code.OpNull, code.OpPop] (codeC.length + 9) o hp
    (by rw [hp.2.2.2.2.2.2.1, hins]; simp) (by omega)
  cases ht : isTruthy o with
  | true =>
    rw [ht] at hj
    simp only [if_true] at hj ⊢
    obtain ⟨m2, hr2, hp2⟩ := exec_OpConstant { m1 with sp := m0.sp }
      (codeC ++ [code.OpJumpNotTruthy, (codeC.length + 9) / 256 % 256, (codeC.length + 9) % 256])
      [code.OpJump, (codeC.length + 10) / 256 % 256, (codeC.length + 10) % 256,
       code.OpNull, code.OpPop] ka _
      (by rw [i1, hins]; simp) hka' (by rw [k1]; exact hka) hsp (by rw [l1]; exact hlen)
    have hr3 := exec_OpJump m2
      (codeC ++ [code.OpJumpNotTruthy, (codeC.length + 9) / 256 % 256, (codeC.length + 9) % 256,
        code.OpConstant, ka / 256 % 256, ka % 256])
      [code.OpNull, code.OpPop] (codeC.length + 10)
      (by rw [hp2.2.2.2.2.2.2.1, i1, hins]; simp) hn
    have hr4 := exec_OpPop { m1 with sp := m0.sp } m2
      (codeC ++ [code.OpJumpNotTruthy, (codeC.length + 9) / 256 % 256, (codeC.length + 9) % 256,
        code.OpConstant, ka / 256 % 256, ka % 256,
        code.OpJump, (codeC.length + 10) / 256 % 256, (codeC.length + 10) % 256,
        code.OpNull]) [] _ hp2
      (by rw [hp2.2.2.2.2.2.2.1, i1, hins]; simp)
    simp only [List.length_append, List.length_cons, List.length_nil] at hr2 hr3 hr4
    obtain ⟨n, hn'⟩ := runFrom_of_reach_end
      (Reach.trans hreach (Reach.trans hj (Reach.trans hr2 (Reach.trans hr3 hr4))))
      (by
        show m2.instructions.length ≤ _
        rw [hp2.2.2.2.2.2.2.1, i1, hins]
        simp)
    exact ⟨n, _, hn', hp2.2.1⟩
  | false =>
    rw [ht] at hj
    simp only [Bool.false_eq_true, if_false] at hj ⊢
    obtain ⟨m2, hr2, hp2⟩ := exec_singleton { m1 with sp := m0.sp }
      (codeC ++ [code.OpJumpNotTruthy, (codeC.length + 9) / 256 % 256, (codeC.length + 9) % 256,
        code.OpConstant, ka / 256 % 256, ka % 256,
        code.OpJump, (codeC.length + 10) / 256 % 256, (codeC.length + 10) % 256])
      [code.OpPop] code.OpNull Null
      (by rw [i1, hins]; simp) (Or.inr (Or.inr ⟨rfl, rfl⟩)) hsp (by rw [l1]; exact hlen)
    have hr4 := exec_OpPop { m1 with sp := m0.sp } m2
      (codeC ++ [code.OpJumpNotTruthy, (codeC.length + 9) / 256 % 256, (codeC.length + 9) % 256,
        code.OpConstant, ka / 256 % 256, ka % 256,
        code.OpJump, (codeC.length + 10) / 256 % 256, (codeC.length + 10) % 256,
        code.OpNull]) [] _ hp2
      (by rw [hp2.2.2.2.2.2.2.1, i1, hins]; simp)
    simp only [List.length_append, List.length_cons, List.length_nil] at hr2 hr4
    obtain ⟨n, hn'⟩ := runFrom_of_reach_end
      (Reach.trans hreach (Reach.trans hj (Reach.trans hr2 hr4)))
      (by
        show m2.instructions.length ≤ _
        rw [hp2.2.2.2.2.2.2.1, i1, hins]
        simp)
    exact ⟨n, _, hn', hp2.2.1⟩

end vm

namespace compiler

open object vm ast

/-- The two programs of C2 for one condition, from the code of the condition
and the value it pushes. -/
theorem conditional_case (c : Expression) (a b : Int) (codeC : List Nat) (K : List Object)
    (o : Object) (cmpE cmpN : Compiler)
    (hE : New.Compile (.Program (ifElseProgram c a b)) = .ok cmpE)
    (hEi : cmpE.instructions = codeC ++
      [code.OpJumpNotTruthy, (codeC.length + 9) / 256 % 256, (codeC.length + 9) % 256,
       code.OpConstant, K.length / 256 % 256, K.length % 256,
       code.OpJump, (codeC.length + 12) / 256 % 256, (codeC.length + 12) % 256,
       code.OpConstant, (K.length + 1) / 256 % 256, (K.length + 1) % 256, code.OpPop])
    (hEk : cmpE.constants = K ++ [.Integer a, .Integer b])
    (hN : New.Compile (.Program (ifProgram c a)) = .ok cmpN)
    (hNi : cmpN.instructions = codeC ++
      [code.OpJumpNotTruthy, (codeC.length + 9) / 256 % 256, (codeC.length + 9) % 256,
       code.OpConstant, K.length / 256 % 256, K.length % 256,
       code.OpJump, (codeC.length + 10) / 256 % 256, (codeC.length + 10) % 256,
       code.OpNull, code.OpPop])
    (hNk : cmpN.constants = K ++ [.Integer a])
    (hsmall : codeC.length ≤ 7 ∧ K.length ≤ 2)
    (hrun : ∀ (m0 : VM) (rest : List Nat) (restK : List Object),
      m0.instructions = codeC ++ rest → m0.constants = K ++ restK → m0.sp = 0 →
      m0.stack.length = StackSize → ∃ m1, Reach m0 0 m1 codeC.length ∧ Pushed m0 m1 o)
    (ht : isTruthy o = c.conditionTruthy) :
    (∃ cmp, New.Compile (.Program (ifElseProgram c a b)) = .ok cmp
      ∧ ∃ fuel vm1, (vm.New cmp.Bytecode).Run fuel = some (.ok vm1)
        ∧ vm1.LastPoppedStackElem
          = some (if c.conditionTruthy then Object.Integer a else Object.Integer b))
    ∧ (∃ cmp, New.Compile (.Program (ifProgram c a)) = .ok cmp
      ∧ ∃ fuel vm1, (vm.New cmp.Bytecode).Run fuel = some (.ok vm1)
        ∧ vm1.LastPoppedStackElem = some (if c.conditionTruthy then Object.Integer a else Null)) := by
  rw [← ht]
  constructor
  · refine ⟨cmpE, hE, ?_⟩
    obtain ⟨m1, hr, hp⟩ := hrun (vm.New cmpE.Bytecode) _ _ hEi hEk rfl (by simp [vm.New])
    exact if_else_runs (vm.New cmpE.Bytecode) m1 codeC K.length (K.length + 1) a b o hEi hr hp
      (by show cmpE.constants[K.length]? = _
          rw [hEk, List.getElem?_append_right (Nat.le_refl _)]; simp) (by omega)
      (by show cmpE.constants[K.length + 1]? = _
          rw [hEk, List.getElem?_append_right (by omega)]; simp) (by omega) (by omega)
      (by show 0 < StackSize; decide) (by simp [vm.New])
  · refine ⟨cmpN, hN, ?_⟩
    obtain ⟨m1, hr, hp⟩ := hrun (vm.New cmpN.Bytecode) _ _ hNi hNk rfl (by simp [vm.New])
    exact if_runs (vm.New cmpN.Bytecode) m1 codeC K.length a o hNi hr hp
      (by show cmpN.constants[K.length]? = _
          rw [hNk, List.getElem?_append_right (Nat.le_refl _)]; simp) (by omega) (by omega)
      (by show 0 < StackSize; decide) (by simp [vm.New])

/-- The code of a comparison of two integer literals pushes the canonical
Boolean of the comparison. -/
theorem comparison_runs (m0 : VM) (rest : List Nat) (restK : List Object) (opc : Nat)
    (u w : Int) (r : Bool)
    (hins : m0.instructions = [code.OpConstant, 0, 0, code.OpConstant, 0, 1, opc] ++ rest)
    (hk : m0.constants = [.Integer u, .Integer w] ++ restK)
    (hsp : m0.sp = 0) (hlen : m0.stack.length = StackSize)
    (hop : (opc = code.OpGreaterThan ∧ r = decide (u > w)) ∨ (opc = code.OpEqual ∧ r = (w == u))
      ∨ (opc = code.OpNotEqual ∧ r = (w != u))) :
    ∃ m1, Reach m0 0 m1 [code.OpConstant, 0, 0, code.OpConstant, 0, 1, opc].length
      ∧ Pushed m0 m1 (nativeBoolToBooleanObject r) := by
  obtain ⟨m1, hr1, hp1⟩ := exec_OpConstant m0 [] ([code.OpConstant, 0, 1, opc] ++ rest) 0
    (.Integer u) (by rw [hins]; rfl) (by decide) (by rw [hk]; simp) (by rw [hsp]; decide)
    (by rw [hsp, hlen]; decide)
  obtain ⟨m2, hr2, hp2⟩ := exec_OpConstant m1 [code.OpConstant, 0, 0] ([opc] ++ rest) 1
    (.Integer w) (by rw [hp1.2.2.2.2.2.2.1, hins]; rfl) (by decide)
    (by rw [hp1.2.2.2.2.2.1, hk]; simp) (by rw [hp1.1, hsp]; decide)
    (by rw [hp1.1, hp1.2.2.2.1, hsp, hlen]; decide)
  obtain ⟨m3, hr3, hp3⟩ := exec_compare m0 m1 m2 [code.OpConstant, 0, 0, code.OpConstant, 0, 1]
    rest opc u w r hp1 hp2 (by rw [hp2.2.2.2.2.2.2.1, hp1.2.2.2.2.2.2.1, hins]; rfl)
    (by rw [hsp]; decide) hop
  exact ⟨m3, Reach.trans hr1 (Reach.trans hr2 hr3), hp3⟩

end compiler

namespace compiler

open object vm ast

/-! ### Removing the last OpPop and patching an operand -/

theorem dropLastPop_of_pop (c : Compiler) (X : List Nat)
    (hl : c.lastInstruction = { Opcode := code.OpPop, Position := X.length })
    (hi : c.instructions = X ++ [code.OpPop]) :
    c.dropLastPop
      = some { c with instructions := X, lastInstruction := c.previousInstruction } := by
  unfold Compiler.dropLastPop Compiler.lastInstructionsIsPop Compiler.removeLastPop
  rw [hl, hi]
  simp

theorem dropLastPop_of_ne (c : Compiler) (hl : c.lastInstruction.Opcode ≠ code.OpPop) :
    c.dropLastPop = some c := by
  unfold Compiler.dropLastPop Compiler.lastInstructionsIsPop
  have : (c.lastInstruction.Opcode == code.OpPop) = false := by simpa using hl
  rw [this]
  rfl

theorem replaceBytes_at (A B : List Nat) :
    ∀ (old new : List Nat), old.length = new.length →
      replaceBytes (A ++ old ++ B) A.length new = some (A ++ new ++ B) := by
  intro old new
  induction new generalizing A old with
  | nil =>
    intro h
    have : old = [] := List.length_eq_zero.mp h
    subst this
    rfl
  | cons b rest ih =>
    intro h
    cases old with
    | nil => cases h
    | cons a old' =>
      simp only [List.length_cons, Nat.add_right_cancel_iff] at h
      unfold replaceBytes
      rw [if_pos (by simp)]
      have e1 : (A ++ a :: old' ++ B).set A.length b = (A ++ [b]) ++ old' ++ B := by
        rw [List.append_assoc, List.set_append_right _ _ (Nat.le_refl _)]
        simp
      rw [e1]
      have := ih (A ++ [b]) old' h
      simp only [List.length_append, List.length_singleton] at this
      rw [this]
      simp

theorem changeOperand_at (c : Compiler) (A B : List Nat) (op x y t : Nat)
    (hi : c.instructions = A ++ op :: x :: y :: B)
    (hw : code.operandWidths op = some [2]) :
    c.changeOperand A.length t
      = some { c with instructions := A ++ op :: (t / 256 % 256) :: (t % 256) :: B } := by
  unfold Compiler.changeOperand
  have hget : c.instructions[A.length]? = some op := by
    rw [hi, List.getElem?_append_right (Nat.le_refl _)]
    simp
  rw [hget]
  have hmake : code.Make op [t] = [op, t / 256 % 256, t % 256] := by
    unfold code.Make
    rw [hw]
    rfl
  simp only [hmake, Compiler.replaceInstruction]
  have := replaceBytes_at A B [op, x, y] [op, t / 256 % 256, t % 256] rfl
  rw [hi]
  simp only [List.append_assoc, List.cons_append, List.nil_append] at this
  rw [this]

end compiler

namespace compiler

open object vm ast

/-- A block that is one integer literal, with its OpPop removed. -/
theorem compile_literal_block (s : Compiler) (a : Int) :
    ∃ s2 s3, s.CompileStatements [.ExpressionStatement (.IntegerLiteral a)] = .ok s2
      ∧ s2.dropLastPop = some s3
      ∧ s3.instructions = s.instructions
          ++ [code.OpConstant, s.constants.length / 256 % 256, s.constants.length % 256]
      ∧ s3.constants = s.constants ++ [.Integer a] := by
  refine ⟨_, _, by rw [compile_cons, compile_ExpressionStatement, compile_IntegerLiteral]; rfl,
    dropLastPop_of_pop _ (s.instructions
      ++ [code.OpConstant, s.constants.length / 256 % 256, s.constants.length % 256]) ?_ ?_,
    rfl, rfl⟩
  · simp [emit_fst, Compiler.addConstant, make_OpConstant]
  · simp [emit_fst, Compiler.addConstant, make_OpConstant]
    rfl

/-- The code of `if (c) { a } else { b }` behind the code of the condition. -/
theorem compile_if_else_literals (c0 c1 : Compiler) (cond : Expression) (a b : Int)
    (h : c0.CompileExpression cond = .ok c1) :
    ∃ c2, c0.CompileExpression (.IfExpression cond [.ExpressionStatement (.IntegerLiteral a)]
          (some [.ExpressionStatement (.IntegerLiteral b)])) = .ok c2
      ∧ c2.instructions = c1.instructions ++
        [code.OpJumpNotTruthy, (c1.instructions.length + 9) / 256 % 256,
         (c1.instructions.length + 9) % 256,
         code.OpConstant, c1.constants.length / 256 % 256, c1.constants.length % 256,
         code.OpJump, (c1.instructions.length + 12) / 256 % 256,
         (c1.instructions.length + 12) % 256,
         code.OpConstant, (c1.constants.length + 1) / 256 % 256, (c1.constants.length + 1) % 256]
      ∧ c2.constants = c1.constants ++ [.Integer a, .Integer b] := by
  obtain ⟨s2, s3, hs2, hs3, hi3, hk3⟩ :=
    compile_literal_block (c1.emit code.OpJumpNotTruthy [9999]).1 a
  have hi3' : s3.instructions = c1.instructions ++ code.OpJumpNotTruthy :: 39 :: 15 ::
      [code.OpConstant, c1.constants.length / 256 % 256, c1.constants.length % 256] := by
    rw [hi3]; simp [emit_fst, make_OpJumpNotTruthy]
  have hp1 := changeOperand_at (s3.emit code.OpJump [9999]).1 c1.instructions
    ([code.OpConstant, c1.constants.length / 256 % 256, c1.constants.length % 256]
      ++ [code.OpJump, 39, 15]) code.OpJumpNotTruthy 39 15
    (s3.emit code.OpJump [9999]).1.instructions.length
    (by simp only [emit_fst, make_OpJump]; rw [hi3']; simp) rfl
  obtain ⟨s6, s7, hs6, hs7, hi7, hk7⟩ := compile_literal_block
    { (s3.emit code.OpJump [9999]).1 with
      instructions := c1.instructions ++ code.OpJumpNotTruthy
        :: ((s3.emit code.OpJump [9999]).1.instructions.length / 256 % 256)
        :: ((s3.emit code.OpJump [9999]).1.instructions.length % 256)
        :: ([code.OpConstant, c1.constants.length / 256 % 256, c1.constants.length % 256]
          ++ [code.OpJump, 39, 15]) } b
  have hlen : (s3.emit code.OpJump [9999]).1.instructions.length = c1.instructions.length + 9 := by
    simp only [emit_fst, make_OpJump]; rw [hi3']; simp
  have hp2 := changeOperand_at s7
    (c1.instructions ++ [code.OpJumpNotTruthy, (c1.instructions.length + 9) / 256 % 256,
      (c1.instructions.length + 9) % 256,
      code.OpConstant, c1.constants.length / 256 % 256, c1.constants.length % 256])
    [code.OpConstant, (c1.constants.length + 1) / 256 % 256, (c1.constants.length + 1) % 256]
    code.OpJump 39 15 s7.instructions.length
    (by rw [hi7, hlen]; simp [emit_fst, hk3]) rfl
  have hlen7 : s7.instructions.length = c1.instructions.length + 12 := by
    rw [hi7, hlen]; simp
  have hpos : (c1.instructions ++ [code.OpJumpNotTruthy, (c1.instructions.length + 9) / 256 % 256,
      (c1.instructions.length + 9) % 256,
      code.OpConstant, c1.constants.length / 256 % 256, c1.constants.length % 256]).length
      = (s3.emit code.OpJump [9999]).2 := by
    rw [emit_snd, hi3']; simp
  rw [hpos] at hp2
  rw [emit_snd] at hp2
  have hfinal : c0.CompileExpression (.IfExpression cond
      [.ExpressionStatement (.IntegerLiteral a)]
      (some [.ExpressionStatement (.IntegerLiteral b)])) = .ok { s7 with
        instructions := (c1.instructions ++ [code.OpJumpNotTruthy,
            (c1.instructions.length + 9) / 256 % 256, (c1.instructions.length + 9) % 256,
            code.OpConstant, c1.constants.length / 256 % 256, c1.constants.length % 256])
          ++ code.OpJump :: (s7.instructions.length / 256 % 256)
          :: (s7.instructions.length % 256)
          :: [code.OpConstant, (c1.constants.length + 1) / 256 % 256,
            (c1.constants.length + 1) % 256] } := by
    rw [compile_IfExpression, h]
    simp only [hs2, hs3, emit_snd, hp1, hs6, hs7]
    rw [hp2]
  refine ⟨_, hfinal, ?_, ?_⟩
  · simp [hlen7]
  · show s7.constants = _
    rw [hk7]
    simp [emit_fst, hk3]

end compiler

namespace compiler

open object vm ast

/-- The code of `if (c) { a }` behind the code of the condition. -/
theorem compile_if_literal (c0 c1 : Compiler) (cond : Expression) (a : Int)
    (h : c0.CompileExpression cond = .ok c1) :
    ∃ c2, c0.CompileExpression (.IfExpression cond [.ExpressionStatement (.IntegerLiteral a)]
          none) = .ok c2
      ∧ c2.instructions = c1.instructions ++
        [code.OpJumpNotTruthy, (c1.instructions.length + 9) / 256 % 256,
         (c1.instructions.length + 9) % 256,
         code.OpConstant, c1.constants.length / 256 % 256, c1.constants.length % 256,
         code.OpJump, (c1.instructions.length + 10) / 256 % 256,
         (c1.instructions.length + 10) % 256, code.OpNull]
      ∧ c2.constants = c1.constants ++ [.Integer a] := by
  obtain ⟨s2, s3, hs2, hs3, hi3, hk3⟩ :=
    compile_literal_block (c1.emit code.OpJumpNotTruthy [9999]).1 a
  have hi3' : s3.instructions = c1.instructions ++ code.OpJumpNotTruthy :: 39 :: 15 ::
      [code.OpConstant, c1.constants.length / 256 % 256, c1.constants.length % 256] := by
    rw [hi3]; simp [emit_fst, make_OpJumpNotTruthy]
  have hp1 := changeOperand_at (s3.emit code.OpJump [9999]).1 c1.instructions
    ([code.OpConstant, c1.constants.length / 256 % 256, c1.constants.length % 256]
      ++ [code.OpJump, 39, 15]) code.OpJumpNotTruthy 39 15
    (s3.emit code.OpJump [9999]).1.instructions.length
    (by simp only [emit_fst, make_OpJump]; rw [hi3']; simp) rfl
  have hlen : (s3.emit code.OpJump [9999]).1.instructions.length = c1.instructions.length + 9 := by
    simp only [emit_fst, make_OpJump]; rw [hi3']; simp
  rw [hlen] at hp1
  have hp2 := changeOperand_at
    (Compiler.emit { (s3.emit code.OpJump [9999]).1 with
      instructions := c1.instructions ++ code.OpJumpNotTruthy
        :: ((c1.instructions.length + 9) / 256 % 256) :: ((c1.instructions.length + 9) % 256)
        :: ([code.OpConstant, c1.constants.length / 256 % 256, c1.constants.length % 256]
          ++ [code.OpJump, 39, 15]) } code.OpNull []).1
    (c1.instructions ++ [code.OpJumpNotTruthy, (c1.instructions.length + 9) / 256 % 256,
      (c1.instructions.length + 9) % 256,
      code.OpConstant, c1.constants.length / 256 % 256, c1.constants.length % 256])
    [code.OpNull] code.OpJump 39 15 (c1.instructions.length + 10)
    (by simp [emit_fst]; rfl) rfl
  have hpos : (c1.instructions ++ [code.OpJumpNotTruthy, (c1.instructions.length + 9) / 256 % 256,
      (c1.instructions.length + 9) % 256,
      code.OpConstant, c1.constants.length / 256 % 256, c1.constants.length % 256]).length
      = s3.instructions.length := by
    rw [hi3']; simp
  rw [hpos] at hp2
  have hlen5 : (Compiler.emit { (s3.emit code.OpJump [9999]).1 with
      instructions := c1.instructions ++ code.OpJumpNotTruthy
        :: ((c1.instructions.length + 9) / 256 % 256) :: ((c1.instructions.length + 9) % 256)
        :: ([code.OpConstant, c1.constants.length / 256 % 256, c1.constants.length % 256]
          ++ [code.OpJump, 39, 15]) } code.OpNull []).1.instructions.length
      = c1.instructions.length + 10 := by
    simp [emit_fst]
    rfl
  have hfinal : c0.CompileExpression (.IfExpression cond
      [.ExpressionStatement (.IntegerLiteral a)] none) = .ok
      { (Compiler.emit { (s3.emit code.OpJump [9999]).1 with
          instructions := c1.instructions ++ code.OpJumpNotTruthy
            :: ((c1.instructions.length + 9) / 256 % 256)
            :: ((c1.instructions.length + 9) % 256)
            :: ([code.OpConstant, c1.constants.length / 256 % 256, c1.constants.length % 256]
              ++ [code.OpJump, 39, 15]) } code.OpNull []).1 with
        instructions := (c1.instructions ++ [code.OpJumpNotTruthy,
            (c1.instructions.length + 9) / 256 % 256, (c1.instructions.length + 9) % 256,
            code.OpConstant, c1.constants.length / 256 % 256, c1.constants.length % 256])
          ++ code.OpJump :: ((c1.instructions.length + 10) / 256 % 256)
          :: ((c1.instructions.length + 10) % 256) :: [code.OpNull] } := by
    rw [compile_IfExpression, h]
    simp only [hs2, hs3, emit_snd, hlen, hp1, hlen5, hp2]
  refine ⟨_, hfinal, ?_, ?_⟩
  · simp
  · show s3.constants = _
    rw [hk3]
    simp [emit_fst]

end compiler

namespace compiler

theorem make_simple (op : Nat) (h : code.operandWidths op = some []) : code.Make op [] = [op] := by
  unfold code.Make
  rw [h]
  rfl

end compiler

namespace compiler

open object vm ast

/-- The two programs of C2 for one condition, from the compilation of the
condition and the value its code pushes. -/
theorem conditional_of_cond (c : Expression) (a b : Int) (codeC : List Nat) (K : List Object)
    (o : Object) (c1 : Compiler)
    (hc1 : New.CompileExpression c = .ok c1)
    (hi : c1.instructions = codeC) (hk : c1.constants = K)
    (hsmall : codeC.length ≤ 7 ∧ K.length ≤ 2)
    (hrun : ∀ (m0 : VM) (rest : List Nat) (restK : List Object),
      m0.instructions = codeC ++ rest → m0.constants = K ++ restK → m0.sp = 0 →
      m0.stack.length = StackSize → ∃ m1, Reach m0 0 m1 codeC.length ∧ Pushed m0 m1 o)
    (ht : isTruthy o = c.conditionTruthy) :
    (∃ cmp, New.Compile (.Program (ifElseProgram c a b)) = .ok cmp
      ∧ ∃ fuel vm1, (vm.New cmp.Bytecode).Run fuel = some (.ok vm1)
        ∧ vm1.LastPoppedStackElem
          = some (if c.conditionTruthy then Object.Integer a else Object.Integer b))
    ∧ (∃ cmp, New.Compile (.Program (ifProgram c a)) = .ok cmp
      ∧ ∃ fuel vm1, (vm.New cmp.Bytecode).Run fuel = some (.ok vm1)
        ∧ vm1.LastPoppedStackElem = some (if c.conditionTruthy then Object.Integer a else Null)) := by
  obtain ⟨cE, hE, hEi, hEk⟩ := compile_if_else_literals New c1 c a b hc1
  obtain ⟨cN, hN, hNi, hNk⟩ := compile_if_literal New c1 c a hc1
  subst hi hk
  refine conditional_case c a b c1.instructions c1.constants o (cE.emit code.OpPop []).1
    (cN.emit code.OpPop []).1 ?_ ?_ hEk ?_ ?_ hNk hsmall hrun ht
  · show Compiler.CompileStatements New _ = _
    rw [ifElseProgram, compile_cons, compile_ExpressionStatement, hE]
    rfl
  · show cE.instructions ++ [code.OpPop] = _
    rw [hEi]; simp
  · show Compiler.CompileStatements New _ = _
    rw [ifProgram, compile_cons, compile_ExpressionStatement, hN]
    rfl
  · show cN.instructions ++ [code.OpPop] = _
    rw [hNi]; simp

theorem conditional_compare (x y a b : Int) (op : String)
    (hop : op = "<" ∨ op = ">" ∨ op = "==" ∨ op = "!=") :
    (∃ cmp, New.Compile (.Program (ifElseProgram
        (.InfixExpression (.IntegerLiteral x) op (.IntegerLiteral y)) a b)) = .ok cmp
      ∧ ∃ fuel vm1, (vm.New cmp.Bytecode).Run fuel = some (.ok vm1)
        ∧ vm1.LastPoppedStackElem
          = some (if (Expression.InfixExpression (.IntegerLiteral x) op
              (.IntegerLiteral y)).conditionTruthy then Object.Integer a else Object.Integer b))
    ∧ (∃ cmp, New.Compile (.Program (ifProgram
        (.InfixExpression (.IntegerLiteral x) op (.IntegerLiteral y)) a)) = .ok cmp
      ∧ ∃ fuel vm1, (vm.New cmp.Bytecode).Run fuel = some (.ok vm1)
        ∧ vm1.LastPoppedStackElem
          = some (if (Expression.InfixExpression (.IntegerLiteral x) op
              (.IntegerLiteral y)).conditionTruthy then Object.Integer a else Null)) := by
  rcases hop with rfl | rfl | rfl | rfl
  · exact conditional_of_cond _ a b
      [code.OpConstant, 0, 0, code.OpConstant, 0, 1, code.OpGreaterThan]
      [.Integer y, .Integer x] (nativeBoolToBooleanObject (decide (y > x))) _
      rfl (by simp [emit_fst, Compiler.addConstant, New, make_OpConstant, make_simple code.OpTrue rfl,
          make_simple code.OpFalse rfl, make_simple code.OpGreaterThan rfl,
          make_simple code.OpEqual rfl, make_simple code.OpNotEqual rfl])
        (by simp [emit_fst, Compiler.addConstant, New, make_OpConstant, make_simple code.OpTrue rfl,
          make_simple code.OpFalse rfl, make_simple code.OpGreaterThan rfl,
          make_simple code.OpEqual rfl, make_simple code.OpNotEqual rfl]) (by constructor <;> simp)
      (fun m0 rest restK hi hk hsp hlen =>
        comparison_runs m0 rest restK _ y x _ hi hk hsp hlen (Or.inl ⟨rfl, rfl⟩))
      (by simp only [Expression.conditionTruthy, nativeBoolToBooleanObject, if_true]
          by_cases h : x < y <;> simp [h, isTruthy])
  · exact conditional_of_cond _ a b
      [code.OpConstant, 0, 0, code.OpConstant, 0, 1, code.OpGreaterThan]
      [.Integer x, .Integer y] (nativeBoolToBooleanObject (decide (x > y))) _
      rfl (by simp [emit_fst, Compiler.addConstant, New, make_OpConstant, make_simple code.OpTrue rfl,
          make_simple code.OpFalse rfl, make_simple code.OpGreaterThan rfl,
          make_simple code.OpEqual rfl, make_simple code.OpNotEqual rfl])
        (by simp [emit_fst, Compiler.addConstant, New, make_OpConstant, make_simple code.OpTrue rfl,
          make_simple code.OpFalse rfl, make_simple code.OpGreaterThan rfl,
          make_simple code.OpEqual rfl, make_simple code.OpNotEqual rfl]) (by constructor <;> simp)
      (fun m0 rest restK hi hk hsp hlen =>
        comparison_runs m0 rest restK _ x y _ hi hk hsp hlen (Or.inl ⟨rfl, rfl⟩))
      (by simp only [Expression.conditionTruthy, nativeBoolToBooleanObject]
          by_cases h : x > y <;> simp [h, isTruthy])
  · exact conditional_of_cond _ a b
      [code.OpConstant, 0, 0, code.OpConstant, 0, 1, code.OpEqual]
      [.Integer x, .Integer y] (nativeBoolToBooleanObject (y == x)) _
      rfl (by simp [emit_fst, Compiler.addConstant, New, make_OpConstant, make_simple code.OpTrue rfl,
          make_simple code.OpFalse rfl, make_simple code.OpGreaterThan rfl,
          make_simple code.OpEqual rfl, make_simple code.OpNotEqual rfl])
        (by simp [emit_fst, Compiler.addConstant, New, make_OpConstant, make_simple code.OpTrue rfl,
          make_simple code.OpFalse rfl, make_simple code.OpGreaterThan rfl,
          make_simple code.OpEqual rfl, make_simple code.OpNotEqual rfl]) (by constructor <;> simp)
      (fun m0 rest restK hi hk hsp hlen =>
        comparison_runs m0 rest restK _ x y _ hi hk hsp hlen (Or.inr (Or.inl ⟨rfl, rfl⟩)))
      (by simp only [Expression.conditionTruthy, nativeBoolToBooleanObject]
          by_cases h : x = y
          · simp [h, isTruthy]
          · have h' : ¬ y = x := fun e => h e.symm
            simp [h, h', isTruthy])
  · exact conditional_of_cond _ a b
      [code.OpConstant, 0, 0, code.OpConstant, 0, 1, code.OpNotEqual]
      [.Integer x, .Integer y] (nativeBoolToBooleanObject (y != x)) _
      rfl (by simp [emit_fst, Compiler.addConstant, New, make_OpConstant, make_simple code.OpTrue rfl,
          make_simple code.OpFalse rfl, make_simple code.OpGreaterThan rfl,
          make_simple code.OpEqual rfl, make_simple code.OpNotEqual rfl])
        (by simp [emit_fst, Compiler.addConstant, New, make_OpConstant, make_simple code.OpTrue rfl,
          make_simple code.OpFalse rfl, make_simple code.OpGreaterThan rfl,
          make_simple code.OpEqual rfl, make_simple code.OpNotEqual rfl]) (by constructor <;> simp)
      (fun m0 rest restK hi hk hsp hlen =>
        comparison_runs m0 rest restK _ x y _ hi hk hsp hlen (Or.inr (Or.inr ⟨rfl, rfl⟩)))
      (by simp only [Expression.conditionTruthy, nativeBoolToBooleanObject]
          by_cases h : x = y
          · simp [h, isTruthy]
          · have h' : ¬ y = x := fun e => h e.symm
            simp [h, h', isTruthy])

/-- C2: for a condition that is a boolean literal, an integer literal or a
comparison of integer literals, and integer literals `a` and `b`: compiling
and running `if (c) { a } else { b }` leaves `a` as last popped when the value
of the condition is truthy and `b` otherwise; compiling and running
`if (c) { a }` leaves `a` when it is truthy and the canonical Null when not. -/
theorem conditional_runs (c : Expression) (a b : Int) (hc : c.isCondition = true) :
    (∃ cmp, New.Compile (.Program (ifElseProgram c a b)) = .ok cmp
      ∧ ∃ fuel vm1, (vm.New cmp.Bytecode).Run fuel = some (.ok vm1)
        ∧ vm1.LastPoppedStackElem
          = some (if c.conditionTruthy then Object.Integer a else Object.Integer b))
    ∧ (∃ cmp, New.Compile (.Program (ifProgram c a)) = .ok cmp
      ∧ ∃ fuel vm1, (vm.New cmp.Bytecode).Run fuel = some (.ok vm1)
        ∧ vm1.LastPoppedStackElem = some (if c.conditionTruthy then Object.Integer a else Null)) := by
  cases c with
  | Boolean v =>
    cases v
    · exact conditional_of_cond _ a b [code.OpFalse] [] False _ rfl (by simp [emit_fst, Compiler.addConstant, New, make_OpConstant, make_simple code.OpTrue rfl,
          make_simple code.OpFalse rfl, make_simple code.OpGreaterThan rfl,
          make_simple code.OpEqual rfl, make_simple code.OpNotEqual rfl])
        (by simp [emit_fst, Compiler.addConstant, New, make_OpConstant, make_simple code.OpTrue rfl,
          make_simple code.OpFalse rfl, make_simple code.OpGreaterThan rfl,
          make_simple code.OpEqual rfl, make_simple code.OpNotEqual rfl]) (by constructor <;> simp)
        (fun m0 rest restK hi hk hsp hlen =>
          exec_singleton m0 [] rest code.OpFalse False (by rw [hi]; rfl)
            (Or.inr (Or.inl ⟨rfl, rfl⟩)) (by rw [hsp]; decide) (by rw [hsp, hlen]; decide))
        rfl
    · exact conditional_of_cond _ a b [code.OpTrue] [] True _ rfl (by simp [emit_fst, Compiler.addConstant, New, make_OpConstant, make_simple code.OpTrue rfl,
          make_simple code.OpFalse rfl, make_simple code.OpGreaterThan rfl,
          make_simple code.OpEqual rfl, make_simple code.OpNotEqual rfl])
        (by simp [emit_fst, Compiler.addConstant, New, make_OpConstant, make_simple code.OpTrue rfl,
          make_simple code.OpFalse rfl, make_simple code.OpGreaterThan rfl,
          make_simple code.OpEqual rfl, make_simple code.OpNotEqual rfl]) (by constructor <;> simp)
        (fun m0 rest restK hi hk hsp hlen =>
          exec_singleton m0 [] rest code.OpTrue True (by rw [hi]; rfl)
            (Or.inl ⟨rfl, rfl⟩) (by rw [hsp]; decide) (by rw [hsp, hlen]; decide))
        rfl
  | IntegerLiteral n =>
    exact conditional_of_cond _ a b [code.OpConstant, 0, 0] [.Integer n] (.Integer n) _
      rfl (by simp [emit_fst, Compiler.addConstant, New, make_OpConstant, make_simple code.OpTrue rfl,
          make_simple code.OpFalse rfl, make_simple code.OpGreaterThan rfl,
          make_simple code.OpEqual rfl, make_simple code.OpNotEqual rfl])
        (by simp [emit_fst, Compiler.addConstant, New, make_OpConstant, make_simple code.OpTrue rfl,
          make_simple code.OpFalse rfl, make_simple code.OpGreaterThan rfl,
          make_simple code.OpEqual rfl, make_simple code.OpNotEqual rfl]) (by constructor <;> simp)
      (fun m0 rest restK hi hk hsp hlen =>
        exec_OpConstant m0 [] rest 0 (.Integer n) (by rw [hi]; rfl) (by decide)
          (by rw [hk]; simp) (by rw [hsp]; decide) (by rw [hsp, hlen]; decide))
      rfl
  | InfixExpression l op r =>
    cases l <;> cases r <;> simp only [Expression.isCondition, Bool.false_eq_true] at hc
    simp only [Bool.or_eq_true, beq_iff_eq] at hc
    exact conditional_compare _ _ a b op (by
      rcases hc with ((h | h) | h) | h
      · exact Or.inl h
      · exact Or.inr (Or.inl h)
      · exact Or.inr (Or.inr (Or.inl h))
      · exact Or.inr (Or.inr (Or.inr h)))
  | StringLiteral _ => simp [Expression.isCondition] at hc
  | Identifier _ => simp [Expression.isCondition] at hc
  | PrefixExpression _ _ => simp [Expression.isCondition] at hc
  | IfExpression _ _ _ => simp [Expression.isCondition] at hc
  | ArrayLiteral _ => simp [Expression.isCondition] at hc
  | HashLiteral _ => simp [Expression.isCondition] at hc
  | IndexExpression _ _ => simp [Expression.isCondition] at hc
  | CallExpression _ _ => simp [Expression.isCondition] at hc
  | FunctionLiteral _ _ => simp [Expression.isCondition] at hc

/-- Witness of C2: `if (1 > 2) { 10 } else { 20 }` leaves 20 and
`if (1 > 2) { 10 }` leaves Null. -/
theorem conditional_runs_witness :
    (∃ cmp, New.Compile (.Program (ifElseProgram
        (.InfixExpression (.IntegerLiteral 1) ">" (.IntegerLiteral 2)) 10 20)) = .ok cmp
      ∧ ∃ fuel vm1, (vm.New cmp.Bytecode).Run fuel = some (.ok vm1)
        ∧ vm1.LastPoppedStackElem = some (Object.Integer 20))
    ∧ (∃ cmp, New.Compile (.Program (ifProgram
        (.InfixExpression (.IntegerLiteral 1) ">" (.IntegerLiteral 2)) 10)) = .ok cmp
      ∧ ∃ fuel vm1, (vm.New cmp.Bytecode).Run fuel = some (.ok vm1)
        ∧ vm1.LastPoppedStackElem = some Null) :=
  conditional_runs (.InfixExpression (.IntegerLiteral 1) ">" (.IntegerLiteral 2)) 10 20
    (by decide)

end compiler

namespace vm

open object

/-! ### A conditional whose consequence leaves no value -/

/-- OpPop in its context on the empty stack is the panic of reading
`stack[-1]`. -/
theorem pop_empty (vm : VM) (pre post : List Nat)
    (h : vm.instructions = pre ++ [code.OpPop] ++ post) (hsp : vm.sp = 0) :
    vm.step pre.length = .panic ∧ VM.runFrom 1 vm pre.length = some .panic := by
  have h' : vm.instructions = pre ++ code.OpPop :: post := by simpa using h
  obtain ⟨hi, hlt⟩ := ins_at vm pre _ _ h'
  have hs : vm.step pre.length = .panic := by
    rw [step_OpPop vm _ hi]
    simp [VM.pop, hsp]
  exact ⟨hs, by simp [VM.runFrom, hlt, hs]⟩

theorem panic_of_reach {vm vm1 : VM} {ip ip1 m : Nat} (h1 : Reach vm ip vm1 ip1)
    (h2 : VM.runFrom m vm1 ip1 = some .panic) : ∃ n, VM.runFrom n vm ip = some .panic := by
  obtain ⟨n, hn⟩ := h1
  exact ⟨n + m, by rw [runFrom_steps m hn]; exact h2⟩

/-- The code of `if (true) { }` as an expression statement comes to its
closing OpPop with the empty stack. -/
theorem empty_if_runs (m0 : VM) (hins : m0.instructions = [6, 13, 0, 7, 14, 0, 8, 15, 2])
    (hsp : m0.sp = 0) (hlen : 0 < m0.stack.length) :
    (∃ m1, Reach m0 0 m1 8 ∧ m1.sp = 0 ∧ m1.step 8 = .panic)
      ∧ ∃ fuel, m0.Run fuel = some .panic := by
  obtain ⟨m1, r1, p1⟩ := exec_singleton m0 [] [13, 0, 7, 14, 0, 8, 15, 2] code.OpTrue True
    (by rw [hins]; rfl) (Or.inl ⟨rfl, rfl⟩) (by rw [hsp]; decide) (by rw [hsp]; exact hlen)
  obtain ⟨l1, k1, i1⟩ := pushed_after_pop m0 m1 True p1
  have r2 := exec_OpJumpNotTruthy m0 m1 [6] [14, 0, 8, 15, 2] 7 True p1
    (by rw [p1.2.2.2.2.2.2.1, hins]; rfl) (by decide)
  have r3 := exec_OpJump { m1 with sp := m0.sp } [6, 13, 0, 7] [15, 2] 8
    (by rw [i1, hins]; rfl) (by decide)
  have r4 := pop_empty { m1 with sp := m0.sp } [6, 13, 0, 7, 14, 0, 8, 15] []
    (by rw [i1, hins]; rfl) hsp
  have hr : Reach m0 0 { m1 with sp := m0.sp } 8 := Reach.trans r1 (Reach.trans r2 r3)
  exact ⟨⟨_, hr, hsp, r4.1⟩, panic_of_reach hr r4.2⟩

/-- The code of `if (true) { let x = 1; }` as an expression statement comes to
its closing OpPop with the empty stack. -/
theorem let_if_runs (m0 : VM)
    (hins : m0.instructions = [6, 13, 0, 13, 0, 0, 0, 17, 0, 0, 14, 0, 14, 15, 2])
    (hk : m0.constants[0]? = some (.Integer 1))
    (hsp : m0.sp = 0) (hlen : 0 < m0.stack.length) (hg : 0 < m0.globals.length) :
    (∃ m1, Reach m0 0 m1 14 ∧ m1.sp = 0 ∧ m1.step 14 = .panic)
      ∧ ∃ fuel, m0.Run fuel = some .panic := by
  obtain ⟨m1, r1, p1⟩ := exec_singleton m0 [] [13, 0, 13, 0, 0, 0, 17, 0, 0, 14, 0, 14, 15, 2]
    code.OpTrue True
    (by rw [hins]; rfl) (Or.inl ⟨rfl, rfl⟩) (by rw [hsp]; decide) (by rw [hsp]; exact hlen)
  obtain ⟨l1, k1, i1⟩ := pushed_after_pop m0 m1 True p1
  have r2 := exec_OpJumpNotTruthy m0 m1 [6] [0, 0, 0, 17, 0, 0, 14, 0, 14, 15, 2] 13 True p1
    (by rw [p1.2.2.2.2.2.2.1, hins]; rfl) (by decide)
  obtain ⟨m2, r3, p2⟩ := exec_OpConstant { m1 with sp := m0.sp } [6, 13, 0, 13]
    [17, 0, 0, 14, 0, 14, 15, 2] 0 (.Integer 1)
    (by rw [i1, hins]; rfl) (by decide) (by rw [k1]; exact hk) (by show m0.sp < _; rw [hsp]; decide)
    (by rw [l1]; show m0.sp < _; rw [hsp]; exact hlen)
  have r4 := exec_OpSetGlobal { m1 with sp := m0.sp } m2 [6, 13, 0, 13, 0, 0, 0]
    [14, 0, 14, 15, 2] 0 (.Integer 1) p2
    (by rw [p2.2.2.2.2.2.2.1, i1, hins]; rfl) (by decide)
    (by rw [p2.2.2.2.2.1]; show 0 < m1.globals.length; rw [p1.2.2.2.2.1]; exact hg)
  have r5 := exec_OpJump
    { m2 with sp := ({ m1 with sp := m0.sp } : VM).sp, globals := m2.globals.set 0 (.Integer 1) }
    [6, 13, 0, 13, 0, 0, 0, 17, 0, 0] [15, 2] 14
    (by show m2.instructions = _; rw [p2.2.2.2.2.2.2.1, i1, hins]; rfl) (by decide)
  have r6 := pop_empty
    { m2 with sp := ({ m1 with sp := m0.sp } : VM).sp, globals := m2.globals.set 0 (.Integer 1) }
    [6, 13, 0, 13, 0, 0, 0, 17, 0, 0, 14, 0, 14, 15] []
    (by show m2.instructions = _; rw [p2.2.2.2.2.2.2.1, i1, hins]; rfl) hsp
  have hr := Reach.trans r1 (Reach.trans r2 (Reach.trans r3 (Reach.trans r4 r5)))
  exact ⟨⟨_, hr, hsp, r6.1⟩, panic_of_reach hr r6.2⟩

end vm

namespace compiler

open object vm ast

/-- C5 (the code departs from the claim): the programs `if (true) { }` and
`if (true) { let x = 1; }` compile, and the loop of `Run` on each comes, with
`sp == 0`, to the OpPop that closes the statement; the round of that OpPop is
the panic of reading `stack[-1]`, so `Run` ends in this panic. -/
theorem pop_on_empty_stack :
    (∃ c, New.Compile (.Program [.ExpressionStatement (.IfExpression (.Boolean true) [] none)])
        = .ok c ∧
      c.Bytecode = ⟨[6, 13, 0, 7, 14, 0, 8, 15, 2], []⟩ ∧
      (∃ vm1, Reach (vm.New c.Bytecode) 0 vm1 8 ∧ vm1.sp = 0 ∧ vm1.step 8 = .panic) ∧
      ∃ fuel, (vm.New c.Bytecode).Run fuel = some .panic) ∧
    (∃ c, New.Compile (.Program [.ExpressionStatement
          (.IfExpression (.Boolean true) [.LetStatement "x" (.IntegerLiteral 1)] none)]) = .ok c ∧
      c.Bytecode = ⟨[6, 13, 0, 13, 0, 0, 0, 17, 0, 0, 14, 0, 14, 15, 2], [.Integer 1]⟩ ∧
      (∃ vm1, Reach (vm.New c.Bytecode) 0 vm1 14 ∧ vm1.sp = 0 ∧ vm1.step 14 = .panic) ∧
      ∃ fuel, (vm.New c.Bytecode).Run fuel = some .panic) := by
  have a1 : New.Compile (.Program [.ExpressionStatement (.IfExpression (.Boolean true) [] none)])
      = .ok { instructions := [6, 13, 0, 7, 14, 0, 8, 15, 2], constants := [],
              lastInstruction := ⟨2, 8⟩, previousInstruction := ⟨15, 7⟩,
              symbolTable := NewSymbolTable } := by decide!
  have b1 : New.Compile (.Program [.ExpressionStatement
          (.IfExpression (.Boolean true) [.LetStatement "x" (.IntegerLiteral 1)] none)])
      = .ok { instructions := [6, 13, 0, 13, 0, 0, 0, 17, 0, 0, 14, 0, 14, 15, 2],
              constants := [.Integer 1],
              lastInstruction := ⟨2, 14⟩, previousInstruction := ⟨15, 13⟩,
              symbolTable := (NewSymbolTable.Define "x").2 } := by decide!
  have hstack : 0 < (List.replicate StackSize Object.nil).length := by
    rw [List.length_replicate]; decide
  have hglob : 0 < (List.replicate GlobalsSize Object.nil).length := by
    rw [List.length_replicate]; decide
  exact ⟨⟨_, a1, rfl, empty_if_runs (vm.New ⟨[6, 13, 0, 7, 14, 0, 8, 15, 2], []⟩) rfl rfl hstack⟩,
    ⟨_, b1, rfl, let_if_runs
      (vm.New ⟨[6, 13, 0, 13, 0, 0, 0, 17, 0, 0, 14, 0, 14, 15, 2], [.Integer 1]⟩)
      rfl rfl rfl hstack hglob⟩⟩

end compiler

namespace vm

open object

/-! ### The effect of one round on `sp` -/

theorem push_ok {vm vm1 : VM} {o : Object} (h : vm.push o = .ok vm1) :
    vm1.sp = vm.sp + 1 ∧ vm1.instructions = vm.instructions := by
  unfold VM.push at h
  split_ifs at h
  cases h
  exact ⟨rfl, rfl⟩

theorem pop_some {vm vm1 : VM} {o : Object} (h : vm.pop = some (o, vm1)) :
    vm1.sp + 1 = vm.sp ∧ vm1.instructions = vm.instructions := by
  unfold VM.pop at h
  by_cases h0 : vm.sp = 0
  · rw [if_pos h0] at h; cases h
  · rw [if_neg h0] at h
    cases hs : vm.stack[vm.sp - 1]? with
    | none => rw [hs] at h; cases h
    | some x =>
      rw [hs] at h
      cases h
      exact ⟨by show vm.sp - 1 + 1 = vm.sp; omega, rfl⟩

theorem goOn_ok {n next : Nat} {r : Result VM} {vm1 : VM} (h : goOn n r = .ok (vm1, next)) :
    r = .ok vm1 ∧ next = n := by
  cases r with
  | ok v => simp only [goOn, Result.ok.injEq, Prod.mk.injEq] at h; exact ⟨by rw [h.1], h.2.symm⟩
  | error msg v => cases h
  | panic => cases h

theorem intop_ok {vm vm1 : VM} {op : Nat} {l r : Int}
    (h : vm.executeBinaryIntegerOperation op l r = .ok vm1) :
    vm1.sp = vm.sp + 1 ∧ vm1.instructions = vm.instructions := by
  unfold VM.executeBinaryIntegerOperation at h
  split_ifs at h <;> exact push_ok h

theorem strop_ok {vm vm1 : VM} {op : Nat} {l r : List Nat}
    (h : vm.executeBinaryStringOperation op l r = .ok vm1) :
    vm1.sp = vm.sp + 1 ∧ vm1.instructions = vm.instructions := by
  unfold VM.executeBinaryStringOperation at h
  split_ifs at h
  exact @push_ok { vm with heap := vm.heap + 1 } vm1 _ h

theorem binop_ok {vm vm1 : VM} {op : Nat} (h : vm.executeBinaryOperation op = .ok vm1) :
    vm1.sp + 1 = vm.sp ∧ vm1.instructions = vm.instructions := by
  unfold VM.executeBinaryOperation at h
  cases h1 : vm.pop with
  | none => rw [h1] at h; cases h
  | some p1 =>
    obtain ⟨right, m1⟩ := p1
    rw [h1] at h
    cases h2 : m1.pop with
    | none => simp only [h2] at h; cases h
    | some p2 =>
      obtain ⟨left, m2⟩ := p2
      simp only [h2] at h
      obtain ⟨e1, i1⟩ := pop_some h1
      obtain ⟨e2, i2⟩ := pop_some h2
      have key : vm1.sp = m2.sp + 1 ∧ vm1.instructions = m2.instructions := by
        cases left <;> cases right <;> simp only [Object.Type] at h <;>
          first | exact intop_ok h | exact strop_ok h | cases h
      exact ⟨by omega, by rw [key.2, i2, i1]⟩

theorem intcmp_ok {vm vm1 : VM} {op : Nat} {l r : Int}
    (h : vm.executeIntegerComparison op l r = .ok vm1) :
    vm1.sp = vm.sp + 1 ∧ vm1.instructions = vm.instructions := by
  unfold VM.executeIntegerComparison at h
  split_ifs at h <;> exact push_ok h

theorem objcmp_ok {vm vm1 : VM} {op : Nat} {l r : Object}
    (h : vm.executeObjectComparison op l r = .ok vm1) :
    vm1.sp = vm.sp + 1 ∧ vm1.instructions = vm.instructions := by
  unfold VM.executeObjectComparison at h
  split_ifs at h
  · exact push_ok h
  · exact push_ok h
  · cases hl : l.Type <;> cases hr : r.Type <;> simp only [hl, hr] at h <;> cases h

theorem cmp_ok {vm vm1 : VM} {op : Nat} (h : vm.executeComparison op = .ok vm1) :
    vm1.sp + 1 = vm.sp ∧ vm1.instructions = vm.instructions := by
  unfold VM.executeComparison at h
  cases h1 : vm.pop with
  | none => rw [h1] at h; cases h
  | some p1 =>
    obtain ⟨right, m1⟩ := p1
    rw [h1] at h
    cases h2 : m1.pop with
    | none => simp only [h2] at h; cases h
    | some p2 =>
      obtain ⟨left, m2⟩ := p2
      simp only [h2] at h
      obtain ⟨e1, i1⟩ := pop_some h1
      obtain ⟨e2, i2⟩ := pop_some h2
      have key : vm1.sp = m2.sp + 1 ∧ vm1.instructions = m2.instructions := by
        cases left <;> cases right <;> simp only at h <;>
          first | exact intcmp_ok h | exact objcmp_ok h | cases h
      exact ⟨by omega, by rw [key.2, i2, i1]⟩

theorem minus_ok {vm vm1 : VM} (h : vm.executeMinusOperator = .ok vm1) :
    vm1.sp = vm.sp ∧ vm1.instructions = vm.instructions := by
  unfold VM.executeMinusOperator at h
  cases h1 : vm.pop with
  | none => rw [h1] at h; cases h
  | some p1 =>
    obtain ⟨a, m1⟩ := p1
    rw [h1] at h
    obtain ⟨e1, i1⟩ := pop_some h1
    have key : vm1.sp = m1.sp + 1 ∧ vm1.instructions = m1.instructions := by
      cases a <;> simp only [Object.Type] at h <;> first | exact push_ok h | cases h
    exact ⟨by omega, by rw [key.2, i1]⟩

theorem bang_ok {vm vm1 : VM} (h : vm.executeBangOperator = .ok vm1) :
    vm1.sp = vm.sp ∧ vm1.instructions = vm.instructions := by
  unfold VM.executeBangOperator at h
  cases h1 : vm.pop with
  | none => rw [h1] at h; cases h
  | some p1 =>
    obtain ⟨a, m1⟩ := p1
    rw [h1] at h
    obtain ⟨e1, i1⟩ := pop_some h1
    have key : vm1.sp = m1.sp + 1 ∧ vm1.instructions = m1.instructions := by
      simp only at h
      split_ifs at h <;> exact push_ok h
    exact ⟨by omega, by rw [key.2, i1]⟩

theorem step_cases {vm : VM} {ip : Nat} (hlt : ip < vm.instructions.length) :
    Fault vm ip ∨ ∃ vm1 next, vm.step ip = .ok (vm1, next) := by
  cases h : vm.step ip with
  | ok p => exact Or.inr ⟨p.1, p.2, rfl⟩
  | error msg p => exact Or.inl (@Fault.of_step_error vm p.1 ip p.2 msg hlt h)
  | panic => exact Or.inl (Fault.of_step_panic hlt h)

end vm

namespace vm

open object

/-! ### Bounds on `sp` along compiled code -/

theorem ExecLe.weaken {off : Nat} {cd : List Nat} {a b a' b' : Nat} (h : ExecLe off cd a b)
    (hab : a' + b ≤ b' + a) : ExecLe off cd a' b' := by
  intro vm pre post hins hpre hlen
  rcases h vm pre post hins hpre hlen with hf | ⟨vm1, r1, s1, i1⟩
  · exact Or.inl hf
  · exact Or.inr ⟨vm1, r1, by omega, i1⟩

theorem ExecLe.seq {off : Nat} {c1 c2 : List Nat} {a1 b1 a2 b2 : Nat} (h1 : ExecLe off c1 a1 b1)
    (h2 : ExecLe (off + c1.length) c2 a2 b2) : ExecLe off (c1 ++ c2) (a1 + a2) (b1 + b2) := by
  intro vm pre post hins hpre hlen
  rcases h1 vm pre (c2 ++ post) (by rw [hins]; simp) hpre hlen with hf | ⟨vm1, r1, s1, i1⟩
  · exact Or.inl hf
  · rcases h2 vm1 (pre ++ c1) post (by rw [i1, hins]; simp) (by simp [hpre])
        (by rw [i1]; exact hlen) with hf | ⟨vm2, r2, s2, i2⟩
    · exact Or.inl (Fault.of_reach r1 hf)
    · refine Or.inr ⟨vm2, Reach.trans r1 ?_, by omega, by rw [i2, i1]⟩
      rw [List.length_append, ← Nat.add_assoc]
      exact r2

theorem ExecLe.nil (off : Nat) : ExecLe off [] 0 0 := by
  intro vm pre post _ _ _
  exact Or.inr ⟨vm, Reach.refl vm off, Nat.le_refl _, rfl⟩

/-- An instruction whose rounds that end without error go on behind it. -/
theorem execLe_of_step (off op : Nat) (rest : List Nat) (a b : Nat)
    (h : ∀ (vm vm1 : VM) (next : Nat), vm.instructions[off]? = some op →
      vm.step off = .ok (vm1, next) →
      next = off + (op :: rest).length ∧ vm1.sp + a ≤ vm.sp + b
        ∧ vm1.instructions = vm.instructions) :
    ExecLe off (op :: rest) a b := by
  intro vm pre post hins hpre hlen
  have h' : vm.instructions = pre ++ op :: (rest ++ post) := by rw [hins]; simp
  obtain ⟨hi, hlt⟩ := ins_at vm pre _ _ h'
  rw [hpre] at hi hlt
  rcases step_cases hlt with hf | ⟨vm1, next, hs⟩
  · exact Or.inl hf
  · obtain ⟨e1, e2, e3⟩ := h vm vm1 next hi hs
    refine Or.inr ⟨vm1, ?_, e2, e3⟩
    rw [← e1]
    exact Reach.step hlt hs

theorem execLe_simple (off op : Nat)
    (hop : op = code.OpTrue ∨ op = code.OpFalse ∨ op = code.OpNull) : ExecLe off [op] 0 1 := by
  apply execLe_of_step
  intro vm vm1 next hi hs
  rcases hop with rfl | rfl | rfl
  · rw [step_OpTrue vm _ hi] at hs
    obtain ⟨e1, e2⟩ := goOn_ok hs
    obtain ⟨e3, e4⟩ := push_ok e1
    exact ⟨e2, by omega, e4⟩
  · rw [step_OpFalse vm _ hi] at hs
    obtain ⟨e1, e2⟩ := goOn_ok hs
    obtain ⟨e3, e4⟩ := push_ok e1
    exact ⟨e2, by omega, e4⟩
  · rw [step_OpNull vm _ hi] at hs
    obtain ⟨e1, e2⟩ := goOn_ok hs
    obtain ⟨e3, e4⟩ := push_ok e1
    exact ⟨e2, by omega, e4⟩

theorem execLe_wide (off op hi lo : Nat)
    (hop : op = code.OpConstant ∨ op = code.OpGetGlobal) : ExecLe off [op, hi, lo] 0 1 := by
  apply execLe_of_step
  intro vm vm1 next hi hs
  rcases hop with rfl | rfl
  · rw [step_OpConstant vm _ hi] at hs
    cases ho : vm.operand off with
    | none => rw [ho] at hs; cases hs
    | some k =>
      simp only [ho] at hs
      cases hc : vm.constants[k]? with
      | none => rw [hc] at hs; cases hs
      | some o =>
        simp only [hc] at hs
        obtain ⟨e1, e2⟩ := goOn_ok hs
        obtain ⟨e3, e4⟩ := push_ok e1
        exact ⟨e2, by omega, e4⟩
  · rw [step_OpGetGlobal vm _ hi] at hs
    cases ho : vm.operand off with
    | none => rw [ho] at hs; cases hs
    | some k =>
      simp only [ho] at hs
      cases hc : vm.globals[k]? with
      | none => rw [hc] at hs; cases hs
      | some o =>
        simp only [hc] at hs
        obtain ⟨e1, e2⟩ := goOn_ok hs
        obtain ⟨e3, e4⟩ := push_ok e1
        exact ⟨e2, by omega, e4⟩

theorem execLe_unary (off op : Nat)
    (hop : op = code.OpBang ∨ op = code.OpMinus) : ExecLe off [op] 0 0 := by
  apply execLe_of_step
  intro vm vm1 next hi hs
  rcases hop with rfl | rfl
  · rw [step_OpBang vm _ hi] at hs
    obtain ⟨e1, e2⟩ := goOn_ok hs
    obtain ⟨e3, e4⟩ := bang_ok e1
    exact ⟨e2, by omega, e4⟩
  · rw [step_OpMinus vm _ hi] at hs
    obtain ⟨e1, e2⟩ := goOn_ok hs
    obtain ⟨e3, e4⟩ := minus_ok e1
    exact ⟨e2, by omega, e4⟩

theorem execLe_binary (off op : Nat)
    (hop : op = code.OpAdd ∨ op = code.OpSub ∨ op = code.OpMul ∨ op = code.OpDiv
        ∨ op = code.OpGreaterThan ∨ op = code.OpEqual ∨ op = code.OpNotEqual) :
    ExecLe off [op] 1 0 := by
  apply execLe_of_step
  intro vm vm1 next hi hs
  rcases hop with rfl | rfl | rfl | rfl | rfl | rfl | rfl
  · rw [step_OpAdd vm _ hi] at hs
    obtain ⟨e1, e2⟩ := goOn_ok hs
    obtain ⟨e3, e4⟩ := binop_ok e1
    exact ⟨e2, by omega, e4⟩
  · rw [step_OpSub vm _ hi] at hs
    obtain ⟨e1, e2⟩ := goOn_ok hs
    obtain ⟨e3, e4⟩ := binop_ok e1
    exact ⟨e2, by omega, e4⟩
  · rw [step_OpMul vm _ hi] at hs
    obtain ⟨e1, e2⟩ := goOn_ok hs
    obtain ⟨e3, e4⟩ := binop_ok e1
    exact ⟨e2, by omega, e4⟩
  · rw [step_OpDiv vm _ hi] at hs
    obtain ⟨e1, e2⟩ := goOn_ok hs
    obtain ⟨e3, e4⟩ := binop_ok e1
    exact ⟨e2, by omega, e4⟩
  · rw [step_OpGreaterThan vm _ hi] at hs
    obtain ⟨e1, e2⟩ := goOn_ok hs
    obtain ⟨e3, e4⟩ := cmp_ok e1
    exact ⟨e2, by omega, e4⟩
  · rw [step_OpEqual vm _ hi] at hs
    obtain ⟨e1, e2⟩ := goOn_ok hs
    obtain ⟨e3, e4⟩ := cmp_ok e1
    exact ⟨e2, by omega, e4⟩
  · rw [step_OpNotEqual vm _ hi] at hs
    obtain ⟨e1, e2⟩ := goOn_ok hs
    obtain ⟨e3, e4⟩ := cmp_ok e1
    exact ⟨e2, by omega, e4⟩

theorem execLe_pop (off : Nat) : ExecLe off [code.OpPop] 1 0 := by
  apply execLe_of_step
  intro vm vm1 next hi hs
  rw [step_OpPop vm _ hi] at hs
  cases hp : vm.pop with
  | none => rw [hp] at hs; cases hs
  | some p =>
    obtain ⟨o, m1⟩ := p
    simp only [hp, Result.ok.injEq, Prod.mk.injEq] at hs
    obtain ⟨e3, e4⟩ := pop_some hp
    obtain ⟨rfl, rfl⟩ := hs
    exact ⟨rfl, by omega, e4⟩

theorem execLe_setGlobal (off hi lo : Nat) : ExecLe off [code.OpSetGlobal, hi, lo] 1 0 := by
  apply execLe_of_step
  intro vm vm1 next hi hs
  rw [step_OpSetGlobal vm _ hi] at hs
  cases ho : vm.operand off with
  | none => rw [ho] at hs; cases hs
  | some k =>
    simp only [ho] at hs
    cases hp : vm.pop with
    | none => rw [hp] at hs; cases hs
    | some p =>
      obtain ⟨o, m1⟩ := p
      simp only [hp] at hs
      obtain ⟨e3, e4⟩ := pop_some hp
      split_ifs at hs
      simp only [Result.ok.injEq, Prod.mk.injEq] at hs
      obtain ⟨rfl, rfl⟩ := hs
      exact ⟨rfl, by show m1.sp + 1 ≤ _; omega, e4⟩

/-- OpJumpNotTruthy in its context takes one value off the stack and goes on
behind itself or at its target. -/
theorem jnt_le (vm : VM) (pre post : List Nat) (t : Nat)
    (h : vm.instructions = pre ++ [code.OpJumpNotTruthy, t / 256 % 256, t % 256] ++ post)
    (ht : t < 65536) :
    Fault vm pre.length ∨ ∃ vm1, vm1.sp + 1 = vm.sp ∧ vm1.instructions = vm.instructions
      ∧ (Reach vm pre.length vm1 (pre.length + 3) ∨ Reach vm pre.length vm1 t) := by
  have h' : vm.instructions
      = pre ++ code.OpJumpNotTruthy :: (t / 256 % 256) :: (t % 256) :: post := by
    simpa using h
  obtain ⟨hi, hlt⟩ := ins_at vm pre _ _ h'
  have hop := operand_at vm pre _ _ _ _ h'
  rw [u16_decode, Nat.mod_eq_of_lt ht] at hop
  rcases step_cases hlt with hf | ⟨vm1, next, hs⟩
  · exact Or.inl hf
  · have hr := Reach.step hlt hs
    rw [step_OpJumpNotTruthy vm _ hi] at hs
    simp only [hop] at hs
    cases hp : vm.pop with
    | none => rw [hp] at hs; cases hs
    | some p =>
      obtain ⟨o, m1⟩ := p
      simp only [hp] at hs
      obtain ⟨e3, e4⟩ := pop_some hp
      split_ifs at hs
      · simp only [Result.ok.injEq, Prod.mk.injEq] at hs
        obtain ⟨rfl, rfl⟩ := hs
        exact Or.inr ⟨_, e3, e4, Or.inr hr⟩
      · simp only [Result.ok.injEq, Prod.mk.injEq] at hs
        obtain ⟨rfl, rfl⟩ := hs
        exact Or.inr ⟨_, e3, e4, Or.inl hr⟩

end vm

namespace vm

open object

/-- The code of a conditional: condition, OpJumpNotTruthy to the alternative,
consequence, OpJump behind the alternative, alternative. -/
theorem execLe_if_aux (off : Nat) (cc cons alt J1 J2 : List Nat) (hcc : ExecLe off cc 0 1)
    (hcons : ExecLe (off + cc.length + 3) cons 0 1)
    (halt : ExecLe (off + cc.length + 3 + cons.length + 3) alt 0 1)
    (hJ1 : J1 = [code.OpJumpNotTruthy, (off + cc.length + 3 + cons.length + 3) / 256 % 256,
              (off + cc.length + 3 + cons.length + 3) % 256])
    (hJ2 : J2 = [code.OpJump, (off + cc.length + 3 + cons.length + 3 + alt.length) / 256 % 256,
            (off + cc.length + 3 + cons.length + 3 + alt.length) % 256]) :
    ExecLe off (cc ++ J1 ++ cons ++ J2 ++ alt) 0 1 := by
  intro vm pre post hins hpre hlen
  have l1 : J1.length = 3 := by rw [hJ1]; rfl
  have l2 : J2.length = 3 := by rw [hJ2]; rfl
  have hl := congrArg List.length hins
  simp only [List.length_append, l1, l2] at hl
  rcases hcc vm pre (J1 ++ cons ++ J2 ++ alt ++ post)
      (by rw [hins]; simp only [List.append_assoc]) hpre hlen
    with hf | ⟨vm1, r1, s1, i1⟩
  · exact Or.inl hf
  rcases jnt_le vm1 (pre ++ cc) (cons ++ J2 ++ alt ++ post)
      (off + cc.length + 3 + cons.length + 3)
      (by rw [i1, hins, ← hJ1]; simp only [List.append_assoc]) (by omega)
    with hf | ⟨vm2, s2, i2, r2⟩
  · refine Or.inl (Fault.of_reach r1 ?_)
    rw [List.length_append, hpre] at hf
    exact hf
  rw [List.length_append, hpre] at r2
  have e5 : off + (cc ++ J1 ++ cons ++ J2 ++ alt).length
      = off + cc.length + 3 + cons.length + 3 + alt.length := by
    simp only [List.length_append, l1, l2]; omega
  rw [e5]
  rcases r2 with r2 | r2
  · rcases hcons vm2 (pre ++ cc ++ J1) (J2 ++ alt ++ post)
        (by rw [i2, i1, hins]; simp only [List.append_assoc])
        (by simp only [List.length_append, l1]; omega)
        (by rw [i2, i1]; exact hlen)
      with hf | ⟨vm3, r3, s3, i3⟩
    · exact Or.inl (Fault.of_reach r1 (Fault.of_reach r2 hf))
    have r4 := exec_OpJump vm3 (pre ++ cc ++ J1 ++ cons) (alt ++ post)
        (off + cc.length + 3 + cons.length + 3 + alt.length)
        (by rw [i3, i2, i1, hins, ← hJ2]; simp only [List.append_assoc]) (by omega)
    have e4 : (pre ++ cc ++ J1 ++ cons).length = off + cc.length + 3 + cons.length := by
      simp only [List.length_append, l1]; omega
    rw [e4] at r4
    exact Or.inr ⟨vm3, Reach.trans r1 (Reach.trans r2 (Reach.trans r3 r4)), by omega,
      by rw [i3, i2, i1]⟩
  · rcases halt vm2 (pre ++ cc ++ J1 ++ cons ++ J2) post
        (by rw [i2, i1, hins]; simp only [List.append_assoc])
        (by simp only [List.length_append, l1, l2]; omega)
        (by rw [i2, i1]; exact hlen)
      with hf | ⟨vm3, r3, s3, i3⟩
    · exact Or.inl (Fault.of_reach r1 (Fault.of_reach r2 hf))
    exact Or.inr ⟨vm3, Reach.trans r1 (Reach.trans r2 r3), by omega, by rw [i3, i2, i1]⟩

theorem execLe_if (off : Nat) (cc cons alt : List Nat) (hcc : ExecLe off cc 0 1)
    (hcons : ExecLe (off + cc.length + 3) cons 0 1)
    (halt : ExecLe (off + cc.length + 3 + cons.length + 3) alt 0 1) :
    ExecLe off
      (cc ++ [code.OpJumpNotTruthy, (off + cc.length + 3 + cons.length + 3) / 256 % 256,
              (off + cc.length + 3 + cons.length + 3) % 256]
        ++ cons
        ++ [code.OpJump, (off + cc.length + 3 + cons.length + 3 + alt.length) / 256 % 256,
            (off + cc.length + 3 + cons.length + 3 + alt.length) % 256]
        ++ alt) 0 1 :=
  execLe_if_aux off cc cons alt _ _ hcc hcons halt rfl rfl

end vm

namespace compiler

open object vm ast

/-- Code of the strict layout adds at most the slots of its kind to the stack,
when the loop of `Run` comes to its end. -/
theorem shape_exec {b : Bool} {k : Kind} {off : Nat} {cd : List Nat} (h : Shape b k off cd)
    (hb : b = true) : ExecLe off cd 0 k.delta := by
  induction h with
  | skipExpr off hs => rw [hb] at hs; cases hs
  | skipStmt off hs => rw [hb] at hs; cases hs
  | simple off op hop =>
    exact execLe_simple off op (hop.elim Or.inl (fun h => Or.inr (Or.inl h)))
  | wide off op hi lo hop => exact execLe_wide off op hi lo hop
  | unary off op c1 hop _ ih =>
    exact (ih.seq (execLe_unary (off + c1.length) op hop)).weaken (Nat.le_refl _)
  | binary off op c1 c2 hop _ _ ih1 ih2 =>
    exact ((ih1.seq ih2).seq (execLe_binary (off + (c1 ++ c2).length) op hop)).weaken
      (Nat.le_refl _)
  | ifThen off cc cons _ _ ih1 ih2 =>
    exact execLe_if off cc cons [code.OpNull] ih1 ih2 (execLe_simple _ _ (Or.inr (Or.inr rfl)))
  | ifThenElse off cc cons alt _ _ _ ih1 ih2 ih3 => exact execLe_if off cc cons alt ih1 ih2 ih3
  | exprStmt off c1 _ ih => exact (ih.seq (execLe_pop (off + c1.length))).weaken (Nat.le_refl _)
  | letStmt off c1 hi lo _ ih =>
    exact (ih.seq (execLe_setGlobal (off + c1.length) hi lo)).weaken (Nat.le_refl _)
  | nil off => exact ExecLe.nil off
  | snoc off c1 c2 _ _ ih1 ih2 => exact ih1.seq ih2
  | ofBlock off c1 _ ih => exact ih.weaken (Nat.le_succ _)
  | ofExpr off c1 c2 _ _ ih1 ih2 => exact ih1.seq ih2

end compiler

namespace compiler

open object vm ast

/-! ### The layout of compiled code -/

theorem lastValid_of_ne (c : Compiler) (h : c.lastInstruction.Opcode ≠ code.OpPop) :
    LastValid c ∧ PrevValid c :=
  ⟨fun h1 => absurd h1 h, fun h1 _ => absurd h1 h⟩

/-- At the start of a block, which is behind a jump or at the start of the
program, the last instruction is no OpPop. -/
theorem block_start (b : Bool) (c : Compiler) (h : c.lastInstruction.Opcode ≠ code.OpPop) :
    BlockInv b c.instructions c :=
  ⟨[], by simp, Shape.nil _, (lastValid_of_ne c h).1, (lastValid_of_ne c h).2,
    fun h1 => absurd h1 h⟩

/-- The code of a block with its last OpPop removed. -/
theorem value_of_block (b : Bool) (pre : List Nat) (s2 : Compiler) (h : BlockInv b pre s2) :
    ∃ s3 vcode, s2.dropLastPop = some s3 ∧ s3.instructions = pre ++ vcode
      ∧ Shape b .value pre.length vcode ∧ LastValid s3 := by
  obtain ⟨cd, hi, hsh, hlv, hpv, hdec⟩ := h
  by_cases hl : s2.lastInstruction.Opcode = code.OpPop
  · obtain ⟨Y, hY, hpos⟩ := hlv hl
    obtain ⟨c0, ce, hcd, hs0, hse⟩ := hdec hl
    have hYeq : Y = pre ++ (c0 ++ ce) := by
      have : Y ++ [code.OpPop] = (pre ++ (c0 ++ ce)) ++ [code.OpPop] := by
        rw [← hY, hi, hcd]; simp only [List.append_assoc]
      exact List.append_cancel_right this
    have hlast : s2.lastInstruction = { Opcode := code.OpPop, Position := Y.length } := by
      cases hli : s2.lastInstruction with
      | mk o p =>
        rw [hli] at hl hpos
        simp only at hl hpos
        rw [hl, hpos]
    refine ⟨_, c0 ++ ce, dropLastPop_of_pop s2 Y hlast hY, hYeq, Shape.ofExpr _ _ _ hs0 hse, ?_⟩
    intro hp
    obtain ⟨Z, hZ, hzpos⟩ := hpv hl hp
    refine ⟨Z, ?_, hzpos⟩
    have : Y ++ [code.OpPop] = (Z ++ [code.OpPop]) ++ [code.OpPop] := by
      rw [← hY, hZ]; simp
    exact List.append_cancel_right this
  · exact ⟨s2, cd, dropLastPop_of_ne s2 hl, hi, Shape.ofBlock _ _ hsh, (lastValid_of_ne s2 hl).1⟩

/-- Patching an operand keeps the record of a last OpPop right. -/
theorem lastValid_patch (s : Compiler) (A B : List Nat) (op x y x' y' : Nat)
    (hv : LastValid s) (hi : s.instructions = A ++ op :: x :: y :: B)
    (hy : y ≠ code.OpPop) :
    LastValid { s with instructions := A ++ op :: x' :: y' :: B } := by
  intro hl
  obtain ⟨Y, hY, hpos⟩ := hv hl
  rcases List.eq_nil_or_concat B with rfl | ⟨L, z, rfl⟩
  · exfalso
    have : (A ++ [op, x]) ++ [y] = Y ++ [code.OpPop] := by rw [← hY, hi]; simp
    have := List.append_inj_right' this rfl
    simp only [List.cons.injEq, and_true] at this
    exact hy this
  · have e : (A ++ op :: x :: y :: L) ++ [z] = Y ++ [code.OpPop] := by rw [← hY, hi]; simp
    have e1 := List.append_inj_left' e rfl
    have e2 := List.append_inj_right' e rfl
    simp only [List.cons.injEq, and_true] at e2
    subst e2
    refine ⟨A ++ op :: x' :: y' :: L, by simp, ?_⟩
    show s.lastInstruction.Position = _
    rw [hpos, ← e1]
    simp

end compiler

namespace compiler

open object vm ast

/-- The conditional up to the patch of its OpJumpNotTruthy: the consequence
without its last OpPop, the OpJump with the placeholder, and the first jump
patched to the offset behind the OpJump. -/
theorem if_head (b : Bool) (c1 s2 : Compiler) (pre0 cc : List Nat)
    (hi1 : c1.instructions = pre0 ++ cc)
    (hB : BlockInv b (c1.emit code.OpJumpNotTruthy [9999]).1.instructions s2) :
    ∃ s3 c4 vcode, s2.dropLastPop = some s3
      ∧ (s3.emit code.OpJump [9999]).1.changeOperand (c1.emit code.OpJumpNotTruthy [9999]).2
          (s3.emit code.OpJump [9999]).1.instructions.length = some c4
      ∧ (s3.emit code.OpJump [9999]).2 = pre0.length + cc.length + 3 + vcode.length
      ∧ c4.instructions = pre0 ++ cc
          ++ [code.OpJumpNotTruthy, (pre0.length + cc.length + 3 + vcode.length + 3) / 256 % 256,
              (pre0.length + cc.length + 3 + vcode.length + 3) % 256]
          ++ vcode ++ [code.OpJump, 39, 15]
      ∧ c4.lastInstruction.Opcode = code.OpJump
      ∧ Shape b .value (pre0.length + cc.length + 3) vcode := by
  obtain ⟨s3, vcode, hd, hi3, hv, _⟩ := value_of_block b _ s2 hB
  have e1 : (c1.emit code.OpJumpNotTruthy [9999]).1.instructions
      = pre0 ++ cc ++ [code.OpJumpNotTruthy, 39, 15] := by
    rw [emit_fst, make_OpJumpNotTruthy]
    show c1.instructions ++ _ = _
    rw [hi1]
  rw [e1] at hi3 hv
  have e2 : (s3.emit code.OpJump [9999]).1.instructions
      = (pre0 ++ cc) ++ code.OpJumpNotTruthy :: 39 :: 15 :: (vcode ++ [code.OpJump, 39, 15]) := by
    rw [emit_fst, make_OpJump]
    show s3.instructions ++ _ = _
    rw [hi3]
    simp
  have e3 : (c1.emit code.OpJumpNotTruthy [9999]).2 = (pre0 ++ cc).length := by
    rw [emit_snd, hi1]
  have e4 : (s3.emit code.OpJump [9999]).1.instructions.length
      = pre0.length + cc.length + 3 + vcode.length + 3 := by
    rw [e2]
    simp only [List.length_append, List.length_cons, List.length_nil]
    omega
  have e5 : (pre0 ++ cc ++ [code.OpJumpNotTruthy, 39, 15]).length
      = pre0.length + cc.length + 3 := by
    simp only [List.length_append, List.length_cons, List.length_nil]
  rw [e5] at hv
  refine ⟨s3, { (s3.emit code.OpJump [9999]).1 with
      instructions := (pre0 ++ cc) ++ code.OpJumpNotTruthy
        :: ((pre0.length + cc.length + 3 + vcode.length + 3) / 256 % 256)
        :: ((pre0.length + cc.length + 3 + vcode.length + 3) % 256)
        :: (vcode ++ [code.OpJump, 39, 15]) }, vcode, hd, ?_, ?_, ?_, rfl, hv⟩
  · rw [e3, e4]
    exact changeOperand_at _ (pre0 ++ cc) (vcode ++ [code.OpJump, 39, 15]) code.OpJumpNotTruthy
      39 15 _ e2 rfl
  · rw [emit_snd, hi3]
    simp only [List.length_append, List.length_cons, List.length_nil]
  · simp

/-- The conditional without alternative, behind the patch of its first jump. -/
theorem if_none (c4 : Compiler) (A vcode : List Nat) (n : Nat)
    (hi : c4.instructions = A ++ vcode ++ [code.OpJump, 39, 15])
    (hn : (A ++ vcode).length = n) :
    ∃ c6, (c4.emit code.OpNull []).1.changeOperand n
          (c4.emit code.OpNull []).1.instructions.length = some c6
      ∧ c6.instructions = A ++ vcode
          ++ [code.OpJump, (n + 3 + 1) / 256 % 256, (n + 3 + 1) % 256] ++ [code.OpNull]
      ∧ c6.lastInstruction.Opcode = code.OpNull := by
  have e2 : (c4.emit code.OpNull []).1.instructions
      = (A ++ vcode) ++ code.OpJump :: 39 :: 15 :: [code.OpNull] := by
    rw [emit_fst, make_simple code.OpNull rfl]
    show c4.instructions ++ _ = _
    rw [hi]
    simp
  have e4 : (c4.emit code.OpNull []).1.instructions.length = n + 3 + 1 := by
    rw [e2, List.length_append, hn]
    rfl
  refine ⟨{ (c4.emit code.OpNull []).1 with
      instructions := (A ++ vcode) ++ code.OpJump :: ((n + 3 + 1) / 256 % 256)
        :: ((n + 3 + 1) % 256) :: [code.OpNull] }, ?_, ?_, rfl⟩
  · rw [e4, ← hn]
    exact changeOperand_at _ (A ++ vcode) [code.OpNull] code.OpJump 39 15 _ e2 rfl
  · simp

/-- The conditional with an alternative, behind the block of the alternative. -/
theorem if_some (b : Bool) (c4 s6 : Compiler) (A vcode : List Nat) (n : Nat)
    (hi : c4.instructions = A ++ vcode ++ [code.OpJump, 39, 15])
    (hn : (A ++ vcode).length = n)
    (hB : BlockInv b c4.instructions s6) :
    ∃ s7 c7 acode, s6.dropLastPop = some s7
      ∧ s7.changeOperand n s7.instructions.length = some c7
      ∧ c7.instructions = A ++ vcode
          ++ [code.OpJump, (n + 3 + acode.length) / 256 % 256, (n + 3 + acode.length) % 256]
          ++ acode
      ∧ Shape b .value (n + 3) acode ∧ LastValid c7 := by
  obtain ⟨s7, acode, hd, hi7, hv, hlv⟩ := value_of_block b _ s6 hB
  rw [hi] at hi7 hv
  have e2 : s7.instructions = (A ++ vcode) ++ code.OpJump :: 39 :: 15 :: acode := by
    rw [hi7]
    simp
  have e4 : s7.instructions.length = n + 3 + acode.length := by
    rw [e2, List.length_append, hn]
    simp only [List.length_cons]
    omega
  have e5 : (A ++ vcode ++ [code.OpJump, 39, 15]).length = n + 3 := by
    rw [List.length_append, hn]
    rfl
  rw [e5] at hv
  refine ⟨s7, { s7 with
      instructions := (A ++ vcode) ++ code.OpJump :: ((n + 3 + acode.length) / 256 % 256)
        :: ((n + 3 + acode.length) % 256) :: acode }, acode, hd, ?_, ?_, hv, ?_⟩
  · rw [e4, ← hn]
    exact changeOperand_at _ (A ++ vcode) acode code.OpJump 39 15 _ e2 rfl
  · simp
  · exact lastValid_patch s7 (A ++ vcode) acode code.OpJump 39 15 _ _ hlv e2 (by decide)

end compiler

namespace compiler

open object vm ast

theorem emit_valid (c : Compiler) (op : Nat) (operands : List Nat) (h : op ≠ code.OpPop) :
    LastValid (c.emit op operands).1 ∧ PrevValid (c.emit op operands).1 :=
  lastValid_of_ne _ h

theorem emit_pop_valid (c : Compiler) (hv : LastValid c) :
    LastValid (c.emit code.OpPop []).1 ∧ PrevValid (c.emit code.OpPop []).1 := by
  constructor
  · intro _
    exact ⟨c.instructions, rfl, rfl⟩
  · intro _ hp
    obtain ⟨Y, hY, hpos⟩ := hv hp
    refine ⟨Y, ?_, hpos⟩
    show c.instructions ++ [code.OpPop] = _
    rw [hY]
    simp

theorem emit_unary (b : Bool) (c c1 : Compiler) (cd1 : List Nat) (opc : Nat)
    (h1 : c1.instructions = c.instructions ++ cd1) (s1 : Shape b .expr c.instructions.length cd1)
    (hop : opc = code.OpBang ∨ opc = code.OpMinus) :
    ∃ cd, (c1.emit opc []).1.instructions = c.instructions ++ cd
      ∧ Shape b .expr c.instructions.length cd ∧ LastValid (c1.emit opc []).1 := by
  have hm : code.Make opc [] = [opc] := by rcases hop with rfl | rfl <;> rfl
  have hne : opc ≠ code.OpPop := by rcases hop with rfl | rfl <;> decide
  refine ⟨cd1 ++ [opc], ?_, Shape.unary _ _ _ hop s1, (emit_valid _ _ _ hne).1⟩
  rw [emit_fst, hm]
  show c1.instructions ++ _ = _
  rw [h1, List.append_assoc]

theorem emit_binary (b : Bool) (c c1 c2 : Compiler) (cd1 cd2 : List Nat) (opc : Nat)
    (h1 : c1.instructions = c.instructions ++ cd1) (s1 : Shape b .expr c.instructions.length cd1)
    (h2 : c2.instructions = c1.instructions ++ cd2)
    (s2 : Shape b .expr c1.instructions.length cd2)
    (hop : opc = code.OpAdd ∨ opc = code.OpSub ∨ opc = code.OpMul ∨ opc = code.OpDiv
        ∨ opc = code.OpGreaterThan ∨ opc = code.OpEqual ∨ opc = code.OpNotEqual) :
    ∃ cd, (c2.emit opc []).1.instructions = c.instructions ++ cd
      ∧ Shape b .expr c.instructions.length cd ∧ LastValid (c2.emit opc []).1 := by
  have hm : code.Make opc [] = [opc] := by
    rcases hop with rfl | rfl | rfl | rfl | rfl | rfl | rfl <;> rfl
  have hne : opc ≠ code.OpPop := by
    rcases hop with rfl | rfl | rfl | rfl | rfl | rfl | rfl <;> decide
  rw [h1, List.length_append] at s2
  refine ⟨cd1 ++ cd2 ++ [opc], ?_, Shape.binary _ _ _ _ hop s1 s2, (emit_valid _ _ _ hne).1⟩
  rw [emit_fst, hm]
  show c2.instructions ++ _ = _
  rw [h2, h1]
  simp only [List.append_assoc]

theorem supported_unary (op : String) (r : Expression) :
    (Expression.PrefixExpression op r).supported = r.supported := rfl

theorem supported_binary (op : String) (l r : Expression) :
    (Expression.InfixExpression l op r).supported = (l.supported && r.supported) := rfl

theorem supported_if_none (c : Expression) (cons : List Statement) :
    (Expression.IfExpression c cons none).supported = (c.supported && supportedBlock cons) := rfl

theorem supported_if_some (c : Expression) (cons alt : List Statement) :
    (Expression.IfExpression c cons (some alt)).supported
      = (c.supported && supportedBlock cons && supportedBlock alt) := rfl

theorem supported_cons (s : Statement) (rest : List Statement) :
    supportedBlock (s :: rest) = (s.supported && supportedBlock rest) := rfl

end compiler

namespace compiler

open object vm ast

mutual
/-- The code that `Compile` appends for an expression has the layout of an
expression. -/
theorem shape_of_expr : ∀ (e : Expression) (b : Bool) (c c1 : Compiler),
    (b = true → e.supported = true) → LastValid c → c.CompileExpression e = .ok c1 →
    ∃ cd, c1.instructions = c.instructions ++ cd ∧ Shape b .expr c.instructions.length cd
      ∧ LastValid c1
  | .IntegerLiteral n, b, c, c1, _, _, h => by
    rw [compile_IntegerLiteral] at h
    cases h
    exact ⟨_, rfl, Shape.wide _ _ _ _ (Or.inl rfl), (emit_valid _ _ _ (by decide)).1⟩
  | .Boolean v, b, c, c1, _, _, h => by
    rw [compile_Boolean] at h
    cases v with
    | true =>
      cases h
      exact ⟨_, rfl, Shape.simple _ _ (Or.inl rfl), (emit_valid _ _ _ (by decide)).1⟩
    | false =>
      cases h
      exact ⟨_, rfl, Shape.simple _ _ (Or.inr rfl), (emit_valid _ _ _ (by decide)).1⟩
  | .Identifier x, b, c, c1, _, _, h => by
    rw [compile_Identifier] at h
    cases hr : c.symbolTable.Resolve x with
    | none => rw [hr] at h; cases h
    | some sym =>
      simp only [hr] at h
      cases h
      exact ⟨_, rfl, Shape.wide _ _ _ _ (Or.inr rfl), (emit_valid _ _ _ (by decide)).1⟩
  | .PrefixExpression op r, b, c, c1, hs, hv, h => by
    rw [compile_PrefixExpression] at h
    cases hc : c.CompileExpression r with
    | error msg a => rw [hc] at h; cases h
    | panic => rw [hc] at h; cases h
    | ok c' =>
      simp only [hc] at h
      obtain ⟨cd, hi, hsh, _⟩ := shape_of_expr r b c c' hs hv hc
      split_ifs at h
      · cases h
        exact emit_unary b c c' cd _ hi hsh (Or.inl rfl)
      · cases h
        exact emit_unary b c c' cd _ hi hsh (Or.inr rfl)
  | .InfixExpression l op r, b, c, c1, hs, hv, h => by
    have hsl : b = true → l.supported = true := fun hb => by
      have := hs hb
      rw [supported_binary, Bool.and_eq_true] at this
      exact this.1
    have hsr : b = true → r.supported = true := fun hb => by
      have := hs hb
      rw [supported_binary, Bool.and_eq_true] at this
      exact this.2
    by_cases hop : op = "<"
    · subst hop
      rw [compile_InfixExpression_lt] at h
      cases hc : c.CompileExpression r with
      | error msg a => rw [hc] at h; cases h
      | panic => rw [hc] at h; cases h
      | ok c' =>
        simp only [hc] at h
        obtain ⟨cd1, hi1, hsh1, hv1⟩ := shape_of_expr r b c c' hsr hv hc
        cases hc2 : c'.CompileExpression l with
        | error msg a => rw [hc2] at h; cases h
        | panic => rw [hc2] at h; cases h
        | ok c'' =>
          simp only [hc2] at h
          obtain ⟨cd2, hi2, hsh2, _⟩ := shape_of_expr l b c' c'' hsl hv1 hc2
          cases h
          exact emit_binary b c c' c'' cd1 cd2 _ hi1 hsh1 hi2 hsh2 (by simp)
    · rw [compile_InfixExpression _ _ _ _ hop] at h
      cases hc : c.CompileExpression l with
      | error msg a => rw [hc] at h; cases h
      | panic => rw [hc] at h; cases h
      | ok c' =>
        simp only [hc] at h
        obtain ⟨cd1, hi1, hsh1, hv1⟩ := shape_of_expr l b c c' hsl hv hc
        cases hc2 : c'.CompileExpression r with
        | error msg a => rw [hc2] at h; cases h
        | panic => rw [hc2] at h; cases h
        | ok c'' =>
          simp only [hc2] at h
          obtain ⟨cd2, hi2, hsh2, _⟩ := shape_of_expr r b c' c'' hsr hv1 hc2
          split_ifs at h <;> cases h <;>
            exact emit_binary b c c' c'' cd1 cd2 _ hi1 hsh1 hi2 hsh2 (by simp)
  | .IfExpression cond cons none, b, c, c1, hs, hv, h => by
    have hsc : b = true → cond.supported = true := fun hb => by
      have := hs hb
      rw [supported_if_none, Bool.and_eq_true] at this
      exact this.1
    have hsb : b = true → supportedBlock cons = true := fun hb => by
      have := hs hb
      rw [supported_if_none, Bool.and_eq_true] at this
      exact this.2
    rw [compile_IfExpression] at h
    cases hc : c.CompileExpression cond with
    | error msg a => rw [hc] at h; cases h
    | panic => rw [hc] at h; cases h
    | ok c' =>
      simp only [hc] at h
      obtain ⟨cc, hi1, hsh1, _⟩ := shape_of_expr cond b c c' hsc hv hc
      cases hcons : (c'.emit code.OpJumpNotTruthy [9999]).1.CompileStatements cons with
      | error msg a => rw [hcons] at h; cases h
      | panic => rw [hcons] at h; cases h
      | ok s2 =>
        simp only [hcons] at h
        have B2 := shape_of_block cons b _ _ s2 hsb
          (block_start b (c'.emit code.OpJumpNotTruthy [9999]).1
            (by show code.OpJumpNotTruthy ≠ code.OpPop; decide)) hcons
        obtain ⟨s3, c4, vcode, hd, hch, hjp, hi4, _, hvs⟩ :=
          if_head b c' s2 c.instructions cc hi1 B2
        simp only [hd, hch] at h
        rw [hjp] at h
        obtain ⟨c6, hch6, hi6, hl6⟩ := if_none c4 _ vcode
          (c.instructions.length + cc.length + 3 + vcode.length) hi4
          (by simp only [List.length_append, List.length_cons, List.length_nil])
        simp only [hch6] at h
        cases h
        exact ⟨_, by rw [hi6]; simp only [List.append_assoc], Shape.ifThen _ cc vcode hsh1 hvs,
          (lastValid_of_ne _ (by rw [hl6]; decide)).1⟩
  | .IfExpression cond cons (some alt), b, c, c1, hs, hv, h => by
    have hsc : b = true → cond.supported = true := fun hb => by
      have := hs hb
      rw [supported_if_some, Bool.and_eq_true, Bool.and_eq_true] at this
      exact this.1.1
    have hsb : b = true → supportedBlock cons = true := fun hb => by
      have := hs hb
      rw [supported_if_some, Bool.and_eq_true, Bool.and_eq_true] at this
      exact this.1.2
    have hsa : b = true → supportedBlock alt = true := fun hb => by
      have := hs hb
      rw [supported_if_some, Bool.and_eq_true, Bool.and_eq_true] at this
      exact this.2
    rw [compile_IfExpression] at h
    cases hc : c.CompileExpression cond with
    | error msg a => rw [hc] at h; cases h
    | panic => rw [hc] at h; cases h
    | ok c' =>
      simp only [hc] at h
      obtain ⟨cc, hi1, hsh1, _⟩ := shape_of_expr cond b c c' hsc hv hc
      cases hcons : (c'.emit code.OpJumpNotTruthy [9999]).1.CompileStatements cons with
      | error msg a => rw [hcons] at h; cases h
      | panic => rw [hcons] at h; cases h
      | ok s2 =>
        simp only [hcons] at h
        have B2 := shape_of_block cons b _ _ s2 hsb
          (block_start b (c'.emit code.OpJumpNotTruthy [9999]).1
            (by show code.OpJumpNotTruthy ≠ code.OpPop; decide)) hcons
        obtain ⟨s3, c4, vcode, hd, hch, hjp, hi4, hl4, hvs⟩ :=
          if_head b c' s2 c.instructions cc hi1 B2
        simp only [hd, hch] at h
        rw [hjp] at h
        cases halt : c4.CompileStatements alt with
        | error msg a => rw [halt] at h; cases h
        | panic => rw [halt] at h; cases h
        | ok s6 =>
          simp only [halt] at h
          have B4 := shape_of_block alt b _ _ s6 hsa
            (block_start b c4 (by rw [hl4]; decide)) halt
          obtain ⟨s7, c7, acode, hd7, hch7, hi7, hva, hlv7⟩ := if_some b c4 s6 _ vcode
            (c.instructions.length + cc.length + 3 + vcode.length) hi4
            (by simp only [List.length_append, List.length_cons, List.length_nil]) B4
          simp only [hd7, hch7] at h
          cases h
          exact ⟨_, by rw [hi7]; simp only [List.append_assoc],
            Shape.ifThenElse _ cc vcode acode hsh1 hvs hva, hlv7⟩
  | .StringLiteral _, b, c, c1, hs, hv, h => by
    cases h
    cases b with
    | false => exact ⟨[], by simp, Shape.skipExpr _ rfl, hv⟩
    | true => cases hs rfl
  | .ArrayLiteral _, b, c, c1, hs, hv, h => by
    cases h
    cases b with
    | false => exact ⟨[], by simp, Shape.skipExpr _ rfl, hv⟩
    | true => cases hs rfl
  | .HashLiteral _, b, c, c1, hs, hv, h => by
    cases h
    cases b with
    | false => exact ⟨[], by simp, Shape.skipExpr _ rfl, hv⟩
    | true => cases hs rfl
  | .IndexExpression _ _, b, c, c1, hs, hv, h => by
    cases h
    cases b with
    | false => exact ⟨[], by simp, Shape.skipExpr _ rfl, hv⟩
    | true => cases hs rfl
  | .CallExpression _ _, b, c, c1, hs, hv, h => by
    cases h
    cases b with
    | false => exact ⟨[], by simp, Shape.skipExpr _ rfl, hv⟩
    | true => cases hs rfl
  | .FunctionLiteral _ _, b, c, c1, hs, hv, h => by
    cases h
    cases b with
    | false => exact ⟨[], by simp, Shape.skipExpr _ rfl, hv⟩
    | true => cases hs rfl
/-- The code that `Compile` appends for a statement has the layout of a
statement. -/
theorem shape_of_stmt : ∀ (s : Statement) (b : Bool) (c c1 : Compiler),
    (b = true → s.supported = true) → LastValid c → PrevValid c →
    c.CompileStatement s = .ok c1 →
    ∃ cd, c1.instructions = c.instructions ++ cd ∧ Shape b .stmt c.instructions.length cd
      ∧ LastValid c1 ∧ PrevValid c1
      ∧ ((c1 = c ∧ cd = [])
        ∨ (∃ ce, cd = ce ++ [code.OpPop] ∧ Shape b .expr c.instructions.length ce)
        ∨ c1.lastInstruction.Opcode ≠ code.OpPop)
  | .ExpressionStatement e, b, c, c1, hs, hv, _, h => by
    rw [compile_ExpressionStatement] at h
    cases hc : c.CompileExpression e with
    | error msg a => rw [hc] at h; cases h
    | panic => rw [hc] at h; cases h
    | ok c' =>
      simp only [hc] at h
      obtain ⟨cd, hi, hsh, hv'⟩ := shape_of_expr e b c c' hs hv hc
      cases h
      refine ⟨cd ++ [code.OpPop], ?_, Shape.exprStmt _ _ hsh, (emit_pop_valid c' hv').1,
        (emit_pop_valid c' hv').2, Or.inr (Or.inl ⟨cd, rfl, hsh⟩)⟩
      show c'.instructions ++ [code.OpPop] = _
      rw [hi, List.append_assoc]
  | .LetStatement name e, b, c, c1, hs, hv, _, h => by
    rw [compile_LetStatement] at h
    cases hc : c.CompileExpression e with
    | error msg a => rw [hc] at h; cases h
    | panic => rw [hc] at h; cases h
    | ok c' =>
      simp only [hc] at h
      obtain ⟨cd, hi, hsh, hv'⟩ := shape_of_expr e b c c' hs hv hc
      cases h
      refine ⟨cd ++ [code.OpSetGlobal, (c'.symbolTable.Define name).1.Index / 256 % 256,
          (c'.symbolTable.Define name).1.Index % 256], ?_, Shape.letStmt _ _ _ _ hsh,
        (emit_valid _ _ _ (by decide)).1, (emit_valid _ _ _ (by decide)).2,
        Or.inr (Or.inr (by show code.OpSetGlobal ≠ code.OpPop; decide))⟩
      rw [emit_fst, make_OpSetGlobal]
      show c'.instructions ++ _ = _
      rw [hi, List.append_assoc]
  | .ReturnStatement _, b, c, c1, hs, hv, hp, h => by
    cases h
    cases b with
    | false => exact ⟨[], by simp, Shape.skipStmt _ rfl, hv, hp, Or.inl ⟨rfl, rfl⟩⟩
    | true => cases hs rfl
/-- The loop over the statements of a block keeps the invariant of the block. -/
theorem shape_of_block : ∀ (l : List Statement) (b : Bool) (pre : List Nat) (c c1 : Compiler),
    (b = true → supportedBlock l = true) → BlockInv b pre c →
    c.CompileStatements l = .ok c1 → BlockInv b pre c1
  | [], b, pre, c, c1, _, hB, h => by
    rw [compile_nil] at h
    cases h
    exact hB
  | s :: rest, b, pre, c, c1, hs, hB, h => by
    have hs1 : b = true → s.supported = true := fun hb => by
      have := hs hb
      rw [supported_cons, Bool.and_eq_true] at this
      exact this.1
    have hs2 : b = true → supportedBlock rest = true := fun hb => by
      have := hs hb
      rw [supported_cons, Bool.and_eq_true] at this
      exact this.2
    rw [compile_cons] at h
    cases hc : c.CompileStatement s with
    | error msg a => rw [hc] at h; cases h
    | panic => rw [hc] at h; cases h
    | ok c' =>
      simp only [hc] at h
      obtain ⟨cd0, hi, hsh, hlv, hpv, hdec⟩ := hB
      obtain ⟨cds, his, hss, hlv', hpv', hcase⟩ := shape_of_stmt s b c c' hs1 hlv hpv hc
      rw [hi, List.length_append] at hss
      refine shape_of_block rest b pre c' c1 hs2
        ⟨cd0 ++ cds, by rw [his, hi, List.append_assoc], Shape.snoc _ _ _ hsh hss, hlv', hpv', ?_⟩ h
      intro hl
      rcases hcase with ⟨e1, e2⟩ | ⟨ce, e2, hse⟩ | hne
      · subst e1 e2
        obtain ⟨c0, ce, hcd, h0, he⟩ := hdec hl
        exact ⟨c0, ce, by rw [List.append_nil]; exact hcd, h0, he⟩
      · subst e2
        rw [hi, List.length_append] at hse
        exact ⟨cd0, ce, by rw [List.append_assoc], hsh, hse⟩
      · exact absurd hl hne
end

end compiler


namespace compiler

open object vm ast

/-! ### The instructions of compiled code -/

theorem DecodesTo.mono {hi hi' off : Nat} {cd : List Nat} (h : DecodesTo hi off cd)
    (hle : hi ≤ hi') : DecodesTo hi' off cd := by
  obtain ⟨D, h1, h2⟩ := h
  refine ⟨D, h1, fun e he hj => ?_⟩
  obtain ⟨t, t1, t2, t3⟩ := h2 e he hj
  exact ⟨t, t1, by omega, t3⟩

theorem DecodesTo.andThen {hi off : Nat} {c1 c2 : List Nat} (h1 : DecodesTo hi off c1)
    (h2 : DecodesTo hi (off + c1.length) c2) : DecodesTo hi off (c1 ++ c2) := by
  obtain ⟨D1, a1, b1⟩ := h1
  obtain ⟨D2, a2, b2⟩ := h2
  refine ⟨D1 ++ D2, fun post => ?_, fun e he => ?_⟩
  · rw [List.append_assoc, a1, a2, List.length_append, List.append_assoc, Nat.add_assoc]
  · rcases List.mem_append.mp he with h | h
    · exact b1 e h
    · exact b2 e h

theorem DecodesTo.empty (hi off : Nat) : DecodesTo hi off [] :=
  ⟨[], fun _ => rfl, fun _ he => by cases he⟩

/-- One instruction without operand that is no jump. -/
theorem decodes_simple (hi off op : Nat) (hw : code.width op = 0)
    (hj : op ≠ code.OpJump ∧ op ≠ code.OpJumpNotTruthy) : DecodesTo hi off [op] := by
  refine ⟨[(off, op, [])], fun post => ?_, fun e he hjump => ?_⟩
  · show code.instructionsFrom 0 off (op :: post) = _
    cases post with
    | nil => simp [code.instructionsFrom, hw]
    | cons x xs => simp [code.instructionsFrom, hw]
  · simp only [List.mem_singleton] at he
    subst he
    rcases hjump with h | h
    · exact absurd h hj.1
    · exact absurd h hj.2

/-- One instruction with a two-byte operand that is no jump. -/
theorem decodes_wide (hi off op x y : Nat) (hw : code.width op = 2)
    (hj : op ≠ code.OpJump ∧ op ≠ code.OpJumpNotTruthy) : DecodesTo hi off [op, x, y] := by
  refine ⟨[(off, op, [x, y])], fun post => ?_, fun e he hjump => ?_⟩
  · show code.instructionsFrom 0 off (op :: x :: y :: post) = _
    simp [code.instructionsFrom, hw]
  · simp only [List.mem_singleton] at he
    subst he
    rcases hjump with h | h
    · exact absurd h hj.1
    · exact absurd h hj.2

/-- A jump patched to the offset `t`. -/
theorem decodes_jump (hi off op t : Nat) (hop : op = code.OpJump ∨ op = code.OpJumpNotTruthy)
    (h1 : off < t) (h2 : t ≤ hi) : DecodesTo hi off [op, t / 256 % 256, t % 256] := by
  have hw : code.width op = 2 := by rcases hop with rfl | rfl <;> rfl
  refine ⟨[(off, op, [t / 256 % 256, t % 256])], fun post => ?_, fun e he _ => ?_⟩
  · show code.instructionsFrom 0 off (op :: (t / 256 % 256) :: (t % 256) :: post) = _
    simp [code.instructionsFrom, hw]
  · simp only [List.mem_singleton] at he
    subst he
    exact ⟨t, h1, h2, rfl⟩

end compiler

namespace compiler

open object vm ast

/-- The conditional as whole instructions. -/
theorem decodes_if (hi off : Nat) (cc cons alt : List Nat)
    (hcc : DecodesTo hi off cc) (hcons : DecodesTo hi (off + cc.length + 3) cons)
    (halt : DecodesTo hi (off + cc.length + 3 + cons.length + 3) alt)
    (hhi : off + cc.length + 3 + cons.length + 3 + alt.length ≤ hi) :
    DecodesTo hi off
      (cc ++ [code.OpJumpNotTruthy, (off + cc.length + 3 + cons.length + 3) / 256 % 256,
              (off + cc.length + 3 + cons.length + 3) % 256]
        ++ cons
        ++ [code.OpJump, (off + cc.length + 3 + cons.length + 3 + alt.length) / 256 % 256,
            (off + cc.length + 3 + cons.length + 3 + alt.length) % 256]
        ++ alt) := by
  have j1 : DecodesTo hi (off + cc.length)
      [code.OpJumpNotTruthy, (off + cc.length + 3 + cons.length + 3) / 256 % 256,
        (off + cc.length + 3 + cons.length + 3) % 256] :=
    decodes_jump hi _ _ _ (Or.inr rfl) (by omega) (by omega)
  have j2 : DecodesTo hi (off + cc.length + 3 + cons.length)
      [code.OpJump, (off + cc.length + 3 + cons.length + 3 + alt.length) / 256 % 256,
        (off + cc.length + 3 + cons.length + 3 + alt.length) % 256] :=
    decodes_jump hi _ _ _ (Or.inl rfl) (by omega) (by omega)
  have s1 := hcc.andThen j1
  have e2 : off + (cc ++ [code.OpJumpNotTruthy,
      (off + cc.length + 3 + cons.length + 3) / 256 % 256,
      (off + cc.length + 3 + cons.length + 3) % 256]).length = off + cc.length + 3 := by
    simp only [List.length_append, List.length_cons, List.length_nil]; omega
  have s2 := s1.andThen (by rw [e2]; exact hcons)
  have e3 : off + (cc ++ [code.OpJumpNotTruthy,
      (off + cc.length + 3 + cons.length + 3) / 256 % 256,
      (off + cc.length + 3 + cons.length + 3) % 256] ++ cons).length
      = off + cc.length + 3 + cons.length := by
    simp only [List.length_append, List.length_cons, List.length_nil]; omega
  have s3 := s2.andThen (by rw [e3]; exact j2)
  have e4 : off + (cc ++ [code.OpJumpNotTruthy,
      (off + cc.length + 3 + cons.length + 3) / 256 % 256,
      (off + cc.length + 3 + cons.length + 3) % 256] ++ cons
      ++ [code.OpJump, (off + cc.length + 3 + cons.length + 3 + alt.length) / 256 % 256,
        (off + cc.length + 3 + cons.length + 3 + alt.length) % 256]).length
      = off + cc.length + 3 + cons.length + 3 := by
    simp only [List.length_append, List.length_cons, List.length_nil]; omega
  exact s3.andThen (by rw [e4]; exact halt)

/-- Compiled code is a sequence of whole instructions, and each of its jumps
is patched to an offset behind the jump and inside the code, or at its end
when the code is that of an expression. -/
theorem shape_decodes {b : Bool} {k : Kind} {off : Nat} {cd : List Nat}
    (h : Shape b k off cd) : DecodesTo (off + cd.length - k.slack) off cd := by
  induction h with
  | skipExpr off _ => exact DecodesTo.empty _ _
  | skipStmt off _ => exact DecodesTo.empty _ _
  | simple off op hop =>
    rcases hop with rfl | rfl
    · exact decodes_simple _ _ _ rfl (by decide)
    · exact decodes_simple _ _ _ rfl (by decide)
  | wide off op hi lo hop =>
    rcases hop with rfl | rfl
    · exact decodes_wide _ _ _ _ _ rfl (by decide)
    · exact decodes_wide _ _ _ _ _ rfl (by decide)
  | unary off op c1 hop _ ih =>
    refine (ih.mono ?_).andThen ?_
    · simp only [Kind.slack, List.length_append, List.length_cons, List.length_nil]; omega
    · rcases hop with rfl | rfl
      · exact decodes_simple _ _ _ rfl (by decide)
      · exact decodes_simple _ _ _ rfl (by decide)
  | binary off op c1 c2 hop _ _ ih1 ih2 =>
    refine ((ih1.mono ?_).andThen (ih2.mono ?_)).andThen ?_
    · simp only [Kind.slack, List.length_append, List.length_cons, List.length_nil]; omega
    · simp only [Kind.slack, List.length_append, List.length_cons, List.length_nil]; omega
    · rcases hop with rfl | rfl | rfl | rfl | rfl | rfl | rfl <;>
        exact decodes_simple _ _ _ rfl (by decide)
  | ifThen off cc cons _ _ ih1 ih2 =>
    refine decodes_if _ off cc cons [code.OpNull] (ih1.mono ?_) (ih2.mono ?_)
      (decodes_simple _ _ _ rfl (by decide)) ?_
    · simp only [Kind.slack, List.length_append, List.length_cons, List.length_nil]; omega
    · simp only [Kind.slack, List.length_append, List.length_cons, List.length_nil]; omega
    · simp only [Kind.slack, List.length_append, List.length_cons, List.length_nil]; omega
  | ifThenElse off cc cons alt _ _ _ ih1 ih2 ih3 =>
    refine decodes_if _ off cc cons alt (ih1.mono ?_) (ih2.mono ?_) (ih3.mono ?_) ?_
    · simp only [Kind.slack, List.length_append, List.length_cons, List.length_nil]; omega
    · simp only [Kind.slack, List.length_append, List.length_cons, List.length_nil]; omega
    · simp only [Kind.slack, List.length_append, List.length_cons, List.length_nil]; omega
    · simp only [Kind.slack, List.length_append, List.length_cons, List.length_nil]; omega
  | exprStmt off c1 _ ih =>
    refine (ih.mono ?_).andThen (decodes_simple _ _ _ rfl (by decide))
    simp only [Kind.slack, List.length_append, List.length_cons, List.length_nil]; omega
  | letStmt off c1 hi lo _ ih =>
    refine (ih.mono ?_).andThen (decodes_wide _ _ _ _ _ rfl (by decide))
    simp only [Kind.slack, List.length_append, List.length_cons, List.length_nil]; omega
  | nil off => exact DecodesTo.empty _ _
  | snoc off c1 c2 _ _ ih1 ih2 =>
    refine (ih1.mono ?_).andThen (ih2.mono ?_)
    · simp only [Kind.slack, List.length_append]; omega
    · simp only [Kind.slack, List.length_append]; omega
  | ofBlock off c1 _ ih =>
    exact ih.mono (by simp only [Kind.slack]; omega)
  | ofExpr off c1 c2 _ _ ih1 ih2 =>
    refine (ih1.mono ?_).andThen (ih2.mono ?_)
    · simp only [Kind.slack, List.length_append]; omega
    · simp only [Kind.slack, List.length_append]; omega


/-! ### A jump whose target is the offset 9999 -/

theorem truePad_length (n : Nat) : (truePad n).length = 2 * n := by
  induction n with
  | zero => rfl
  | succ k ih =>
    show ([code.OpTrue, code.OpPop] ++ truePad k).length = _
    rw [List.length_append, ih]
    simp only [List.length_cons, List.length_nil]
    omega

/-- The statements `true;` one after the other append their code and leave
the constants and the symbol table as they are. -/
theorem compile_truePad (n : Nat) : ∀ (c : Compiler) (rest : List Statement),
    ∃ c' : Compiler, c.CompileStatements (List.replicate n trueStatement ++ rest)
        = c'.CompileStatements rest
      ∧ c'.instructions = c.instructions ++ truePad n ∧ c'.constants = c.constants
      ∧ c'.symbolTable = c.symbolTable := by
  induction n with
  | zero =>
    intro c rest
    exact ⟨c, rfl, by simp [truePad], rfl, rfl⟩
  | succ k ih =>
    intro c rest
    obtain ⟨c', h1, h2, h3, h4⟩ := ih ((c.emit code.OpTrue []).1.emit code.OpPop []).1 rest
    refine ⟨c', ?_, ?_, h3, h4⟩
    · rw [List.replicate_succ, List.cons_append, compile_cons]
      exact h1
    · rw [h2]
      show c.instructions ++ [code.OpTrue] ++ [code.OpPop] ++ truePad k = _
      simp [truePad]

theorem decodes_truePad (hi : Nat) (n : Nat) : ∀ off, DecodesTo hi off (truePad n) := by
  induction n with
  | zero => intro off; exact DecodesTo.empty _ _
  | succ k ih =>
    intro off
    have h1 : DecodesTo hi off [code.OpTrue] := decodes_simple _ _ _ rfl (by decide)
    have h2 : DecodesTo hi (off + 1) [code.OpPop] := decodes_simple _ _ _ rfl (by decide)
    have h3 := (h1.andThen h2).andThen (ih (off + [code.OpTrue, code.OpPop].length))
    exact h3

end compiler

namespace compiler

open object vm ast

/-- The program `!true; true; ... true; if (true) { 1 }` with `n` statements
`true;`: the OpJumpNotTruthy of the conditional lies at the offset `2 * n + 4`
and its operand is the offset `2 * n + 13` behind the OpJump. -/
theorem compile_padded_if (n : Nat) :
    ∃ c, New.Compile (.Program ([.ExpressionStatement (.PrefixExpression "!" (.Boolean true))]
        ++ List.replicate n trueStatement ++ ifProgram (.Boolean true) 1)) = .ok c
      ∧ (2 * n + 4, code.OpJumpNotTruthy, [(2 * n + 13) / 256 % 256, (2 * n + 13) % 256])
          ∈ code.instructionsOf c.instructions := by
  have h0 : New.CompileStatement (.ExpressionStatement (.PrefixExpression "!" (.Boolean true)))
      = .ok { instructions := [6, 12, 2], constants := [], lastInstruction := ⟨2, 2⟩,
              previousInstruction := ⟨12, 1⟩, symbolTable := NewSymbolTable } := by decide!
  obtain ⟨c', h1, h2, h3, _⟩ := compile_truePad n
    { instructions := [6, 12, 2], constants := [], lastInstruction := ⟨2, 2⟩,
      previousInstruction := ⟨12, 1⟩, symbolTable := NewSymbolTable }
    (ifProgram (.Boolean true) 1)
  obtain ⟨c2, h4, h5, _⟩ := compile_if_literal c' (c'.emit code.OpTrue []).1 (.Boolean true) 1 rfl
  have hlen : (c'.emit code.OpTrue []).1.instructions.length = 2 * n + 4 := by
    show (c'.instructions ++ [code.OpTrue]).length = _
    rw [h2]
    simp only [List.length_append, truePad_length, List.length_cons, List.length_nil]
    omega
  rw [hlen] at h5
  have hi1 : (c'.emit code.OpTrue []).1.instructions
      = [code.OpTrue, code.OpBang, code.OpPop] ++ truePad n ++ [code.OpTrue] := by
    show c'.instructions ++ [code.OpTrue] = _
    rw [h2]
  rw [hi1] at h5
  refine ⟨(c2.emit code.OpPop []).1, ?_, ?_⟩
  · show Compiler.CompileStatements New _ = _
    rw [List.singleton_append, List.cons_append, compile_cons, h0]
    show Compiler.CompileStatements _ _ = _
    rw [h1, ifProgram, compile_cons, compile_ExpressionStatement, h4]
    rfl
  · have hd : DecodesTo 0 0 ([code.OpTrue, code.OpBang, code.OpPop] ++ truePad n
        ++ [code.OpTrue]) := by
      have a1 : DecodesTo 0 0 [code.OpTrue] := decodes_simple _ _ _ rfl (by decide)
      have a2 : DecodesTo 0 (0 + 1) [code.OpBang] := decodes_simple _ _ _ rfl (by decide)
      have a3 : DecodesTo 0 (0 + 1 + 1) [code.OpPop] := decodes_simple _ _ _ rfl (by decide)
      have a4 := ((a1.andThen a2).andThen a3).andThen (decodes_truePad 0 n _)
      exact a4.andThen (decodes_simple _ _ _ rfl (by decide))
    obtain ⟨D, hD, _⟩ := hd
    have hfin : (c2.emit code.OpPop []).1.instructions
        = ([code.OpTrue, code.OpBang, code.OpPop] ++ truePad n ++ [code.OpTrue])
          ++ (code.OpJumpNotTruthy :: ((2 * n + 4 + 9) / 256 % 256) :: ((2 * n + 4 + 9) % 256)
            :: [code.OpConstant, (c'.emit code.OpTrue []).1.constants.length / 256 % 256,
                (c'.emit code.OpTrue []).1.constants.length % 256,
                code.OpJump, (2 * n + 4 + 10) / 256 % 256, (2 * n + 4 + 10) % 256,
                code.OpNull, code.OpPop]) := by
      show c2.instructions ++ [code.OpPop] = _
      rw [h5]
      simp
    rw [code.instructionsOf, hfin, hD]
    apply List.mem_append_right
    have hl : (0 + ([code.OpTrue, code.OpBang, code.OpPop] ++ truePad n
        ++ [code.OpTrue]).length) = 2 * n + 4 := by
      simp only [List.length_append, truePad_length, List.length_cons, List.length_nil]
      omega
    rw [hl]
    have hw : code.width code.OpJumpNotTruthy = 2 := rfl
    simp only [code.instructionsFrom, hw, List.take, List.mem_cons, true_or]

/-- C6 (counterexample): in the stream of `!true; true; ... true; if (true) { 1 }`
with 4993 statements `true;` the OpJumpNotTruthy of the conditional, at offset
9990, is patched to the offset 9999 behind the OpJump, so that its operand is
9999. -/
theorem jump_operand_9999 :
    ∃ c, New.Compile (.Program jumpTo9999) = .ok c
      ∧ ∃ pos operand, (pos, code.OpJumpNotTruthy, operand) ∈ code.instructionsOf c.instructions
        ∧ code.ReadUint16 operand = some 9999 := by
  obtain ⟨c, h1, h2⟩ := compile_padded_if 4993
  exact ⟨c, h1, _, _, h2, by decide⟩

end compiler

namespace vm

open object

/-! ### A run through a stream of more than 65535 bytes -/

theorem Reach.cast {vm vm1 : VM} {a b a' b' : Nat} (h : Reach vm a vm1 b) (ha : a = a')
    (hb : b = b') : Reach vm a' vm1 b' := by
  subst ha hb
  exact h

theorem mach_of_pushed {ins : List Nat} {vm vm1 : VM} {sp : Nat} {g o : Object}
    (m : Mach ins vm sp g) (p : Pushed vm vm1 o) : Mach ins vm1 (sp + 1) g := by
  obtain ⟨m1, m2, m3, m4⟩ := m
  obtain ⟨s1, _, _, l1, g1, _, i1, _⟩ := p
  exact ⟨by rw [i1, m1], by rw [s1, m2], by rw [l1, m3], by rw [g1, m4]⟩

theorem mach_push (ins : List Nat) (vm : VM) (sp ip : Nat) (g : Object) (pre post : List Nat)
    (op : Nat) (m : Mach ins vm sp g) (h : ins = pre ++ [op] ++ post) (hip : pre.length = ip)
    (hop : op = code.OpTrue ∨ op = code.OpFalse) (hsp : sp < StackSize) :
    ∃ vm1, Reach vm ip vm1 (ip + 1) ∧ Mach ins vm1 (sp + 1) g := by
  have hop' : ∃ o, (op = code.OpTrue ∧ o = True) ∨ (op = code.OpFalse ∧ o = False)
      ∨ (op = code.OpNull ∧ o = Null) := by
    rcases hop with h | h
    · exact ⟨True, Or.inl ⟨h, rfl⟩⟩
    · exact ⟨False, Or.inr (Or.inl ⟨h, rfl⟩)⟩
  obtain ⟨o, ho⟩ := hop'
  obtain ⟨vm1, r, p⟩ := exec_singleton vm pre post op o (by rw [m.1, h]) ho
    (by rw [m.2.1]; exact hsp) (by rw [m.2.1, m.2.2.1]; exact hsp)
  exact ⟨vm1, r.cast hip (by rw [hip]), mach_of_pushed m p⟩

theorem mach_pop (ins : List Nat) (vm : VM) (sp ip : Nat) (g : Object) (pre post : List Nat)
    (m : Mach ins vm (sp + 1) g) (h : ins = pre ++ [code.OpPop] ++ post)
    (hip : pre.length = ip) (hsp : sp < StackSize) :
    ∃ vm1, Reach vm ip vm1 (ip + 1) ∧ Mach ins vm1 sp g := by
  obtain ⟨m1, m2, m3, m4⟩ := m
  have h' : vm.instructions = pre ++ code.OpPop :: post := by rw [m1, h]; simp
  obtain ⟨hi, hlt⟩ := ins_at vm pre _ _ h'
  have hb : vm.sp - 1 < vm.stack.length := by rw [m2, m3]; omega
  obtain ⟨x, hx⟩ : ∃ x, vm.stack[vm.sp - 1]? = some x :=
    ⟨vm.stack.get ⟨vm.sp - 1, hb⟩, List.getElem?_eq_getElem hb⟩
  have hs : vm.step pre.length = .ok ({ vm with sp := vm.sp - 1 }, pre.length + 1) := by
    rw [step_OpPop vm _ hi, pop_eq vm _ (by omega) hx]
  exact ⟨{ vm with sp := vm.sp - 1 }, (Reach.step hlt hs).cast hip (by rw [hip]),
    m1, by show vm.sp - 1 = sp; omega, m3, m4⟩

/-- OpTrue and OpBang one after the other leave one value more on the stack. -/
theorem mach_true_bang (ins : List Nat) (vm : VM) (sp ip : Nat) (g : Object)
    (pre post : List Nat) (m : Mach ins vm sp g)
    (h : ins = pre ++ [code.OpTrue, code.OpBang] ++ post) (hip : pre.length = ip)
    (hsp : sp < StackSize) :
    ∃ vm1, Reach vm ip vm1 (ip + 2) ∧ Mach ins vm1 (sp + 1) g := by
  obtain ⟨vm1, r1, m'⟩ := mach_push ins vm sp ip g pre ([code.OpBang] ++ post) code.OpTrue m
    (by rw [h]; simp) hip (Or.inl rfl) hsp
  obtain ⟨m1, m2, m3, m4⟩ := m'
  have h' : vm1.instructions = (pre ++ [code.OpTrue]) ++ code.OpBang :: post := by
    rw [m1, h]; simp
  obtain ⟨hi, hlt⟩ := ins_at vm1 _ _ _ h'
  have hb : vm1.sp - 1 < vm1.stack.length := by rw [m2, m3]; omega
  obtain ⟨x, hx⟩ : ∃ x, vm1.stack[vm1.sp - 1]? = some x :=
    ⟨vm1.stack.get ⟨vm1.sp - 1, hb⟩, List.getElem?_eq_getElem hb⟩
  have hs := bang_step vm1 _ x hi (by omega) (by rw [m2]; omega) (by rw [m2, m3]; omega) hx
  refine ⟨_, Reach.trans r1 ((Reach.step hlt hs).cast ?_ ?_), m1, m2, ?_, m4⟩
  · rw [List.length_append, hip]; rfl
  · rw [List.length_append, hip]; rfl
  · show (vm1.stack.set _ _).length = _
    rw [List.length_set, m3]

/-- OpTrue and OpJumpNotTruthy one after the other go on behind the jump. -/
theorem mach_true_jnt (ins : List Nat) (vm : VM) (sp ip t : Nat) (g : Object)
    (pre post : List Nat) (m : Mach ins vm sp g)
    (h : ins = pre ++ [code.OpTrue] ++ [code.OpJumpNotTruthy, t / 256 % 256, t % 256] ++ post)
    (hip : pre.length = ip) (ht : t < 65536) (hsp : sp < StackSize) :
    ∃ vm1, Reach vm ip vm1 (ip + 4) ∧ Mach ins vm1 sp g := by
  obtain ⟨m1, m2, m3, m4⟩ := m
  obtain ⟨vm1, r1, p1⟩ := exec_singleton vm pre
    ([code.OpJumpNotTruthy, t / 256 % 256, t % 256] ++ post) code.OpTrue True
    (by rw [m1, h]; simp) (Or.inl ⟨rfl, rfl⟩) (by rw [m2]; exact hsp)
    (by rw [m2, m3]; exact hsp)
  have r2 := exec_OpJumpNotTruthy vm vm1 (pre ++ [code.OpTrue]) post t True p1
    (by rw [p1.2.2.2.2.2.2.1, m1, h]) ht
  obtain ⟨l1, _, i1⟩ := pushed_after_pop vm vm1 True p1
  refine ⟨{ vm1 with sp := vm.sp }, Reach.trans (r1.cast hip rfl) (r2.cast ?_ ?_),
    by rw [i1, m1], m2, by rw [l1, m3], ?_⟩
  · rw [List.length_append, hip]; rfl
  · show (pre ++ [code.OpTrue]).length + 3 = _
    rw [List.length_append, hip]; rfl
  · show vm1.globals[0]? = _
    rw [p1.2.2.2.2.1, m4]

/-- OpGetGlobal 0 and OpJumpNotTruthy one after the other go on behind the
jump when the global is truthy and at the target when not. -/
theorem mach_global_jnt (ins : List Nat) (vm : VM) (sp ip t : Nat) (g : Object)
    (pre post : List Nat) (m : Mach ins vm sp g)
    (h : ins = pre ++ [code.OpGetGlobal, 0, 0]
      ++ [code.OpJumpNotTruthy, t / 256 % 256, t % 256] ++ post)
    (hip : pre.length = ip) (ht : t < 65536) (hsp : sp < StackSize) :
    ∃ vm1, Reach vm ip vm1 (if isTruthy g then ip + 6 else t) ∧ Mach ins vm1 sp g := by
  obtain ⟨m1, m2, m3, m4⟩ := m
  obtain ⟨vm1, r1, p1⟩ := exec_OpGetGlobal vm pre
    ([code.OpJumpNotTruthy, t / 256 % 256, t % 256] ++ post) 0 g
    (by rw [m1, h]; simp) (by decide) m4 (by rw [m2]; exact hsp)
    (by rw [m2, m3]; exact hsp)
  have r2 := exec_OpJumpNotTruthy vm vm1 (pre ++ [code.OpGetGlobal, 0, 0]) post t g p1
    (by rw [p1.2.2.2.2.2.2.1, m1, h]) ht
  obtain ⟨l1, _, i1⟩ := pushed_after_pop vm vm1 g p1
  refine ⟨{ vm1 with sp := vm.sp }, Reach.trans (r1.cast hip rfl) (r2.cast ?_ ?_),
    by rw [i1, m1], m2, by rw [l1, m3], ?_⟩
  · rw [List.length_append, hip]; rfl
  · rw [List.length_append, hip]
    cases isTruthy g <;> rfl
  · show vm1.globals[0]? = _
    rw [p1.2.2.2.2.1, m4]

/-- OpFalse and OpSetGlobal 0 one after the other store False in the global. -/
theorem mach_false_set (ins : List Nat) (vm : VM) (sp ip : Nat) (g : Object)
    (pre post : List Nat) (m : Mach ins vm sp g)
    (h : ins = pre ++ [code.OpFalse] ++ [code.OpSetGlobal, 0, 0] ++ post)
    (hip : pre.length = ip) (hsp : sp < StackSize) :
    ∃ vm1, Reach vm ip vm1 (ip + 4) ∧ Mach ins vm1 sp False := by
  obtain ⟨m1, m2, m3, m4⟩ := m
  obtain ⟨vm1, r1, p1⟩ := exec_singleton vm pre
    ([code.OpSetGlobal, 0, 0] ++ post) code.OpFalse False
    (by rw [m1, h]; simp) (Or.inr (Or.inl ⟨rfl, rfl⟩)) (by rw [m2]; exact hsp)
    (by rw [m2, m3]; exact hsp)
  have hg : 0 < vm1.globals.length := by
    rw [p1.2.2.2.2.1]
    rcases Nat.lt_or_ge 0 vm.globals.length with h0 | h0
    · exact h0
    · rw [List.getElem?_eq_none h0] at m4
      cases m4
  have r2 := exec_OpSetGlobal vm vm1 (pre ++ [code.OpFalse]) post 0 False p1
    (by rw [p1.2.2.2.2.2.2.1, m1, h]) (by decide) hg
  refine ⟨_, Reach.trans (r1.cast hip rfl) (r2.cast ?_ ?_),
    by show vm1.instructions = _; rw [p1.2.2.2.2.2.2.1, m1], m2,
    by show vm1.stack.length = _; rw [p1.2.2.2.1, m3], ?_⟩
  · rw [List.length_append, hip]; rfl
  · rw [List.length_append, hip]; rfl
  · show (vm1.globals.set 0 False)[0]? = _
    rw [List.getElem?_set_self hg]

/-- The code of `n` statements `true;` leaves `sp` as it was. -/
theorem mach_pad (ins : List Nat) (g : Object) (sp : Nat) (hsp : sp < StackSize) (n : Nat) :
    ∀ (vm : VM) (ip : Nat) (pre post : List Nat), Mach ins vm sp g →
      ins = pre ++ compiler.truePad n ++ post → pre.length = ip →
      ∃ vm1, Reach vm ip vm1 (ip + 2 * n) ∧ Mach ins vm1 sp g := by
  induction n with
  | zero =>
    intro vm ip pre post m _ _
    exact ⟨vm, Reach.refl vm ip, m⟩
  | succ k ih =>
    intro vm ip pre post m h hip
    have h' : ins = pre ++ [code.OpTrue] ++ ([code.OpPop] ++ compiler.truePad k ++ post) := by
      rw [h]; simp [compiler.truePad]
    obtain ⟨vm1, r1, m1⟩ := mach_push ins vm sp ip g pre _ code.OpTrue m h' hip (Or.inl rfl) hsp
    obtain ⟨vm2, r2, m2⟩ := mach_pop ins vm1 sp (ip + 1) g (pre ++ [code.OpTrue])
      (compiler.truePad k ++ post) m1 (by rw [h']; simp) (by rw [List.length_append, hip]; rfl) hsp
    obtain ⟨vm3, r3, m3⟩ := ih vm2 (ip + 1 + 1) (pre ++ [code.OpTrue, code.OpPop]) post m2
      (by rw [h]; simp [compiler.truePad]) (by rw [List.length_append, hip]; rfl)
    exact ⟨vm3, (Reach.trans r1 (Reach.trans r2 r3)).cast rfl (by omega), m3⟩

end vm

namespace compiler

open object vm ast

/-- The loop of `Run` on the stream of `wrapProgram 32754`: the OpJump of the
last conditional, whose target 65544 is written as 8, leads back into the
alternative of the first conditional with one value left on the stack; the
loop then sets the global, takes the alternative of the last conditional and
comes to the end of the stream with `sp == 1`. -/
theorem wrap_run (n : Nat) (hn : n = 32754) (vm0 : VM)
    (m : Mach (wrapFirstCode ++ truePad n ++ wrapLastCode) vm0 0 Object.nil) :
    ∃ vm1, Reach vm0 0 vm1 65545 ∧ vm1.sp = 1 ∧ vm1.instructions.length = 65545 := by
  have hl : (wrapFirstCode ++ truePad n).length = 14 + 2 * n := by
    rw [List.length_append, truePad_length]; rfl
  obtain ⟨vmA, rA, mA⟩ := mach_true_jnt _ vm0 0 0 8 _ []
    ([6, 14, 0, 13, 7, 17, 0, 0, 6, 2] ++ truePad n ++ wrapLastCode) m rfl rfl
    (by decide) (by decide)
  obtain ⟨vmB, rB, mB⟩ := mach_push _ vmA 0 4 _ [6, 13, 0, 8]
    ([14, 0, 13, 7, 17, 0, 0, 6, 2] ++ truePad n ++ wrapLastCode) 6 mA rfl rfl
    (Or.inl rfl) (by decide)
  have rC := (exec_OpJump vmB [6, 13, 0, 8, 6] ([7, 17, 0, 0, 6, 2] ++ truePad n ++ wrapLastCode)
    13 (by rw [mB.1]; rfl) (by decide)).cast (show _ = 5 from rfl) rfl
  obtain ⟨vmD, rD, mD⟩ := mach_pop _ vmB 0 13 _ [6, 13, 0, 8, 6, 14, 0, 13, 7, 17, 0, 0, 6]
    (truePad n ++ wrapLastCode) mB rfl rfl (by decide)
  obtain ⟨vmE, rE, mE⟩ := mach_pad _ Object.nil 0 (by decide) n vmD 14 wrapFirstCode
    wrapLastCode mD rfl rfl
  obtain ⟨vmF, rF, mF⟩ := mach_global_jnt _ vmE 0 (14 + 2 * n) 65532 _
    (wrapFirstCode ++ truePad n)
    [6, 14, 0, 8, 6, 2, 6, 2, 6, 2, 6, 2, 6, 2, 6, 12, 2] mE
    (by simp [wrapLastCode]) hl (by decide) (by decide)
  have hF : (if isTruthy Object.nil then 14 + 2 * n + 6 else 65532) = 14 + 2 * n + 6 := rfl
  rw [hF] at rF
  obtain ⟨vmG, rG, mG⟩ := mach_push _ vmF 0 (14 + 2 * n + 6) _
    (wrapFirstCode ++ truePad n ++ [16, 0, 0, 13, 255, 252])
    [14, 0, 8, 6, 2, 6, 2, 6, 2, 6, 2, 6, 2, 6, 12, 2] 6 mF
    (by simp [wrapLastCode]) (by rw [List.length_append, hl]; rfl) (Or.inl rfl) (by decide)
  have rH := (exec_OpJump vmG (wrapFirstCode ++ truePad n ++ [16, 0, 0, 13, 255, 252, 6])
    [6, 2, 6, 2, 6, 2, 6, 2, 6, 2, 6, 12, 2] 8
    (by rw [mG.1]; simp [wrapLastCode]) (by decide)).cast
    (show _ = 14 + 2 * n + 6 + 1 by rw [List.length_append, hl]; rfl) rfl
  obtain ⟨vmI, rI, mI⟩ := mach_false_set _ vmG 1 8 _ [6, 13, 0, 8, 6, 14, 0, 13]
    ([6, 2] ++ truePad n ++ wrapLastCode) mG rfl rfl (by decide)
  obtain ⟨vmJ, rJ, mJ⟩ := mach_push _ vmI 1 12 _ [6, 13, 0, 8, 6, 14, 0, 13, 7, 17, 0, 0]
    ([2] ++ truePad n ++ wrapLastCode) 6 mI rfl rfl (Or.inl rfl) (by decide)
  obtain ⟨vmK, rK, mK⟩ := mach_pop _ vmJ 1 13 _ [6, 13, 0, 8, 6, 14, 0, 13, 7, 17, 0, 0, 6]
    (truePad n ++ wrapLastCode) mJ rfl rfl (by decide)
  obtain ⟨vmL, rL, mL⟩ := mach_pad _ False 1 (by decide) n vmK 14 wrapFirstCode
    wrapLastCode mK rfl rfl
  obtain ⟨vmM, rM, mM⟩ := mach_global_jnt _ vmL 1 (14 + 2 * n) 65532 _
    (wrapFirstCode ++ truePad n)
    [6, 14, 0, 8, 6, 2, 6, 2, 6, 2, 6, 2, 6, 2, 6, 12, 2] mL
    (by simp [wrapLastCode]) hl (by decide) (by decide)
  have hM : (if isTruthy False then 14 + 2 * n + 6 else 65532) = 65532 := rfl
  rw [hM] at rM
  obtain ⟨vmN, rN, mN⟩ := mach_pad _ False 1 (by decide) 5 vmM 65532
    (wrapFirstCode ++ truePad n ++ [16, 0, 0, 13, 255, 252, 6, 14, 0, 8]) [6, 12, 2] mM
    (by simp [wrapLastCode, truePad]) (by rw [List.length_append, hl]; simp; omega)
  obtain ⟨vmO, rO, mO⟩ := mach_true_bang _ vmN 1 (65532 + 2 * 5) _
    (wrapFirstCode ++ truePad n ++ [16, 0, 0, 13, 255, 252, 6, 14, 0, 8] ++ truePad 5) [2] mN
    (by simp [wrapLastCode, truePad])
    (by rw [List.length_append, List.length_append, hl]; simp [truePad]; omega) (by decide)
  obtain ⟨vmP, rP, mP⟩ := mach_pop _ vmO 1 (65532 + 2 * 5 + 2) _
    (wrapFirstCode ++ truePad n ++ [16, 0, 0, 13, 255, 252, 6, 14, 0, 8] ++ truePad 5 ++ [6, 12])
    [] mO (by simp [wrapLastCode, truePad])
    (by rw [List.length_append, List.length_append, List.length_append, hl]
        simp [truePad]; omega) (by decide)
  refine ⟨vmP, ?_, mP.2.1, ?_⟩
  · exact Reach.trans rA (Reach.trans rB (Reach.trans rC (Reach.trans rD (Reach.trans rE
      (Reach.trans rF (Reach.trans rG (Reach.trans rH (Reach.trans rI (Reach.trans rJ
      (Reach.trans rK (Reach.trans rL (Reach.trans rM (Reach.trans rN
      (Reach.trans rO rP))))))))))))))
  · rw [mP.1, List.length_append, hl]
    simp [wrapLastCode]
    omega

end compiler

namespace compiler

open object vm ast

/-- A conditional with an alternative whose two blocks, compiled from any
state, append fixed code once their last OpPop is removed. -/
theorem compile_if_else_blocks (c0 c1 : Compiler) (cond : Expression)
    (cons alt : List Statement) (ccode acode : List Nat)
    (h : c0.CompileExpression cond = .ok c1)
    (hcons : ∀ s : Compiler, ∃ s2 s3, s.CompileStatements cons = .ok s2
      ∧ s2.dropLastPop = some s3 ∧ s3.instructions = s.instructions ++ ccode)
    (halt : ∀ s : Compiler, ∃ s2 s3, s.CompileStatements alt = .ok s2
      ∧ s2.dropLastPop = some s3 ∧ s3.instructions = s.instructions ++ acode) :
    ∃ c2, c0.CompileExpression (.IfExpression cond cons (some alt)) = .ok c2
      ∧ c2.instructions = c1.instructions
        ++ [code.OpJumpNotTruthy, (c1.instructions.length + 3 + ccode.length + 3) / 256 % 256,
            (c1.instructions.length + 3 + ccode.length + 3) % 256]
        ++ ccode
        ++ [code.OpJump,
            (c1.instructions.length + 3 + ccode.length + 3 + acode.length) / 256 % 256,
            (c1.instructions.length + 3 + ccode.length + 3 + acode.length) % 256]
        ++ acode := by
  obtain ⟨s2, s3, hs2, hs3, hi3⟩ := hcons (c1.emit code.OpJumpNotTruthy [9999]).1
  have hi3' : s3.instructions = c1.instructions ++ code.OpJumpNotTruthy :: 39 :: 15 :: ccode := by
    rw [hi3]; simp [emit_fst, make_OpJumpNotTruthy]
  have hlen : (s3.emit code.OpJump [9999]).1.instructions.length
      = c1.instructions.length + 3 + ccode.length + 3 := by
    simp only [emit_fst, make_OpJump]; rw [hi3']; simp; omega
  have hp1 := changeOperand_at (s3.emit code.OpJump [9999]).1 c1.instructions
    (ccode ++ [code.OpJump, 39, 15]) code.OpJumpNotTruthy 39 15
    (s3.emit code.OpJump [9999]).1.instructions.length
    (by simp only [emit_fst, make_OpJump]; rw [hi3']; simp) rfl
  rw [hlen] at hp1
  obtain ⟨s6, s7, hs6, hs7, hi7⟩ := halt
    { (s3.emit code.OpJump [9999]).1 with
      instructions := c1.instructions ++ code.OpJumpNotTruthy
        :: ((c1.instructions.length + 3 + ccode.length + 3) / 256 % 256)
        :: ((c1.instructions.length + 3 + ccode.length + 3) % 256)
        :: (ccode ++ [code.OpJump, 39, 15]) }
  have hi7' : s7.instructions = (c1.instructions ++ [code.OpJumpNotTruthy,
      (c1.instructions.length + 3 + ccode.length + 3) / 256 % 256,
      (c1.instructions.length + 3 + ccode.length + 3) % 256] ++ ccode)
      ++ code.OpJump :: 39 :: 15 :: acode := by
    rw [hi7]; simp
  have hlen7 : s7.instructions.length
      = c1.instructions.length + 3 + ccode.length + 3 + acode.length := by
    rw [hi7']; simp; omega
  have hp2 := changeOperand_at s7 _ acode code.OpJump 39 15 s7.instructions.length hi7' rfl
  have hpos : (c1.instructions ++ [code.OpJumpNotTruthy,
      (c1.instructions.length + 3 + ccode.length + 3) / 256 % 256,
      (c1.instructions.length + 3 + ccode.length + 3) % 256] ++ ccode).length
      = s3.instructions.length := by
    rw [hi3']; simp
  rw [hpos, hlen7] at hp2
  refine ⟨{ s7 with instructions := (c1.instructions ++ [code.OpJumpNotTruthy,
      (c1.instructions.length + 3 + ccode.length + 3) / 256 % 256,
      (c1.instructions.length + 3 + ccode.length + 3) % 256] ++ ccode)
      ++ code.OpJump
        :: ((c1.instructions.length + 3 + ccode.length + 3 + acode.length) / 256 % 256)
        :: ((c1.instructions.length + 3 + ccode.length + 3 + acode.length) % 256)
        :: acode }, ?_, ?_⟩
  · rw [compile_IfExpression, h]
    simp only [hs2, hs3, emit_snd, hlen, hp1, hs6, hs7, hlen7, hp2]
  · simp

/-- The block `{ true }`. -/
theorem compile_true_block (s : Compiler) :
    ∃ s2 s3, s.CompileStatements [trueStatement] = .ok s2 ∧ s2.dropLastPop = some s3
      ∧ s3.instructions = s.instructions ++ [code.OpTrue] :=
  ⟨_, _, rfl, dropLastPop_of_pop _ (s.instructions ++ [code.OpTrue]) rfl rfl, rfl⟩

/-- The block `{ true; true; true; true; true; !true }`. -/
theorem compile_bang_block (s : Compiler) :
    ∃ s2 s3, s.CompileStatements (List.replicate 5 trueStatement
        ++ [.ExpressionStatement (.PrefixExpression "!" (.Boolean true))]) = .ok s2
      ∧ s2.dropLastPop = some s3
      ∧ s3.instructions = s.instructions ++ (truePad 5 ++ [code.OpTrue, code.OpBang]) := by
  obtain ⟨c', h1, h2, _⟩ := compile_truePad 5 s
    [.ExpressionStatement (.PrefixExpression "!" (.Boolean true))]
  refine ⟨(((c'.emit code.OpTrue []).1.emit code.OpBang []).1.emit code.OpPop []).1, _, ?_,
    dropLastPop_of_pop _ (c'.instructions ++ [code.OpTrue] ++ [code.OpBang]) rfl rfl, ?_⟩
  · rw [h1]
    rfl
  · show c'.instructions ++ [code.OpTrue] ++ [code.OpBang] = _
    rw [h2]
    simp

end compiler

namespace compiler

open object vm ast

theorem supported_pad (n : Nat) (rest : List Statement) :
    supportedBlock (List.replicate n trueStatement ++ rest) = supportedBlock rest := by
  induction n with
  | zero => rfl
  | succ k ih =>
    rw [List.replicate_succ, List.cons_append, supported_cons, ih]
    rfl

/-- The stream of `wrapProgram 32754`: the code of the two conditionals around
65508 bytes of `true;` statements. -/
theorem compile_wrap (n : Nat) (hn : n = 32754) :
    ∃ c, New.Compile (.Program (wrapProgram n)) = .ok c
      ∧ c.instructions = wrapFirstCode ++ truePad n ++ wrapLastCode := by
  have h0 : New.CompileStatement wrapFirst
      = .ok { instructions := [6, 13, 0, 8, 6, 14, 0, 13, 7, 17, 0, 0, 6, 2], constants := [],
              lastInstruction := ⟨2, 13⟩, previousInstruction := ⟨6, 12⟩,
              symbolTable := (NewSymbolTable.Define "g").2 } := by decide!
  obtain ⟨c', h1, h2, _, h4⟩ := compile_truePad n
    { instructions := [6, 13, 0, 8, 6, 14, 0, 13, 7, 17, 0, 0, 6, 2], constants := [],
      lastInstruction := ⟨2, 13⟩, previousInstruction := ⟨6, 12⟩,
      symbolTable := (NewSymbolTable.Define "g").2 } [wrapLast]
  have hres : c'.symbolTable.Resolve "g" = some ⟨"g", .GlobalScope, 0⟩ := by
    rw [h4]
    decide
  have hcond : c'.CompileExpression (.Identifier "g") = .ok (c'.emit code.OpGetGlobal [0]).1 := by
    rw [compile_Identifier, hres]
  obtain ⟨c2, h5, h6⟩ := compile_if_else_blocks c' _ (.Identifier "g") [trueStatement]
    (List.replicate 5 trueStatement
      ++ [.ExpressionStatement (.PrefixExpression "!" (.Boolean true))])
    [code.OpTrue] (truePad 5 ++ [code.OpTrue, code.OpBang]) hcond
    compile_true_block compile_bang_block
  have hi1 : (c'.emit code.OpGetGlobal [0]).1.instructions
      = wrapFirstCode ++ truePad n ++ [16, 0, 0] := by
    show c'.instructions ++ _ = _
    rw [h2]
    rfl
  have hl1 : (c'.emit code.OpGetGlobal [0]).1.instructions.length = 14 + 2 * n + 3 := by
    rw [hi1, List.length_append, List.length_append, truePad_length]
    rfl
  have hl5 : (truePad 5 ++ [code.OpTrue, code.OpBang]).length = 12 := rfl
  have hl6 : [code.OpTrue].length = 1 := rfl
  rw [hl1, hi1, hl5, hl6] at h6
  have e1 : (14 + 2 * n + 3 + 3 + 1 + 3) / 256 % 256 = 255 := by omega
  have e2 : (14 + 2 * n + 3 + 3 + 1 + 3) % 256 = 252 := by omega
  have e3 : (14 + 2 * n + 3 + 3 + 1 + 3 + 12) / 256 % 256 = 0 := by omega
  have e4 : (14 + 2 * n + 3 + 3 + 1 + 3 + 12) % 256 = 8 := by omega
  rw [e1, e2, e3, e4] at h6
  refine ⟨(c2.emit code.OpPop []).1, ?_, ?_⟩
  · show Compiler.CompileStatements New _ = _
    rw [wrapProgram, List.singleton_append, List.cons_append, compile_cons, h0]
    show Compiler.CompileStatements _ _ = _
    rw [h1, compile_cons, wrapLast, compile_ExpressionStatement, h5]
    rfl
  · show c2.instructions ++ [code.OpPop] = _
    rw [h6]
    simp [wrapLastCode, truePad]

/-- C4 (counterexample): the program `wrapProgram 32754`, which consists of
expression statements and a let statement over boolean literals, an
identifier, a prefix expression and two if expressions, compiles to 65545
bytes, and `Run` on its bytecode returns no error with `sp == 1`: the target
65544 of the OpJump of the last conditional does not fit the operand of two
bytes and is written as 8. -/
theorem wrap_around_leaves_value :
    supportedBlock (wrapProgram 32754) = true
    ∧ ∃ c, New.Compile (.Program (wrapProgram 32754)) = .ok c
      ∧ c.instructions.length = 65545
      ∧ ∃ fuel vm1, (vm.New c.Bytecode).Run fuel = some (.ok vm1) ∧ vm1.sp = 1 := by
  obtain ⟨c, hc, hi⟩ := compile_wrap 32754 rfl
  have m : Mach (wrapFirstCode ++ truePad 32754 ++ wrapLastCode) (vm.New c.Bytecode) 0
      Object.nil := by
    refine ⟨hi, rfl, ?_, ?_⟩
    · show (List.replicate StackSize Object.nil).length = _
      rw [List.length_replicate]
    · show (List.replicate GlobalsSize Object.nil)[0]? = _
      rw [List.getElem?_replicate, if_pos (by decide)]
  obtain ⟨vm1, r, hsp, hlen⟩ := wrap_run 32754 rfl _ m
  obtain ⟨fuel, hf⟩ := runFrom_of_reach_end r (by rw [hlen])
  refine ⟨?_, c, hc, ?_, fuel, vm1, hf, hsp⟩
  · rw [wrapProgram, List.singleton_append, List.cons_append, supported_cons, supported_pad]
    rfl
  · rw [hi, List.length_append, List.length_append, truePad_length]
    rfl

end compiler

namespace compiler

open object vm ast

/-! ### The stack at the statement boundaries -/

theorem supported_append (p1 p2 : List Statement) :
    supportedBlock (p1 ++ p2) = (supportedBlock p1 && supportedBlock p2) := by
  induction p1 with
  | nil => rfl
  | cons s rest ih =>
    rw [List.cons_append, supported_cons, supported_cons, ih, Bool.and_assoc]

theorem compile_append (p1 p2 : List Statement) : ∀ (c c2 : Compiler),
    c.CompileStatements (p1 ++ p2) = .ok c2 →
    ∃ c1, c.CompileStatements p1 = .ok c1 ∧ c1.CompileStatements p2 = .ok c2 := by
  induction p1 with
  | nil =>
    intro c c2 h
    exact ⟨c, rfl, h⟩
  | cons s rest ih =>
    intro c c2 h
    rw [List.cons_append, compile_cons] at h
    rw [compile_cons]
    cases hs : c.CompileStatement s with
    | error msg a => rw [hs] at h; cases h
    | panic => rw [hs] at h; cases h
    | ok c' =>
      simp only [hs] at h ⊢
      exact ih c' c2 h

/-- The statements of a list only append to the stream. -/
theorem statements_append (l : List Statement) : ∀ (c c1 : Compiler),
    LastValid c → PrevValid c → c.CompileStatements l = .ok c1 →
    ∃ cd, c1.instructions = c.instructions ++ cd := by
  induction l with
  | nil =>
    intro c c1 _ _ h
    rw [compile_nil] at h
    cases h
    exact ⟨[], by simp⟩
  | cons s rest ih =>
    intro c c1 hv hp h
    rw [compile_cons] at h
    cases hs : c.CompileStatement s with
    | error msg a => rw [hs] at h; cases h
    | panic => rw [hs] at h; cases h
    | ok c' =>
      simp only [hs] at h
      obtain ⟨cds, hi, _, hv', hp', _⟩ := shape_of_stmt s false c c' (fun hb => by cases hb) hv hp hs
      obtain ⟨cd', hi'⟩ := ih c' c1 hv' hp' h
      exact ⟨cds ++ cd', by rw [hi', hi, List.append_assoc]⟩

/-- C4 (amended): for a program of expression statements and let statements
over literals, identifiers, prefix, infix and if expressions whose compiled
instruction stream is shorter than 65536 bytes, a `Run` that returns no error
returns with `sp == 0`; and it has come with `sp == 0` to the end of the code
of every leading part of the statements, i.e. every statement is
stack-neutral. -/
theorem statements_stack_neutral (p : List Statement) (c : Compiler) (fuel : Nat) (vm1 : VM)
    (hsup : supportedBlock p = true)
    (hc : New.Compile (.Program p) = .ok c)
    (hlen : c.instructions.length < 65536)
    (hrun : (vm.New c.Bytecode).Run fuel = some (.ok vm1)) :
    vm1.sp = 0
    ∧ ∀ p1 p2, p = p1 ++ p2 → ∃ c1 vmX, New.Compile (.Program p1) = .ok c1
        ∧ Reach (vm.New c.Bytecode) 0 vmX c1.instructions.length ∧ vmX.sp = 0 := by
  constructor
  · have B := shape_of_block p true [] New c (fun _ => hsup)
      (block_start true New (by decide)) hc
    obtain ⟨cd, hi, hsh, _⟩ := B
    have hex := shape_exec hsh rfl
    rcases hex (vm.New c.Bytecode) [] [] (by show c.instructions = _; rw [hi]; simp) rfl hlen
      with hf | ⟨vm2, r, hsp, hins⟩
    · exact absurd hrun (not_ok_of_fault hf)
    · obtain ⟨n, hn⟩ := runFrom_of_reach_end r (by
        rw [hins]
        show c.instructions.length ≤ _
        rw [hi]
        simp)
      have e := runFrom_det hrun hn
      have e' : vm1 = vm2 := by injection e
      rw [e']
      have : vm2.sp ≤ 0 := hsp
      omega
  · intro p1 p2 hp
    subst hp
    obtain ⟨c1, h1, h2⟩ := compile_append p1 p2 New c hc
    have hsup1 : supportedBlock p1 = true := by
      rw [supported_append, Bool.and_eq_true] at hsup
      exact hsup.1
    have B := shape_of_block p1 true [] New c1 (fun _ => hsup1)
      (block_start true New (by decide)) h1
    obtain ⟨cd, hi, hsh, hv, hpv, _⟩ := B
    obtain ⟨cd2, hi2⟩ := statements_append p2 c1 c hv hpv h2
    have hex := shape_exec hsh rfl
    rcases hex (vm.New c.Bytecode) [] cd2
        (by show c.instructions = _; rw [hi2, hi]) rfl hlen
      with hf | ⟨vm2, r, hsp, _⟩
    · exact absurd hrun (not_ok_of_fault hf)
    · refine ⟨c1, vm2, h1, ?_, ?_⟩
      · have e : c1.instructions.length = ([] : List Nat).length + cd.length := by
          rw [hi, List.nil_append, List.length_nil, Nat.zero_add]
        rw [e]
        exact r
      · have : vm2.sp ≤ 0 := hsp
        omega

/-- Witness of the amended C4: `if (1 > 2) { 10 } else { 20 }` compiles to 20
bytes, runs without error and returns with `sp == 0`. -/
theorem statements_stack_neutral_witness :
    ∃ c fuel vm1, New.Compile (.Program (ifElseProgram
        (.InfixExpression (.IntegerLiteral 1) ">" (.IntegerLiteral 2)) 10 20)) = .ok c
      ∧ c.instructions.length < 65536
      ∧ (vm.New c.Bytecode).Run fuel = some (.ok vm1)
      ∧ (vm1.sp = 0
        ∧ ∀ p1 p2, ifElseProgram (.InfixExpression (.IntegerLiteral 1) ">" (.IntegerLiteral 2))
            10 20 = p1 ++ p2 →
          ∃ c1 vmX, New.Compile (.Program p1) = .ok c1
            ∧ Reach (vm.New c.Bytecode) 0 vmX c1.instructions.length ∧ vmX.sp = 0) := by
  obtain ⟨⟨c, hc, fuel, vm1, hrun, _⟩, _⟩ :=
    conditional_compare 1 2 10 20 ">" (Or.inr (Or.inl rfl))
  have key : (match New.Compile (.Program (ifElseProgram
        (.InfixExpression (.IntegerLiteral 1) ">" (.IntegerLiteral 2)) 10 20)) with
      | .ok x => decide (x.instructions.length < 65536)
      | _ => false) = true := by decide!
  rw [hc] at key
  have hlen : c.instructions.length < 65536 := of_decide_eq_true key
  exact ⟨c, fuel, vm1, hc, hlen, hrun,
    statements_stack_neutral _ c fuel vm1 (by decide) hc hlen hrun⟩

end compiler

namespace vm

open object

/-! ### Binary operators on the two top slots -/

theorem pop_two (vm : VM) (left right : Object) (h0 : 2 ≤ vm.sp)
    (hl : vm.stack[vm.sp - 2]? = some left) (hr : vm.stack[vm.sp - 1]? = some right) :
    vm.pop = some (right, { vm with sp := vm.sp - 1 })
    ∧ VM.pop { vm with sp := vm.sp - 1 } = some (left, { vm with sp := vm.sp - 2 }) := by
  refine ⟨pop_eq vm right (by omega) hr, ?_⟩
  have := pop_eq { vm with sp := vm.sp - 1 } left (by show 0 < vm.sp - 1; omega)
    (by show vm.stack[vm.sp - 1 - 1]? = some left; rw [Nat.sub_sub]; exact hl)
  simpa only [Nat.sub_sub] using this

theorem comparison_of_integers (vm : VM) (op : code.Opcode) (l r : Int) (h0 : 2 ≤ vm.sp)
    (hl : vm.stack[vm.sp - 2]? = some (.Integer l)) (hr : vm.stack[vm.sp - 1]? = some (.Integer r)) :
    vm.executeComparison op = VM.executeIntegerComparison { vm with sp := vm.sp - 2 } op l r := by
  obtain ⟨e1, e2⟩ := pop_two vm _ _ h0 hl hr
  simp only [VM.executeComparison, e1, e2]

theorem binary_of_integers (vm : VM) (op : code.Opcode) (l r : Int) (h0 : 2 ≤ vm.sp)
    (hl : vm.stack[vm.sp - 2]? = some (.Integer l)) (hr : vm.stack[vm.sp - 1]? = some (.Integer r)) :
    vm.executeBinaryOperation op
      = VM.executeBinaryIntegerOperation { vm with sp := vm.sp - 2 } op l r := by
  obtain ⟨e1, e2⟩ := pop_two vm _ _ h0 hl hr
  simp only [VM.executeBinaryOperation, e1, e2, Object.Type]

theorem binary_of_strings (vm : VM) (op : code.Opcode) (p q : Nat) (l r : List Nat)
    (h0 : 2 ≤ vm.sp) (hl : vm.stack[vm.sp - 2]? = some (.String p l))
    (hr : vm.stack[vm.sp - 1]? = some (.String q r)) :
    vm.executeBinaryOperation op
      = VM.executeBinaryStringOperation { vm with sp := vm.sp - 2 } op l r := by
  obtain ⟨e1, e2⟩ := pop_two vm _ _ h0 hl hr
  simp only [VM.executeBinaryOperation, e1, e2, Object.Type]

/-- C16: on two Integers, `left` below `right`, OpGreaterThan, OpEqual and
OpNotEqual return no error and replace the operands by the canonical True when
`left > right`, `left = right`, `left != right` respectively, and by the
canonical False otherwise. -/
theorem integer_comparison (vm : VM) (ip : Nat) (op : code.Opcode) (left right : Int)
    (hop : op = code.OpGreaterThan ∨ op = code.OpEqual ∨ op = code.OpNotEqual)
    (hi : vm.instructions[ip]? = some op)
    (h0 : 2 ≤ vm.sp) (h1 : vm.sp ≤ StackSize) (h2 : vm.sp ≤ vm.stack.length)
    (hl : vm.stack[vm.sp - 2]? = some (.Integer left))
    (hr : vm.stack[vm.sp - 1]? = some (.Integer right)) :
    vm.step ip
      = .ok ({ vm with
          stack := vm.stack.set (vm.sp - 2)
            (if (op = code.OpGreaterThan ∧ left > right) ∨ (op = code.OpEqual ∧ left = right)
                ∨ (op = code.OpNotEqual ∧ left ≠ right) then True else False),
          sp := vm.sp - 1 }, ip + 1) := by
  have hc := comparison_of_integers vm op left right h0 hl hr
  have hp := fun o => push_after_index vm o h0 h1 h2
  rcases hop with rfl | rfl | rfl
  · rw [step_OpGreaterThan vm ip hi, hc]
    simp only [VM.executeIntegerComparison, code.OpGreaterThan, code.OpEqual, code.OpNotEqual,
      Nat.reduceEqDiff, if_false, if_true, hp, goOn, nativeBoolToBooleanObject, false_and,
      true_and, false_or, or_false, decide_eq_true_eq]
  · rw [step_OpEqual vm ip hi, hc]
    simp only [VM.executeIntegerComparison, code.OpGreaterThan, code.OpEqual, code.OpNotEqual,
      Nat.reduceEqDiff, if_false, if_true, hp, goOn, nativeBoolToBooleanObject, false_and,
      true_and, false_or, or_false, beq_iff_eq]
    by_cases h : left = right
    · rw [if_pos h, if_pos h.symm]
    · rw [if_neg h, if_neg (Ne.symm h)]
  · rw [step_OpNotEqual vm ip hi, hc]
    simp only [VM.executeIntegerComparison, code.OpGreaterThan, code.OpEqual, code.OpNotEqual,
      Nat.reduceEqDiff, if_false, if_true, hp, goOn, nativeBoolToBooleanObject, false_and,
      true_and, false_or, or_false, bne_iff_ne, ne_eq]
    by_cases h : left = right
    · rw [if_neg (not_not.mpr h), if_neg (not_not.mpr h.symm)]
    · rw [if_pos h, if_pos (Ne.symm h)]

/-- Witness of C16: `3 > 2` gives the canonical True. -/
theorem integer_comparison_witness :
    VM.step ⟨[], [code.OpGreaterThan], [.Integer 3, .Integer 2], 2, [], 4⟩ 0
      = .ok (⟨[], [code.OpGreaterThan], [True, .Integer 2], 1, [], 4⟩, 1) :=
  integer_comparison ⟨[], [code.OpGreaterThan], [.Integer 3, .Integer 2], 2, [], 4⟩ 0
    code.OpGreaterThan 3 2 (Or.inl rfl) (by decide) (by decide) (by decide) (by decide)
    (by decide) (by decide)

end vm

namespace vm

open object

/-! ### Integer arithmetic -/

theorem arith_step (vm : VM) (ip : Nat) (op : code.Opcode) (l r : Int)
    (hop : op = code.OpAdd ∨ op = code.OpSub ∨ op = code.OpMul ∨ op = code.OpDiv)
    (hi : vm.instructions[ip]? = some op) (h0 : 2 ≤ vm.sp)
    (hl : vm.stack[vm.sp - 2]? = some (.Integer l)) (hr : vm.stack[vm.sp - 1]? = some (.Integer r)) :
    vm.step ip
      = goOn (ip + 1) (VM.executeBinaryIntegerOperation { vm with sp := vm.sp - 2 } op l r) := by
  rw [← binary_of_integers vm op l r h0 hl hr]
  rcases hop with rfl | rfl | rfl | rfl
  · exact step_OpAdd vm ip hi
  · exact step_OpSub vm ip hi
  · exact step_OpMul vm ip hi
  · exact step_OpDiv vm ip hi

/-- C19: OpAdd on the Integers `a` below `b` and OpAdd on `b` below `a` push the
same Integer, the sum of the two under 64-bit wrap-around. -/
theorem add_commutes (vm vm' : VM) (ip ip' : Nat) (a b : Int)
    (hi : vm.instructions[ip]? = some code.OpAdd)
    (h0 : 2 ≤ vm.sp) (h1 : vm.sp ≤ StackSize) (h2 : vm.sp ≤ vm.stack.length)
    (hl : vm.stack[vm.sp - 2]? = some (.Integer a)) (hr : vm.stack[vm.sp - 1]? = some (.Integer b))
    (hi' : vm'.instructions[ip']? = some code.OpAdd)
    (h0' : 2 ≤ vm'.sp) (h1' : vm'.sp ≤ StackSize) (h2' : vm'.sp ≤ vm'.stack.length)
    (hl' : vm'.stack[vm'.sp - 2]? = some (.Integer b))
    (hr' : vm'.stack[vm'.sp - 1]? = some (.Integer a)) :
    vm.step ip
      = .ok ({ vm with stack := vm.stack.set (vm.sp - 2) (.Integer (wrap64 (a + b))),
                       sp := vm.sp - 1 }, ip + 1)
    ∧ vm'.step ip'
      = .ok ({ vm' with stack := vm'.stack.set (vm'.sp - 2) (.Integer (wrap64 (a + b))),
                        sp := vm'.sp - 1 }, ip' + 1) := by
  constructor
  · rw [arith_step vm ip code.OpAdd a b (Or.inl rfl) hi h0 hl hr]
    simp only [VM.executeBinaryIntegerOperation, if_true, push_after_index vm _ h0 h1 h2, goOn]
  · rw [arith_step vm' ip' code.OpAdd b a (Or.inl rfl) hi' h0' hl' hr']
    simp only [VM.executeBinaryIntegerOperation, if_true, push_after_index vm' _ h0' h1' h2', goOn,
      Int.add_comm b a]

/-- Witness of C19: the largest Integer plus one, in both orders, wraps around
to the smallest one. -/
theorem add_commutes_witness :
    VM.step ⟨[], [code.OpAdd], [.Integer 9223372036854775807, .Integer 1], 2, [], 4⟩ 0
      = .ok (⟨[], [code.OpAdd], [.Integer (wrap64 (9223372036854775807 + 1)), .Integer 1], 1, [],
          4⟩, 1)
    ∧ VM.step ⟨[], [code.OpAdd], [.Integer 1, .Integer 9223372036854775807], 2, [], 4⟩ 0
      = .ok (⟨[], [code.OpAdd],
          [.Integer (wrap64 (9223372036854775807 + 1)), .Integer 9223372036854775807], 1, [], 4⟩,
          1) :=
  add_commutes ⟨[], [code.OpAdd], [.Integer 9223372036854775807, .Integer 1], 2, [], 4⟩
    ⟨[], [code.OpAdd], [.Integer 1, .Integer 9223372036854775807], 2, [], 4⟩ 0 0
    9223372036854775807 1 (by decide) (by decide) (by decide) (by decide) (by decide) (by decide)
    (by decide) (by decide) (by decide) (by decide) (by decide) (by decide)

theorem wrap64_max_add_one : wrap64 (9223372036854775807 + 1) = -9223372036854775808 := by
  decide

/-! ### Negation -/

theorem wrap64_neg_neg (n : Int) (h1 : -9223372036854775808 ≤ n) (h2 : n < 9223372036854775808) :
    wrap64 (-(wrap64 (-n))) = n := by
  unfold wrap64
  have e63 : (2 : Int) ^ 63 = 9223372036854775808 := by norm_num
  have e64 : (2 : Int) ^ 64 = 18446744073709551616 := by norm_num
  rw [e63, e64]
  omega

theorem minus_step (vm : VM) (ip : Nat) (x : Object)
    (hi : vm.instructions[ip]? = some code.OpMinus) (h0 : 0 < vm.sp)
    (hx : vm.stack[vm.sp - 1]? = some x) :
    vm.step ip
      = goOn (ip + 1) (match x with
          | .Integer value => VM.push { vm with sp := vm.sp - 1 } (.Integer (wrap64 (-value)))
          | _ =>
            match x.Type with
            | none => .panic
            | some t => .error ("unsupported type for negation: " ++ t) { vm with sp := vm.sp - 1 }) := by
  rw [step_OpMinus vm ip hi]
  simp only [VM.executeMinusOperator, pop_eq vm x h0 hx]
  cases x <;> rfl

theorem minus_integer_step (vm : VM) (ip : Nat) (n : Int)
    (hi : vm.instructions[ip]? = some code.OpMinus)
    (h0 : 0 < vm.sp) (h1 : vm.sp ≤ StackSize) (h2 : vm.sp ≤ vm.stack.length)
    (hx : vm.stack[vm.sp - 1]? = some (.Integer n)) :
    vm.step ip
      = .ok ({ vm with stack := vm.stack.set (vm.sp - 1) (.Integer (wrap64 (-n))) }, ip + 1) := by
  rw [minus_step vm ip _ hi h0 hx]
  have hsp : vm.sp - 1 + 1 = vm.sp := Nat.sub_add_cancel h0
  simp only []
  rw [push_eq _ _ (by show vm.sp - 1 < StackSize; omega)
    (by show vm.sp - 1 < vm.stack.length; omega)]
  simp only [hsp, goOn]

/-- C18: two OpMinus on a 64-bit Integer `n`, the smallest one included, return
no error and leave the Integer `n` in the slot; OpMinus on a value `x` that is
not an Integer returns the error "unsupported type for negation: T", `T` being
the type of `x`. -/
theorem minus_twice (vm : VM) (ip : Nat) (n : Int) (vm' : VM) (ip' : Nat) (x : Object)
    (T : String)
    (hn1 : -9223372036854775808 ≤ n) (hn2 : n < 9223372036854775808)
    (hi1 : vm.instructions[ip]? = some code.OpMinus)
    (hi2 : vm.instructions[ip + 1]? = some code.OpMinus)
    (h0 : 0 < vm.sp) (h1 : vm.sp ≤ StackSize) (h2 : vm.sp ≤ vm.stack.length)
    (hn : vm.stack[vm.sp - 1]? = some (.Integer n))
    (hi' : vm'.instructions[ip']? = some code.OpMinus) (h0' : 0 < vm'.sp)
    (hx : vm'.stack[vm'.sp - 1]? = some x) (hT : x.Type = some T)
    (hni : ∀ v, x ≠ .Integer v) :
    (∃ vm1, vm.step ip = .ok (vm1, ip + 1)
      ∧ vm1.step (ip + 1)
        = .ok ({ vm with stack := vm.stack.set (vm.sp - 1) (.Integer n) }, ip + 2)
      ∧ vm.stack.set (vm.sp - 1) (.Integer n) = vm.stack)
    ∧ vm'.step ip'
      = .error ("unsupported type for negation: " ++ T) ({ vm' with sp := vm'.sp - 1 }, ip' + 1) := by
  constructor
  · refine ⟨_, minus_integer_step vm ip n hi1 h0 h1 h2 hn, ?_, ?_⟩
    · have := minus_integer_step
        { vm with stack := vm.stack.set (vm.sp - 1) (.Integer (wrap64 (-n))) } (ip + 1)
        (wrap64 (-n)) hi2 h0 h1 (by show vm.sp ≤ (vm.stack.set _ _).length; simpa using h2)
        (by show (vm.stack.set (vm.sp - 1) _)[vm.sp - 1]? = some _
            rw [List.getElem?_set_self (by omega)])
      rw [this]
      simp only [List.set_set, wrap64_neg_neg n hn1 hn2]
    · apply List.ext_getElem? 
      intro i
      by_cases h : i = vm.sp - 1
      · subst h
        rw [List.getElem?_set_self (by omega), hn]
      · rw [List.getElem?_set_ne (Ne.symm h)]
  · rw [minus_step vm' ip' x hi' h0' hx]
    cases x with
    | Integer v => exact absurd rfl (hni v)
    | nil => cases hT
    | _ => simp only [hT, goOn]

/-- Witness of C18: the smallest Integer negated twice, and the negation of the
canonical True. -/
theorem minus_twice_witness :
    (∃ vm1, VM.step ⟨[], [code.OpMinus, code.OpMinus], [.Integer (-9223372036854775808)], 1, [],
          4⟩ 0 = .ok (vm1, 0 + 1)
      ∧ vm1.step (0 + 1)
        = .ok (⟨[], [code.OpMinus, code.OpMinus], [.Integer (-9223372036854775808)], 1, [], 4⟩,
            0 + 2)
      ∧ [Object.Integer (-9223372036854775808)].set (1 - 1) (.Integer (-9223372036854775808))
        = [.Integer (-9223372036854775808)])
    ∧ VM.step ⟨[], [code.OpMinus], [True], 1, [], 4⟩ 0
      = .error ("unsupported type for negation: " ++ "BOOLEAN") (⟨[], [code.OpMinus], [True], 0, [],
          4⟩, 0 + 1) :=
  minus_twice ⟨[], [code.OpMinus, code.OpMinus], [.Integer (-9223372036854775808)], 1, [], 4⟩ 0
    (-9223372036854775808) ⟨[], [code.OpMinus], [True], 1, [], 4⟩ 0 True "BOOLEAN"
    (by decide) (by decide) (by decide) (by decide) (by decide) (by decide) (by decide)
    (by decide) (by decide) (by decide) (by decide) rfl (fun _ h => by cases h)

end vm

namespace vm

open object

/-! ### Division -/

theorem tdiv_pos_case (a b : Int) (ha : 0 ≤ a) (hb : 0 < b) :
    0 ≤ a - a.tdiv b * b ∧ a - a.tdiv b * b < b ∧ 0 ≤ a.tdiv b ∧ a.tdiv b ≤ a := by
  rw [Int.tdiv_eq_ediv ha (Int.le_of_lt hb)]
  have h1 := Int.emod_nonneg a (Int.ne_of_gt hb)
  have h2 := Int.emod_lt_of_pos a hb
  have h3 := Int.ediv_add_emod a b
  have h4 : 0 ≤ a / b := Int.ediv_nonneg ha (Int.le_of_lt hb)
  have h5 : b * (a / b) = a / b * b := Int.mul_comm _ _
  have h6 : a / b ≤ a / b * b := by nlinarith
  refine ⟨by omega, by omega, h4, by omega⟩

/-- The quotient of `Int.tdiv` and its remainder, by the signs of the operands. -/
theorem tdiv_cases (a b : Int) (hb : b ≠ 0) :
    (0 ≤ a ∧ 0 < b ∧ 0 ≤ a - a.tdiv b * b ∧ a - a.tdiv b * b < b ∧ 0 ≤ a.tdiv b ∧ a.tdiv b ≤ a)
    ∨ (0 ≤ a ∧ b < 0 ∧ 0 ≤ a - a.tdiv b * b ∧ a - a.tdiv b * b < -b
        ∧ 0 ≤ -a.tdiv b ∧ -a.tdiv b ≤ a)
    ∨ (a ≤ 0 ∧ 0 < b ∧ 0 ≤ -a + a.tdiv b * b ∧ -a + a.tdiv b * b < b
        ∧ 0 ≤ -a.tdiv b ∧ -a.tdiv b ≤ -a)
    ∨ (a ≤ 0 ∧ b < 0 ∧ 0 ≤ -a + a.tdiv b * b ∧ -a + a.tdiv b * b < -b
        ∧ 0 ≤ a.tdiv b ∧ a.tdiv b ≤ -a) := by
  rcases Int.lt_or_lt_of_ne hb with hb' | hb' <;> rcases Int.le_total 0 a with ha | ha
  · have := tdiv_pos_case a (-b) ha (by omega)
    rw [Int.tdiv_neg, show -(a.tdiv b) * -b = a.tdiv b * b by ring] at this
    exact Or.inr (Or.inl ⟨ha, hb', this⟩)
  · have := tdiv_pos_case (-a) (-b) (by omega) (by omega)
    rw [Int.neg_tdiv_neg, show a.tdiv b * -b = -(a.tdiv b * b) by ring] at this
    exact Or.inr (Or.inr (Or.inr ⟨ha, hb', by omega, by omega, this.2.2⟩))
  · exact Or.inl ⟨ha, hb', tdiv_pos_case a b ha hb'⟩
  · have := tdiv_pos_case (-a) b (by omega) hb'
    rw [Int.neg_tdiv, show -(a.tdiv b) * b = -(a.tdiv b * b) by ring] at this
    exact Or.inr (Or.inr (Or.inl ⟨ha, hb', by omega, by omega, this.2.2⟩))

/-- The quotient truncated toward zero of two 64-bit integers, wrapped to 64
bits, with the remainder that goes with it. Only the smallest integer divided by
`-1` wraps around. -/
theorem wrap64_tdiv (a b : Int) (hb : b ≠ 0)
    (ha1 : -9223372036854775808 ≤ a) (ha2 : a < 9223372036854775808)
    (hb1 : -9223372036854775808 ≤ b) (hb2 : b < 9223372036854775808) :
    ∃ r : Int, wrap64 (wrap64 (a.tdiv b) * b + r) = a ∧ |r| < |b|
      ∧ (r = 0 ∨ (0 < r ∧ 0 < a) ∨ (r < 0 ∧ a < 0))
      ∧ (¬ (a = -9223372036854775808 ∧ b = -1) → a = wrap64 (a.tdiv b) * b + r)
      ∧ -9223372036854775808 ≤ wrap64 (a.tdiv b) ∧ wrap64 (a.tdiv b) < 9223372036854775808 := by
  have e63 : (2 : Int) ^ 63 = 9223372036854775808 := by norm_num
  have e64 : (2 : Int) ^ 64 = 18446744073709551616 := by norm_num
  have hr : -9223372036854775808 ≤ wrap64 (a.tdiv b) ∧ wrap64 (a.tdiv b) < 9223372036854775808 := by
    unfold wrap64
    rw [e63, e64]
    omega
  by_cases hov : a = -9223372036854775808 ∧ b = -1
  · obtain ⟨rfl, rfl⟩ := hov
    refine ⟨0, by decide, by decide, Or.inl rfl, fun h => absurd ⟨rfl, rfl⟩ h, hr⟩
  · have hc := tdiv_cases a b hb
    have key : ∀ q P : Int, P = q * b →
        ((0 ≤ a ∧ 0 < b ∧ 0 ≤ a - P ∧ a - P < b ∧ 0 ≤ q ∧ q ≤ a)
        ∨ (0 ≤ a ∧ b < 0 ∧ 0 ≤ a - P ∧ a - P < -b ∧ 0 ≤ -q ∧ -q ≤ a)
        ∨ (a ≤ 0 ∧ 0 < b ∧ 0 ≤ -a + P ∧ -a + P < b ∧ 0 ≤ -q ∧ -q ≤ -a)
        ∨ (a ≤ 0 ∧ b < 0 ∧ 0 ≤ -a + P ∧ -a + P < -b ∧ 0 ≤ q ∧ q ≤ -a)) →
        (-9223372036854775808 ≤ q ∧ q < 9223372036854775808) ∧ |a - P| < |b|
          ∧ (a - P = 0 ∨ (0 < a - P ∧ 0 < a) ∨ (a - P < 0 ∧ a < 0)) := by
      intro q P hP h
      have z : q = 0 → P = 0 := fun hq => by rw [hP, hq, Int.zero_mul]
      have w : q = 9223372036854775808 → P = 9223372036854775808 * b := fun hq => by rw [hP, hq]
      rw [abs_lt]
      rcases h with ⟨h1, h2, h3, h4, h5, h6⟩ | ⟨h1, h2, h3, h4, h5, h6⟩ | ⟨h1, h2, h3, h4, h5, h6⟩
        | ⟨h1, h2, h3, h4, h5, h6⟩
      · rw [abs_of_pos h2]
        refine ⟨⟨by omega, by omega⟩, ⟨by omega, by omega⟩, by omega⟩
      · rw [abs_of_neg h2]
        refine ⟨⟨by omega, by omega⟩, ⟨by omega, by omega⟩, by omega⟩
      · rw [abs_of_pos h2]
        refine ⟨⟨by omega, by omega⟩, ⟨by omega, by omega⟩, by omega⟩
      · rw [abs_of_neg h2]
        refine ⟨⟨by omega, ?_⟩, ⟨by omega, by omega⟩, by omega⟩
        by_contra hq
        have := w (by omega)
        omega
    obtain ⟨hq, h1, h2⟩ := key (a.tdiv b) (a.tdiv b * b) rfl hc
    have ew := compiler.wrap64_small (a.tdiv b) hq.1 hq.2
    refine ⟨a - a.tdiv b * b, ?_, h1, h2, fun _ => by rw [ew]; ring, hr⟩
    rw [ew, show a.tdiv b * b + (a - a.tdiv b * b) = a by ring]
    exact compiler.wrap64_small a ha1 ha2

/-- C15: OpDiv on the 64-bit Integers `a` below `b`, `b` not zero, replaces the
operands by an Integer `q` that is the quotient truncated toward zero: there is
a remainder `r` with `|r| < |b|`, zero or of the sign of `a`, such that
`a = q * b + r` in 64-bit wrapping arithmetic, and exactly unless `a` is the
smallest Integer and `b` is `-1`. -/
theorem div_truncates (vm : VM) (ip : Nat) (a b : Int)
    (ha1 : -9223372036854775808 ≤ a) (ha2 : a < 9223372036854775808)
    (hb1 : -9223372036854775808 ≤ b) (hb2 : b < 9223372036854775808) (hb : b ≠ 0)
    (hi : vm.instructions[ip]? = some code.OpDiv)
    (h0 : 2 ≤ vm.sp) (h1 : vm.sp ≤ StackSize) (h2 : vm.sp ≤ vm.stack.length)
    (hl : vm.stack[vm.sp - 2]? = some (.Integer a))
    (hr : vm.stack[vm.sp - 1]? = some (.Integer b)) :
    ∃ q r : Int,
      vm.step ip
        = .ok ({ vm with stack := vm.stack.set (vm.sp - 2) (.Integer q), sp := vm.sp - 1 }, ip + 1)
      ∧ wrap64 (q * b + r) = a ∧ |r| < |b| ∧ (r = 0 ∨ (0 < r ∧ 0 < a) ∨ (r < 0 ∧ a < 0))
      ∧ (¬ (a = -9223372036854775808 ∧ b = -1) → a = q * b + r)
      ∧ -9223372036854775808 ≤ q ∧ q < 9223372036854775808 := by
  obtain ⟨r, hw⟩ := wrap64_tdiv a b hb ha1 ha2 hb1 hb2
  refine ⟨wrap64 (a.tdiv b), r, ?_, hw⟩
  rw [arith_step vm ip code.OpDiv a b (Or.inr (Or.inr (Or.inr rfl))) hi h0 hl hr]
  simp only [VM.executeBinaryIntegerOperation, code.OpDiv, code.OpAdd, code.OpSub, code.OpMul,
    Nat.reduceEqDiff, if_false, if_true, if_neg hb, push_after_index vm _ h0 h1 h2, goOn]

/-- Witness of C15: `-7 / 2`. -/
theorem div_truncates_witness :
    ∃ q r : Int,
      VM.step ⟨[], [code.OpDiv], [.Integer (-7), .Integer 2], 2, [], 4⟩ 0
        = .ok (⟨[], [code.OpDiv], [.Integer q, .Integer 2], 1, [], 4⟩, 0 + 1)
      ∧ wrap64 (q * 2 + r) = -7 ∧ |r| < |(2 : Int)| ∧ (r = 0 ∨ (0 < r ∧ 0 < (-7 : Int))
        ∨ (r < 0 ∧ (-7 : Int) < 0))
      ∧ (¬ ((-7 : Int) = -9223372036854775808 ∧ (2 : Int) = -1) → -7 = q * 2 + r)
      ∧ -9223372036854775808 ≤ q ∧ q < 9223372036854775808 :=
  div_truncates ⟨[], [code.OpDiv], [.Integer (-7), .Integer 2], 2, [], 4⟩ 0 (-7) 2
    (by decide) (by decide) (by decide) (by decide) (by decide) (by decide) (by decide)
    (by decide) (by decide) (by decide) (by decide)

/-- The quotient of `-7 / 2` is `-3`. -/
theorem div_minus_seven_by_two :
    VM.step ⟨[], [code.OpDiv], [.Integer (-7), .Integer 2], 2, [], 4⟩ 0
      = .ok (⟨[], [code.OpDiv], [.Integer (-3), .Integer 2], 1, [], 4⟩, 1) := by
  rw [arith_step _ 0 code.OpDiv (-7) 2 (Or.inr (Or.inr (Or.inr rfl))) (by decide) (by decide)
    (by decide) (by decide)]
  decide

end vm

namespace vm

open object

/-! ### The errors of the binary operators -/

theorem unknown_ne_unsupported (s t : String) :
    "unknown string operation: " ++ s ≠ "unsupported types for binary operation: " ++ t := by
  intro h
  have h2 := congrArg String.data h
  rw [String.data_append, String.data_append] at h2
  have h3 := congrArg (fun l => l[2]?) h2
  simp at h3

theorem overflow_ne_unsupported (t : String) :
    "stack overflow" ≠ "unsupported types for binary operation: " ++ t := by
  intro h
  have h2 := congrArg String.data h
  rw [String.data_append] at h2
  have h3 := congrArg (fun l => l[0]?) h2
  simp at h3

theorem push_error {vm vmx : VM} {o : Object} {msg : String} (h : vm.push o = .error msg vmx) :
    msg = "stack overflow" := by
  unfold VM.push at h
  split_ifs at h
  cases h
  rfl

theorem intop_error {vm vmx : VM} {op : code.Opcode} {l r : Int} {msg : String}
    (hop : op = code.OpAdd ∨ op = code.OpSub ∨ op = code.OpMul ∨ op = code.OpDiv)
    (h : vm.executeBinaryIntegerOperation op l r = .error msg vmx) : msg = "stack overflow" := by
  unfold VM.executeBinaryIntegerOperation at h
  rcases hop with rfl | rfl | rfl | rfl
  · exact push_error h
  · exact push_error h
  · exact push_error h
  · simp only [code.OpDiv, code.OpAdd, code.OpSub, code.OpMul, Nat.reduceEqDiff, if_false,
      if_true] at h
    split_ifs at h
    exact push_error h

theorem strop_error {vm vmx : VM} {op : code.Opcode} {l r : List Nat} {msg : String}
    (h : vm.executeBinaryStringOperation op l r = .error msg vmx) :
    msg = "stack overflow" ∨ msg = "unknown string operation: " ++ toString op := by
  unfold VM.executeBinaryStringOperation at h
  split_ifs at h
  · cases h
    exact Or.inr rfl
  · exact Or.inl (push_error h)

/-- C13: for an arithmetic opcode and two operands of the types `T1` (left) and
`T2` (right), `executeBinaryOperation` returns the error "unsupported types for
binary operation: T1 T2" if and only if the operands are neither both Integers
nor both Strings. -/
theorem unsupported_types_iff (vm : VM) (op : code.Opcode) (left right : Object)
    (T1 T2 : String)
    (hop : op = code.OpAdd ∨ op = code.OpSub ∨ op = code.OpMul ∨ op = code.OpDiv)
    (h0 : 2 ≤ vm.sp)
    (hl : vm.stack[vm.sp - 2]? = some left) (hr : vm.stack[vm.sp - 1]? = some right)
    (hT1 : left.Type = some T1) (hT2 : right.Type = some T2) :
    ((∃ vmx, vm.executeBinaryOperation op
        = .error ("unsupported types for binary operation: " ++ T1 ++ " " ++ T2) vmx)
      ↔ ¬ ((∃ a b, left = .Integer a ∧ right = .Integer b)
          ∨ (∃ p s q t, left = .String p s ∧ right = .String q t)))
    ∧ (¬ ((∃ a b, left = .Integer a ∧ right = .Integer b)
          ∨ (∃ p s q t, left = .String p s ∧ right = .String q t)) →
        vm.executeBinaryOperation op
          = .error ("unsupported types for binary operation: " ++ T1 ++ " " ++ T2)
              { vm with sp := vm.sp - 2 }) := by
  obtain ⟨e1, e2⟩ := pop_two vm _ _ h0 hl hr
  have m1 : "stack overflow" ≠ "unsupported types for binary operation: " ++ T1 ++ " " ++ T2 := by
    rw [String.append_assoc, String.append_assoc]
    exact overflow_ne_unsupported _
  have m2 : "unknown string operation: " ++ toString op
      ≠ "unsupported types for binary operation: " ++ T1 ++ " " ++ T2 := by
    rw [String.append_assoc, String.append_assoc]
    exact unknown_ne_unsupported _ _
  have hyes : ∀ P : Prop, ¬ P → vm.executeBinaryOperation op
      = .error ("unsupported types for binary operation: " ++ T1 ++ " " ++ T2)
          { vm with sp := vm.sp - 2 } →
      ((∃ vmx, vm.executeBinaryOperation op
        = .error ("unsupported types for binary operation: " ++ T1 ++ " " ++ T2) vmx) ↔ ¬ P)
      ∧ (¬ P → vm.executeBinaryOperation op
          = .error ("unsupported types for binary operation: " ++ T1 ++ " " ++ T2)
              { vm with sp := vm.sp - 2 }) :=
    fun P hP h => ⟨⟨fun _ => hP, fun _ => ⟨_, h⟩⟩, fun _ => h⟩
  have hno : ∀ P : Prop, P → (∀ vmx, vm.executeBinaryOperation op
      ≠ .error ("unsupported types for binary operation: " ++ T1 ++ " " ++ T2) vmx) →
      ((∃ vmx, vm.executeBinaryOperation op
        = .error ("unsupported types for binary operation: " ++ T1 ++ " " ++ T2) vmx) ↔ ¬ P)
      ∧ (¬ P → vm.executeBinaryOperation op
          = .error ("unsupported types for binary operation: " ++ T1 ++ " " ++ T2)
              { vm with sp := vm.sp - 2 }) :=
    fun P hP h => ⟨⟨fun ⟨x, hx⟩ => absurd hx (h x), fun hn => absurd hP hn⟩, fun hn => absurd hP hn⟩
  cases left with
  | nil => cases hT1
  | Integer a =>
    cases right with
    | nil => cases hT2
    | Integer b =>
      refine hno _ (Or.inl ⟨a, b, rfl, rfl⟩) (fun vmx h => ?_)
      rw [binary_of_integers vm op a b h0 hl hr] at h
      exact m1 (intop_error hop h).symm
    | _ =>
      refine hyes _ (by rintro (⟨_, _, _, h⟩ | ⟨_, _, _, _, h, _⟩) <;> cases h) ?_
      simp only [Object.Type] at hT1 hT2
      cases hT1; cases hT2
      simp only [VM.executeBinaryOperation, e1, e2, Object.Type]
  | String p s =>
    cases right with
    | nil => cases hT2
    | String q t =>
      refine hno _ (Or.inr ⟨p, s, q, t, rfl, rfl⟩) (fun vmx h => ?_)
      rw [binary_of_strings vm op p q s t h0 hl hr] at h
      rcases strop_error h with e | e
      · exact m1 e.symm
      · exact m2 e.symm
    | _ =>
      refine hyes _ (by rintro (⟨_, _, h, _⟩ | ⟨_, _, _, _, _, h⟩) <;> cases h) ?_
      simp only [Object.Type] at hT1 hT2
      cases hT1; cases hT2
      simp only [VM.executeBinaryOperation, e1, e2, Object.Type]
  | _ =>
    refine hyes _ (by rintro (⟨_, _, h, _⟩ | ⟨_, _, _, _, h, _⟩) <;> cases h) ?_
    cases right with
    | nil => cases hT2
    | _ =>
      simp only [Object.Type] at hT1 hT2
      cases hT1; cases hT2
      simp only [VM.executeBinaryOperation, e1, e2, Object.Type]

end vm

namespace vm

open object

/-- Witness of C13: `1 + true`. -/
theorem unsupported_types_iff_witness :
    ((∃ vmx, VM.executeBinaryOperation ⟨[], [], [.Integer 1, True], 2, [], 4⟩ code.OpAdd
        = .error ("unsupported types for binary operation: " ++ "INTEGER" ++ " " ++ "BOOLEAN") vmx)
      ↔ ¬ ((∃ a b, Object.Integer 1 = .Integer a ∧ True = .Integer b)
          ∨ (∃ p s q t, Object.Integer 1 = .String p s ∧ True = .String q t)))
    ∧ (¬ ((∃ a b, Object.Integer 1 = .Integer a ∧ True = .Integer b)
          ∨ (∃ p s q t, Object.Integer 1 = .String p s ∧ True = .String q t)) →
        VM.executeBinaryOperation ⟨[], [], [.Integer 1, True], 2, [], 4⟩ code.OpAdd
          = .error ("unsupported types for binary operation: " ++ "INTEGER" ++ " " ++ "BOOLEAN")
              ⟨[], [], [.Integer 1, True], 0, [], 4⟩) :=
  unsupported_types_iff ⟨[], [], [.Integer 1, True], 2, [], 4⟩ code.OpAdd (.Integer 1) True
    "INTEGER" "BOOLEAN" (Or.inl rfl) (by decide) (by decide) (by decide) rfl rfl

/-! ### Strings under `-`, `*` and `/` -/

theorem string_operation_step (vm : VM) (ip : Nat) (op : code.Opcode) (p q : Nat)
    (l r : List Nat)
    (hop : op = code.OpSub ∨ op = code.OpMul ∨ op = code.OpDiv)
    (hi : vm.instructions[ip]? = some op) (h0 : 2 ≤ vm.sp)
    (hl : vm.stack[vm.sp - 2]? = some (.String p l))
    (hr : vm.stack[vm.sp - 1]? = some (.String q r)) :
    vm.step ip
      = .error ("unknown string operation: " ++ toString op) ({ vm with sp := vm.sp - 2 }, ip + 1) := by
  have hb := binary_of_strings vm op p q l r h0 hl hr
  have hne : op ≠ code.OpAdd := by
    rcases hop with rfl | rfl | rfl <;> decide
  have hs : vm.step ip = goOn (ip + 1) (vm.executeBinaryOperation op) := by
    rcases hop with rfl | rfl | rfl
    · exact step_OpSub vm ip hi
    · exact step_OpMul vm ip hi
    · exact step_OpDiv vm ip hi
  rw [hs, hb]
  simp only [VM.executeBinaryStringOperation, if_pos hne, goOn]

theorem runFrom_step_error {vm vm1 : VM} {ip ip1 : Nat} {msg : String} (fuel : Nat)
    (hlt : ip < vm.instructions.length) (h : vm.step ip = .error msg (vm1, ip1)) :
    VM.runFrom (fuel + 1) vm ip = some (.error msg vm1) := by
  simp only [VM.runFrom, if_pos hlt, h]

theorem lt_of_getElem? {α : Type} {l : List α} {i : Nat} {x : α} (h : l[i]? = some x) :
    i < l.length := by
  rcases Nat.lt_or_ge i l.length with h' | h'
  · exact h'
  · rw [List.getElem?_eq_none h'] at h; cases h

/-- The message of the error for two Strings under an operator other than `+`
is not the one with the word "operator". -/
theorem operation_ne_operator (s : String) :
    "unknown string operation: " ++ s ≠ "unknown string operator: " ++ s := by
  intro h
  have h2 := congrArg String.data h
  rw [String.data_append, String.data_append] at h2
  have h3 := congrArg (fun l => l[21]?) h2
  simp at h3

/-- C14 (amended): for two String operands and OpSub, OpMul or OpDiv, the round
of the loop fails and `Run` returns the error "unknown string operation: N",
`N` being the number of the opcode; this is not the message "unknown string
operator: N". -/
theorem string_operation_error (vm : VM) (ip fuel : Nat) (op : code.Opcode) (p q : Nat)
    (l r : List Nat)
    (hop : op = code.OpSub ∨ op = code.OpMul ∨ op = code.OpDiv)
    (hi : vm.instructions[ip]? = some op) (h0 : 2 ≤ vm.sp)
    (hl : vm.stack[vm.sp - 2]? = some (.String p l))
    (hr : vm.stack[vm.sp - 1]? = some (.String q r)) :
    VM.runFrom (fuel + 1) vm ip
      = some (.error ("unknown string operation: " ++ toString op) { vm with sp := vm.sp - 2 })
    ∧ "unknown string operation: " ++ toString op ≠ "unknown string operator: " ++ toString op :=
  ⟨runFrom_step_error fuel (lt_of_getElem? hi) (string_operation_step vm ip op p q l r hop hi h0 hl hr),
    operation_ne_operator _⟩

/-- Witness of C14 (amended): `"a" * "b"`. -/
theorem string_operation_error_witness :
    VM.runFrom (0 + 1) ⟨[], [code.OpMul], [.String 4 [97], .String 5 [98]], 2, [], 6⟩ 0
      = some (.error ("unknown string operation: " ++ toString code.OpMul)
          ⟨[], [code.OpMul], [.String 4 [97], .String 5 [98]], 0, [], 6⟩)
    ∧ "unknown string operation: " ++ toString code.OpMul
      ≠ "unknown string operator: " ++ toString code.OpMul :=
  string_operation_error ⟨[], [code.OpMul], [.String 4 [97], .String 5 [98]], 2, [], 6⟩ 0 0
    code.OpMul 4 5 [97] [98] (Or.inr (Or.inl rfl)) (by decide) (by decide) (by decide) (by decide)

/-- C14, counterexample: the bytecode of `"a" - "b"` (two String constants and
OpSub) makes `Run` return the error "unknown string operation: 3", which is not
"unknown string operator: 3". -/
theorem string_operator_message :
    (∃ fuel vm1,
      (New ⟨[code.OpConstant, 0, 0, code.OpConstant, 0, 1, code.OpSub],
          [.String 4 [97], .String 5 [98]]⟩).Run fuel
        = some (.error "unknown string operation: 3" vm1))
    ∧ ¬ (∃ fuel vm1,
      (New ⟨[code.OpConstant, 0, 0, code.OpConstant, 0, 1, code.OpSub],
          [.String 4 [97], .String 5 [98]]⟩).Run fuel
        = some (.error "unknown string operator: 3" vm1)) := by
  have hlen : (List.replicate StackSize Object.nil).length = 2048 := by
    rw [List.length_replicate]
  obtain ⟨vm1, r1, p1⟩ := exec_OpConstant
    (New ⟨[code.OpConstant, 0, 0, code.OpConstant, 0, 1, code.OpSub],
      [.String 4 [97], .String 5 [98]]⟩) [] [code.OpConstant, 0, 1, code.OpSub] 0
    (.String 4 [97]) rfl (by decide) rfl (by decide)
    (by show 0 < (List.replicate StackSize Object.nil).length; rw [hlen]; decide)
  obtain ⟨s1, t1, b1, l1, -, c1, i1, -⟩ := p1
  obtain ⟨vm2, r2, p2⟩ := exec_OpConstant vm1 [code.OpConstant, 0, 0] [code.OpSub] 1
    (.String 5 [98]) (by rw [i1]; rfl) (by decide) (by rw [c1]; rfl)
    (by rw [s1]; decide) (by rw [s1, l1]; show 0 + 1 < (List.replicate StackSize Object.nil).length
                             rw [hlen]; decide)
  obtain ⟨s2, t2, b2, l2, -, c2, i2, -⟩ := p2
  have hsp : vm2.sp = 2 := by rw [s2, s1]; rfl
  have hi : vm2.instructions[6]? = some code.OpSub := by rw [i2, i1]; rfl
  have hl : vm2.stack[vm2.sp - 2]? = some (.String 4 [97]) := by
    rw [hsp, b2 0 (by rw [s1]; decide)]
    exact t1
  have hr : vm2.stack[vm2.sp - 1]? = some (.String 5 [98]) := by
    rw [hsp]
    have : vm1.sp = 1 := by rw [s1]; rfl
    rw [this] at t2
    exact t2
  have hs := string_operation_step vm2 6 code.OpSub 4 5 [97] [98] (Or.inl rfl) hi
    (by rw [hsp]) hl hr
  have hrun : ∃ fuel, (New ⟨[code.OpConstant, 0, 0, code.OpConstant, 0, 1, code.OpSub],
          [.String 4 [97], .String 5 [98]]⟩).Run fuel
        = some (.error "unknown string operation: 3" { vm2 with sp := vm2.sp - 2 }) := by
    obtain ⟨n, hn⟩ := Reach.trans r1 r2
    refine ⟨n + 1, ?_⟩
    exact (runFrom_steps 1 hn).trans (runFrom_step_error 0 (lt_of_getElem? hi) hs)
  obtain ⟨fuel, hf⟩ := hrun
  refine ⟨⟨fuel, _, hf⟩, ?_⟩
  rintro ⟨fuel', vm', hf'⟩
  have := runFrom_det hf hf'
  injection this with hmsg
  exact absurd hmsg (by decide)

end vm

namespace compiler2

open ast

theorem compiler_InfixExpression_lt (c : Compiler) (l r : Expression) :
    c.CompilerExpression (.InfixExpression l "<" r)
      = match c.CompilerExpression r with
        | .ok c1 =>
          match c1.CompilerExpression l with
          | .ok c2 => .ok (c2.emit code.OpGreaterThan []).1
          | r => r
        | r => r :=
  rfl

theorem compiler_InfixExpression_gt (c : Compiler) (l r : Expression) :
    c.CompilerExpression (.InfixExpression l ">" r)
      = match c.CompilerExpression l with
        | .ok c1 =>
          match c1.CompilerExpression r with
          | .ok c2 => .ok (c2.emit code.OpGreaterThan []).1
          | r => r
        | r => r := by
  show (if ">" = "<" then _ else _) = _
  rw [if_neg (by decide)]
  simp only [show ¬ (">" = "+") by decide, show ¬ (">" = "-") by decide,
    show ¬ (">" = "*") by decide, show ¬ (">" = "/") by decide, if_false, if_true]

end compiler2

namespace compiler

open ast

/-! ### The value of a let statement is compiled before the name is defined -/

theorem emit_symbolTable (c : Compiler) (op : Nat) (operands : List Nat) :
    (c.emit op operands).1.symbolTable = c.symbolTable := rfl

/-- An expression without conditionals compiles without panic and leaves the
symbol table as it is. -/
theorem plain_symbolTable : ∀ (e : Expression) (c : Compiler), e.isPlain = true →
    (∃ c1, c.CompileExpression e = .ok c1 ∧ c1.symbolTable = c.symbolTable)
    ∨ (∃ msg c1, c.CompileExpression e = .error msg c1)
  | .IntegerLiteral n, c, _ => Or.inl ⟨_, compile_IntegerLiteral c n, rfl⟩
  | .Boolean b, c, _ => by
    cases b
    · exact Or.inl ⟨_, rfl, rfl⟩
    · exact Or.inl ⟨_, rfl, rfl⟩
  | .StringLiteral _, c, _ => Or.inl ⟨c, rfl, rfl⟩
  | .ArrayLiteral _, c, _ => Or.inl ⟨c, rfl, rfl⟩
  | .HashLiteral _, c, _ => Or.inl ⟨c, rfl, rfl⟩
  | .IndexExpression _ _, c, _ => Or.inl ⟨c, rfl, rfl⟩
  | .CallExpression _ _, c, _ => Or.inl ⟨c, rfl, rfl⟩
  | .FunctionLiteral _ _, c, _ => Or.inl ⟨c, rfl, rfl⟩
  | .IfExpression _ _ _, _, h => by cases h
  | .Identifier x, c, _ => by
    rw [compile_Identifier]
    cases hr : c.symbolTable.Resolve x with
    | none => exact Or.inr ⟨_, _, rfl⟩
    | some sym => exact Or.inl ⟨_, rfl, rfl⟩
  | .PrefixExpression op r, c, h => by
    have hr : r.isPlain = true := h
    rw [compile_PrefixExpression]
    rcases plain_symbolTable r c hr with ⟨c1, e1, s1⟩ | ⟨msg, c1, e1⟩
    · rw [e1]
      simp only []
      split_ifs
      · exact Or.inl ⟨_, rfl, s1⟩
      · exact Or.inl ⟨_, rfl, s1⟩
      · exact Or.inr ⟨_, _, rfl⟩
    · rw [e1]
      exact Or.inr ⟨_, _, rfl⟩
  | .InfixExpression l op r, c, h => by
    have hlr : l.isPlain = true ∧ r.isPlain = true := by
      simpa [Expression.isPlain] using h
    by_cases hop : op = "<"
    · subst hop
      rw [compile_InfixExpression_lt]
      rcases plain_symbolTable r c hlr.2 with ⟨c1, e1, s1⟩ | ⟨msg, c1, e1⟩
      · rw [e1]
        simp only []
        rcases plain_symbolTable l c1 hlr.1 with ⟨c2, e2, s2⟩ | ⟨msg, c2, e2⟩
        · rw [e2]
          exact Or.inl ⟨_, rfl, s2.trans s1⟩
        · rw [e2]
          exact Or.inr ⟨_, _, rfl⟩
      · rw [e1]
        exact Or.inr ⟨_, _, rfl⟩
    · rw [compile_InfixExpression c l r op hop]
      rcases plain_symbolTable l c hlr.1 with ⟨c1, e1, s1⟩ | ⟨msg, c1, e1⟩
      · rw [e1]
        simp only []
        rcases plain_symbolTable r c1 hlr.2 with ⟨c2, e2, s2⟩ | ⟨msg, c2, e2⟩
        · rw [e2]
          simp only []
          split_ifs
          all_goals first
            | exact Or.inl ⟨_, rfl, s2.trans s1⟩
            | exact Or.inr ⟨_, _, rfl⟩
        · rw [e2]
          exact Or.inr ⟨_, _, rfl⟩
      · rw [e1]
        exact Or.inr ⟨_, _, rfl⟩

/-- An expression without conditionals in which an undefined name occurs does
not compile. -/
theorem mentions_undefined (x : String) : ∀ (e : Expression) (c : Compiler),
    e.isPlain = true → e.mentions x = true → c.symbolTable.Resolve x = none →
    ∃ msg c1, c.CompileExpression e = .error msg c1
  | .IntegerLiteral _, _, _, h, _ => by cases h
  | .Boolean _, _, _, h, _ => by cases h
  | .StringLiteral _, _, _, h, _ => by cases h
  | .ArrayLiteral _, _, _, h, _ => by cases h
  | .HashLiteral _, _, _, h, _ => by cases h
  | .IndexExpression _ _, _, _, h, _ => by cases h
  | .CallExpression _ _, _, _, h, _ => by cases h
  | .FunctionLiteral _ _, _, _, h, _ => by cases h
  | .IfExpression _ _ _, _, _, h, _ => by cases h
  | .Identifier y, c, _, h, hx => by
    have : y = x := by simpa [Expression.mentions] using h
    subst this
    rw [compile_Identifier, hx]
    exact ⟨_, _, rfl⟩
  | .PrefixExpression op r, c, hp, h, hx => by
    obtain ⟨msg, c1, e1⟩ := mentions_undefined x r c hp h hx
    rw [compile_PrefixExpression, e1]
    exact ⟨_, _, rfl⟩
  | .InfixExpression l op r, c, hp, h, hx => by
    have hlr : l.isPlain = true ∧ r.isPlain = true := by
      simpa [Expression.isPlain] using hp
    have hm : l.mentions x = true ∨ r.mentions x = true := by
      simpa [Expression.mentions] using h
    by_cases hop : op = "<"
    · subst hop
      rw [compile_InfixExpression_lt]
      rcases plain_symbolTable r c hlr.2 with ⟨c1, e1, s1⟩ | ⟨msg, c1, e1⟩
      · rcases hm with hm | hm
        · obtain ⟨msg, c2, e2⟩ := mentions_undefined x l c1 hlr.1 hm (by rw [s1]; exact hx)
          rw [e1]
          simp only []
          rw [e2]
          exact ⟨_, _, rfl⟩
        · obtain ⟨msg, c2, e2⟩ := mentions_undefined x r c hlr.2 hm hx
          rw [e1] at e2
          cases e2
      · rw [e1]
        exact ⟨_, _, rfl⟩
    · rw [compile_InfixExpression c l r op hop]
      rcases plain_symbolTable l c hlr.1 with ⟨c1, e1, s1⟩ | ⟨msg, c1, e1⟩
      · rcases hm with hm | hm
        · obtain ⟨msg, c2, e2⟩ := mentions_undefined x l c hlr.1 hm hx
          rw [e1] at e2
          cases e2
        · obtain ⟨msg, c2, e2⟩ := mentions_undefined x r c1 hlr.2 hm (by rw [s1]; exact hx)
          rw [e1]
          simp only []
          rw [e2]
          exact ⟨_, _, rfl⟩
      · rw [e1]
        exact ⟨_, _, rfl⟩

/-- C20 (amended): `Compile` compiles the value of a let statement first and
defines the name afterwards, when the value has compiled. For a name `x` that
is not defined, `let x = e` with `e` built from literals, identifiers, prefix
and infix operators and mentioning `x` returns an error, which for `let x = x`
is "undefined variable x". -/
theorem let_defines_after_value (c : Compiler) (x : String) (e : Expression)
    (hx : c.symbolTable.Resolve x = none) (hp : e.isPlain = true)
    (hm : e.mentions x = true) :
    (∃ msg c1, c.Compile (.Statement (.LetStatement x e)) = .error msg c1)
    ∧ c.Compile (.Statement (.LetStatement x (.Identifier x)))
      = .error ("undefined variable " ++ x) c
    ∧ ∀ (v : Expression) (c1 : Compiler), c.Compile (.Expression v) = .ok c1 →
        c.Compile (.Statement (.LetStatement x v))
          = .ok (({ c1 with symbolTable := (c1.symbolTable.Define x).2 }).emit code.OpSetGlobal
              [(c1.symbolTable.Define x).1.Index]).1 := by
  refine ⟨?_, ?_, ?_⟩
  · obtain ⟨msg, c1, e1⟩ := mentions_undefined x e c hp hm hx
    refine ⟨msg, c1, ?_⟩
    show c.CompileStatement _ = _
    rw [compile_LetStatement, e1]
  · show c.CompileStatement _ = _
    rw [compile_LetStatement, compile_Identifier, hx]
  · intro v c1 hv
    show c.CompileStatement _ = _
    rw [compile_LetStatement, show c.CompileExpression v = .ok c1 from hv]

/-- Witness of C20 (amended): `let x = x + 1` in the initial compiler. -/
theorem let_defines_after_value_witness :
    (∃ msg c1, New.Compile (.Statement (.LetStatement "x"
        (.InfixExpression (.Identifier "x") "+" (.IntegerLiteral 1)))) = .error msg c1)
    ∧ New.Compile (.Statement (.LetStatement "x" (.Identifier "x")))
      = .error ("undefined variable " ++ "x") New
    ∧ ∀ (v : Expression) (c1 : Compiler), New.Compile (.Expression v) = .ok c1 →
        New.Compile (.Statement (.LetStatement "x" v))
          = .ok (({ c1 with symbolTable := (c1.symbolTable.Define "x").2 }).emit code.OpSetGlobal
              [(c1.symbolTable.Define "x").1.Index]).1 :=
  let_defines_after_value New "x" (.InfixExpression (.Identifier "x") "+" (.IntegerLiteral 1))
    rfl rfl rfl

/-- C20, counterexample: the program `let x = x;` does not compile: the value is
compiled while `x` is not yet defined. -/
theorem let_self_reference_fails :
    New.Compile (.Program [.LetStatement "x" (.Identifier "x")])
      = .error "undefined variable x" New := by
  decide

end compiler

namespace vm

open object

/-! ### Array and hash literals -/

theorem step_OpArray (vm : VM) (ip : Nat)
    (hi : vm.instructions[ip]? = some code.OpArray) :
    vm.step ip = (match vm.operand ip with
      | none => .panic
      | some numElements =>
        match vm.buildArray ((vm.sp : Int) - numElements) vm.sp with
        | none => .panic
        | some array =>
          goOn (ip + 3) ({ vm with sp := vm.sp - numElements, heap := vm.heap + 1 }.push array)) := by
  rw [VM.step, hi]
  simp only [code.OpConstant, code.OpAdd, code.OpPop, code.OpSub, code.OpMul, code.OpDiv, code.OpTrue, code.OpFalse, code.OpEqual, code.OpNotEqual, code.OpGreaterThan, code.OpMinus, code.OpBang, code.OpJumpNotTruthy, code.OpJump, code.OpNull, code.OpGetGlobal, code.OpSetGlobal, code.OpArray, code.OpHash, code.OpIndex,
    Nat.reduceEqDiff, if_false, if_true, or_self, or_false, false_or, or_true, true_or]

theorem step_OpHash (vm : VM) (ip : Nat)
    (hi : vm.instructions[ip]? = some code.OpHash) :
    vm.step ip = (match vm.operand ip with
      | none => .panic
      | some numElements =>
        match vm.buildHash ((vm.sp : Int) - numElements) vm.sp with
        | .panic => .panic
        | .error msg _ => .error msg (vm, ip + 3)
        | .ok hash =>
          goOn (ip + 3) ({ vm with sp := vm.sp - numElements, heap := vm.heap + 1 }.push hash)) := by
  rw [VM.step, hi]
  simp only [code.OpConstant, code.OpAdd, code.OpPop, code.OpSub, code.OpMul, code.OpDiv, code.OpTrue, code.OpFalse, code.OpEqual, code.OpNotEqual, code.OpGreaterThan, code.OpMinus, code.OpBang, code.OpJumpNotTruthy, code.OpJump, code.OpNull, code.OpGetGlobal, code.OpSetGlobal, code.OpArray, code.OpHash, code.OpIndex,
    Nat.reduceEqDiff, if_false, if_true, or_self, or_false, false_or, or_true, true_or]

end vm

namespace vm

open object

/-- The array `buildArray` makes of the `n` slots below `sp`. -/
theorem buildArray_top (vm : VM) (n : Nat) (hn : n ≤ vm.sp) (h2 : vm.sp ≤ vm.stack.length) :
    vm.buildArray ((vm.sp : Int) - n) vm.sp
      = some (.Array vm.heap ((vm.stack.drop (vm.sp - n)).take n)) := by
  unfold VM.buildArray
  have e1 : ¬ ((vm.sp : Int) < (vm.sp : Int) - (n : Int)) := by omega
  rw [if_neg e1]
  by_cases h0 : n = 0
  · subst h0
    simp
  · have e2 : ¬ ((vm.sp : Int) = (vm.sp : Int) - (n : Int)) := by omega
    have e3 : ¬ ((vm.sp : Int) - (n : Int) < 0 ∨ (vm.stack.length : Int) < (vm.sp : Int)) := by
      omega
    have e4 : ((vm.sp : Int) - (n : Int)).toNat = vm.sp - n := by omega
    have e5 : (vm.sp : Int).toNat - (vm.sp - n) = n := by
      have : (vm.sp : Int).toNat = vm.sp := by omega
      omega
    rw [if_neg e2, if_neg e3, e4, e5]

/-- C11 (amended): OpArray with the operand `n`, `n <= sp`, on a machine that
has a free slot or `n >= 1`, replaces the `n` top slots by one Array of those
values, the lowest first: `sp` becomes `sp - n + 1`, the Array is in the slot
`sp - n` and the slots below are unchanged. -/
theorem array_of_top_slots (vm : VM) (ip n : Nat)
    (hi : vm.instructions[ip]? = some code.OpArray) (hop : vm.operand ip = some n)
    (hn : n ≤ vm.sp) (h1 : vm.sp ≤ StackSize) (h3 : StackSize ≤ vm.stack.length)
    (hroom : 1 ≤ n ∨ vm.sp < StackSize) :
    ∃ elements vm1,
      vm.step ip = .ok (vm1, ip + 3)
      ∧ vm1 = { vm with stack := vm.stack.set (vm.sp - n) (.Array vm.heap elements),
                        sp := vm.sp - n + 1, heap := vm.heap + 1 }
      ∧ elements.length = n
      ∧ (∀ i, i < n → elements[i]? = vm.stack[vm.sp - n + i]?)
      ∧ vm1.stack[vm.sp - n]? = some (.Array vm.heap elements)
      ∧ ∀ i, i < vm.sp - n → vm1.stack[i]? = vm.stack[i]? := by
  have hlen : vm.sp ≤ vm.stack.length := Nat.le_trans h1 h3
  refine ⟨(vm.stack.drop (vm.sp - n)).take n, _, ?_, rfl, ?_, ?_, ?_, ?_⟩
  · rw [step_OpArray vm ip hi, hop]
    simp only [buildArray_top vm n hn hlen]
    rw [push_eq _ _ (by show vm.sp - n < StackSize; omega)
      (by show vm.sp - n < vm.stack.length; omega)]
    rfl
  · rw [List.length_take, List.length_drop]
    omega
  · intro i hlt
    rw [List.getElem?_take_of_lt hlt, List.getElem?_drop]
  · show (vm.stack.set (vm.sp - n) _)[vm.sp - n]? = _
    rw [List.getElem?_set_self (by omega)]
  · intro i hlt
    show (vm.stack.set (vm.sp - n) _)[i]? = _
    rw [List.getElem?_set_ne (by omega)]

/-- Witness of C11 (amended): OpArray with the operand 2 on three slots: the two
top slots become the Array and the slot below stays. -/
theorem array_of_top_slots_witness :
    ∃ elements vm1,
      VM.step ⟨[], [code.OpArray, 0, 2],
          List.replicate StackSize (.Integer 7), 3, [], 4⟩ 0 = .ok (vm1, 0 + 3)
      ∧ vm1 = { (⟨[], [code.OpArray, 0, 2], List.replicate StackSize (.Integer 7), 3, [], 4⟩ : VM)
                with stack := (List.replicate StackSize (Object.Integer 7)).set (3 - 2)
                       (.Array 4 elements),
                     sp := 3 - 2 + 1, heap := 4 + 1 }
      ∧ elements.length = 2
      ∧ (∀ i, i < 2 → elements[i]? = (List.replicate StackSize (Object.Integer 7))[3 - 2 + i]?)
      ∧ vm1.stack[3 - 2]? = some (.Array 4 elements)
      ∧ ∀ i, i < 3 - 2 → vm1.stack[i]? = (List.replicate StackSize (Object.Integer 7))[i]? :=
  array_of_top_slots ⟨[], [code.OpArray, 0, 2], List.replicate StackSize (.Integer 7), 3, [], 4⟩
    0 2 rfl rfl (by decide) (by decide)
    (by show StackSize ≤ (List.replicate StackSize (Object.Integer 7)).length
        rw [List.length_replicate])
    (Or.inl (by decide))

/-- C11, counterexample: on a full stack the empty array literal, OpArray with
the operand 0, returns the error "stack overflow" and pushes nothing. -/
theorem array_on_full_stack :
    (0 : Nat) ≤ StackSize
    ∧ VM.step ⟨[], [code.OpArray, 0, 0], List.replicate StackSize (.Integer 7), StackSize, [], 4⟩ 0
      = .error "stack overflow"
          (⟨[], [code.OpArray, 0, 0], List.replicate StackSize (.Integer 7), StackSize, [], 5⟩, 3) := by
  refine ⟨by decide, ?_⟩
  have hop : VM.operand ⟨[], [code.OpArray, 0, 0], List.replicate StackSize (.Integer 7),
      StackSize, [], 4⟩ 0 = some 0 := rfl
  have hb := buildArray_top ⟨[], [code.OpArray, 0, 0], List.replicate StackSize (.Integer 7),
      StackSize, [], 4⟩ 0 (Nat.zero_le _)
    (by show StackSize ≤ (List.replicate StackSize (Object.Integer 7)).length
        rw [List.length_replicate])
  rw [step_OpArray _ 0 (show (VM.mk [] [code.OpArray, 0, 0] (List.replicate StackSize (.Integer 7))
    StackSize [] 4).instructions[0]? = some code.OpArray from rfl), hop]
  simp only [hb]
  rw [compiler.push_overflow _ _ (by show StackSize ≤ StackSize - 0; decide)]
  rfl

end vm

namespace vm

open object

/-! ### Hash literals -/

/-- The loop of `buildHash` over pairs whose keys are all hashable ends without
error. -/
theorem buildHashLoop_good (stack : List Object) :
    ∀ (rounds i : Nat) (acc : List (HashKey × Object × Object)),
      (∀ j, j < rounds → ∃ k v hk, stack[i + 2 * j]? = some k ∧ stack[i + 2 * j + 1]? = some v
        ∧ k.HashKey = some hk) →
      ∃ m, buildHashLoop stack rounds i acc = .ok m := by
  intro rounds
  induction rounds with
  | zero => intro i acc _; exact ⟨acc, rfl⟩
  | succ n ih =>
    intro i acc h
    obtain ⟨k, v, hk, e1, e2, e3⟩ := h 0 (Nat.succ_pos _)
    simp only [Nat.mul_zero, Nat.add_zero] at e1 e2
    simp only [buildHashLoop, e1, e2, e3]
    apply ih
    intro j hj
    obtain ⟨k', v', hk', f1, f2, f3⟩ := h (j + 1) (by omega)
    refine ⟨k', v', hk', ?_, ?_, f3⟩
    · rw [← f1]; congr 1; omega
    · rw [← f2]; congr 1; omega

/-- The loop of `buildHash` fails at the first key that is not hashable, with
the type of that key in the message. -/
theorem buildHashLoop_bad (stack : List Object) (k v : Object) (T : String) :
    ∀ (j rounds i : Nat) (acc : List (HashKey × Object × Object)), j < rounds →
      (∀ j', j' < j → ∃ k' v' hk, stack[i + 2 * j']? = some k' ∧ stack[i + 2 * j' + 1]? = some v'
        ∧ k'.HashKey = some hk) →
      stack[i + 2 * j]? = some k → stack[i + 2 * j + 1]? = some v →
      k.HashKey = none → k.Type = some T →
      ∃ acc', buildHashLoop stack rounds i acc = .error ("unusable as hash key: " ++ T) acc' := by
  intro j
  induction j with
  | zero =>
    intro rounds i acc hlt _ e1 e2 e3 e4
    obtain ⟨n, rfl⟩ : ∃ n, rounds = n + 1 := ⟨rounds - 1, by omega⟩
    simp only [Nat.mul_zero, Nat.add_zero] at e1 e2
    simp only [buildHashLoop, e1, e2, e3, e4]
    exact ⟨_, rfl⟩
  | succ j ih =>
    intro rounds i acc hlt h e1 e2 e3 e4
    obtain ⟨n, rfl⟩ : ∃ n, rounds = n + 1 := ⟨rounds - 1, by omega⟩
    obtain ⟨k0, v0, hk0, g1, g2, g3⟩ := h 0 (Nat.succ_pos _)
    simp only [Nat.mul_zero, Nat.add_zero] at g1 g2
    simp only [buildHashLoop, g1, g2, g3]
    apply ih n (i + 2) _ (by omega)
    · intro j' hj'
      obtain ⟨k', v', hk', f1, f2, f3⟩ := h (j' + 1) (by omega)
      refine ⟨k', v', hk', ?_, ?_, f3⟩
      · rw [← f1]; congr 1; omega
      · rw [← f2]; congr 1; omega
    · rw [← e1]; congr 1; omega
    · rw [← e2]; congr 1; omega
    · exact e3
    · exact e4

/-- The call of `buildHash` on the `n` slots below `sp`, `n > 0`, is the loop
over `(n + 1) / 2` pairs from the slot `sp - n`. -/
theorem buildHash_top (vm : VM) (n : Nat) (hn : n ≤ vm.sp) (h0 : 0 < n) :
    (∀ m, buildHashLoop vm.stack ((n + 1) / 2) (vm.sp - n) [] = .ok m →
      vm.buildHash ((vm.sp : Int) - n) vm.sp = .ok (.Hash vm.heap m))
    ∧ (∀ msg a, buildHashLoop vm.stack ((n + 1) / 2) (vm.sp - n) [] = .error msg a →
      vm.buildHash ((vm.sp : Int) - n) vm.sp = .error msg .nil) := by
  unfold VM.buildHash
  have e1 : ¬ ((vm.sp : Int) ≤ (vm.sp : Int) - (n : Int)) := by omega
  have e2 : ¬ ((vm.sp : Int) - (n : Int) < 0) := by omega
  have e3 : ((vm.sp : Int) - (n : Int)).toNat = vm.sp - n := by omega
  have e4 : ((vm.sp : Int).toNat - (vm.sp - n) + 1) / 2 = (n + 1) / 2 := by
    have : (vm.sp : Int).toNat = vm.sp := by omega
    rw [this]
    congr 1
    omega
  rw [if_neg e1, if_neg e2, e3, e4]
  constructor
  · intro m hm
    rw [hm]
  · intro msg a hm
    rw [hm]

/-- The slot above a key slot among the `n` slots below `sp` is a slot of the
stack. -/
theorem value_slot (vm : VM) (n j : Nat) (hn : n ≤ vm.sp) (h2 : vm.sp + n % 2 ≤ vm.stack.length)
    (hj : 2 * j < n) : ∃ v, vm.stack[vm.sp - n + 2 * j + 1]? = some v := by
  have hlt : vm.sp - n + 2 * j + 1 < vm.stack.length := by omega
  exact ⟨_, List.getElem?_eq_getElem hlt⟩

/-- OpHash on slots whose keys are all hashable pushes a Hash. -/
theorem hash_step_good (vm : VM) (ip n : Nat)
    (hi : vm.instructions[ip]? = some code.OpHash) (hop : vm.operand ip = some n)
    (hn : n ≤ vm.sp) (h1 : vm.sp ≤ StackSize) (h2 : vm.sp + n % 2 ≤ vm.stack.length)
    (h3 : StackSize ≤ vm.stack.length) (hroom : 0 < n ∨ vm.sp < StackSize)
    (hgood : ∀ j, 2 * j < n → ∃ k hk, vm.stack[vm.sp - n + 2 * j]? = some k
      ∧ k.HashKey = some hk) :
    ∃ pairs, vm.step ip
      = .ok ({ vm with stack := vm.stack.set (vm.sp - n) (.Hash vm.heap pairs),
                       sp := vm.sp - n + 1, heap := vm.heap + 1 }, ip + 3) := by
  have hpush : ∀ o, VM.push { vm with sp := vm.sp - n, heap := vm.heap + 1 } o
      = .ok { vm with stack := vm.stack.set (vm.sp - n) o, sp := vm.sp - n + 1,
                      heap := vm.heap + 1 } := fun o =>
    push_eq _ o (by show vm.sp - n < StackSize; omega)
      (by show vm.sp - n < vm.stack.length; omega)
  rw [step_OpHash vm ip hi, hop]
  by_cases h0 : n = 0
  · subst h0
    refine ⟨[], ?_⟩
    have : vm.buildHash ((vm.sp : Int) - (0 : Nat)) vm.sp = .ok (.Hash vm.heap []) := by
      simp [VM.buildHash]
    simp only [this, hpush, goOn]
  · obtain ⟨m, hm⟩ := buildHashLoop_good vm.stack ((n + 1) / 2) (vm.sp - n) [] (fun j hj => by
      have hj2 : 2 * j < n := by omega
      obtain ⟨k, hk, e1, e2⟩ := hgood j hj2
      obtain ⟨v, e3⟩ := value_slot vm n j hn h2 hj2
      exact ⟨k, v, hk, e1, e3, e2⟩)
    refine ⟨m, ?_⟩
    simp only [(buildHash_top vm n hn (Nat.pos_of_ne_zero h0)).1 m hm, hpush, goOn]

/-- OpHash on slots whose first key that is not hashable is in the slot
`sp - n + 2 * j` fails with the type of that key in the message. -/
theorem hash_step_bad (vm : VM) (ip n j : Nat) (k : Object) (T : String)
    (hi : vm.instructions[ip]? = some code.OpHash) (hop : vm.operand ip = some n)
    (hn : n ≤ vm.sp) (h2 : vm.sp + n % 2 ≤ vm.stack.length)
    (hj : 2 * j < n) (hk : vm.stack[vm.sp - n + 2 * j]? = some k) (hbad : k.HashKey = none)
    (hT : k.Type = some T)
    (hfirst : ∀ i, i < j → ∃ k' hk', vm.stack[vm.sp - n + 2 * i]? = some k'
      ∧ k'.HashKey = some hk') :
    vm.step ip = .error ("unusable as hash key: " ++ T) (vm, ip + 3) := by
  obtain ⟨v, hv⟩ := value_slot vm n j hn h2 hj
  obtain ⟨acc', he⟩ := buildHashLoop_bad vm.stack k v T j ((n + 1) / 2) (vm.sp - n) []
    (by omega)
    (fun i hi' => by
      obtain ⟨k', hk', e1, e2⟩ := hfirst i hi'
      obtain ⟨v', e3⟩ := value_slot vm n i hn h2 (by omega)
      exact ⟨k', v', hk', e1, e3, e2⟩)
    hk hv hbad hT
  rw [step_OpHash vm ip hi, hop]
  simp only [(buildHash_top vm n hn (by omega)).2 _ _ he]

/-- Among the key slots there is a first one whose key is not hashable, when
there is one at all. -/
theorem first_bad_key (vm : VM) (n : Nat) (hn : n ≤ vm.sp) (h2 : vm.sp ≤ vm.stack.length)
    (h : ∃ j, 2 * j < n ∧ ∃ k, vm.stack[vm.sp - n + 2 * j]? = some k ∧ k.HashKey = none) :
    ∃ j k, 2 * j < n ∧ vm.stack[vm.sp - n + 2 * j]? = some k ∧ k.HashKey = none
      ∧ ∀ i, i < j → ∃ k' hk', vm.stack[vm.sp - n + 2 * i]? = some k'
          ∧ k'.HashKey = some hk' := by
  classical
  obtain ⟨hj, k, e1, e2⟩ := Nat.find_spec h
  refine ⟨Nat.find h, k, hj, e1, e2, fun i hi => ?_⟩
  have hlt : vm.sp - n + 2 * i < vm.stack.length := by omega
  refine ⟨vm.stack.get ⟨_, hlt⟩, ?_⟩
  cases hk : (vm.stack.get ⟨_, hlt⟩).HashKey with
  | some hk' => exact ⟨hk', List.getElem?_eq_getElem hlt, rfl⟩
  | none =>
    exact absurd ⟨by omega, _, List.getElem?_eq_getElem hlt, hk⟩ (Nat.find_min h hi)

end vm

namespace vm

open object

/-- C12 (amended): OpHash with the operand `n`, `n <= sp`, on a machine that has
a free slot or `n >= 1`, returns the error "unusable as hash key: T" if and only
if one of the key slots (every second slot from `sp - n` on) holds a value that
is not hashable, that is no Integer, Boolean or String; `T` is the type of the
first such key. Otherwise it returns no error and replaces the `n` slots by a
Hash. -/
theorem hash_key_error_iff (vm : VM) (ip n : Nat)
    (hi : vm.instructions[ip]? = some code.OpHash) (hop : vm.operand ip = some n)
    (hn : n ≤ vm.sp) (h1 : vm.sp ≤ StackSize) (h2 : vm.sp + n % 2 ≤ vm.stack.length)
    (h3 : StackSize ≤ vm.stack.length) (hroom : 0 < n ∨ vm.sp < StackSize)
    (hnil : ∀ j, 2 * j < n → vm.stack[vm.sp - n + 2 * j]? ≠ some .nil) :
    ((∃ T vmx, vm.step ip = .error ("unusable as hash key: " ++ T) vmx)
      ↔ ∃ j, 2 * j < n ∧ ∃ k, vm.stack[vm.sp - n + 2 * j]? = some k ∧ k.HashKey = none)
    ∧ (∀ j k T, 2 * j < n → vm.stack[vm.sp - n + 2 * j]? = some k → k.HashKey = none →
        k.Type = some T →
        (∀ i, i < j → ∃ k' hk', vm.stack[vm.sp - n + 2 * i]? = some k'
          ∧ k'.HashKey = some hk') →
        vm.step ip = .error ("unusable as hash key: " ++ T) (vm, ip + 3))
    ∧ ((¬ ∃ j, 2 * j < n ∧ ∃ k, vm.stack[vm.sp - n + 2 * j]? = some k ∧ k.HashKey = none) →
        ∃ pairs, vm.step ip
          = .ok ({ vm with stack := vm.stack.set (vm.sp - n) (.Hash vm.heap pairs),
                           sp := vm.sp - n + 1, heap := vm.heap + 1 }, ip + 3)) := by
  have hlen : vm.sp ≤ vm.stack.length := Nat.le_trans h1 h3
  have hC : (¬ ∃ j, 2 * j < n ∧ ∃ k, vm.stack[vm.sp - n + 2 * j]? = some k ∧ k.HashKey = none) →
      ∃ pairs, vm.step ip
        = .ok ({ vm with stack := vm.stack.set (vm.sp - n) (.Hash vm.heap pairs),
                         sp := vm.sp - n + 1, heap := vm.heap + 1 }, ip + 3) := by
    intro hnone
    apply hash_step_good vm ip n hi hop hn h1 h2 h3 hroom
    intro j hj
    have hlt : vm.sp - n + 2 * j < vm.stack.length := by omega
    refine ⟨vm.stack.get ⟨_, hlt⟩, ?_⟩
    cases hk : (vm.stack.get ⟨_, hlt⟩).HashKey with
    | some hk' => exact ⟨hk', List.getElem?_eq_getElem hlt, rfl⟩
    | none => exact absurd ⟨j, hj, _, List.getElem?_eq_getElem hlt, hk⟩ hnone
  refine ⟨⟨?_, ?_⟩, ?_, hC⟩
  · rintro ⟨T, vmx, h⟩
    by_contra hnone
    obtain ⟨pairs, hok⟩ := hC hnone
    rw [hok] at h
    cases h
  · intro h
    obtain ⟨j, k, hj, hk, hbad, hfirst⟩ := first_bad_key vm n hn hlen h
    have hne : k ≠ .nil := fun e => hnil j hj (by rw [hk, e])
    obtain ⟨T, hT⟩ : ∃ T, k.Type = some T := by
      cases k with
      | nil => exact absurd rfl hne
      | _ => exact ⟨_, rfl⟩
    exact ⟨T, _, hash_step_bad vm ip n j k T hi hop hn h2 hj hk hbad hT hfirst⟩
  · intro j k T hj hk hbad hT hfirst
    exact hash_step_bad vm ip n j k T hi hop hn h2 hj hk hbad hT hfirst

/-- Witness of C12 (amended): OpHash with the operand 2 on the key Null. -/
theorem hash_key_error_iff_witness :
    ((∃ T vmx, VM.step ⟨[], [code.OpHash, 0, 2], List.replicate StackSize Null, 2, [], 4⟩ 0
        = .error ("unusable as hash key: " ++ T) vmx)
      ↔ ∃ j, 2 * j < 2 ∧ ∃ k, (List.replicate StackSize Null)[2 - 2 + 2 * j]? = some k
          ∧ k.HashKey = none)
    ∧ (∀ j k T, 2 * j < 2 → (List.replicate StackSize Null)[2 - 2 + 2 * j]? = some k →
        k.HashKey = none → k.Type = some T →
        (∀ i, i < j → ∃ k' hk', (List.replicate StackSize Null)[2 - 2 + 2 * i]? = some k'
          ∧ k'.HashKey = some hk') →
        VM.step ⟨[], [code.OpHash, 0, 2], List.replicate StackSize Null, 2, [], 4⟩ 0
          = .error ("unusable as hash key: " ++ T)
              (⟨[], [code.OpHash, 0, 2], List.replicate StackSize Null, 2, [], 4⟩, 0 + 3))
    ∧ ((¬ ∃ j, 2 * j < 2 ∧ ∃ k, (List.replicate StackSize Null)[2 - 2 + 2 * j]? = some k
          ∧ k.HashKey = none) →
        ∃ pairs, VM.step ⟨[], [code.OpHash, 0, 2], List.replicate StackSize Null, 2, [], 4⟩ 0
          = .ok ({ (⟨[], [code.OpHash, 0, 2], List.replicate StackSize Null, 2, [], 4⟩ : VM) with
                    stack := (List.replicate StackSize Null).set (2 - 2) (.Hash 4 pairs),
                    sp := 2 - 2 + 1, heap := 4 + 1 }, 0 + 3)) :=
  hash_key_error_iff ⟨[], [code.OpHash, 0, 2], List.replicate StackSize Null, 2, [], 4⟩ 0 2
    rfl rfl (by decide) (by decide)
    (by show 2 + 2 % 2 ≤ (List.replicate StackSize Null).length
        rw [List.length_replicate]; decide)
    (by show StackSize ≤ (List.replicate StackSize Null).length
        rw [List.length_replicate])
    (Or.inl (by decide))
    (fun j _ h => by
      rw [List.getElem?_replicate] at h
      split_ifs at h
      cases h)

/-- The error of the witness of C12 is "unusable as hash key: NULL". -/
theorem hash_of_null_key :
    VM.step ⟨[], [code.OpHash, 0, 2], List.replicate StackSize Null, 2, [], 4⟩ 0
      = .error "unusable as hash key: NULL"
          (⟨[], [code.OpHash, 0, 2], List.replicate StackSize Null, 2, [], 4⟩, 3) :=
  hash_step_bad ⟨[], [code.OpHash, 0, 2], List.replicate StackSize Null, 2, [], 4⟩ 0 2 0 Null
    "NULL" rfl rfl (by decide)
    (by show 2 + 2 % 2 ≤ (List.replicate StackSize Null).length
        rw [List.length_replicate]; decide)
    (by decide)
    (by show (List.replicate StackSize Null)[2 - 2 + 2 * 0]? = some Null
        rw [List.getElem?_replicate, if_pos (by decide)])
    rfl rfl (fun i h => absurd h (Nat.not_lt_zero i))

/-- C12, counterexample: on a full stack the empty hash literal, OpHash with the
operand 0, has no key slot at all and yet returns an error, "stack overflow",
and pushes no Hash. -/
theorem hash_on_full_stack :
    (∀ j, ¬ (2 * j < 0))
    ∧ VM.step ⟨[], [code.OpHash, 0, 0], List.replicate StackSize (.Integer 7), StackSize, [], 4⟩ 0
      = .error "stack overflow"
          (⟨[], [code.OpHash, 0, 0], List.replicate StackSize (.Integer 7), StackSize, [], 5⟩, 3) := by
  refine ⟨fun j h => Nat.not_lt_zero _ h, ?_⟩
  have hop : VM.operand ⟨[], [code.OpHash, 0, 0], List.replicate StackSize (.Integer 7),
      StackSize, [], 4⟩ 0 = some 0 := rfl
  have hb : VM.buildHash ⟨[], [code.OpHash, 0, 0], List.replicate StackSize (.Integer 7),
      StackSize, [], 4⟩ ((StackSize : Int) - (0 : Nat)) StackSize = .ok (.Hash 4 []) := by
    simp [VM.buildHash]
  rw [step_OpHash _ 0 (show (VM.mk [] [code.OpHash, 0, 0] (List.replicate StackSize (.Integer 7))
    StackSize [] 4).instructions[0]? = some code.OpHash from rfl), hop]
  simp only [hb]
  rw [compiler.push_overflow _ _ (by show StackSize ≤ StackSize - 0; decide)]
  rfl

end vm

namespace compiler2

open ast

theorem compiler_PrefixExpression (c : Compiler) (op : String) (r : Expression) :
    c.CompilerExpression (.PrefixExpression op r)
      = match c.CompilerExpression r with
        | .ok c1 =>
          if op = "!" then .ok (c1.emit code.OpBang []).1
          else if op = "-" then .ok (c1.emit code.OpMinus []).1
          else .error ("unknown operator " ++ op) c1
        | r => r :=
  rfl

theorem compiler_InfixExpression (c : Compiler) (l r : Expression) (op : String)
    (hop : op ≠ "<") :
    c.CompilerExpression (.InfixExpression l op r)
      = match c.CompilerExpression l with
        | .ok c1 =>
          match c1.CompilerExpression r with
          | .ok c2 =>
            if op = "+" then .ok (c2.emit code.OpAdd []).1
            else if op = "-" then .ok (c2.emit code.OpSub []).1
            else if op = "*" then .ok (c2.emit code.OpMul []).1
            else if op = "/" then .ok (c2.emit code.OpDiv []).1
            else if op = ">" then .ok (c2.emit code.OpGreaterThan []).1
            else if op = "==" then .ok (c2.emit code.OpEqual []).1
            else if op = "!=" then .ok (c2.emit code.OpNotEqual []).1
            else .error ("unknown operator " ++ op) c2
          | r => r
        | r => r := by
  show (if op = "<" then _ else _) = _
  rw [if_neg hop]

end compiler2

namespace compiler

open object ast

/-! ### Identifiers and operators -/

/-- C21: `Compile` of an Identifier returns the error "undefined variable NAME"
exactly when `Resolve` does not find the name, and then leaves the compiler as
it is (no instruction is emitted); when the name resolves it returns no error
and appends OpGetGlobal with the index of the symbol. -/
theorem identifier_resolves (c : Compiler) (name : String) :
    ((∃ c1, c.Compile (.Expression (.Identifier name)) = .error ("undefined variable " ++ name) c1)
      ↔ c.symbolTable.Resolve name = none)
    ∧ (c.symbolTable.Resolve name = none →
        c.Compile (.Expression (.Identifier name)) = .error ("undefined variable " ++ name) c)
    ∧ (∀ symbol, c.symbolTable.Resolve name = some symbol →
        ∃ c1, c.Compile (.Expression (.Identifier name)) = .ok c1
          ∧ c1.instructions = c.instructions ++ code.Make code.OpGetGlobal [symbol.Index]
          ∧ c1.constants = c.constants ∧ c1.symbolTable = c.symbolTable) := by
  have e : c.Compile (.Expression (.Identifier name)) = c.CompileExpression (.Identifier name) :=
    rfl
  rw [e, compile_Identifier]
  cases h : c.symbolTable.Resolve name with
  | none =>
    refine ⟨⟨fun _ => rfl, fun _ => ⟨c, rfl⟩⟩, fun _ => rfl, fun symbol hs => (by cases hs)⟩
  | some sym =>
    refine ⟨⟨fun ⟨c1, h1⟩ => (by cases h1), fun h1 => (by cases h1)⟩, fun h1 => (by cases h1), ?_⟩
    intro symbol hs
    cases hs
    exact ⟨_, rfl, rfl, rfl, rfl⟩

end compiler


namespace compiler

open object ast

/-- The result of the switch over the operator of an infix expression, for a
result type `α` of the compiler state. -/
theorem operator_switch {α : Type} (op : String) (a b c d e f g z : α) (x : Result α)
    (hx : x = (if op = "+" then .ok a else if op = "-" then .ok b else if op = "*" then .ok c
      else if op = "/" then .ok d else if op = ">" then .ok e else if op = "==" then .ok f
      else if op = "!=" then .ok g else .error ("unknown operator " ++ op) z))
    (hlt : op ≠ "<") :
    ((∃ y, x = .error ("unknown operator " ++ op) y)
      ↔ op ∉ ["+", "-", "*", "/", ">", "<", "==", "!="])
    ∧ (op ∈ ["+", "-", "*", "/", ">", "<", "==", "!="] → ∃ y, x = .ok y) := by
  subst hx
  simp only [List.mem_cons, List.mem_singleton, List.not_mem_nil, or_false, not_or]
  split_ifs with h1 h2 h3 h4 h5 h6 h7
  all_goals first
    | (refine ⟨⟨fun ⟨y, hy⟩ => (by cases hy), fun h => ?_⟩, fun _ => ⟨_, rfl⟩⟩; simp_all)
    | (refine ⟨⟨fun _ => ?_, fun _ => ⟨_, rfl⟩⟩, fun h => ?_⟩ <;> simp_all)

/-- C22: for operands that compile without error, in the order in which the
compiler takes them, `Compile` of an infix expression returns the error
"unknown operator OP" exactly when OP is none of `+ - * / > < == !=`, and
`Compile` of a prefix expression, whose operand compiles without error,
exactly when OP is neither `!` nor `-`; with a known operator no error is
returned. Each of the four parts has the condition on its own operands only,
and they hold for the compiler with conditionals and global bindings and for
the one of the earlier stage. -/
theorem unknown_operator_iff (l r : Expression) (op : String) :
    (∀ c c1 c2 : Compiler,
      c.Compile (.Expression (if op = "<" then r else l)) = .ok c1 →
      c1.Compile (.Expression (if op = "<" then l else r)) = .ok c2 →
      ((∃ y, c.Compile (.Expression (.InfixExpression l op r))
          = .error ("unknown operator " ++ op) y)
        ↔ op ∉ ["+", "-", "*", "/", ">", "<", "==", "!="])
      ∧ (op ∈ ["+", "-", "*", "/", ">", "<", "==", "!="] →
          ∃ y, c.Compile (.Expression (.InfixExpression l op r)) = .ok y))
    ∧ (∀ c c3 : Compiler, c.Compile (.Expression r) = .ok c3 →
      ((∃ y, c.Compile (.Expression (.PrefixExpression op r))
          = .error ("unknown operator " ++ op) y) ↔ op ∉ ["!", "-"])
      ∧ (op ∈ ["!", "-"] → ∃ y, c.Compile (.Expression (.PrefixExpression op r)) = .ok y))
    ∧ (∀ d d1 d2 : compiler2.Compiler,
      d.Compiler (.Expression (if op = "<" then r else l)) = .ok d1 →
      d1.Compiler (.Expression (if op = "<" then l else r)) = .ok d2 →
      ((∃ y, d.Compiler (.Expression (.InfixExpression l op r))
          = .error ("unknown operator " ++ op) y)
        ↔ op ∉ ["+", "-", "*", "/", ">", "<", "==", "!="])
      ∧ (op ∈ ["+", "-", "*", "/", ">", "<", "==", "!="] →
          ∃ y, d.Compiler (.Expression (.InfixExpression l op r)) = .ok y))
    ∧ (∀ d d3 : compiler2.Compiler, d.Compiler (.Expression r) = .ok d3 →
      ((∃ y, d.Compiler (.Expression (.PrefixExpression op r))
          = .error ("unknown operator " ++ op) y) ↔ op ∉ ["!", "-"])
      ∧ (op ∈ ["!", "-"] → ∃ y, d.Compiler (.Expression (.PrefixExpression op r)) = .ok y)) := by
  refine ⟨?_, ?_, ?_, ?_⟩
  · intro c c1 c2 h1 h2
    replace h1 : c.CompileExpression (if op = "<" then r else l) = .ok c1 := h1
    replace h2 : c1.CompileExpression (if op = "<" then l else r) = .ok c2 := h2
    show ((∃ y, c.CompileExpression _ = _) ↔ _) ∧ (_ → ∃ y, c.CompileExpression _ = _)
    by_cases hop : op = "<"
    · subst hop
      rw [if_pos rfl] at h1 h2
      rw [compile_InfixExpression_lt, h1]
      simp only [h2]
      exact ⟨⟨fun ⟨y, hy⟩ => (by cases hy), fun h => absurd (by decide) h⟩, fun _ => ⟨_, rfl⟩⟩
    · rw [if_neg hop] at h1 h2
      rw [compile_InfixExpression c l r op hop, h1]
      simp only [h2]
      exact operator_switch op _ _ _ _ _ _ _ _ _ rfl hop
  · intro c c3 h3
    replace h3 : c.CompileExpression r = .ok c3 := h3
    show ((∃ y, c.CompileExpression _ = _) ↔ _) ∧ (_ → ∃ y, c.CompileExpression _ = _)
    rw [compile_PrefixExpression, h3]
    simp only [List.mem_cons, List.mem_singleton, List.not_mem_nil, or_false, not_or]
    split_ifs with a1 a2
    · exact ⟨⟨fun ⟨y, hy⟩ => (by cases hy), fun h => absurd a1 h.1⟩, fun _ => ⟨_, rfl⟩⟩
    · exact ⟨⟨fun ⟨y, hy⟩ => (by cases hy), fun h => absurd a2 h.2⟩, fun _ => ⟨_, rfl⟩⟩
    · exact ⟨⟨fun _ => ⟨a1, a2⟩, fun _ => ⟨_, rfl⟩⟩, fun h => (by simp_all)⟩
  · intro d d1 d2 g1 g2
    replace g1 : d.CompilerExpression (if op = "<" then r else l) = .ok d1 := g1
    replace g2 : d1.CompilerExpression (if op = "<" then l else r) = .ok d2 := g2
    show ((∃ y, d.CompilerExpression _ = _) ↔ _) ∧ (_ → ∃ y, d.CompilerExpression _ = _)
    by_cases hop : op = "<"
    · subst hop
      rw [if_pos rfl] at g1 g2
      rw [compiler2.compiler_InfixExpression_lt, g1]
      simp only [g2]
      exact ⟨⟨fun ⟨y, hy⟩ => (by cases hy), fun h => absurd (by decide) h⟩, fun _ => ⟨_, rfl⟩⟩
    · rw [if_neg hop] at g1 g2
      rw [compiler2.compiler_InfixExpression d l r op hop, g1]
      simp only [g2]
      exact operator_switch op _ _ _ _ _ _ _ _ _ rfl hop
  · intro d d3 g3
    replace g3 : d.CompilerExpression r = .ok d3 := g3
    show ((∃ y, d.CompilerExpression _ = _) ↔ _) ∧ (_ → ∃ y, d.CompilerExpression _ = _)
    rw [compiler2.compiler_PrefixExpression, g3]
    simp only [List.mem_cons, List.mem_singleton, List.not_mem_nil, or_false, not_or]
    split_ifs with a1 a2
    · exact ⟨⟨fun ⟨y, hy⟩ => (by cases hy), fun h => absurd a1 h.1⟩, fun _ => ⟨_, rfl⟩⟩
    · exact ⟨⟨fun ⟨y, hy⟩ => (by cases hy), fun h => absurd a2 h.2⟩, fun _ => ⟨_, rfl⟩⟩
    · exact ⟨⟨fun _ => ⟨a1, a2⟩, fun _ => ⟨_, rfl⟩⟩, fun h => (by simp_all)⟩

end compiler

namespace compiler

open object ast

/-- Witness of C22: `1 % 2` and `%2` have an unknown operator, and in
`if (true) { let y = 1; 1 } % y` the right operand compiles only behind the
left one. -/
theorem unknown_operator_iff_witness :
    (((∃ y, New.Compile (.Expression (.InfixExpression
            (.IfExpression (.Boolean true)
              [.LetStatement "y" (.IntegerLiteral 1), .ExpressionStatement (.IntegerLiteral 1)]
              none) "%" (.Identifier "y")))
          = .error ("unknown operator " ++ "%") y)
        ↔ "%" ∉ ["+", "-", "*", "/", ">", "<", "==", "!="])
      ∧ ("%" ∈ ["+", "-", "*", "/", ">", "<", "==", "!="] →
          ∃ y, New.Compile (.Expression (.InfixExpression
            (.IfExpression (.Boolean true)
              [.LetStatement "y" (.IntegerLiteral 1), .ExpressionStatement (.IntegerLiteral 1)]
              none) "%" (.Identifier "y"))) = .ok y))
    ∧ (((∃ y, New.Compile (.Expression (.PrefixExpression "%" (.IntegerLiteral 2)))
          = .error ("unknown operator " ++ "%") y) ↔ "%" ∉ ["!", "-"])
      ∧ ("%" ∈ ["!", "-"] →
          ∃ y, New.Compile (.Expression (.PrefixExpression "%" (.IntegerLiteral 2))) = .ok y))
    ∧ (((∃ y, compiler2.New.Compiler
            (.Expression (.InfixExpression (.IntegerLiteral 1) "%" (.IntegerLiteral 2)))
          = .error ("unknown operator " ++ "%") y)
        ↔ "%" ∉ ["+", "-", "*", "/", ">", "<", "==", "!="])
      ∧ ("%" ∈ ["+", "-", "*", "/", ">", "<", "==", "!="] →
          ∃ y, compiler2.New.Compiler
            (.Expression (.InfixExpression (.IntegerLiteral 1) "%" (.IntegerLiteral 2))) = .ok y))
    ∧ (((∃ y, compiler2.New.Compiler (.Expression (.PrefixExpression "%" (.IntegerLiteral 2)))
          = .error ("unknown operator " ++ "%") y) ↔ "%" ∉ ["!", "-"])
      ∧ ("%" ∈ ["!", "-"] →
          ∃ y, compiler2.New.Compiler (.Expression (.PrefixExpression "%" (.IntegerLiteral 2)))
            = .ok y)) :=
  ⟨(unknown_operator_iff
      (.IfExpression (.Boolean true)
        [.LetStatement "y" (.IntegerLiteral 1), .ExpressionStatement (.IntegerLiteral 1)] none)
      (.Identifier "y") "%").1 New _ _ rfl rfl,
    (unknown_operator_iff (.IntegerLiteral 1) (.IntegerLiteral 2) "%").2.1 New _ rfl,
    (unknown_operator_iff (.IntegerLiteral 1) (.IntegerLiteral 2) "%").2.2.1 compiler2.New _ _
      rfl rfl,
    (unknown_operator_iff (.IntegerLiteral 1) (.IntegerLiteral 2) "%").2.2.2 compiler2.New _ rfl⟩

end compiler

namespace vm

open object

/-! ### The stack -/

theorem push_cases (stack : List Object) (sp : Nat) (o : Object) (hlen : StackSize ≤ stack.length) :
    (StackSize ≤ sp ∨ (sp < StackSize ∧ sp < stack.length))
    ∧ (sp < StackSize → (stack.set sp o)[sp]? = some o
        ∧ (∀ i, i ≠ sp → (stack.set sp o)[i]? = stack[i]?)
        ∧ (stack.set sp o).length = stack.length) := by
  refine ⟨by omega, fun h => ⟨?_, fun i hi => ?_, by simp⟩⟩
  · rw [List.getElem?_set_self (by omega)]
  · rw [List.getElem?_set_ne (Ne.symm hi)]

/-- C25: `push` returns the error "stack overflow" exactly when `sp >=
StackSize` (2048), and then leaves the machine as it is; otherwise it returns no
error, stores the value in `stack[sp]`, increments `sp` by one and leaves every
other slot as it is. This holds for the machine with strings, arrays and hashes
and for the one of stage 1, each with its stack of `StackSize` slots. -/
theorem push_overflow_iff (vm : VM) (v1 : vm1.VM) (o : Object)
    (hlen : StackSize ≤ vm.stack.length) (hlen1 : vm1.StackSize ≤ v1.stack.length) :
    (StackSize = 2048 ∧ vm1.StackSize = 2048)
    ∧ ((∃ x, vm.push o = .error "stack overflow" x) ↔ vm.sp ≥ StackSize)
    ∧ (vm.sp ≥ StackSize → vm.push o = .error "stack overflow" vm)
    ∧ (vm.sp < StackSize →
        vm.push o = .ok { vm with stack := vm.stack.set vm.sp o, sp := vm.sp + 1 }
        ∧ (vm.stack.set vm.sp o)[vm.sp]? = some o
        ∧ (∀ i, i ≠ vm.sp → (vm.stack.set vm.sp o)[i]? = vm.stack[i]?)
        ∧ (vm.stack.set vm.sp o).length = vm.stack.length)
    ∧ ((∃ x, v1.push o = .error "stack overflow" x) ↔ v1.sp ≥ vm1.StackSize)
    ∧ (v1.sp ≥ vm1.StackSize → v1.push o = .error "stack overflow" v1)
    ∧ (v1.sp < vm1.StackSize →
        v1.push o = .ok { v1 with stack := v1.stack.set v1.sp o, sp := v1.sp + 1 }
        ∧ (v1.stack.set v1.sp o)[v1.sp]? = some o
        ∧ (∀ i, i ≠ v1.sp → (v1.stack.set v1.sp o)[i]? = v1.stack[i]?)
        ∧ (v1.stack.set v1.sp o).length = v1.stack.length) := by
  have a := push_cases vm.stack vm.sp o hlen
  have b := push_cases v1.stack v1.sp o hlen1
  refine ⟨⟨rfl, rfl⟩, ?_, ?_, ?_, ?_, ?_, ?_⟩
  · constructor
    · rintro ⟨x, hx⟩
      by_contra hlt
      rw [push_eq vm o (by omega) (by omega)] at hx
      cases hx
    · intro h
      exact ⟨vm, compiler.push_overflow vm o h⟩
  · exact compiler.push_overflow vm o
  · intro h
    exact ⟨push_eq vm o h (by omega), a.2 h⟩
  · constructor
    · rintro ⟨x, hx⟩
      by_contra hlt
      have h1 : ¬ (v1.sp ≥ vm1.StackSize) := hlt
      have h2 : v1.sp < v1.stack.length := by omega
      simp only [vm1.VM.push, if_neg h1, if_pos h2] at hx
      cases hx
    · intro h
      exact ⟨v1, by simp only [vm1.VM.push, if_pos h]⟩
  · intro h
    simp only [vm1.VM.push, if_pos h]
  · intro h
    have h1 : ¬ (v1.sp ≥ vm1.StackSize) := by omega
    have h2 : v1.sp < v1.stack.length := by omega
    exact ⟨by simp only [vm1.VM.push, if_neg h1, if_pos h2], b.2 h⟩

/-- Witness of C25: a push on the empty stack of a new machine. -/
theorem push_overflow_iff_witness :
    (StackSize = 2048 ∧ vm1.StackSize = 2048)
    ∧ ((∃ x, (New ⟨[], []⟩).push (.Integer 1) = .error "stack overflow" x)
        ↔ (New ⟨[], []⟩).sp ≥ StackSize)
    ∧ ((New ⟨[], []⟩).sp ≥ StackSize →
        (New ⟨[], []⟩).push (.Integer 1) = .error "stack overflow" (New ⟨[], []⟩))
    ∧ ((New ⟨[], []⟩).sp < StackSize →
        (New ⟨[], []⟩).push (.Integer 1)
          = .ok { New ⟨[], []⟩ with
              stack := (New ⟨[], []⟩).stack.set (New ⟨[], []⟩).sp (.Integer 1),
              sp := (New ⟨[], []⟩).sp + 1 }
        ∧ ((New ⟨[], []⟩).stack.set (New ⟨[], []⟩).sp (.Integer 1))[(New ⟨[], []⟩).sp]?
          = some (.Integer 1)
        ∧ (∀ i, i ≠ (New ⟨[], []⟩).sp →
            ((New ⟨[], []⟩).stack.set (New ⟨[], []⟩).sp (.Integer 1))[i]?
              = (New ⟨[], []⟩).stack[i]?)
        ∧ ((New ⟨[], []⟩).stack.set (New ⟨[], []⟩).sp (.Integer 1)).length
          = (New ⟨[], []⟩).stack.length)
    ∧ ((∃ x, (vm1.New ⟨[], []⟩).push (.Integer 1) = .error "stack overflow" x)
        ↔ (vm1.New ⟨[], []⟩).sp ≥ vm1.StackSize)
    ∧ ((vm1.New ⟨[], []⟩).sp ≥ vm1.StackSize →
        (vm1.New ⟨[], []⟩).push (.Integer 1) = .error "stack overflow" (vm1.New ⟨[], []⟩))
    ∧ ((vm1.New ⟨[], []⟩).sp < vm1.StackSize →
        (vm1.New ⟨[], []⟩).push (.Integer 1)
          = .ok { vm1.New ⟨[], []⟩ with
              stack := (vm1.New ⟨[], []⟩).stack.set (vm1.New ⟨[], []⟩).sp (.Integer 1),
              sp := (vm1.New ⟨[], []⟩).sp + 1 }
        ∧ ((vm1.New ⟨[], []⟩).stack.set (vm1.New ⟨[], []⟩).sp (.Integer 1))[(vm1.New
            ⟨[], []⟩).sp]? = some (.Integer 1)
        ∧ (∀ i, i ≠ (vm1.New ⟨[], []⟩).sp →
            ((vm1.New ⟨[], []⟩).stack.set (vm1.New ⟨[], []⟩).sp (.Integer 1))[i]?
              = (vm1.New ⟨[], []⟩).stack[i]?)
        ∧ ((vm1.New ⟨[], []⟩).stack.set (vm1.New ⟨[], []⟩).sp (.Integer 1)).length
          = (vm1.New ⟨[], []⟩).stack.length) :=
  push_overflow_iff (New ⟨[], []⟩) (vm1.New ⟨[], []⟩) (.Integer 1)
    (by show StackSize ≤ (List.replicate StackSize Object.nil).length
        rw [List.length_replicate])
    (by show vm1.StackSize ≤ (List.replicate vm1.StackSize Object.nil).length
        rw [List.length_replicate])

/-- C26: on a machine with a free slot, `push` of a value followed by `pop`
gives the value back and `sp` its value before, and `LastPoppedStackElem` then
returns the value: `pop` leaves the slot as it is. -/
theorem push_pop (vm : VM) (o : Object) (h : vm.sp < StackSize)
    (hlen : StackSize ≤ vm.stack.length) :
    ∃ vm1 vm2, vm.push o = .ok vm1 ∧ vm1.pop = some (o, vm2) ∧ vm2.sp = vm.sp
      ∧ vm2.LastPoppedStackElem = some o ∧ vm2.stack = vm1.stack := by
  have h2 : vm.sp < vm.stack.length := by omega
  have hget : (vm.stack.set vm.sp o)[vm.sp]? = some o := by
    rw [List.getElem?_set_self h2]
  refine ⟨_, _, push_eq vm o h h2,
    pop_eq { vm with stack := vm.stack.set vm.sp o, sp := vm.sp + 1 } o (Nat.succ_pos _) hget,
    rfl, hget, rfl⟩

/-- Witness of C26: push and pop on a new machine. -/
theorem push_pop_witness :
    ∃ vm1 vm2, (New ⟨[], []⟩).push (.Integer 1) = .ok vm1 ∧ vm1.pop = some (.Integer 1, vm2)
      ∧ vm2.sp = (New ⟨[], []⟩).sp ∧ vm2.LastPoppedStackElem = some (.Integer 1)
      ∧ vm2.stack = vm1.stack :=
  push_pop (New ⟨[], []⟩) (.Integer 1) (by decide)
    (by show StackSize ≤ (List.replicate StackSize Object.nil).length
        rw [List.length_replicate])

end vm

namespace compiler

open object ast

/-- C30 (the code departs from the claim): `Compile` has no case for a call or
a function literal, so the statement `fn(...) { ... }(...)` compiles to a lone
OpPop whatever the parameters and the arguments are, and `Run` panics on the
empty stack; no error "wrong number of arguments" is returned. -/
theorem call_is_not_compiled (parameters : List String) (body : List Statement)
    (arguments : List Expression) :
    ∃ c, New.Compile (.Program [.ExpressionStatement
          (.CallExpression (.FunctionLiteral parameters body) arguments)]) = .ok c
      ∧ c.Bytecode = ⟨[code.OpPop], []⟩
      ∧ ∃ fuel, (vm.New c.Bytecode).Run fuel = some .panic :=
  ⟨_, rfl, rfl, 1, (vm.pop_empty (vm.New ⟨[code.OpPop], []⟩) [] [] rfl rfl).2⟩

end compiler

namespace code

/-! ### Encoding and decoding of operands -/

theorem putOperand_bigEndian (w o : Nat) (hw : w = 1 ∨ w = 2) (ho : o < 256 ^ w) :
    putOperand w o = bigEndian w o := by
  rcases hw with rfl | rfl
  · simp only [putOperand, bigEndian]
    simp
  · simp only [putOperand, bigEndian]
    simp

theorem putOperands_bytes : ∀ (ws os : List Nat), Legal ws os →
    putOperands ws os = operandBytes ws os
  | [], [], _ => rfl
  | [], _ :: _, h => by cases h
  | _ :: _, [], h => by cases h
  | w :: ws, o :: os, h => by
    obtain ⟨ho, hw, hrest⟩ := h
    simp only [putOperands, operandBytes, putOperand_bigEndian w o hw ho,
      putOperands_bytes ws os hrest]

theorem putOperand_length (w o : Nat) : (putOperand w o).length = w := by
  unfold putOperand
  split_ifs with h1 h2
  · rw [h1]; rfl
  · rw [h2]; rfl
  · simp

theorem putOperands_length : ∀ (ws os : List Nat), Legal ws os →
    (putOperands ws os).length = ws.sum
  | [], [], _ => rfl
  | [], _ :: _, h => by cases h
  | _ :: _, [], h => by cases h
  | w :: ws, o :: os, h => by
    simp only [putOperands, List.length_append, putOperand_length, List.sum_cons,
      putOperands_length ws os h.2.2]

theorem readOperands_putOperands : ∀ (ws os rest : List Nat), Legal ws os →
    ReadOperands ws (putOperands ws os ++ rest) = some (os, ws.sum)
  | [], [], _, _ => rfl
  | [], _ :: _, _, h => by cases h
  | _ :: _, [], _, h => by cases h
  | w :: ws, o :: os, rest, h => by
    obtain ⟨ho, hw, hrest⟩ := h
    have ih := readOperands_putOperands ws os rest hrest
    have hdrop : (putOperand w o ++ putOperands ws os ++ rest).drop w
        = putOperands ws os ++ rest := by
      rw [List.append_assoc]
      have := List.drop_left (putOperand w o) (putOperands ws os ++ rest)
      rw [putOperand_length] at this
      exact this
    rcases hw with rfl | rfl
    · have ho' : o < 256 := by simpa using ho
      have hread : ReadUint8 (putOperand 1 o ++ putOperands ws os ++ rest) = some o := by
        simp only [putOperand, ReadUint8]
        simp
        omega
      simp only [ReadOperands, putOperands, hdrop, ih]
      simp only [show ¬ (1 = 2) by decide, if_false, if_true, hread, List.sum_cons]
    · have ho' : o < 65536 := by
        have : (256 : Nat) ^ 2 = 65536 := by norm_num
        omega
      have hread : ReadUint16 (putOperand 2 o ++ putOperands ws os ++ rest) = some o := by
        simp only [putOperand, ReadUint16]
        simp
        omega
      simp only [ReadOperands, putOperands, hdrop, ih]
      simp only [if_true, hread, List.sum_cons]

/-- C29: for an opcode with the declared widths `ws` and an operand tuple that
is legal for them, `Make` is the opcode byte followed by the big-endian bytes of
the operands, and `ReadOperands` on the bytes behind the opcode returns the
operands and the number of operand bytes; for the opcodes with one 16-bit
operand `ReadUint16`, which the machine uses, returns the operand. -/
theorem make_read_roundtrip (op : Opcode) (ws operands rest : List Nat)
    (hdef : operandWidths op = some ws) (hlegal : Legal ws operands) :
    Make op operands = op :: operandBytes ws operands
    ∧ (Make op operands).length = 1 + ws.sum
    ∧ ReadOperands ws ((Make op operands ++ rest).drop 1) = some (operands, ws.sum)
    ∧ (∀ k, ws = [2] → operands = [k] →
        Make op operands = [op, k / 256, k % 256]
        ∧ ReadUint16 ((Make op operands ++ rest).drop 1) = some k) := by
  have hm : Make op operands = op :: putOperands ws operands := by
    unfold Make
    rw [hdef]
  have hr := readOperands_putOperands ws operands rest hlegal
  have hb := putOperands_bytes ws operands hlegal
  refine ⟨by rw [hm, hb], ?_, ?_, ?_⟩
  · rw [hm, List.length_cons, putOperands_length ws operands hlegal, Nat.add_comm]
  · rw [hm]
    exact hr
  · intro k hws hops
    subst hws hops
    have hk : k < 65536 := by
      have h1 := hlegal.1
      have : (256 : Nat) ^ 2 = 65536 := by norm_num
      omega
    rw [hm]
    have e : k / 256 % 256 = k / 256 := Nat.mod_eq_of_lt (by omega)
    refine ⟨by simp [putOperands, putOperand, e], ?_⟩
    simp only [putOperands, putOperand, if_true, List.cons_append, List.drop_succ_cons,
      List.drop_zero, List.append_nil, List.nil_append, ReadUint16, e]
    congr 1
    omega

/-- Witness of C29: OpConstant with the operand 65534. -/
theorem make_read_roundtrip_witness :
    Make OpConstant [65534] = OpConstant :: operandBytes [2] [65534]
    ∧ (Make OpConstant [65534]).length = 1 + [2].sum
    ∧ ReadOperands [2] ((Make OpConstant [65534] ++ [OpPop]).drop 1) = some ([65534], [2].sum)
    ∧ (∀ k, [2] = [2] → [65534] = [k] →
        Make OpConstant [65534] = [OpConstant, k / 256, k % 256]
        ∧ ReadUint16 ((Make OpConstant [65534] ++ [OpPop]).drop 1) = some k) :=
  make_read_roundtrip OpConstant [2] [65534] [OpPop] rfl
    ⟨by decide, Or.inr rfl, trivial⟩

/-- The bytes of OpConstant 65534 are 0, 255, 254. -/
theorem make_OpConstant_65534 : Make OpConstant [65534] = [0, 255, 254] := by
  decide

end code

namespace compiler

open object ast

/-! ### The constant pool only grows -/

theorem extends_refl (K : List Object) : Extends K K :=
  ⟨[], by simp, fun k h => by cases h⟩

theorem extends_trans {K K1 K2 : List Object} (h1 : Extends K K1) (h2 : Extends K1 K2) :
    Extends K K2 := by
  obtain ⟨a, ha, hai⟩ := h1
  obtain ⟨b, hb, hbi⟩ := h2
  refine ⟨a ++ b, by rw [hb, ha, List.append_assoc], fun k hk => ?_⟩
  rcases List.mem_append.mp hk with h | h
  · exact hai k h
  · exact hbi k h

theorem extends_prefix {K K1 : List Object} (h : Extends K K1) : K <+: K1 := by
  obtain ⟨a, ha, _⟩ := h
  exact ⟨a, ha.symm⟩

theorem grows_of_eq {c c1 : Compiler} {r : Result Compiler} (h : c1.constants = c.constants)
    (hr : Grows c1 r) : Grows c r := by
  cases r with
  | ok x => exact (by rw [← h]; exact hr : Extends c.constants x.constants)
  | error m x => exact (by rw [← h]; exact hr : Extends c.constants x.constants)
  | panic => trivial

theorem grows_step {c c1 : Compiler} {r : Result Compiler}
    (h : Extends c.constants c1.constants) (hr : Grows c1 r) : Grows c r := by
  cases r with
  | ok x => exact extends_trans h hr
  | error m x => exact extends_trans h hr
  | panic => trivial

theorem dropLastPop_fields {c c1 : Compiler} (h : c.dropLastPop = some c1) :
    c1.constants = c.constants ∧ c1.symbolTable = c.symbolTable := by
  unfold Compiler.dropLastPop at h
  split_ifs at h
  · unfold Compiler.removeLastPop at h
    split_ifs at h
    cases h
    exact ⟨rfl, rfl⟩
  · cases h
    exact ⟨rfl, rfl⟩

theorem changeOperand_fields {c c1 : Compiler} {pos t : Nat}
    (h : c.changeOperand pos t = some c1) :
    c1.constants = c.constants ∧ c1.symbolTable = c.symbolTable
      ∧ c1.lastInstruction = c.lastInstruction
      ∧ c1.previousInstruction = c.previousInstruction := by
  unfold Compiler.changeOperand at h
  cases hop : c.instructions[pos]? with
  | none => rw [hop] at h; cases h
  | some op =>
    rw [hop] at h
    simp only [Compiler.replaceInstruction] at h
    cases hr : replaceBytes c.instructions pos (code.Make op [t]) with
    | none => rw [hr] at h; cases h
    | some ins =>
      rw [hr] at h
      cases h
      exact ⟨rfl, rfl, rfl, rfl⟩

theorem emit_constants (c : Compiler) (op : Nat) (operands : List Nat) :
    (c.emit op operands).1.constants = c.constants := rfl

theorem grows_ok {c c1 : Compiler} (h : c1.constants = c.constants) : Grows c (.ok c1) := by
  show Extends c.constants c1.constants
  rw [h]
  exact extends_refl _

theorem grows_error {c c1 : Compiler} (msg : String) (h : c1.constants = c.constants) :
    Grows c (.error msg c1) := by
  show Extends c.constants c1.constants
  rw [h]
  exact extends_refl _

/-- The tail of the conditional behind the code of its consequence. -/
theorem grows_if_tail (c2 : Compiler) (pos : Nat) (alternative : Option (List Statement))
    (ih : ∀ alt, alternative = some alt → ∀ c, Grows c (c.CompileStatements alt)) :
    Grows c2 (match c2.dropLastPop with
      | none => .panic
      | some c3 =>
        match (c3.emit code.OpJump [9999]).1.changeOperand pos
            (c3.emit code.OpJump [9999]).1.instructions.length with
        | none => .panic
        | some c4 =>
          match alternative with
          | none =>
            match (c4.emit code.OpNull []).1.changeOperand (c3.emit code.OpJump [9999]).2
                (c4.emit code.OpNull []).1.instructions.length with
            | none => .panic
            | some c6 => .ok c6
          | some alt =>
            match c4.CompileStatements alt with
            | .ok c5 =>
              match c5.dropLastPop with
              | none => .panic
              | some c6 =>
                match c6.changeOperand (c3.emit code.OpJump [9999]).2
                    c6.instructions.length with
                | none => .panic
                | some c7 => .ok c7
            | r => r) := by
  cases h3 : c2.dropLastPop with
  | none => trivial
  | some c3 =>
    have e3 := (dropLastPop_fields h3).1
    simp only []
    cases h4 : (c3.emit code.OpJump [9999]).1.changeOperand pos
        (c3.emit code.OpJump [9999]).1.instructions.length with
    | none => trivial
    | some c4 =>
      have e4 : c4.constants = c2.constants := by
        rw [(changeOperand_fields h4).1, emit_constants, e3]
      simp only []
      cases alternative with
      | none =>
        simp only []
        cases h6 : (c4.emit code.OpNull []).1.changeOperand (c3.emit code.OpJump [9999]).2
            (c4.emit code.OpNull []).1.instructions.length with
        | none => trivial
        | some c6 =>
          exact grows_ok (by rw [(changeOperand_fields h6).1, emit_constants, e4])
      | some alt =>
        simp only []
        have hg := ih alt rfl c4
        cases h5 : c4.CompileStatements alt with
        | panic => trivial
        | error m x =>
          rw [h5] at hg
          exact @grows_of_eq c2 c4 _ e4 hg
        | ok c5 =>
          rw [h5] at hg
          simp only []
          cases h6 : c5.dropLastPop with
          | none => trivial
          | some c6 =>
            simp only []
            cases h7 : c6.changeOperand (c3.emit code.OpJump [9999]).2 c6.instructions.length with
            | none => trivial
            | some c7 =>
              have : Extends c4.constants c7.constants := by
                rw [(changeOperand_fields h7).1, (dropLastPop_fields h6).1]
                exact hg
              show Extends c2.constants c7.constants
              rw [← e4]
              exact this

mutual
/-- Compiling an expression extends the pool. -/
theorem grows_expr : ∀ (e : Expression) (c : Compiler), Grows c (c.CompileExpression e)
  | .IntegerLiteral n, c => by
    rw [compile_IntegerLiteral]
    exact ⟨[.Integer n], rfl, fun k hk => ⟨n, by simpa using hk⟩⟩
  | .Boolean b, c => by
    cases b
    · exact grows_ok rfl
    · exact grows_ok rfl
  | .StringLiteral _, c => grows_ok rfl
  | .ArrayLiteral _, c => grows_ok rfl
  | .HashLiteral _, c => grows_ok rfl
  | .IndexExpression _ _, c => grows_ok rfl
  | .CallExpression _ _, c => grows_ok rfl
  | .FunctionLiteral _ _, c => grows_ok rfl
  | .Identifier x, c => by
    rw [compile_Identifier]
    cases c.symbolTable.Resolve x with
    | none => exact grows_error _ rfl
    | some sym => exact grows_ok rfl
  | .PrefixExpression op r, c => by
    rw [compile_PrefixExpression]
    have hr := grows_expr r c
    cases h1 : c.CompileExpression r with
    | panic => trivial
    | error m x => rw [h1] at hr; exact hr
    | ok c1 =>
      rw [h1] at hr
      simp only []
      split_ifs
      · exact hr
      · exact hr
      · exact hr
  | .InfixExpression l op r, c => by
    by_cases hop : op = "<"
    · subst hop
      rw [compile_InfixExpression_lt]
      have hr := grows_expr r c
      cases h1 : c.CompileExpression r with
      | panic => trivial
      | error m x => rw [h1] at hr; exact hr
      | ok c1 =>
        rw [h1] at hr
        simp only []
        have hl := grows_expr l c1
        cases h2 : c1.CompileExpression l with
        | panic => trivial
        | error m x => rw [h2] at hl; exact extends_trans hr hl
        | ok c2 => rw [h2] at hl; exact extends_trans hr hl
    · rw [compile_InfixExpression c l r op hop]
      have hl := grows_expr l c
      cases h1 : c.CompileExpression l with
      | panic => trivial
      | error m x => rw [h1] at hl; exact hl
      | ok c1 =>
        rw [h1] at hl
        simp only []
        have hr := grows_expr r c1
        cases h2 : c1.CompileExpression r with
        | panic => trivial
        | error m x => rw [h2] at hr; exact extends_trans hl hr
        | ok c2 =>
          rw [h2] at hr
          simp only []
          split_ifs
          all_goals exact extends_trans hl hr
  | .IfExpression cond cons alt, c => by
    rw [compile_IfExpression]
    have hc := grows_expr cond c
    cases h1 : c.CompileExpression cond with
    | panic => trivial
    | error m x => rw [h1] at hc; exact hc
    | ok c1 =>
      rw [h1] at hc
      simp only []
      have hb := grows_block cons (c1.emit code.OpJumpNotTruthy [9999]).1
      cases h2 : (c1.emit code.OpJumpNotTruthy [9999]).1.CompileStatements cons with
      | panic => trivial
      | error m x =>
        rw [h2] at hb
        exact extends_trans hc hb
      | ok c2 =>
        rw [h2] at hb
        simp only []
        refine grows_step (extends_trans hc hb) ?_
        cases alt with
        | none => exact grows_if_tail c2 _ none (fun a h => by cases h)
        | some a =>
          exact grows_if_tail c2 _ (some a) (fun a' h c' => by
            cases h
            exact grows_block a c')
/-- Compiling a statement extends the pool. -/
theorem grows_stmt : ∀ (s : Statement) (c : Compiler), Grows c (c.CompileStatement s)
  | .ExpressionStatement e, c => by
    rw [compile_ExpressionStatement]
    have he := grows_expr e c
    cases h1 : c.CompileExpression e with
    | panic => trivial
    | error m x => rw [h1] at he; exact he
    | ok c1 => rw [h1] at he; exact he
  | .LetStatement name e, c => by
    rw [compile_LetStatement]
    have he := grows_expr e c
    cases h1 : c.CompileExpression e with
    | panic => trivial
    | error m x => rw [h1] at he; exact he
    | ok c1 => rw [h1] at he; exact he
  | .ReturnStatement _, c => grows_ok rfl
/-- Compiling a list of statements extends the pool. -/
theorem grows_block : ∀ (l : List Statement) (c : Compiler), Grows c (c.CompileStatements l)
  | [], c => grows_ok rfl
  | s :: rest, c => by
    rw [compile_cons]
    have hs := grows_stmt s c
    cases h1 : c.CompileStatement s with
    | panic => trivial
    | error m x => rw [h1] at hs; exact hs
    | ok c1 =>
      rw [h1] at hs
      exact grows_step hs (grows_block rest c1)
end

theorem grows_node (node : Node) (c : Compiler) : Grows c (c.Compile node) := by
  cases node with
  | Program l => exact grows_block l c
  | Statement s => exact grows_stmt s c
  | BlockStatement l => exact grows_block l c
  | Expression e => exact grows_expr e c

/-- C23: the constant pool is append-only. For every compiler state and every
node, when `Compile` returns, with or without an error, the pool it started
with is a prefix of the pool it leaves; `addConstant` appends the value and
returns the index at which it is stored, the length of the pool before; `New`
starts with the empty pool and `NewWithState` with the pool it is given. -/
theorem constants_append_only (c : Compiler) (node : Node) (obj : Object) (s : SymbolTable)
    (constants : List Object) :
    (∀ c1, c.Compile node = .ok c1 → c.constants <+: c1.constants)
    ∧ (∀ msg c1, c.Compile node = .error msg c1 → c.constants <+: c1.constants)
    ∧ (c.addConstant obj).2 = c.constants.length
    ∧ (c.addConstant obj).1.constants = c.constants ++ [obj]
    ∧ (c.addConstant obj).1.constants[(c.addConstant obj).2]? = some obj
    ∧ New.constants = [] ∧ (NewWithState s constants).constants = constants := by
  have hg := grows_node node c
  refine ⟨fun c1 h => ?_, fun msg c1 h => ?_, ?_, rfl, ?_, rfl, rfl⟩
  · rw [h] at hg
    exact extends_prefix hg
  · rw [h] at hg
    exact extends_prefix hg
  · simp [Compiler.addConstant]
  · simp [Compiler.addConstant]

end compiler

namespace compiler1

open object ast

/-! ### Stage 1: sums of integer literals -/

theorem stage1_IntegerLiteral (c : Compiler) (n : Int) :
    c.CompilerExpression (.IntegerLiteral n)
      = .ok { instructions := c.instructions ++ code.Make code.OpConstant [c.constants.length],
              constants := c.constants ++ [.Integer n] } := by
  show Result.ok _ = _
  simp [Compiler.emit, Compiler.addInstruction, Compiler.addConstant]

theorem stage1_InfixExpression (c : Compiler) (l r : Expression) (op : String) :
    c.CompilerExpression (.InfixExpression l op r)
      = match c.CompilerExpression l with
        | .ok c1 =>
          match c1.CompilerExpression r with
          | .ok c2 =>
            if op = "+" then .ok (c2.emit code.OpAdd []).1
            else .error ("unknown operator " ++ op) c2
          | r => r
        | r => r :=
  rfl

/-- The code and the constants that the compiler of stage 1 appends for a tree
of `+` over integer literals. -/
theorem compiler_sum : ∀ (e : Expression) (c : Compiler), e.isSum = true →
    c.CompilerExpression e
      = .ok { instructions := c.instructions ++ e.postOrder c.constants.length,
              constants := c.constants ++ e.literals.map Object.Integer }
  | .IntegerLiteral n, c, _ => by
    rw [stage1_IntegerLiteral]
    rfl
  | .InfixExpression l op r, c, h => by
    have h' : op = "+" ∧ l.isSum = true ∧ r.isSum = true := by
      simpa [Expression.isSum, and_assoc] using h
    obtain ⟨rfl, hl, hr⟩ := h'
    rw [stage1_InfixExpression, compiler_sum l c hl]
    simp only []
    rw [compiler_sum r _ hr]
    simp only [if_true, Compiler.emit, Compiler.addInstruction, Expression.postOrder,
      Expression.literals, List.length_append, List.length_map, List.map_append,
      List.append_assoc]
  | .Boolean _, _, h => by cases h
  | .StringLiteral _, _, h => by cases h
  | .Identifier _, _, h => by cases h
  | .PrefixExpression _ _, _, h => by cases h
  | .IfExpression _ _ _, _, h => by cases h
  | .ArrayLiteral _, _, h => by cases h
  | .HashLiteral _, _, h => by cases h
  | .IndexExpression _ _, _, h => by cases h
  | .CallExpression _ _, _, h => by cases h
  | .FunctionLiteral _ _, _, h => by cases h

theorem postOrder_last : ∀ (e : Expression) (k : Nat), e.isSum = true →
    (∃ i, e.postOrder k = code.Make code.OpConstant [i])
    ∨ (∃ X, e.postOrder k = X ++ code.Make code.OpAdd [])
  | .IntegerLiteral _, k, _ => Or.inl ⟨k, rfl⟩
  | .InfixExpression l _ r, k, _ => Or.inr ⟨_, rfl⟩
  | .Boolean _, _, h => by cases h
  | .StringLiteral _, _, h => by cases h
  | .Identifier _, _, h => by cases h
  | .PrefixExpression _ _, _, h => by cases h
  | .IfExpression _ _ _, _, h => by cases h
  | .ArrayLiteral _, _, h => by cases h
  | .HashLiteral _, _, h => by cases h
  | .IndexExpression _ _, _, h => by cases h
  | .CallExpression _ _, _, h => by cases h
  | .FunctionLiteral _ _, _, h => by cases h

/-- C27: the compiler of stage 1, started from `New`, compiles a program whose
one expression statement is a tree of `+` over integer literals to the constant
pool of the literals from left to right and to the post-order encoding of the
tree. The stream ends with the last instruction of the tree, an OpAdd or, for a
lone literal, its OpConstant: no OpPop follows. -/
theorem sum_compiles (e : Expression) (h : e.isSum = true) :
    ∃ c, New.Compiler (.Program [.ExpressionStatement e]) = .ok c
      ∧ c.Bytecode.Constants = e.literals.map Object.Integer
      ∧ c.Bytecode.Instructions = e.postOrder 0
      ∧ ((∃ i, c.Bytecode.Instructions = code.Make code.OpConstant [i])
        ∨ (∃ X, c.Bytecode.Instructions = X ++ code.Make code.OpAdd [])) := by
  have hc := compiler_sum e New h
  refine ⟨({ instructions := New.instructions ++ e.postOrder New.constants.length,
             constants := New.constants ++ e.literals.map Object.Integer } : Compiler),
    ?_, ?_, ?_, ?_⟩
  · show (match New.CompilerExpression e with
      | .ok c1 => c1.CompilerStatements []
      | r => r) = _
    rw [hc]
    rfl
  · show [] ++ _ = _
    simp
  · show [] ++ _ = _
    simp [New]
  · show (∃ i, [] ++ e.postOrder New.constants.length = _)
      ∨ (∃ X, [] ++ e.postOrder New.constants.length = _)
    simp only [List.nil_append]
    exact postOrder_last e _ h

/-- Witness of C27: `1 + 2` compiles to the constants 1, 2 and to OpConstant 0,
OpConstant 1, OpAdd. -/
theorem sum_compiles_witness :
    ∃ c, New.Compiler (.Program [.ExpressionStatement
          (.InfixExpression (.IntegerLiteral 1) "+" (.IntegerLiteral 2))]) = .ok c
      ∧ c.Bytecode.Constants
        = (Expression.InfixExpression (.IntegerLiteral 1) "+" (.IntegerLiteral 2)).literals.map
            Object.Integer
      ∧ c.Bytecode.Instructions
        = (Expression.InfixExpression (.IntegerLiteral 1) "+" (.IntegerLiteral 2)).postOrder 0
      ∧ ((∃ i, c.Bytecode.Instructions = code.Make code.OpConstant [i])
        ∨ (∃ X, c.Bytecode.Instructions = X ++ code.Make code.OpAdd [])) :=
  sum_compiles (.InfixExpression (.IntegerLiteral 1) "+" (.IntegerLiteral 2)) rfl

/-- The stream and the pool of `1 + 2`. -/
theorem one_plus_two_compiles :
    New.Compiler (.Program [.ExpressionStatement
        (.InfixExpression (.IntegerLiteral 1) "+" (.IntegerLiteral 2))])
      = .ok ⟨[0, 0, 0, 0, 0, 1, 1], [.Integer 1, .Integer 2]⟩ := by
  decide

end compiler1

namespace vm1

open object ast
open vm (wrap64)

/-! ### Stage 1: the machine on the code of a sum -/

theorem reach_refl (vm : VM) (ip : Nat) : Reach vm ip vm ip :=
  ⟨0, fun m => by rw [Nat.zero_add]⟩

theorem reach_trans {vm vm1 vm2 : VM} {ip ip1 ip2 : Nat}
    (h1 : Reach vm ip vm1 ip1) (h2 : Reach vm1 ip1 vm2 ip2) : Reach vm ip vm2 ip2 := by
  obtain ⟨n, hn⟩ := h1
  obtain ⟨k, hk⟩ := h2
  exact ⟨n + k, fun m => by rw [Nat.add_assoc, hn, hk]⟩

theorem reach_step {vm vm1 : VM} {ip ip1 : Nat} (hlt : ip < vm.instructions.length)
    (h : vm.step ip = .ok (vm1, ip1)) : Reach vm ip vm1 ip1 :=
  ⟨1, fun m => by rw [Nat.add_comm]; simp only [VM.runFrom, if_pos hlt, h]⟩

theorem run_of_reach_end {vm vm1 : VM} {ip1 : Nat} (h : Reach vm 0 vm1 ip1)
    (hend : vm1.instructions.length ≤ ip1) : ∃ fuel, vm.Run fuel = some (.ok vm1) := by
  obtain ⟨n, hn⟩ := h
  refine ⟨n + 1, ?_⟩
  unfold VM.Run
  rw [hn 1]
  simp [VM.runFrom, Nat.not_lt.mpr hend]

/-- OpConstant in its context pushes the constant. -/
theorem exec_constant (vm : VM) (pre post : List Nat) (k : Nat) (o : Object)
    (h : vm.instructions = pre ++ code.Make code.OpConstant [k] ++ post)
    (hk : k < 65536) (hc : vm.constants[k]? = some o)
    (h1 : vm.sp < StackSize) (h2 : vm.sp < vm.stack.length) :
    Reach vm pre.length { vm with stack := vm.stack.set vm.sp o, sp := vm.sp + 1 }
      (pre.length + 3) := by
  have h' : vm.instructions = pre ++ code.OpConstant :: (k / 256 % 256) :: (k % 256) :: post := by
    rw [h, compiler.make_OpConstant]
    simp
  have hi : vm.instructions[pre.length]? = some code.OpConstant := by
    rw [h', List.getElem?_append_right (Nat.le_refl _)]
    simp
  have hlt : pre.length < vm.instructions.length := by
    rw [h']
    simp
  have hop : code.ReadUint16 (vm.instructions.drop (pre.length + 1)) = some k := by
    rw [h']
    have : (pre ++ code.OpConstant :: (k / 256 % 256) :: (k % 256) :: post).drop (pre.length + 1)
        = (k / 256 % 256) :: (k % 256) :: post := by
      rw [List.drop_append_eq_append_drop, List.drop_of_length_le (by omega)]
      simp
    rw [this]
    simp only [code.ReadUint16]
    congr 1
    omega
  refine reach_step hlt ?_
  have hp : vm.push o = .ok { vm with stack := vm.stack.set vm.sp o, sp := vm.sp + 1 } := by
    unfold VM.push
    rw [if_neg (Nat.not_le.mpr h1), if_pos h2]
  simp only [VM.step, hi, if_true, hop, hc, hp]

/-- OpAdd in its context replaces two Integers by their wrapped sum. -/
theorem exec_add (vm : VM) (pre post : List Nat) (a b : Int)
    (h : vm.instructions = pre ++ code.Make code.OpAdd [] ++ post)
    (h0 : 2 ≤ vm.sp) (h1 : vm.sp ≤ StackSize) (h2 : vm.sp ≤ vm.stack.length)
    (ha : vm.stack[vm.sp - 2]? = some (.Integer a))
    (hb : vm.stack[vm.sp - 1]? = some (.Integer b)) :
    Reach vm pre.length
      { vm with stack := vm.stack.set (vm.sp - 2) (.Integer (wrap64 (a + b))), sp := vm.sp - 1 }
      (pre.length + 1) := by
  have h' : vm.instructions = pre ++ code.OpAdd :: post := by
    rw [h]
    show pre ++ [code.OpAdd] ++ post = _
    simp
  have hi : vm.instructions[pre.length]? = some code.OpAdd := by
    rw [h', List.getElem?_append_right (Nat.le_refl _)]
    simp
  have hlt : pre.length < vm.instructions.length := by
    rw [h']
    simp
  refine reach_step hlt ?_
  have p1 : vm.pop = some (.Integer b, { vm with sp := vm.sp - 1 }) := by
    unfold VM.pop
    rw [if_neg (by omega), hb]
  have p2 : VM.pop { vm with sp := vm.sp - 1 } = some (.Integer a, { vm with sp := vm.sp - 2 }) := by
    unfold VM.pop
    have e : vm.sp - 1 - 1 = vm.sp - 2 := by omega
    simp only [e, ha]
    rw [if_neg (by omega)]
  have p3 : VM.push { vm with sp := vm.sp - 2 } (.Integer (wrap64 (a + b)))
      = .ok { vm with stack := vm.stack.set (vm.sp - 2) (.Integer (wrap64 (a + b))),
                      sp := vm.sp - 1 } := by
    unfold VM.push
    have e : vm.sp - 2 + 1 = vm.sp - 1 := by omega
    have e1 : ¬ (vm.sp - 2 ≥ StackSize) := by omega
    have e2 : vm.sp - 2 < vm.stack.length := by omega
    simp only [e, if_neg e1, if_pos e2]
  simp only [VM.step, hi, show ¬ (code.OpAdd = code.OpConstant) by decide, if_false, if_true,
    p1, p2, p3]

theorem postOrder_length : ∀ (e : Expression) (k : Nat), e.isSum = true →
    (e.postOrder k).length + 1 = 4 * e.literals.length
  | .IntegerLiteral _, k, _ => rfl
  | .InfixExpression l op r, k, h => by
    have h' : op = "+" ∧ l.isSum = true ∧ r.isSum = true := by
      simpa [Expression.isSum, and_assoc] using h
    have e1 := postOrder_length l k h'.2.1
    have e2 := postOrder_length r (k + l.literals.length) h'.2.2
    simp only [Expression.postOrder, Expression.literals, List.length_append]
    have : (code.Make code.OpAdd []).length = 1 := rfl
    omega
  | .Boolean _, _, h => by cases h
  | .StringLiteral _, _, h => by cases h
  | .Identifier _, _, h => by cases h
  | .PrefixExpression _ _, _, h => by cases h
  | .IfExpression _ _ _, _, h => by cases h
  | .ArrayLiteral _, _, h => by cases h
  | .HashLiteral _, _, h => by cases h
  | .IndexExpression _ _, _, h => by cases h
  | .CallExpression _ _, _, h => by cases h
  | .FunctionLiteral _ _, _, h => by cases h

/-- The code of a tree of `+` over integer literals pushes the value of the
tree. -/
theorem exec_sum : ∀ (e : Expression), e.isSum = true →
    ∀ (vm : VM) (pre post : List Nat) (k : Nat),
      vm.instructions = pre ++ e.postOrder k ++ post →
      (∀ i n, e.literals[i]? = some n → vm.constants[k + i]? = some (.Integer n)) →
      k + e.literals.length ≤ 65536 →
      vm.sp + e.literals.length ≤ StackSize → StackSize ≤ vm.stack.length →
      ∃ vm1, Reach vm pre.length vm1 (pre.length + (e.postOrder k).length)
        ∧ vm1.sp = vm.sp + 1 ∧ vm1.stack[vm.sp]? = some (.Integer e.arithValue)
        ∧ (∀ i, i < vm.sp → vm1.stack[i]? = vm.stack[i]?)
        ∧ vm1.stack.length = vm.stack.length ∧ vm1.constants = vm.constants
        ∧ vm1.instructions = vm.instructions
  | .IntegerLiteral n, _, vm, pre, post, k, hins, hc, hk, hs, hl => by
    have hlit : (Expression.IntegerLiteral n).literals.length = 1 := rfl
    rw [hlit] at hk hs
    have hc0 := hc 0 n rfl
    refine ⟨_, exec_constant vm pre post k (.Integer n) hins (by omega) hc0 (by omega) (by omega),
      rfl, ?_, fun i hi => ?_, by simp, rfl, rfl⟩
    · show (vm.stack.set vm.sp _)[vm.sp]? = _
      rw [List.getElem?_set_self (by omega)]
      rfl
    · show (vm.stack.set vm.sp _)[i]? = _
      rw [List.getElem?_set_ne (by omega)]
  | .InfixExpression l op r, h, vm, pre, post, k, hins, hc, hk, hs, hl => by
    have h' : op = "+" ∧ l.isSum = true ∧ r.isSum = true := by
      simpa [Expression.isSum, and_assoc] using h
    obtain ⟨rfl, hsl, hsr⟩ := h'
    have hlit : (Expression.InfixExpression l "+" r).literals.length
        = l.literals.length + r.literals.length := by
      simp [Expression.literals]
    rw [hlit] at hk hs
    have hpl := postOrder_length l k hsl
    have hpr := postOrder_length r (k + l.literals.length) hsr
    have hpo : (Expression.InfixExpression l "+" r).postOrder k
        = l.postOrder k ++ r.postOrder (k + l.literals.length) ++ code.Make code.OpAdd [] := rfl
    rw [hpo] at hins
    obtain ⟨m1, r1, s1, t1, b1, l1, c1, i1⟩ := exec_sum l hsl vm pre
      (r.postOrder (k + l.literals.length) ++ code.Make code.OpAdd [] ++ post) k
      (by rw [hins]; simp only [List.append_assoc])
      (fun i n hi => hc i n (by
        simp only [Expression.literals]
        rw [List.getElem?_append_left (by
          rcases Nat.lt_or_ge i l.literals.length with h | h
          · exact h
          · rw [List.getElem?_eq_none h] at hi; cases hi)]
        exact hi))
      (by omega) (by omega) hl
    obtain ⟨m2, r2, s2, t2, b2, l2, c2, i2⟩ := exec_sum r hsr m1 (pre ++ l.postOrder k)
      (code.Make code.OpAdd [] ++ post) (k + l.literals.length)
      (by rw [i1, hins]; simp only [List.append_assoc])
      (fun i n hi => by
        rw [c1]
        have := hc (l.literals.length + i) n (by
          simp only [Expression.literals]
          rw [List.getElem?_append_right (by omega)]
          simpa using hi)
        rw [Nat.add_assoc]
        exact this)
      (by omega) (by omega) (by omega)
    have hsp2 : m2.sp = vm.sp + 2 := by omega
    have r3 := exec_add m2 (pre ++ l.postOrder k ++ r.postOrder (k + l.literals.length)) post
      l.arithValue r.arithValue
      (by rw [i2, i1, hins]; simp only [List.append_assoc])
      (by omega) (by omega) (by omega)
      (by rw [hsp2, show vm.sp + 2 - 2 = vm.sp by omega, b2 vm.sp (by omega)]; exact t1)
      (by rw [hsp2, show vm.sp + 2 - 1 = m1.sp by omega]; exact t2)
    refine ⟨{ m2 with
        stack := m2.stack.set (m2.sp - 2) (.Integer (wrap64 (l.arithValue + r.arithValue))),
        sp := m2.sp - 1 }, ?_, ?_, ?_, fun i hi => ?_, ?_, ?_, ?_⟩
    · have e1 : (pre ++ l.postOrder k).length = pre.length + (l.postOrder k).length := by simp
      have e2 : (pre ++ l.postOrder k ++ r.postOrder (k + l.literals.length)).length
          = pre.length + (l.postOrder k).length + (r.postOrder (k + l.literals.length)).length := by
        simp only [List.length_append]
      have e3 : pre.length + ((Expression.InfixExpression l "+" r).postOrder k).length
          = pre.length + (l.postOrder k).length
            + (r.postOrder (k + l.literals.length)).length + 1 := by
        rw [hpo]
        simp only [List.length_append]
        have : (code.Make code.OpAdd []).length = 1 := rfl
        omega
      rw [e1] at r2
      rw [e2] at r3
      rw [e3]
      exact reach_trans r1 (reach_trans r2 r3)
    · show m2.sp - 1 = vm.sp + 1
      omega
    · show (m2.stack.set (m2.sp - 2) _)[vm.sp]? = _
      rw [show m2.sp - 2 = vm.sp by omega, List.getElem?_set_self (by omega)]
      simp [Expression.arithValue]
    · show (m2.stack.set (m2.sp - 2) _)[i]? = _
      rw [List.getElem?_set_ne (by omega), b2 i (by omega), b1 i hi]
    · show (m2.stack.set (m2.sp - 2) _).length = _
      rw [List.length_set, l2, l1]
    · show m2.constants = _
      rw [c2, c1]
    · show m2.instructions = _
      rw [i2, i1]
  | .Boolean _, h, _, _, _, _, _, _, _, _, _ => by cases h
  | .StringLiteral _, h, _, _, _, _, _, _, _, _, _ => by cases h
  | .Identifier _, h, _, _, _, _, _, _, _, _, _ => by cases h
  | .PrefixExpression _ _, h, _, _, _, _, _, _, _, _, _ => by cases h
  | .IfExpression _ _ _, h, _, _, _, _, _, _, _, _, _ => by cases h
  | .ArrayLiteral _, h, _, _, _, _, _, _, _, _, _ => by cases h
  | .HashLiteral _, h, _, _, _, _, _, _, _, _, _ => by cases h
  | .IndexExpression _ _, h, _, _, _, _, _, _, _, _, _ => by cases h
  | .CallExpression _ _, h, _, _, _, _, _, _, _, _, _ => by cases h
  | .FunctionLiteral _ _, h, _, _, _, _, _, _, _, _, _ => by cases h

theorem wrap64_add (a b : Int) : wrap64 (wrap64 a + wrap64 b) = wrap64 (a + b) := by
  unfold wrap64
  have e63 : (2 : Int) ^ 63 = 9223372036854775808 := by norm_num
  have e64 : (2 : Int) ^ 64 = 18446744073709551616 := by norm_num
  rw [e63, e64]
  omega

/-- The value of a tree of `+` over 64-bit integer literals is the wrapped sum
of its literals. -/
theorem arithValue_sum : ∀ (e : Expression), e.isSum = true →
    (∀ v ∈ e.literals, -9223372036854775808 ≤ v ∧ v < 9223372036854775808) →
    e.arithValue = wrap64 e.literals.sum
  | .IntegerLiteral n, _, hr => by
    have := hr n (by simp [Expression.literals])
    simp only [Expression.arithValue, Expression.literals, List.sum_cons, List.sum_nil,
      Int.add_zero]
    exact (compiler.wrap64_small n this.1 this.2).symm
  | .InfixExpression l op r, h, hr => by
    have h' : op = "+" ∧ l.isSum = true ∧ r.isSum = true := by
      simpa [Expression.isSum, and_assoc] using h
    obtain ⟨rfl, hsl, hsr⟩ := h'
    have e1 := arithValue_sum l hsl (fun v hv => hr v (by
      simp only [Expression.literals, List.mem_append]; exact Or.inl hv))
    have e2 := arithValue_sum r hsr (fun v hv => hr v (by
      simp only [Expression.literals, List.mem_append]; exact Or.inr hv))
    simp only [Expression.arithValue, if_true, Expression.literals, List.sum_append, e1, e2,
      wrap64_add]
  | .Boolean _, h, _ => by cases h
  | .StringLiteral _, h, _ => by cases h
  | .Identifier _, h, _ => by cases h
  | .PrefixExpression _ _, h, _ => by cases h
  | .IfExpression _ _ _, h, _ => by cases h
  | .ArrayLiteral _, h, _ => by cases h
  | .HashLiteral _, h, _ => by cases h
  | .IndexExpression _ _, h, _ => by cases h
  | .CallExpression _ _, h, _ => by cases h
  | .FunctionLiteral _ _, h, _ => by cases h

/-- C28: for a tree of `+` over at most 2048 integer literals of 64 bits, the
compiler of stage 1 returns no error, `Run` of the machine of stage 1 on the
bytecode returns no error, and `StackTop` is then the Integer that is the
wrapped 64-bit sum of the literals; on a machine with `sp == 0` `StackTop`
returns nil. -/
theorem sum_runs (e : Expression) (h : e.isSum = true) (hn : e.literals.length ≤ 2048)
    (hr : ∀ v ∈ e.literals, -9223372036854775808 ≤ v ∧ v < 9223372036854775808) :
    ∃ c, compiler1.New.Compiler (.Program [.ExpressionStatement e]) = .ok c
      ∧ (∃ fuel vm1, (New c.Bytecode).Run fuel = some (.ok vm1)
          ∧ vm1.StackTop = some (.Integer (wrap64 e.literals.sum)))
      ∧ (New c.Bytecode).StackTop = some .nil
      ∧ ∀ v : VM, v.sp = 0 → v.StackTop = some .nil := by
  have hc := compiler1.compiler_sum e compiler1.New h
  have hlen : (List.replicate StackSize Object.nil).length = StackSize := List.length_replicate _ _
  obtain ⟨m1, r1, s1, t1, b1, l1, c1, i1⟩ := exec_sum e h
    (New ⟨e.postOrder 0, e.literals.map Object.Integer⟩) [] [] 0
    (by show e.postOrder 0 = [] ++ e.postOrder 0 ++ []; simp)
    (fun i n hi => by
      show (e.literals.map Object.Integer)[0 + i]? = _
      rw [Nat.zero_add, List.getElem?_map, hi]
      rfl)
    (by omega) (by show 0 + e.literals.length ≤ 2048; omega)
    (by show StackSize ≤ (List.replicate StackSize Object.nil).length; rw [hlen])
  refine ⟨({ instructions := compiler1.New.instructions
               ++ e.postOrder compiler1.New.constants.length,
             constants := compiler1.New.constants ++ e.literals.map Object.Integer }
            : compiler1.Compiler), ?_, ?_, rfl, fun v hv => by simp [VM.StackTop, hv]⟩
  · show (match compiler1.New.CompilerExpression e with
      | .ok c1 => c1.CompilerStatements []
      | r => r) = _
    rw [hc]
    rfl
  · have hbc : compiler1.Compiler.Bytecode ⟨compiler1.New.instructions
          ++ e.postOrder compiler1.New.constants.length,
          compiler1.New.constants ++ e.literals.map Object.Integer⟩
        = ⟨e.postOrder 0, e.literals.map Object.Integer⟩ := by
      simp [compiler1.Compiler.Bytecode, compiler1.New]
    rw [hbc]
    obtain ⟨fuel, hf⟩ := run_of_reach_end r1 (by
      rw [i1]
      show (e.postOrder 0).length ≤ ([] : List Nat).length + (e.postOrder 0).length
      simp)
    refine ⟨fuel, m1, hf, ?_⟩
    unfold VM.StackTop
    have hsp : m1.sp = 1 := s1
    rw [if_neg (by omega), hsp]
    have := t1
    rw [arithValue_sum e h hr] at this
    exact this

/-- Witness of C28: `1 + 2`. -/
theorem sum_runs_witness :
    ∃ c, compiler1.New.Compiler (.Program [.ExpressionStatement
          (.InfixExpression (.IntegerLiteral 1) "+" (.IntegerLiteral 2))]) = .ok c
      ∧ (∃ fuel vm1, (New c.Bytecode).Run fuel = some (.ok vm1)
          ∧ vm1.StackTop = some (.Integer (wrap64
              (Expression.InfixExpression (.IntegerLiteral 1) "+" (.IntegerLiteral 2)).literals.sum)))
      ∧ (New c.Bytecode).StackTop = some .nil
      ∧ ∀ v : VM, v.sp = 0 → v.StackTop = some .nil :=
  sum_runs (.InfixExpression (.IntegerLiteral 1) "+" (.IntegerLiteral 2)) rfl (by decide)
    (fun v hv => by
      have : v = 1 ∨ v = 2 := by simpa [Expression.literals] using hv
      rcases this with rfl | rfl <;> decide)

end vm1

namespace vm

open object

/-! ### Machines in step -/

theorem inStep_push {K : List Object} {m m1 n : VM} {o : Object} (h : InStep K m m1) (ho : o.isScalar = true)
    (hp : m.push o = .ok n) :
    ∃ n1, m1.push o = .ok n1 ∧ InStep K n n1 ∧ n.instructions = m.instructions
      ∧ n1.instructions = m1.instructions := by
  obtain ⟨hsp, hlen, hst, hg, hc, hss, hsg, hsc, hK⟩ := h
  unfold VM.push at hp
  split_ifs at hp with h1 h2
  cases hp
  refine ⟨{ m1 with stack := m1.stack.set m1.sp o, sp := m1.sp + 1 }, ?_, ?_, rfl, rfl⟩
  · unfold VM.push
    rw [if_neg (by rw [hsp]; exact h1), if_pos (by rw [hsp]; omega)]
  · refine ⟨by show m1.sp + 1 = m.sp + 1; rw [hsp],
      by show StackSize ≤ (m1.stack.set m1.sp o).length; rw [List.length_set]; exact hlen,
      ?_, hg, hc, ?_, hsg, hsc, hK⟩
    · intro i hi
      show (m1.stack.set m1.sp o)[i]? = (m.stack.set m.sp o)[i]?
      rw [hsp]
      by_cases e : i = m.sp
      · subst e
        rw [List.getElem?_set_self (by omega), List.getElem?_set_self h2]
      · rw [List.getElem?_set_ne (Ne.symm e), List.getElem?_set_ne (Ne.symm e)]
        exact hst i (by have : i < m.sp + 1 := hi; omega)
    · intro i x hi hx
      have hx' : (m.stack.set m.sp o)[i]? = some x := hx
      by_cases e : i = m.sp
      · subst e
        rw [List.getElem?_set_self h2] at hx'
        cases hx'
        exact ho
      · rw [List.getElem?_set_ne (Ne.symm e)] at hx'
        exact hss i x (by have : i < m.sp + 1 := hi; omega) hx'

theorem inStep_pop {K : List Object} {m m1 n : VM} {o : Object} (h : InStep K m m1) (hp : m.pop = some (o, n)) :
    ∃ n1, m1.pop = some (o, n1) ∧ InStep K n n1 ∧ o.isScalar = true
      ∧ n.instructions = m.instructions ∧ n1.instructions = m1.instructions
      ∧ n1.stack[n1.sp]? = n.stack[n.sp]? ∧ n.globals = m.globals ∧ n1.globals = m1.globals := by
  obtain ⟨hsp, hlen, hst, hg, hc, hss, hsg, hsc, hK⟩ := h
  unfold VM.pop at hp
  by_cases h0 : m.sp = 0
  · rw [if_pos h0] at hp; cases hp
  · rw [if_neg h0] at hp
    cases hs : m.stack[m.sp - 1]? with
    | none => rw [hs] at hp; cases hp
    | some x =>
      rw [hs] at hp
      cases hp
      have hs1 : m1.stack[m1.sp - 1]? = some o := by
        rw [hsp, hst (m.sp - 1) (by omega)]
        exact hs
      refine ⟨{ m1 with sp := m1.sp - 1 }, ?_, ?_, hss (m.sp - 1) o (by omega) hs, rfl, rfl,
        ?_, rfl, rfl⟩
      · unfold VM.pop
        rw [if_neg (by rw [hsp]; exact h0), hs1]
      · refine ⟨by show m1.sp - 1 = m.sp - 1; rw [hsp], hlen, fun i hi => ?_, hg, hc,
          fun i x hi hx => ?_, hsg, hsc, hK⟩
        · exact hst i (by have : i < m.sp - 1 := hi; omega)
        · exact hss i x (by have : i < m.sp - 1 := hi; omega) hx
      · show m1.stack[m1.sp - 1]? = m.stack[m.sp - 1]?
        rw [hs1, hs]

theorem isScalar_bool (b : Bool) : (nativeBoolToBooleanObject b).isScalar = true := by
  cases b <;> rfl

theorem inStep_intop {K : List Object} {m m1 n : VM} {op : Nat} {l r : Int} (h : InStep K m m1)
    (hp : m.executeBinaryIntegerOperation op l r = .ok n) :
    ∃ n1, m1.executeBinaryIntegerOperation op l r = .ok n1 ∧ InStep K n n1
      ∧ n.instructions = m.instructions ∧ n1.instructions = m1.instructions := by
  unfold VM.executeBinaryIntegerOperation at hp ⊢
  split_ifs at hp ⊢ <;> exact inStep_push h rfl hp

theorem inStep_intcmp {K : List Object} {m m1 n : VM} {op : Nat} {l r : Int} (h : InStep K m m1)
    (hp : m.executeIntegerComparison op l r = .ok n) :
    ∃ n1, m1.executeIntegerComparison op l r = .ok n1 ∧ InStep K n n1
      ∧ n.instructions = m.instructions ∧ n1.instructions = m1.instructions := by
  unfold VM.executeIntegerComparison at hp ⊢
  split_ifs at hp ⊢ <;> exact inStep_push h (isScalar_bool _) hp

theorem inStep_objcmp {K : List Object} {m m1 n : VM} {op : Nat} {l r : Object} (h : InStep K m m1)
    (hp : m.executeObjectComparison op l r = .ok n) :
    ∃ n1, m1.executeObjectComparison op l r = .ok n1 ∧ InStep K n n1
      ∧ n.instructions = m.instructions ∧ n1.instructions = m1.instructions := by
  unfold VM.executeObjectComparison at hp ⊢
  split_ifs at hp ⊢
  · exact inStep_push h (isScalar_bool _) hp
  · exact inStep_push h (isScalar_bool _) hp
  · cases hl : l.Type <;> cases hr : r.Type <;> simp only [hl, hr] at hp <;> cases hp

theorem inStep_binop {K : List Object} {m m1 n : VM} {op : Nat} (h : InStep K m m1)
    (hp : m.executeBinaryOperation op = .ok n) :
    ∃ n1, m1.executeBinaryOperation op = .ok n1 ∧ InStep K n n1
      ∧ n.instructions = m.instructions ∧ n1.instructions = m1.instructions := by
  unfold VM.executeBinaryOperation at hp ⊢
  cases h1 : m.pop with
  | none => rw [h1] at hp; cases hp
  | some p1 =>
    obtain ⟨right, a⟩ := p1
    rw [h1] at hp
    obtain ⟨a1, e1, r1, sr, ia, ia1, -, -, -⟩ := inStep_pop h h1
    cases h2 : a.pop with
    | none => simp only [h2] at hp; cases hp
    | some p2 =>
      obtain ⟨left, b⟩ := p2
      simp only [h2] at hp
      obtain ⟨b1, e2, r2, sl, ib, ib1, -, -, -⟩ := inStep_pop r1 h2
      simp only [e1, e2]
      cases left <;> cases right <;> simp only [Object.Type] at hp ⊢ <;>
        first
          | (obtain ⟨n1, g1, g2, g3, g4⟩ := inStep_intop r2 hp
             exact ⟨n1, g1, g2, by rw [g3, ib, ia], by rw [g4, ib1, ia1]⟩)
          | cases hp
          | exact absurd sl (by simp [Object.isScalar])

theorem inStep_cmp {K : List Object} {m m1 n : VM} {op : Nat} (h : InStep K m m1)
    (hp : m.executeComparison op = .ok n) :
    ∃ n1, m1.executeComparison op = .ok n1 ∧ InStep K n n1
      ∧ n.instructions = m.instructions ∧ n1.instructions = m1.instructions := by
  unfold VM.executeComparison at hp ⊢
  cases h1 : m.pop with
  | none => rw [h1] at hp; cases hp
  | some p1 =>
    obtain ⟨right, a⟩ := p1
    rw [h1] at hp
    obtain ⟨a1, e1, r1, sr, ia, ia1, -, -, -⟩ := inStep_pop h h1
    cases h2 : a.pop with
    | none => simp only [h2] at hp; cases hp
    | some p2 =>
      obtain ⟨left, b⟩ := p2
      simp only [h2] at hp
      obtain ⟨b1, e2, r2, sl, ib, ib1, -, -, -⟩ := inStep_pop r1 h2
      simp only [e1, e2]
      have hobj : ∀ l r : Object, b.executeObjectComparison op l r = .ok n →
          ∃ n1, b1.executeObjectComparison op l r = .ok n1 ∧ InStep K n n1
            ∧ n.instructions = m.instructions ∧ n1.instructions = m1.instructions := by
        intro l r hq
        obtain ⟨n1, g1, g2, g3, g4⟩ := inStep_objcmp r2 hq
        exact ⟨n1, g1, g2, by rw [g3, ib, ia], by rw [g4, ib1, ia1]⟩
      cases left with
      | nil => cases hp
      | Integer l =>
        cases right with
        | nil => cases hp
        | Integer r =>
          obtain ⟨n1, g1, g2, g3, g4⟩ := inStep_intcmp r2 hp
          exact ⟨n1, g1, g2, by rw [g3, ib, ia], by rw [g4, ib1, ia1]⟩
        | _ => exact hobj _ _ hp
      | _ => exact hobj _ _ hp

theorem inStep_minus {K : List Object} {m m1 n : VM} (h : InStep K m m1) (hp : m.executeMinusOperator = .ok n) :
    ∃ n1, m1.executeMinusOperator = .ok n1 ∧ InStep K n n1
      ∧ n.instructions = m.instructions ∧ n1.instructions = m1.instructions := by
  unfold VM.executeMinusOperator at hp ⊢
  cases h1 : m.pop with
  | none => rw [h1] at hp; cases hp
  | some p1 =>
    obtain ⟨x, a⟩ := p1
    rw [h1] at hp
    obtain ⟨a1, e1, r1, sr, ia, ia1, -, -, -⟩ := inStep_pop h h1
    simp only [e1]
    cases x <;> simp only [Object.Type] at hp ⊢ <;>
      first
        | cases hp
        | (obtain ⟨n1, g1, g2, g3, g4⟩ := inStep_push r1 (by rfl) hp
           exact ⟨n1, g1, g2, by rw [g3, ia], by rw [g4, ia1]⟩)

theorem inStep_bang {K : List Object} {m m1 n : VM} (h : InStep K m m1) (hp : m.executeBangOperator = .ok n) :
    ∃ n1, m1.executeBangOperator = .ok n1 ∧ InStep K n n1
      ∧ n.instructions = m.instructions ∧ n1.instructions = m1.instructions := by
  unfold VM.executeBangOperator at hp ⊢
  cases h1 : m.pop with
  | none => rw [h1] at hp; cases hp
  | some p1 =>
    obtain ⟨x, a⟩ := p1
    rw [h1] at hp
    obtain ⟨a1, e1, r1, sr, ia, ia1, -, -, -⟩ := inStep_pop h h1
    simp only [e1]
    simp only at hp
    split_ifs at hp ⊢ <;>
      (obtain ⟨n1, g1, g2, g3, g4⟩ := inStep_push r1 (by rfl) hp
       exact ⟨n1, g1, g2, by rw [g3, ia], by rw [g4, ia1]⟩)

end vm

namespace vm

open object

/-! ### Code that does the same on two machines -/

theorem twin_nil (off off1 : Nat) : Twin false off off1 [] [] := by
  refine ⟨rfl, ?_⟩
  intro K m m1 pre post pre1 post1 _ _ _ _ _ _ hs _
  exact ⟨m, m1, Reach.refl m off, Reach.refl m1 off1, hs, rfl, rfl, fun h => by cases h⟩

theorem twin_weaken {pop : Bool} {off off1 : Nat} {cd cd1 : List Nat}
    (h : Twin pop off off1 cd cd1) : Twin false off off1 cd cd1 := by
  refine ⟨h.1, ?_⟩
  intro K m m1 pre post pre1 post1 a1 a2 a3 a4 a5 a6 a7 a8
  obtain ⟨n, n1, r, r1, hs, i, i1, _⟩ := h.2 K m m1 pre post pre1 post1 a1 a2 a3 a4 a5 a6 a7 a8
  exact ⟨n, n1, r, r1, hs, i, i1, fun h => by cases h⟩

theorem twin_seq {pop : Bool} {off off1 : Nat} {a a1 b b1 : List Nat}
    (h1 : Twin false off off1 a a1)
    (h2 : Twin pop (off + a.length) (off1 + a.length) b b1) :
    Twin pop off off1 (a ++ b) (a1 ++ b1) := by
  refine ⟨by rw [List.length_append, List.length_append, h1.1, h2.1], ?_⟩
  intro K m m1 pre post pre1 post1 hi hl hi1 hl1 hb hb1 hs hnf
  obtain ⟨n, n1, r, r1, hs', i, i1, _⟩ := h1.2 K m m1 pre (b ++ post) pre1 (b1 ++ post1)
    (by rw [hi]; simp only [List.append_assoc]) hl
    (by rw [hi1]; simp only [List.append_assoc]) hl1 hb hb1 hs hnf
  obtain ⟨n', n1', r', r1', hs'', i', i1', hp⟩ := h2.2 K n n1 (pre ++ a) post (pre1 ++ a1) post1
    (by rw [i, hi]; simp only [List.append_assoc])
    (by rw [List.length_append, hl])
    (by rw [i1, hi1]; simp only [List.append_assoc])
    (by rw [List.length_append, hl1, h1.1])
    (by rw [i]; exact hb) (by rw [i1]; exact hb1) hs'
    (fun hf => hnf (Fault.of_reach r hf))
  refine ⟨n', n1', (Reach.trans r r').cast rfl (by rw [List.length_append]; omega),
    (Reach.trans r1 r1').cast rfl (by rw [List.length_append]; omega), hs'',
    by rw [i', i], by rw [i1', i1], hp⟩

/-- One instruction that does the same on two machines. -/
theorem twin_of_step (pop : Bool) (off off1 : Nat) (cd : List Nat) (hpos : 0 < cd.length)
    (h : ∀ (K : List Object) (m m1 : VM) (pre post pre1 post1 : List Nat),
      m.instructions = pre ++ cd ++ post → pre.length = off →
      m1.instructions = pre1 ++ cd ++ post1 → pre1.length = off1 →
      InStep K m m1 → ∀ n next, m.step off = .ok (n, next) →
      next = off + cd.length ∧ ∃ n1, m1.step off1 = .ok (n1, off1 + cd.length) ∧ InStep K n n1
        ∧ n.instructions = m.instructions ∧ n1.instructions = m1.instructions
        ∧ (pop = true → n1.stack[n1.sp]? = n.stack[n.sp]?)) :
    Twin pop off off1 cd cd := by
  refine ⟨rfl, ?_⟩
  intro K m m1 pre post pre1 post1 hi hl hi1 hl1 _ _ hs hnf
  have hlt : off < m.instructions.length := by
    rw [hi, ← hl]
    simp only [List.length_append]
    omega
  have hlt1 : off1 < m1.instructions.length := by
    rw [hi1, ← hl1]
    simp only [List.length_append]
    omega
  rcases step_cases hlt with hf | ⟨n, next, hst⟩
  · exact absurd hf hnf
  · obtain ⟨e, n1, hst1, hs', i, i1, hp⟩ := h K m m1 pre post pre1 post1 hi hl hi1 hl1 hs n next hst
    subst e
    exact ⟨n, n1, Reach.step hlt hst, Reach.step hlt1 hst1, hs', i, i1, hp⟩

/-- An instruction without operands whose case of the switch is an operation
that keeps two machines in step. -/
theorem twin_simple (off off1 op : Nat) (f : VM → Result VM)
    (hstep : ∀ (vm : VM) (ip : Nat), vm.instructions[ip]? = some op →
      vm.step ip = goOn (ip + 1) (f vm))
    (hf : ∀ (K : List Object) (m m1 n : VM), InStep K m m1 → f m = .ok n →
      ∃ n1, f m1 = .ok n1 ∧ InStep K n n1 ∧ n.instructions = m.instructions
        ∧ n1.instructions = m1.instructions) :
    Twin false off off1 [op] [op] := by
  refine twin_of_step false off off1 [op] (by simp) ?_
  intro K m m1 pre post pre1 post1 hi hl hi1 hl1 hs n next hst
  have h1 := (ins_at m pre post op (by rw [hi]; simp)).1
  have h2 := (ins_at m1 pre1 post1 op (by rw [hi1]; simp)).1
  rw [hl] at h1
  rw [hl1] at h2
  rw [hstep m off h1] at hst
  obtain ⟨e1, e2⟩ := goOn_ok hst
  obtain ⟨n1, g1, g2, g3, g4⟩ := hf K m m1 n hs e1
  refine ⟨e2, n1, ?_, g2, g3, g4, fun h => by cases h⟩
  rw [hstep m1 off1 h2, g1]
  rfl

theorem twin_arith (off off1 op : Nat)
    (hop : op = code.OpAdd ∨ op = code.OpSub ∨ op = code.OpMul ∨ op = code.OpDiv) :
    Twin false off off1 [op] [op] := by
  rcases hop with rfl | rfl | rfl | rfl
  · exact twin_simple off off1 _ (fun vm => vm.executeBinaryOperation code.OpAdd) step_OpAdd
      (fun _ _ _ _ hs h => inStep_binop hs h)
  · exact twin_simple off off1 _ (fun vm => vm.executeBinaryOperation code.OpSub) step_OpSub
      (fun _ _ _ _ hs h => inStep_binop hs h)
  · exact twin_simple off off1 _ (fun vm => vm.executeBinaryOperation code.OpMul) step_OpMul
      (fun _ _ _ _ hs h => inStep_binop hs h)
  · exact twin_simple off off1 _ (fun vm => vm.executeBinaryOperation code.OpDiv) step_OpDiv
      (fun _ _ _ _ hs h => inStep_binop hs h)

theorem twin_compare (off off1 op : Nat)
    (hop : op = code.OpEqual ∨ op = code.OpNotEqual ∨ op = code.OpGreaterThan) :
    Twin false off off1 [op] [op] := by
  rcases hop with rfl | rfl | rfl
  · exact twin_simple off off1 _ (fun vm => vm.executeComparison code.OpEqual) step_OpEqual
      (fun _ _ _ _ hs h => inStep_cmp hs h)
  · exact twin_simple off off1 _ (fun vm => vm.executeComparison code.OpNotEqual) step_OpNotEqual
      (fun _ _ _ _ hs h => inStep_cmp hs h)
  · exact twin_simple off off1 _ (fun vm => vm.executeComparison code.OpGreaterThan)
      step_OpGreaterThan (fun _ _ _ _ hs h => inStep_cmp hs h)

theorem twin_bang (off off1 : Nat) : Twin false off off1 [code.OpBang] [code.OpBang] :=
  twin_simple off off1 _ (fun vm => vm.executeBangOperator) step_OpBang
    (fun _ _ _ _ hs h => inStep_bang hs h)

theorem twin_minus (off off1 : Nat) : Twin false off off1 [code.OpMinus] [code.OpMinus] :=
  twin_simple off off1 _ (fun vm => vm.executeMinusOperator) step_OpMinus
    (fun _ _ _ _ hs h => inStep_minus hs h)

theorem twin_true (off off1 : Nat) : Twin false off off1 [code.OpTrue] [code.OpTrue] :=
  twin_simple off off1 _ (fun vm => vm.push True) step_OpTrue
    (fun _ _ _ _ hs h => inStep_push hs (by rfl) h)

theorem twin_false (off off1 : Nat) : Twin false off off1 [code.OpFalse] [code.OpFalse] :=
  twin_simple off off1 _ (fun vm => vm.push False) step_OpFalse
    (fun _ _ _ _ hs h => inStep_push hs (by rfl) h)

theorem twin_null (off off1 : Nat) : Twin false off off1 [code.OpNull] [code.OpNull] :=
  twin_simple off off1 _ (fun vm => vm.push Null) step_OpNull
    (fun _ _ _ _ hs h => inStep_push hs (by rfl) h)

end vm

namespace vm

open object

theorem twin_pop (off off1 : Nat) : Twin true off off1 [code.OpPop] [code.OpPop] := by
  refine twin_of_step true off off1 [code.OpPop] (by simp) ?_
  intro K m m1 pre post pre1 post1 hi hl hi1 hl1 hs n next hst
  have h1 := (ins_at m pre post code.OpPop (by rw [hi]; simp)).1
  have h2 := (ins_at m1 pre1 post1 code.OpPop (by rw [hi1]; simp)).1
  rw [hl] at h1
  rw [hl1] at h2
  rw [step_OpPop m off h1] at hst
  cases hp : m.pop with
  | none => rw [hp] at hst; cases hst
  | some p =>
    obtain ⟨o, n'⟩ := p
    rw [hp] at hst
    simp only [Result.ok.injEq, Prod.mk.injEq] at hst
    obtain ⟨e1, e2⟩ := hst
    subst e1
    obtain ⟨n1, g1, g2, _, g3, g4, g5, _⟩ := inStep_pop hs hp
    refine ⟨e2.symm, n1, ?_, g2, g3, g4, fun _ => g5⟩
    rw [step_OpPop m1 off1 h2, g1]
    rfl

theorem twin_constant (off off1 hi lo : Nat) :
    Twin false off off1 [code.OpConstant, hi, lo] [code.OpConstant, hi, lo] := by
  refine twin_of_step false off off1 _ (by simp) ?_
  intro K m m1 pre post pre1 post1 hi' hl hi1 hl1 hs n next hst
  have a1 : m.instructions = pre ++ code.OpConstant :: hi :: lo :: post := by rw [hi']; simp
  have a2 : m1.instructions = pre1 ++ code.OpConstant :: hi :: lo :: post1 := by rw [hi1]; simp
  have h1 := (ins_at m pre _ _ a1).1
  have h2 := (ins_at m1 pre1 _ _ a2).1
  have o1 := operand_at m pre _ _ _ _ a1
  have o2 := operand_at m1 pre1 _ _ _ _ a2
  rw [hl] at h1 o1
  rw [hl1] at h2 o2
  rw [step_OpConstant m off h1, o1] at hst
  cases hc : m.constants[hi * 256 + lo]? with
  | none => simp only [hc] at hst; cases hst
  | some o =>
    simp only [hc] at hst
    obtain ⟨e1, e2⟩ := goOn_ok hst
    have hsc : o.isScalar = true := hs.2.2.2.2.2.2.2.1 o (List.getElem?_mem hc)
    obtain ⟨n1, g1, g2, g3, g4⟩ := inStep_push hs hsc e1
    refine ⟨e2, n1, ?_, g2, g3, g4, fun h => by cases h⟩
    rw [step_OpConstant m1 off1 h2, o2]
    simp only [hs.2.2.2.2.1 _ _ hc, g1]
    rfl

theorem twin_getGlobal (off off1 hi lo : Nat) :
    Twin false off off1 [code.OpGetGlobal, hi, lo] [code.OpGetGlobal, hi, lo] := by
  refine twin_of_step false off off1 _ (by simp) ?_
  intro K m m1 pre post pre1 post1 hi' hl hi1 hl1 hs n next hst
  have a1 : m.instructions = pre ++ code.OpGetGlobal :: hi :: lo :: post := by rw [hi']; simp
  have a2 : m1.instructions = pre1 ++ code.OpGetGlobal :: hi :: lo :: post1 := by rw [hi1]; simp
  have h1 := (ins_at m pre _ _ a1).1
  have h2 := (ins_at m1 pre1 _ _ a2).1
  have o1 := operand_at m pre _ _ _ _ a1
  have o2 := operand_at m1 pre1 _ _ _ _ a2
  rw [hl] at h1 o1
  rw [hl1] at h2 o2
  rw [step_OpGetGlobal m off h1, o1] at hst
  cases hc : m.globals[hi * 256 + lo]? with
  | none => simp only [hc] at hst; cases hst
  | some o =>
    simp only [hc] at hst
    obtain ⟨e1, e2⟩ := goOn_ok hst
    have hsc : o.isScalar = true := hs.2.2.2.2.2.2.1 o (List.getElem?_mem hc)
    obtain ⟨n1, g1, g2, g3, g4⟩ := inStep_push hs hsc e1
    refine ⟨e2, n1, ?_, g2, g3, g4, fun h => by cases h⟩
    rw [step_OpGetGlobal m1 off1 h2, o2, hs.2.2.2.1]
    simp only [hc, g1]
    rfl

theorem twin_setGlobal (off off1 hi lo : Nat) :
    Twin true off off1 [code.OpSetGlobal, hi, lo] [code.OpSetGlobal, hi, lo] := by
  refine twin_of_step true off off1 _ (by simp) ?_
  intro K m m1 pre post pre1 post1 hi' hl hi1 hl1 hs n next hst
  have a1 : m.instructions = pre ++ code.OpSetGlobal :: hi :: lo :: post := by rw [hi']; simp
  have a2 : m1.instructions = pre1 ++ code.OpSetGlobal :: hi :: lo :: post1 := by rw [hi1]; simp
  have h1 := (ins_at m pre _ _ a1).1
  have h2 := (ins_at m1 pre1 _ _ a2).1
  have o1 := operand_at m pre _ _ _ _ a1
  have o2 := operand_at m1 pre1 _ _ _ _ a2
  rw [hl] at h1 o1
  rw [hl1] at h2 o2
  rw [step_OpSetGlobal m off h1, o1] at hst
  cases hp : m.pop with
  | none => simp only [hp] at hst; cases hst
  | some p =>
    obtain ⟨o, n'⟩ := p
    simp only [hp] at hst
    obtain ⟨n1, g1, g2, g3, g4, g5, g6, g7, g8⟩ := inStep_pop hs hp
    have hgl : n1.globals = n'.globals := g2.2.2.2.1
    split_ifs at hst with hlt
    simp only [Result.ok.injEq, Prod.mk.injEq] at hst
    obtain ⟨e1, e2⟩ := hst
    subst e1
    refine ⟨e2.symm, { n1 with globals := n1.globals.set (hi * 256 + lo) o }, ?_, ?_, g4, g5,
      fun _ => g6⟩
    · rw [step_OpSetGlobal m1 off1 h2, o2]
      simp only [g1]
      rw [if_pos (by rw [hgl]; exact hlt)]
      rfl
    · obtain ⟨b1, b2, b3, b4, b5, b6, b7, b8, b9⟩ := g2
      refine ⟨b1, b2, b3, by show n1.globals.set _ _ = n'.globals.set _ _; rw [b4], b5, b6, ?_, b8, b9⟩
      intro x hx
      have hx' : x ∈ n'.globals.set (hi * 256 + lo) o := hx
      rcases List.mem_or_eq_of_mem_set hx' with h | h
      · exact b7 x h
      · rw [h]; exact g3

end vm

namespace vm

open object

/-- The two machines at an OpJumpNotTruthy go on at the same side of the
branch. -/
theorem twin_branch (K : List Object) (m m1 : VM) (pre post pre1 post1 : List Nat) (t t1 : Nat)
    (hi : m.instructions = pre ++ code.OpJumpNotTruthy :: (t / 256 % 256) :: (t % 256) :: post)
    (hi1 : m1.instructions
      = pre1 ++ code.OpJumpNotTruthy :: (t1 / 256 % 256) :: (t1 % 256) :: post1)
    (ht : t < 65536) (ht1 : t1 < 65536) (hs : InStep K m m1) (hnf : ¬ Fault m pre.length) :
    ∃ n n1, InStep K n n1 ∧ n.instructions = m.instructions ∧ n1.instructions = m1.instructions
      ∧ ((Reach m pre.length n (pre.length + 3) ∧ Reach m1 pre1.length n1 (pre1.length + 3))
        ∨ (Reach m pre.length n t ∧ Reach m1 pre1.length n1 t1)) := by
  obtain ⟨h1, hlt⟩ := ins_at m pre _ _ hi
  obtain ⟨h2, hlt1⟩ := ins_at m1 pre1 _ _ hi1
  have o1 := operand_at m pre _ _ _ _ hi
  have o2 := operand_at m1 pre1 _ _ _ _ hi1
  rw [u16_decode, Nat.mod_eq_of_lt ht] at o1
  rw [u16_decode, Nat.mod_eq_of_lt ht1] at o2
  have hM := step_OpJumpNotTruthy m _ h1
  rw [o1] at hM
  cases hp : m.pop with
  | none =>
    simp only [hp] at hM
    exact absurd (Fault.of_step_panic hlt hM) hnf
  | some p =>
    obtain ⟨o, n'⟩ := p
    simp only [hp] at hM
    obtain ⟨n1, g1, g2, _, g4, g5, _, _, _⟩ := inStep_pop hs hp
    have hM1 := step_OpJumpNotTruthy m1 _ h2
    rw [o2] at hM1
    simp only [g1] at hM1
    refine ⟨n', n1, g2, g4, g5, ?_⟩
    cases ho : isTruthy o with
    | true =>
      rw [ho] at hM hM1
      exact Or.inl ⟨Reach.step hlt hM, Reach.step hlt1 hM1⟩
    | false =>
      rw [ho] at hM hM1
      exact Or.inr ⟨Reach.step hlt hM, Reach.step hlt1 hM1⟩

end vm

namespace vm

open object

/-- The code of a conditional does the same on two machines when its three
parts do; each stream holds its own jump targets. -/
theorem twin_if {off off1 : Nat} {cc cc1 v v1 alt alt1 : List Nat}
    (hc : Twin false off off1 cc cc1)
    (hv : Twin false (off + cc.length + 3) (off1 + cc.length + 3) v v1)
    (ha : Twin false (off + cc.length + 3 + v.length + 3) (off1 + cc.length + 3 + v.length + 3)
      alt alt1) :
    Twin false off off1
      (cc ++ [code.OpJumpNotTruthy, (off + cc.length + 3 + v.length + 3) / 256 % 256,
              (off + cc.length + 3 + v.length + 3) % 256]
        ++ v
        ++ [code.OpJump, (off + cc.length + 3 + v.length + 3 + alt.length) / 256 % 256,
            (off + cc.length + 3 + v.length + 3 + alt.length) % 256]
        ++ alt)
      (cc1 ++ [code.OpJumpNotTruthy, (off1 + cc1.length + 3 + v1.length + 3) / 256 % 256,
              (off1 + cc1.length + 3 + v1.length + 3) % 256]
        ++ v1
        ++ [code.OpJump, (off1 + cc1.length + 3 + v1.length + 3 + alt1.length) / 256 % 256,
            (off1 + cc1.length + 3 + v1.length + 3 + alt1.length) % 256]
        ++ alt1) := by
  have lc := hc.1
  have lv := hv.1
  have la := ha.1
  rw [lc, lv, la]
  refine ⟨by simp only [List.length_append, List.length_cons, List.length_nil]; omega, ?_⟩
  intro K m m1 pre post pre1 post1 hi hl hi1 hl1 hb hb1 hs hnf
  have I : m.instructions = pre ++ (cc ++ (code.OpJumpNotTruthy
      :: ((off + cc.length + 3 + v.length + 3) / 256 % 256)
      :: ((off + cc.length + 3 + v.length + 3) % 256)
      :: (v ++ (code.OpJump :: ((off + cc.length + 3 + v.length + 3 + alt.length) / 256 % 256)
      :: ((off + cc.length + 3 + v.length + 3 + alt.length) % 256) :: (alt ++ post))))) := by
    rw [hi]
    simp only [List.append_assoc, List.cons_append, List.nil_append]
  have I1 : m1.instructions = pre1 ++ (cc1 ++ (code.OpJumpNotTruthy
      :: ((off1 + cc.length + 3 + v.length + 3) / 256 % 256)
      :: ((off1 + cc.length + 3 + v.length + 3) % 256)
      :: (v1 ++ (code.OpJump :: ((off1 + cc.length + 3 + v.length + 3 + alt.length) / 256 % 256)
      :: ((off1 + cc.length + 3 + v.length + 3 + alt.length) % 256) :: (alt1 ++ post1))))) := by
    rw [hi1]
    simp only [List.append_assoc, List.cons_append, List.nil_append]
  have L : m.instructions.length
      = off + cc.length + 3 + v.length + 3 + alt.length + post.length := by
    rw [I, ← hl]
    simp only [List.length_append, List.length_cons]
    omega
  have L1 : m1.instructions.length
      = off1 + cc.length + 3 + v.length + 3 + alt.length + post1.length := by
    rw [I1, ← hl1, ← lc, ← lv, ← la]
    simp only [List.length_append, List.length_cons]
    omega
  -- the condition
  obtain ⟨n, n1, r, r1, hs', i, i1, _⟩ := hc.2 K m m1 pre _ pre1 _
    (by rw [I, List.append_assoc]) hl (by rw [I1, List.append_assoc]) hl1 hb hb1 hs hnf
  have e : (pre ++ cc).length = off + cc.length := by rw [List.length_append, hl]
  have e1 : (pre1 ++ cc1).length = off1 + cc.length := by rw [List.length_append, hl1, lc]
  -- the branch
  obtain ⟨n', n1', hs'', i', i1', hbr⟩ := twin_branch K n n1 (pre ++ cc) _ (pre1 ++ cc1) _ _ _
    (by rw [i, I, List.append_assoc]) (by rw [i1, I1, List.append_assoc])
    (by omega) (by omega) hs' (by rw [e]; exact fun hf => hnf (Fault.of_reach r hf))
  rw [e, e1] at hbr
  have tot : (cc ++ [code.OpJumpNotTruthy, (off + cc.length + 3 + v.length + 3) / 256 % 256,
              (off + cc.length + 3 + v.length + 3) % 256]
        ++ v
        ++ [code.OpJump, (off + cc.length + 3 + v.length + 3 + alt.length) / 256 % 256,
            (off + cc.length + 3 + v.length + 3 + alt.length) % 256]
        ++ alt).length = cc.length + 3 + v.length + 3 + alt.length := by
    simp only [List.length_append, List.length_cons, List.length_nil]
  rw [tot]
  rcases hbr with ⟨b, b1⟩ | ⟨b, b1⟩
  · -- the consequence and the jump behind it
    have nf : ¬ Fault n' (off + cc.length + 3) :=
      fun hf => hnf (Fault.of_reach (Reach.trans r b) hf)
    obtain ⟨k, k1, q, q1, hk, j, j1, _⟩ := hv.2 K n' n1'
      (pre ++ cc ++ [code.OpJumpNotTruthy, (off + cc.length + 3 + v.length + 3) / 256 % 256,
        (off + cc.length + 3 + v.length + 3) % 256])
      (code.OpJump :: ((off + cc.length + 3 + v.length + 3 + alt.length) / 256 % 256)
        :: ((off + cc.length + 3 + v.length + 3 + alt.length) % 256) :: (alt ++ post))
      (pre1 ++ cc1 ++ [code.OpJumpNotTruthy, (off1 + cc.length + 3 + v.length + 3) / 256 % 256,
        (off1 + cc.length + 3 + v.length + 3) % 256])
      (code.OpJump :: ((off1 + cc.length + 3 + v.length + 3 + alt.length) / 256 % 256)
        :: ((off1 + cc.length + 3 + v.length + 3 + alt.length) % 256) :: (alt1 ++ post1))
      (by rw [i', i, I]; simp only [List.append_assoc, List.cons_append, List.nil_append])
      (by simp only [List.length_append, List.length_cons, List.length_nil]; omega)
      (by rw [i1', i1, I1]; simp only [List.append_assoc, List.cons_append, List.nil_append])
      (by simp only [List.length_append, List.length_cons, List.length_nil]; omega)
      (by rw [i', i]; exact hb) (by rw [i1', i1]; exact hb1) hs'' nf
    have J := exec_OpJump k
      (pre ++ cc ++ [code.OpJumpNotTruthy, (off + cc.length + 3 + v.length + 3) / 256 % 256,
        (off + cc.length + 3 + v.length + 3) % 256] ++ v) (alt ++ post)
      (off + cc.length + 3 + v.length + 3 + alt.length)
      (by rw [j, i', i, I]; simp only [List.append_assoc, List.cons_append, List.nil_append])
      (by omega)
    have J1 := exec_OpJump k1
      (pre1 ++ cc1 ++ [code.OpJumpNotTruthy, (off1 + cc.length + 3 + v.length + 3) / 256 % 256,
        (off1 + cc.length + 3 + v.length + 3) % 256] ++ v1) (alt1 ++ post1)
      (off1 + cc.length + 3 + v.length + 3 + alt.length)
      (by rw [j1, i1', i1, I1]; simp only [List.append_assoc, List.cons_append, List.nil_append])
      (by omega)
    refine ⟨k, k1,
      (Reach.trans r (Reach.trans b (Reach.trans q (J.cast ?_ rfl)))).cast rfl (by omega),
      (Reach.trans r1 (Reach.trans b1 (Reach.trans q1 (J1.cast ?_ rfl)))).cast rfl (by omega),
      hk, by rw [j, i', i], by rw [j1, i1', i1], fun h => by cases h⟩
    · simp only [List.length_append, List.length_cons, List.length_nil]; omega
    · simp only [List.length_append, List.length_cons, List.length_nil]; omega
  · -- the alternative
    have nf : ¬ Fault n' (off + cc.length + 3 + v.length + 3) :=
      fun hf => hnf (Fault.of_reach (Reach.trans r b) hf)
    obtain ⟨k, k1, q, q1, hk, j, j1, _⟩ := ha.2 K n' n1'
      (pre ++ cc ++ [code.OpJumpNotTruthy, (off + cc.length + 3 + v.length + 3) / 256 % 256,
        (off + cc.length + 3 + v.length + 3) % 256] ++ v
        ++ [code.OpJump, (off + cc.length + 3 + v.length + 3 + alt.length) / 256 % 256,
            (off + cc.length + 3 + v.length + 3 + alt.length) % 256]) post
      (pre1 ++ cc1 ++ [code.OpJumpNotTruthy, (off1 + cc.length + 3 + v.length + 3) / 256 % 256,
        (off1 + cc.length + 3 + v.length + 3) % 256] ++ v1
        ++ [code.OpJump, (off1 + cc.length + 3 + v.length + 3 + alt.length) / 256 % 256,
            (off1 + cc.length + 3 + v.length + 3 + alt.length) % 256]) post1
      (by rw [i', i, I]; simp only [List.append_assoc, List.cons_append, List.nil_append])
      (by simp only [List.length_append, List.length_cons, List.length_nil]; omega)
      (by rw [i1', i1, I1]; simp only [List.append_assoc, List.cons_append, List.nil_append])
      (by simp only [List.length_append, List.length_cons, List.length_nil]; omega)
      (by rw [i', i]; exact hb) (by rw [i1', i1]; exact hb1) hs'' nf
    exact ⟨k, k1, (Reach.trans r (Reach.trans b q)).cast rfl (by omega),
      (Reach.trans r1 (Reach.trans b1 q1)).cast rfl (by omega),
      hk, by rw [j, i', i], by rw [j1, i1', i1], fun h => by cases h⟩

end vm

namespace compiler

open object vm ast

/-! ### Two compilers with the same constants and symbol table -/

/-- The same instruction emitted behind code that does the same. -/
theorem twin_emit {p : Bool} {d c d' c' : Compiler} {cd cd1 : List Nat} (op : Nat)
    (operands bytes : List Nat) (hm : code.Make op operands = bytes)
    (hs : Same c' d') (hi : d'.instructions = d.instructions ++ cd)
    (hi1 : c'.instructions = c.instructions ++ cd1)
    (ht : Twin false d.instructions.length c.instructions.length cd cd1)
    (hop : Twin p (d.instructions.length + cd.length) (c.instructions.length + cd.length)
      bytes bytes) :
    (d'.emit op operands).1.instructions = d.instructions ++ (cd ++ bytes)
      ∧ (c'.emit op operands).1.instructions = c.instructions ++ (cd1 ++ bytes)
      ∧ Twin p d.instructions.length c.instructions.length (cd ++ bytes) (cd1 ++ bytes)
      ∧ Same (c'.emit op operands).1 (d'.emit op operands).1 := by
  refine ⟨?_, ?_, twin_seq ht hop, hs⟩
  · rw [emit_fst, hm]
    show d'.instructions ++ _ = _
    rw [hi, List.append_assoc]
  · rw [emit_fst, hm]
    show c'.instructions ++ _ = _
    rw [hi1, List.append_assoc]

/-- Both blocks with their last OpPop removed. -/
theorem twin_value {pre pre1 : List Nat} {d c : Compiler} (h : TwinInv true pre pre1 d c) :
    ∃ d3 c3 v v1, d.dropLastPop = some d3 ∧ c.dropLastPop = some c3
      ∧ d3.instructions = pre ++ v ∧ c3.instructions = pre1 ++ v1
      ∧ Twin false pre.length pre1.length v v1 ∧ Same c3 d3 := by
  obtain ⟨hs, cd, cd1, hi, hi1, ht, htail⟩ := h
  rcases htail rfl with ⟨hd, hc⟩ | ⟨v, v1, e, e1, tv, ld, lc⟩
  · exact ⟨d, c, cd, cd1, dropLastPop_of_ne d hd, dropLastPop_of_ne c hc, hi, hi1, ht, hs⟩
  · exact ⟨_, _, v, v1,
      dropLastPop_of_pop d (pre ++ v) ld (by rw [hi, e, List.append_assoc]),
      dropLastPop_of_pop c (pre1 ++ v1) lc (by rw [hi1, e1, List.append_assoc]),
      rfl, rfl, tv, hs⟩

/-- The conditional up to the patch of its OpJumpNotTruthy, from the stream of
the consequence without its last OpPop. -/
theorem if_patch (c1 s3 : Compiler) (pre0 cc vcode : List Nat)
    (hi1 : c1.instructions = pre0 ++ cc)
    (hi3 : s3.instructions = (c1.emit code.OpJumpNotTruthy [9999]).1.instructions ++ vcode) :
    ∃ c4, (s3.emit code.OpJump [9999]).1.changeOperand (c1.emit code.OpJumpNotTruthy [9999]).2
          (s3.emit code.OpJump [9999]).1.instructions.length = some c4
      ∧ (s3.emit code.OpJump [9999]).2 = pre0.length + cc.length + 3 + vcode.length
      ∧ c4.instructions = pre0 ++ cc
          ++ [code.OpJumpNotTruthy, (pre0.length + cc.length + 3 + vcode.length + 3) / 256 % 256,
              (pre0.length + cc.length + 3 + vcode.length + 3) % 256]
          ++ vcode ++ [code.OpJump, 39, 15]
      ∧ c4.lastInstruction.Opcode = code.OpJump
      ∧ c4.constants = s3.constants ∧ c4.symbolTable = s3.symbolTable := by
  have e1 : (c1.emit code.OpJumpNotTruthy [9999]).1.instructions
      = pre0 ++ cc ++ [code.OpJumpNotTruthy, 39, 15] := by
    rw [emit_fst, make_OpJumpNotTruthy]
    show c1.instructions ++ _ = _
    rw [hi1]
  rw [e1] at hi3
  have e2 : (s3.emit code.OpJump [9999]).1.instructions
      = (pre0 ++ cc) ++ code.OpJumpNotTruthy :: 39 :: 15 :: (vcode ++ [code.OpJump, 39, 15]) := by
    rw [emit_fst, make_OpJump]
    show s3.instructions ++ _ = _
    rw [hi3]
    simp
  have e3 : (c1.emit code.OpJumpNotTruthy [9999]).2 = (pre0 ++ cc).length := by
    rw [emit_snd, hi1]
  have e4 : (s3.emit code.OpJump [9999]).1.instructions.length
      = pre0.length + cc.length + 3 + vcode.length + 3 := by
    rw [e2]
    simp only [List.length_append, List.length_cons, List.length_nil]
    omega
  refine ⟨{ (s3.emit code.OpJump [9999]).1 with
      instructions := (pre0 ++ cc) ++ code.OpJumpNotTruthy
        :: ((pre0.length + cc.length + 3 + vcode.length + 3) / 256 % 256)
        :: ((pre0.length + cc.length + 3 + vcode.length + 3) % 256)
        :: (vcode ++ [code.OpJump, 39, 15]) }, ?_, ?_, ?_, rfl, rfl, rfl⟩
  · rw [e3, e4]
    exact changeOperand_at _ (pre0 ++ cc) (vcode ++ [code.OpJump, 39, 15]) code.OpJumpNotTruthy
      39 15 _ e2 rfl
  · rw [emit_snd, hi3]
    simp only [List.length_append, List.length_cons, List.length_nil]
  · simp

/-- The conditional with an alternative, from the stream of the alternative
without its last OpPop. -/
theorem if_tail (c4 s7 : Compiler) (A vcode acode : List Nat) (n : Nat)
    (hi : c4.instructions = A ++ vcode ++ [code.OpJump, 39, 15])
    (hn : (A ++ vcode).length = n)
    (hi7 : s7.instructions = c4.instructions ++ acode) :
    ∃ c7, s7.changeOperand n s7.instructions.length = some c7
      ∧ c7.instructions = A ++ vcode
          ++ [code.OpJump, (n + 3 + acode.length) / 256 % 256, (n + 3 + acode.length) % 256]
          ++ acode
      ∧ c7.constants = s7.constants ∧ c7.symbolTable = s7.symbolTable := by
  rw [hi] at hi7
  have e2 : s7.instructions = (A ++ vcode) ++ code.OpJump :: 39 :: 15 :: acode := by
    rw [hi7]
    simp
  have e4 : s7.instructions.length = n + 3 + acode.length := by
    rw [e2, List.length_append, hn]
    simp only [List.length_cons]
    omega
  refine ⟨{ s7 with
      instructions := (A ++ vcode) ++ code.OpJump :: ((n + 3 + acode.length) / 256 % 256)
        :: ((n + 3 + acode.length) % 256) :: acode }, ?_, ?_, rfl, rfl⟩
  · rw [e4, ← hn]
    exact changeOperand_at _ (A ++ vcode) acode code.OpJump 39 15 _ e2 rfl
  · simp

/-- The start of a block in both compilers. -/
theorem twin_start {d c : Compiler} (hs : Same c d)
    (hd : d.lastInstruction.Opcode ≠ code.OpPop) (hc : c.lastInstruction.Opcode ≠ code.OpPop) :
    TwinInv true d.instructions c.instructions d c :=
  ⟨hs, [], [], by simp, by simp, twin_nil _ _, fun _ => Or.inl ⟨hd, hc⟩⟩

theorem twin_operator (off off1 op : Nat)
    (hop : op = code.OpAdd ∨ op = code.OpSub ∨ op = code.OpMul ∨ op = code.OpDiv
        ∨ op = code.OpGreaterThan ∨ op = code.OpEqual ∨ op = code.OpNotEqual) :
    Twin false off off1 [op] [op] ∧ code.Make op [] = [op] := by
  rcases hop with rfl | rfl | rfl | rfl | rfl | rfl | rfl
  · exact ⟨twin_arith _ _ _ (by simp), rfl⟩
  · exact ⟨twin_arith _ _ _ (by simp), rfl⟩
  · exact ⟨twin_arith _ _ _ (by simp), rfl⟩
  · exact ⟨twin_arith _ _ _ (by simp), rfl⟩
  · exact ⟨twin_compare _ _ _ (by simp), rfl⟩
  · exact ⟨twin_compare _ _ _ (by simp), rfl⟩
  · exact ⟨twin_compare _ _ _ (by simp), rfl⟩

/-- The operator instruction behind the code of two operands. -/
theorem twin_binary {d c d' c' d'' c'' : Compiler} {cd cd1 cd2 cd21 : List Nat} (op : Nat)
    (hop : op = code.OpAdd ∨ op = code.OpSub ∨ op = code.OpMul ∨ op = code.OpDiv
        ∨ op = code.OpGreaterThan ∨ op = code.OpEqual ∨ op = code.OpNotEqual)
    (hi : d'.instructions = d.instructions ++ cd) (hi1 : c'.instructions = c.instructions ++ cd1)
    (ht : Twin false d.instructions.length c.instructions.length cd cd1)
    (hj : d''.instructions = d'.instructions ++ cd2)
    (hj1 : c''.instructions = c'.instructions ++ cd21)
    (ht2 : Twin false d'.instructions.length c'.instructions.length cd2 cd21)
    (hs : Same c'' d'') :
    ∃ x x1, (d''.emit op []).1.instructions = d.instructions ++ x
      ∧ (c''.emit op []).1.instructions = c.instructions ++ x1
      ∧ Twin false d.instructions.length c.instructions.length x x1
      ∧ Same (c''.emit op []).1 (d''.emit op []).1 := by
  have l1 := ht.1
  rw [hi, hi1, List.length_append, List.length_append, l1] at ht2
  obtain ⟨a, b, t, s⟩ := @twin_emit false d c d'' c'' (cd ++ cd2) (cd1 ++ cd21) op [] [op]
    (twin_operator 0 0 op hop).2 hs (by rw [hj, hi, List.append_assoc])
    (by rw [hj1, hi1, List.append_assoc]) (twin_seq ht ht2) (twin_operator _ _ op hop).1
  exact ⟨_, _, a, b, t, s⟩

end compiler

namespace compiler

open object vm ast

mutual
/-- Two compilers with the same constants and symbol table compile an
expression to code that does the same at their two offsets. -/
theorem twin_expr : ∀ (e : Expression) (d d1 c : Compiler), Same c d →
    d.CompileExpression e = .ok d1 →
    ∃ c1 cd cd1, c.CompileExpression e = .ok c1 ∧ d1.instructions = d.instructions ++ cd
      ∧ c1.instructions = c.instructions ++ cd1
      ∧ Twin false d.instructions.length c.instructions.length cd cd1 ∧ Same c1 d1
  | .IntegerLiteral n, d, d1, c, hs, h => by
    rw [compile_IntegerLiteral] at h
    cases h
    have hk : (c.addConstant (.Integer n)).2 = (d.addConstant (.Integer n)).2 := by
      show (c.constants ++ _).length - 1 = (d.constants ++ _).length - 1
      rw [hs.1]
    have hs' : Same (c.addConstant (.Integer n)).1 (d.addConstant (.Integer n)).1 :=
      ⟨by show c.constants ++ _ = d.constants ++ _; rw [hs.1], hs.2.1, fun o ho => by
        have ho' : o ∈ d.constants ++ [Object.Integer n] := ho
        rcases List.mem_append.mp ho' with h | h
        · exact hs.2.2 o h
        · rw [List.mem_singleton.mp h]; rfl⟩
    obtain ⟨a, b, t, s⟩ := @twin_emit false d c (d.addConstant (.Integer n)).1
      (c.addConstant (.Integer n)).1 [] [] code.OpConstant [(d.addConstant (.Integer n)).2] _
      (make_OpConstant _) hs' (by show d.instructions = _; simp)
      (by show c.instructions = _; simp) (twin_nil _ _) (twin_constant _ _ _ _)
    refine ⟨_, _, _, compile_IntegerLiteral c n, a, ?_, t, ?_⟩
    · rw [hk]; exact b
    · rw [hk]; exact s
  | .Boolean v, d, d1, c, hs, h => by
    rw [compile_Boolean] at h
    cases v with
    | true =>
      cases h
      obtain ⟨a, b, t, s⟩ := @twin_emit false d c d c [] [] code.OpTrue [] [code.OpTrue] rfl hs
        (by simp) (by simp) (twin_nil _ _) (twin_true _ _)
      exact ⟨_, _, _, compile_Boolean c true, a, b, t, s⟩
    | false =>
      cases h
      obtain ⟨a, b, t, s⟩ := @twin_emit false d c d c [] [] code.OpFalse [] [code.OpFalse] rfl hs
        (by simp) (by simp) (twin_nil _ _) (twin_false _ _)
      exact ⟨_, _, _, compile_Boolean c false, a, b, t, s⟩
  | .Identifier x, d, d1, c, hs, h => by
    rw [compile_Identifier] at h
    cases hr : d.symbolTable.Resolve x with
    | none => rw [hr] at h; cases h
    | some sym =>
      simp only [hr] at h
      cases h
      obtain ⟨a, b, t, s⟩ := @twin_emit false d c d c [] [] code.OpGetGlobal [sym.Index] _
        (make_OpGetGlobal _) hs (by simp) (by simp) (twin_nil _ _) (twin_getGlobal _ _ _ _)
      refine ⟨_, _, _, ?_, a, b, t, s⟩
      rw [compile_Identifier, hs.2.1, hr]
  | .PrefixExpression op r, d, d1, c, hs, h => by
    rw [compile_PrefixExpression] at h
    cases hc : d.CompileExpression r with
    | error msg a => rw [hc] at h; cases h
    | panic => rw [hc] at h; cases h
    | ok d' =>
      simp only [hc] at h
      obtain ⟨c', cd, cd1, hcc, hi, hi1, ht, hs'⟩ := twin_expr r d d' c hs hc
      split_ifs at h with h1 h2
      · cases h
        obtain ⟨a, b, t, s⟩ := @twin_emit false d c d' c' cd cd1 code.OpBang [] [code.OpBang]
          rfl hs' hi hi1 ht (twin_bang _ _)
        refine ⟨_, _, _, ?_, a, b, t, s⟩
        rw [compile_PrefixExpression, hcc]
        show (if op = "!" then _ else _) = _
        rw [if_pos h1]
      · cases h
        obtain ⟨a, b, t, s⟩ := @twin_emit false d c d' c' cd cd1 code.OpMinus [] [code.OpMinus]
          rfl hs' hi hi1 ht (twin_minus _ _)
        refine ⟨_, _, _, ?_, a, b, t, s⟩
        rw [compile_PrefixExpression, hcc]
        show (if op = "!" then _ else if op = "-" then _ else _) = _
        rw [if_neg h1, if_pos h2]
  | .InfixExpression l op r, d, d1, c, hs, h => by
    by_cases hop : op = "<"
    · subst hop
      rw [compile_InfixExpression_lt] at h
      cases hc : d.CompileExpression r with
      | error msg a => rw [hc] at h; cases h
      | panic => rw [hc] at h; cases h
      | ok d' =>
        simp only [hc] at h
        obtain ⟨c', cd, cd1, hcc, hi, hi1, ht, hs'⟩ := twin_expr r d d' c hs hc
        cases hc2 : d'.CompileExpression l with
        | error msg a => rw [hc2] at h; cases h
        | panic => rw [hc2] at h; cases h
        | ok d'' =>
          simp only [hc2] at h
          obtain ⟨c'', cd2, cd21, hcc2, hj, hj1, ht2, hs''⟩ :=
            twin_expr l d' d'' c' hs' hc2
          cases h
          obtain ⟨x, x1, a, b, t, s⟩ := twin_binary code.OpGreaterThan (by simp) hi hi1 ht hj hj1
            ht2 hs''
          refine ⟨_, x, x1, ?_, a, b, t, s⟩
          rw [compile_InfixExpression_lt, hcc]
          simp only [hcc2]
    · rw [compile_InfixExpression _ _ _ _ hop] at h
      cases hc : d.CompileExpression l with
      | error msg a => rw [hc] at h; cases h
      | panic => rw [hc] at h; cases h
      | ok d' =>
        simp only [hc] at h
        obtain ⟨c', cd, cd1, hcc, hi, hi1, ht, hs'⟩ := twin_expr l d d' c hs hc
        cases hc2 : d'.CompileExpression r with
        | error msg a => rw [hc2] at h; cases h
        | panic => rw [hc2] at h; cases h
        | ok d'' =>
          simp only [hc2] at h
          obtain ⟨c'', cd2, cd21, hcc2, hj, hj1, ht2, hs''⟩ :=
            twin_expr r d' d'' c' hs' hc2
          have hC : c.CompileExpression (.InfixExpression l op r)
              = (if op = "+" then .ok (c''.emit code.OpAdd []).1
                else if op = "-" then .ok (c''.emit code.OpSub []).1
                else if op = "*" then .ok (c''.emit code.OpMul []).1
                else if op = "/" then .ok (c''.emit code.OpDiv []).1
                else if op = ">" then .ok (c''.emit code.OpGreaterThan []).1
                else if op = "==" then .ok (c''.emit code.OpEqual []).1
                else if op = "!=" then .ok (c''.emit code.OpNotEqual []).1
                else .error ("unknown operator " ++ op) c'') := by
            rw [compile_InfixExpression _ _ _ _ hop, hcc]
            simp only [hcc2]
          rw [hC]
          split_ifs at h ⊢ <;> cases h <;>
            first
            | (obtain ⟨x, x1, a, b, t, s⟩ := twin_binary code.OpAdd (by simp) hi hi1 ht hj hj1
                ht2 hs''
               exact ⟨_, x, x1, rfl, a, b, t, s⟩)
            | (obtain ⟨x, x1, a, b, t, s⟩ := twin_binary code.OpSub (by simp) hi hi1 ht hj hj1
                ht2 hs''
               exact ⟨_, x, x1, rfl, a, b, t, s⟩)
            | (obtain ⟨x, x1, a, b, t, s⟩ := twin_binary code.OpMul (by simp) hi hi1 ht hj hj1
                ht2 hs''
               exact ⟨_, x, x1, rfl, a, b, t, s⟩)
            | (obtain ⟨x, x1, a, b, t, s⟩ := twin_binary code.OpDiv (by simp) hi hi1 ht hj hj1
                ht2 hs''
               exact ⟨_, x, x1, rfl, a, b, t, s⟩)
            | (obtain ⟨x, x1, a, b, t, s⟩ := twin_binary code.OpGreaterThan (by simp) hi hi1 ht hj hj1
                ht2 hs''
               exact ⟨_, x, x1, rfl, a, b, t, s⟩)
            | (obtain ⟨x, x1, a, b, t, s⟩ := twin_binary code.OpEqual (by simp) hi hi1 ht hj hj1
                ht2 hs''
               exact ⟨_, x, x1, rfl, a, b, t, s⟩)
            | (obtain ⟨x, x1, a, b, t, s⟩ := twin_binary code.OpNotEqual (by simp) hi hi1 ht hj hj1
                ht2 hs''
               exact ⟨_, x, x1, rfl, a, b, t, s⟩)
  | .IfExpression cond cons none, d, d1, c, hs, h => by
    rw [compile_IfExpression] at h
    cases hc : d.CompileExpression cond with
    | error msg a => rw [hc] at h; cases h
    | panic => rw [hc] at h; cases h
    | ok d' =>
      simp only [hc] at h
      obtain ⟨c', cc, cc1, hcc, hi, hi1, ht, hs'⟩ := twin_expr cond d d' c hs hc
      cases hcons : (d'.emit code.OpJumpNotTruthy [9999]).1.CompileStatements cons with
      | error msg a => rw [hcons] at h; cases h
      | panic => rw [hcons] at h; cases h
      | ok d2 =>
        simp only [hcons] at h
        obtain ⟨c2, hcons1, B2⟩ := twin_block cons true _ _ _ d2
          (c'.emit code.OpJumpNotTruthy [9999]).1
          (@twin_start (d'.emit code.OpJumpNotTruthy [9999]).1
            (c'.emit code.OpJumpNotTruthy [9999]).1 hs'
            (by show code.OpJumpNotTruthy ≠ code.OpPop; decide)
            (by show code.OpJumpNotTruthy ≠ code.OpPop; decide)) hcons
        obtain ⟨d3, c3, v, v1, hd, hd1, hv, hv1, tv, hs3⟩ := twin_value B2
        obtain ⟨d4, hch, hjp, hi4, _, k4, y4⟩ := if_patch d' d3 d.instructions cc v hi hv
        obtain ⟨c4, hch1, hjp1, hi41, _, k41, y41⟩ := if_patch c' c3 c.instructions cc1 v1 hi1 hv1
        simp only [hd, hch] at h
        rw [hjp] at h
        obtain ⟨d6, hch6, hi6, _⟩ := if_none d4 _ v
          (d.instructions.length + cc.length + 3 + v.length) hi4
          (by simp only [List.length_append, List.length_cons, List.length_nil])
        obtain ⟨c6, hch61, hi61, _⟩ := if_none c4 _ v1
          (c.instructions.length + cc1.length + 3 + v1.length) hi41
          (by simp only [List.length_append, List.length_cons, List.length_nil])
        simp only [hch6] at h
        cases h
        have f6 := changeOperand_fields hch6
        have f61 := changeOperand_fields hch61
        have lc := ht.1
        have tv' : Twin false (d.instructions.length + cc.length + 3)
            (c.instructions.length + cc.length + 3) v v1 := by
          have e1 : (d'.emit code.OpJumpNotTruthy [9999]).1.instructions.length
              = d.instructions.length + cc.length + 3 := by
            rw [emit_fst, make_OpJumpNotTruthy]
            show (d'.instructions ++ _).length = _
            rw [hi]
            simp only [List.length_append, List.length_cons, List.length_nil]
          have e2 : (c'.emit code.OpJumpNotTruthy [9999]).1.instructions.length
              = c.instructions.length + cc.length + 3 := by
            rw [emit_fst, make_OpJumpNotTruthy]
            show (c'.instructions ++ _).length = _
            rw [hi1]
            simp only [List.length_append, List.length_cons, List.length_nil]
            rw [lc]
          rw [e1, e2] at tv
          exact tv
        have T := twin_if ht tv' (twin_null (d.instructions.length + cc.length + 3 + v.length + 3)
          (c.instructions.length + cc.length + 3 + v.length + 3))
        refine ⟨c6, _, _, ?_, ?_, ?_, T, ?_⟩
        · rw [compile_IfExpression, hcc]
          simp only [hcons1, hd1, hch1]
          rw [hjp1]
          simp only [hch61]
        · rw [hi6]
          simp only [List.append_assoc, List.length_cons, List.length_nil]
        · rw [hi61]
          simp only [List.append_assoc, List.length_cons, List.length_nil]
        · refine ⟨by rw [f61.1, f6.1]; show c4.constants = d4.constants; rw [k41, k4]; exact hs3.1,
            by rw [f61.2.1, f6.2.1]; show c4.symbolTable = d4.symbolTable
               rw [y41, y4]; exact hs3.2.1, fun o ho => hs3.2.2 o ?_⟩
          rw [f6.1] at ho
          have ho' : o ∈ d4.constants := ho
          rw [k4] at ho'
          exact ho'
  | .IfExpression cond cons (some alt), d, d1, c, hs, h => by
    rw [compile_IfExpression] at h
    cases hc : d.CompileExpression cond with
    | error msg a => rw [hc] at h; cases h
    | panic => rw [hc] at h; cases h
    | ok d' =>
      simp only [hc] at h
      obtain ⟨c', cc, cc1, hcc, hi, hi1, ht, hs'⟩ := twin_expr cond d d' c hs hc
      cases hcons : (d'.emit code.OpJumpNotTruthy [9999]).1.CompileStatements cons with
      | error msg a => rw [hcons] at h; cases h
      | panic => rw [hcons] at h; cases h
      | ok d2 =>
        simp only [hcons] at h
        obtain ⟨c2, hcons1, B2⟩ := twin_block cons true _ _ _ d2
          (c'.emit code.OpJumpNotTruthy [9999]).1
          (@twin_start (d'.emit code.OpJumpNotTruthy [9999]).1
            (c'.emit code.OpJumpNotTruthy [9999]).1 hs'
            (by show code.OpJumpNotTruthy ≠ code.OpPop; decide)
            (by show code.OpJumpNotTruthy ≠ code.OpPop; decide)) hcons
        obtain ⟨d3, c3, v, v1, hd, hd1, hv, hv1, tv, hs3⟩ := twin_value B2
        obtain ⟨d4, hch, hjp, hi4, l4, k4, y4⟩ := if_patch d' d3 d.instructions cc v hi hv
        obtain ⟨c4, hch1, hjp1, hi41, l41, k41, y41⟩ :=
          if_patch c' c3 c.instructions cc1 v1 hi1 hv1
        simp only [hd, hch] at h
        rw [hjp] at h
        cases halt : d4.CompileStatements alt with
        | error msg a => rw [halt] at h; cases h
        | panic => rw [halt] at h; cases h
        | ok d5 =>
          simp only [halt] at h
          have hs4 : Same c4 d4 := ⟨by rw [k41, k4]; exact hs3.1, by rw [y41, y4]; exact hs3.2.1,
            fun o ho => hs3.2.2 o (by rw [k4] at ho; exact ho)⟩
          obtain ⟨c5, halt1, B4⟩ := twin_block alt true _ _ _ d5 c4
            (@twin_start d4 c4 hs4 (by rw [l4]; decide) (by rw [l41]; decide)) halt
          obtain ⟨d6, c6, w, w1, he, he1, hw, hw1, tw, hs6⟩ := twin_value B4
          obtain ⟨d7, hch7, hi7, k7, y7⟩ := if_tail d4 d6 _ v w
            (d.instructions.length + cc.length + 3 + v.length) hi4
            (by simp only [List.length_append, List.length_cons, List.length_nil]) hw
          obtain ⟨c7, hch71, hi71, k71, y71⟩ := if_tail c4 c6 _ v1 w1
            (c.instructions.length + cc1.length + 3 + v1.length) hi41
            (by simp only [List.length_append, List.length_cons, List.length_nil]) hw1
          simp only [he, hch7] at h
          cases h
          have lc := ht.1
          have lv := tv.1
          have tv' : Twin false (d.instructions.length + cc.length + 3)
              (c.instructions.length + cc.length + 3) v v1 := by
            have e1 : (d'.emit code.OpJumpNotTruthy [9999]).1.instructions.length
                = d.instructions.length + cc.length + 3 := by
              rw [emit_fst, make_OpJumpNotTruthy]
              show (d'.instructions ++ _).length = _
              rw [hi]
              simp only [List.length_append, List.length_cons, List.length_nil]
            have e2 : (c'.emit code.OpJumpNotTruthy [9999]).1.instructions.length
                = c.instructions.length + cc.length + 3 := by
              rw [emit_fst, make_OpJumpNotTruthy]
              show (c'.instructions ++ _).length = _
              rw [hi1]
              simp only [List.length_append, List.length_cons, List.length_nil]
              rw [lc]
            rw [e1, e2] at tv
            exact tv
          have tw' : Twin false (d.instructions.length + cc.length + 3 + v.length + 3)
              (c.instructions.length + cc.length + 3 + v.length + 3) w w1 := by
            have e1 : d4.instructions.length
                = d.instructions.length + cc.length + 3 + v.length + 3 := by
              rw [hi4]
              simp only [List.length_append, List.length_cons, List.length_nil]
            have e2 : c4.instructions.length
                = c.instructions.length + cc.length + 3 + v.length + 3 := by
              rw [hi41]
              simp only [List.length_append, List.length_cons, List.length_nil]
              rw [lc, lv]
            rw [e1, e2] at tw
            exact tw
          have T := twin_if ht tv' tw'
          refine ⟨c7, _, _, ?_, ?_, ?_, T, ?_⟩
          · rw [compile_IfExpression, hcc]
            simp only [hcons1, hd1, hch1]
            rw [hjp1]
            simp only [halt1, he1, hch71]
          · rw [hi7]
            simp only [List.append_assoc]
          · rw [hi71]
            simp only [List.append_assoc]
          · exact ⟨by rw [k71, k7]; exact hs6.1, by rw [y71, y7]; exact hs6.2.1,
              fun o ho => hs6.2.2 o (by rw [k7] at ho; exact ho)⟩
  | .StringLiteral _, d, d1, c, hs, h => by
    cases h
    exact ⟨c, [], [], rfl, by simp, by simp, twin_nil _ _, hs⟩
  | .ArrayLiteral _, d, d1, c, hs, h => by
    cases h
    exact ⟨c, [], [], rfl, by simp, by simp, twin_nil _ _, hs⟩
  | .HashLiteral _, d, d1, c, hs, h => by
    cases h
    exact ⟨c, [], [], rfl, by simp, by simp, twin_nil _ _, hs⟩
  | .IndexExpression _ _, d, d1, c, hs, h => by
    cases h
    exact ⟨c, [], [], rfl, by simp, by simp, twin_nil _ _, hs⟩
  | .CallExpression _ _, d, d1, c, hs, h => by
    cases h
    exact ⟨c, [], [], rfl, by simp, by simp, twin_nil _ _, hs⟩
  | .FunctionLiteral _ _, d, d1, c, hs, h => by
    cases h
    exact ⟨c, [], [], rfl, by simp, by simp, twin_nil _ _, hs⟩
/-- Two compilers with the same constants and symbol table compile a statement
to code that does the same and, unless the statement is a return statement,
which emits nothing, pops the same value. -/
theorem twin_stmt : ∀ (s : Statement) (d d1 c : Compiler), Same c d →
    d.CompileStatement s = .ok d1 →
    ∃ c1 cd cd1, c.CompileStatement s = .ok c1 ∧ d1.instructions = d.instructions ++ cd
      ∧ c1.instructions = c.instructions ++ cd1
      ∧ Twin (!s.isReturn) d.instructions.length c.instructions.length cd cd1 ∧ Same c1 d1
      ∧ ((d1 = d ∧ c1 = c ∧ cd = [] ∧ cd1 = [])
        ∨ (d1.lastInstruction.Opcode ≠ code.OpPop ∧ c1.lastInstruction.Opcode ≠ code.OpPop)
        ∨ ∃ v v1, cd = v ++ [code.OpPop] ∧ cd1 = v1 ++ [code.OpPop]
            ∧ Twin false d.instructions.length c.instructions.length v v1
            ∧ d1.lastInstruction
                = { Opcode := code.OpPop, Position := (d.instructions ++ v).length }
            ∧ c1.lastInstruction
                = { Opcode := code.OpPop, Position := (c.instructions ++ v1).length })
  | .ExpressionStatement e, d, d1, c, hs, h => by
    rw [compile_ExpressionStatement] at h
    cases hc : d.CompileExpression e with
    | error msg a => rw [hc] at h; cases h
    | panic => rw [hc] at h; cases h
    | ok d' =>
      simp only [hc] at h
      obtain ⟨c', cd, cd1, hcc, hi, hi1, ht, hs'⟩ := twin_expr e d d' c hs hc
      cases h
      obtain ⟨a, b, t, s⟩ := @twin_emit true d c d' c' cd cd1 code.OpPop [] [code.OpPop]
        rfl hs' hi hi1 ht (twin_pop _ _)
      refine ⟨(c'.emit code.OpPop []).1, _, _, ?_, a, b, t, s,
        Or.inr (Or.inr ⟨cd, cd1, rfl, rfl, ht, ?_, ?_⟩)⟩
      · rw [compile_ExpressionStatement, hcc]
      · rw [emit_fst, hi]
      · rw [emit_fst, hi1]
  | .LetStatement name e, d, d1, c, hs, h => by
    rw [compile_LetStatement] at h
    cases hc : d.CompileExpression e with
    | error msg a => rw [hc] at h; cases h
    | panic => rw [hc] at h; cases h
    | ok d' =>
      simp only [hc] at h
      obtain ⟨c', cd, cd1, hcc, hi, hi1, ht, hs'⟩ := twin_expr e d d' c hs hc
      cases h
      have hs'' : Same { c' with symbolTable := (c'.symbolTable.Define name).2 }
          { d' with symbolTable := (d'.symbolTable.Define name).2 } :=
        ⟨hs'.1, by show (c'.symbolTable.Define name).2 = (d'.symbolTable.Define name).2
                   rw [hs'.2.1], hs'.2.2⟩
      obtain ⟨a, b, t, s⟩ := @twin_emit true d c
        { d' with symbolTable := (d'.symbolTable.Define name).2 }
        { c' with symbolTable := (c'.symbolTable.Define name).2 } cd cd1 code.OpSetGlobal
        [(d'.symbolTable.Define name).1.Index] _ (make_OpSetGlobal _) hs'' hi hi1 ht
        (twin_setGlobal _ _ _ _)
      have hk : (c'.symbolTable.Define name).1.Index = (d'.symbolTable.Define name).1.Index := by
        rw [hs'.2.1]
      refine ⟨(Compiler.emit { c' with symbolTable := (c'.symbolTable.Define name).2 }
          code.OpSetGlobal [(c'.symbolTable.Define name).1.Index]).1, _, _, ?_, a, ?_, t, ?_,
        Or.inr (Or.inl ⟨?_, ?_⟩)⟩
      · rw [compile_LetStatement, hcc]
      · rw [hk]; exact b
      · rw [hk]; exact s
      · show code.OpSetGlobal ≠ code.OpPop
        decide
      · show code.OpSetGlobal ≠ code.OpPop
        decide
  | .ReturnStatement _, d, d1, c, hs, h => by
    cases h
    exact ⟨c, [], [], rfl, by simp, by simp, twin_nil _ _, hs, Or.inl ⟨rfl, rfl, rfl, rfl⟩⟩
/-- The loop over the statements of a block keeps the two compilers
together. -/
theorem twin_block : ∀ (l : List Statement) (t : Bool) (pre pre1 : List Nat) (d d1 c : Compiler),
    TwinInv t pre pre1 d c → d.CompileStatements l = .ok d1 →
    ∃ c1, c.CompileStatements l = .ok c1 ∧ TwinInv t pre pre1 d1 c1
  | [], t, pre, pre1, d, d1, c, hB, h => by
    rw [compile_nil] at h
    cases h
    exact ⟨c, compile_nil c, hB⟩
  | s :: rest, t, pre, pre1, d, d1, c, hB, h => by
    rw [compile_cons] at h
    cases hc : d.CompileStatement s with
    | error msg a => rw [hc] at h; cases h
    | panic => rw [hc] at h; cases h
    | ok d' =>
      simp only [hc] at h
      obtain ⟨hs, cd0, cd01, hi, hi1, ht, htail⟩ := hB
      obtain ⟨c', cds, cds1, hcc, his, his1, hts, hs', hcase⟩ := twin_stmt s d d' c hs hc
      have l0 := ht.1
      rw [hi, hi1, List.length_append, List.length_append, l0] at hts
      have hB' : TwinInv t pre pre1 d' c' := by
        refine ⟨hs', cd0 ++ cds, cd01 ++ cds1, by rw [his, hi, List.append_assoc],
          by rw [his1, hi1, List.append_assoc], twin_seq ht (twin_weaken hts), fun ht' => ?_⟩
        rcases hcase with ⟨e1, e2, e3, e4⟩ | hne | ⟨v, v1, e, e1, tv, ld, lc⟩
        · subst e1 e2 e3 e4
          rw [List.append_nil, List.append_nil]
          exact htail ht'
        · exact Or.inl hne
        · rw [hi, hi1, List.length_append, List.length_append, l0] at tv
          refine Or.inr ⟨cd0 ++ v, cd01 ++ v1, by rw [e, List.append_assoc],
            by rw [e1, List.append_assoc], twin_seq ht tv, ?_, ?_⟩
          · rw [ld, hi, List.append_assoc]
          · rw [lc, hi1, List.append_assoc]
      obtain ⟨c1, hcr, hB1⟩ := twin_block rest t pre pre1 d' d1 c' hB' h
      exact ⟨c1, by rw [compile_cons, hcc]; exact hcr, hB1⟩
end

end compiler

namespace compiler

open object vm ast

/-! ### Lines of a session and the program of all lines -/

/-- Return statements compile to nothing. -/
theorem compile_returns : ∀ (l : List Statement) (c : Compiler),
    (∀ s ∈ l, s.isReturn = true) → c.CompileStatements l = .ok c
  | [], c, _ => compile_nil c
  | s :: rest, c, h => by
    have hs := h s (List.mem_cons_self _ _)
    have hr := compile_returns rest c (fun x hx => h x (List.mem_cons_of_mem _ hx))
    cases s with
    | ReturnStatement v =>
      rw [compile_cons]
      exact hr
    | ExpressionStatement e => cases hs
    | LetStatement n e => cases hs

/-- The statements of two lists one after the other compile as the list of
both. -/
theorem compile_append_ok : ∀ (p1 p2 : List Statement) (c c1 : Compiler) (r : Result Compiler),
    c.CompileStatements p1 = .ok c1 → c1.CompileStatements p2 = r →
    c.CompileStatements (p1 ++ p2) = r
  | [], p2, c, c1, r, h1, h2 => by
    rw [compile_nil] at h1
    cases h1
    exact h2
  | s :: rest, p2, c, c1, r, h1, h2 => by
    rw [compile_cons] at h1
    rw [List.cons_append, compile_cons]
    cases hc : c.CompileStatement s with
    | error msg a => rw [hc] at h1; cases h1
    | panic => rw [hc] at h1; cases h1
    | ok c' =>
      simp only [hc] at h1 ⊢
      exact compile_append_ok rest p2 c' c1 r h1 h2

/-- Two compilers with the same constants and symbol table compile a list with
a statement that is no return statement to code that does the same and pops
the same value last. -/
theorem twin_program : ∀ (l : List Statement) (d d1 c : Compiler), Same c d →
    (∃ s ∈ l, s.isReturn = false) → d.CompileStatements l = .ok d1 →
    ∃ c1 cd cd1, c.CompileStatements l = .ok c1 ∧ d1.instructions = d.instructions ++ cd
      ∧ c1.instructions = c.instructions ++ cd1
      ∧ Twin true d.instructions.length c.instructions.length cd cd1 ∧ Same c1 d1
  | [], _, _, _, _, hp, _ => by
    obtain ⟨s, hs, _⟩ := hp
    cases hs
  | s :: rest, d, d1, c, hs, hp, h => by
    rw [compile_cons] at h
    cases hc : d.CompileStatement s with
    | error msg a => rw [hc] at h; cases h
    | panic => rw [hc] at h; cases h
    | ok d' =>
      simp only [hc] at h
      obtain ⟨c', cds, cds1, hcc, his, his1, hts, hs', _⟩ := twin_stmt s d d' c hs hc
      by_cases hr : ∃ x ∈ rest, x.isReturn = false
      · obtain ⟨c1, cd, cd1, hcr, hi, hi1, ht, hs1⟩ := twin_program rest d' d1 c' hs' hr h
        have l0 := hts.1
        rw [his, his1, List.length_append, List.length_append, l0] at ht
        exact ⟨c1, cds ++ cd, cds1 ++ cd1, by rw [compile_cons, hcc]; exact hcr,
          by rw [hi, his, List.append_assoc], by rw [hi1, his1, List.append_assoc],
          twin_seq (twin_weaken hts) ht, hs1⟩
      · have hall : ∀ x ∈ rest, x.isReturn = true := by
          intro x hx
          cases hx' : x.isReturn with
          | true => rfl
          | false => exact absurd ⟨x, hx, hx'⟩ hr
        have hsr : s.isReturn = false := by
          obtain ⟨x, hx, hx'⟩ := hp
          rcases List.mem_cons.mp hx with e | e
          · rw [← e]; exact hx'
          · rw [hall x e] at hx'; cases hx'
        rw [compile_returns rest d' hall] at h
        cases h
        rw [hsr] at hts
        exact ⟨c', cds, cds1, by rw [compile_cons, hcc]; exact compile_returns rest c' hall,
          his, his1, hts, hs'⟩

/-- Code of either layout adds at most the slots of its kind to the stack, when
the loop of `Run` comes to its end. -/
theorem shape_bound {b : Bool} {k : Kind} {off : Nat} {cd : List Nat} (h : Shape b k off cd) :
    ExecLe off cd 0 k.delta := by
  induction h with
  | skipExpr off _ => exact (ExecLe.nil off).weaken (Nat.zero_le _)
  | skipStmt off _ => exact ExecLe.nil off
  | simple off op hop =>
    exact execLe_simple off op (hop.elim Or.inl (fun h => Or.inr (Or.inl h)))
  | wide off op hi lo hop => exact execLe_wide off op hi lo hop
  | unary off op c1 hop _ ih =>
    exact (ih.seq (execLe_unary (off + c1.length) op hop)).weaken (Nat.le_refl _)
  | binary off op c1 c2 hop _ _ ih1 ih2 =>
    exact ((ih1.seq ih2).seq (execLe_binary (off + (c1 ++ c2).length) op hop)).weaken
      (Nat.le_refl _)
  | ifThen off cc cons _ _ ih1 ih2 =>
    exact execLe_if off cc cons [code.OpNull] ih1 ih2 (execLe_simple _ _ (Or.inr (Or.inr rfl)))
  | ifThenElse off cc cons alt _ _ _ ih1 ih2 ih3 => exact execLe_if off cc cons alt ih1 ih2 ih3
  | exprStmt off c1 _ ih => exact (ih.seq (execLe_pop (off + c1.length))).weaken (Nat.le_refl _)
  | letStmt off c1 hi lo _ ih =>
    exact (ih.seq (execLe_setGlobal (off + c1.length) hi lo)).weaken (Nat.le_refl _)
  | nil off => exact ExecLe.nil off
  | snoc off c1 c2 _ _ ih1 ih2 => exact ih1.seq ih2
  | ofBlock off c1 _ ih => exact ih.weaken (Nat.le_succ _)
  | ofExpr off c1 c2 _ _ ih1 ih2 => exact ih1.seq ih2

/-- A run of a compiled program that returns no error returns with
`sp == 0`. -/
theorem program_leaves_no_value (p : List Statement) (c : Compiler) (fuel : Nat) (vm0 vm1 : VM)
    (hc : New.CompileStatements p = .ok c) (hi : vm0.instructions = c.instructions)
    (h0 : vm0.sp = 0) (hlen : c.instructions.length < 65536)
    (hrun : vm0.Run fuel = some (.ok vm1)) : vm1.sp = 0 := by
  obtain ⟨cd, hic, hsh, _⟩ := shape_of_block p false [] New c (fun h => by cases h)
    (block_start false New (by decide)) hc
  rcases shape_bound hsh vm0 [] [] (by rw [hi, hic]; simp) rfl (by rw [hi]; exact hlen)
    with hf | ⟨vm2, r, hsp, hins⟩
  · exact absurd hrun (not_ok_of_fault hf)
  · obtain ⟨n, hn⟩ := runFrom_of_reach_end r (by
      rw [hins, hi, hic]
      simp)
    have e := runFrom_det hrun hn
    have e' : vm1 = vm2 := by injection e
    rw [e']
    have : vm2.sp ≤ vm0.sp := hsp
    omega

end compiler

namespace compiler

open object vm ast

/-- C24 (amended): let P1 and P2 be programs, P2 with a statement that is no
return statement, whose two instruction streams are together shorter than
65536 bytes. When a compiler made by `NewWithState` from an empty symbol table
and no constants compiles P1, a machine made by `vm.NewWithState` with fresh
globals runs the result without error, a second compiler made by
`NewWithState` from the symbol table and the constants of the first compiles
P2, and a second machine made by `vm.NewWithState` with the globals of the first
runs that result without error, then a single compiler compiles P1;P2 and the
run of a single machine on the result returns without error with the globals
and the last popped value of the second machine. -/
theorem repl_matches_single_run (P1 P2 : List Statement) (d1 d2 : Compiler) (A B : VM)
    (f1 f2 : Nat)
    (hpop : ∃ s ∈ P2, s.isReturn = false)
    (hlen : d1.instructions.length + d2.instructions.length < 65536)
    (hc1 : (NewWithState NewSymbolTable []).Compile (.Program P1) = .ok d1)
    (hr1 : (vm.NewWithState d1.Bytecode (List.replicate GlobalsSize Object.nil)).Run f1
      = some (.ok A))
    (hc2 : (NewWithState d1.symbolTable d1.constants).Compile (.Program P2) = .ok d2)
    (hr2 : (vm.NewWithState d2.Bytecode A.globals).Run f2 = some (.ok B)) :
    ∃ c fuel M, New.Compile (.Program (P1 ++ P2)) = .ok c
      ∧ (vm.New c.Bytecode).Run fuel = some (.ok M)
      ∧ M.globals = B.globals ∧ M.LastPoppedStackElem = B.LastPoppedStackElem := by
  have hc1' : New.CompileStatements P1 = .ok d1 := hc1
  have hc2' : (NewWithState d1.symbolTable d1.constants).CompileStatements P2 = .ok d2 := hc2
  -- the constants are integers
  have g1 := grows_block P1 New
  rw [hc1'] at g1
  obtain ⟨ks1, e1, hk1⟩ := g1
  have sc1 : ∀ o ∈ d1.constants, o.isScalar = true := by
    intro o ho
    rw [e1] at ho
    have ho' : o ∈ ks1 := by simpa [New] using ho
    obtain ⟨n, hn⟩ := hk1 o ho'
    rw [hn]
    rfl
  have g2 := grows_block P2 (NewWithState d1.symbolTable d1.constants)
  rw [hc2'] at g2
  obtain ⟨ks2, e2, _⟩ := g2
  have e2' : d2.constants = d1.constants ++ ks2 := e2
  -- the second line in both compilers
  obtain ⟨c, I2, I2', hcc, hi2, hic, T2, hsC⟩ := twin_program P2
    (NewWithState d1.symbolTable d1.constants) d2 d1 ⟨rfl, rfl, sc1⟩ hpop hc2'
  have hi2' : d2.instructions = I2 := by
    rw [hi2]
    exact List.nil_append _
  have l2 := T2.1
  have hcomp : New.CompileStatements (P1 ++ P2) = .ok c :=
    compile_append_ok P1 P2 New d1 _ hc1' hcc
  have hcl : c.instructions.length < 65536 := by
    rw [hic, List.length_append, l2, ← hi2']
    exact hlen
  -- the first line in both machines
  obtain ⟨c1', h1', _, cd, cd1, hd, hd', T1, _⟩ := twin_block P1 false [] [] New d1 New
    ⟨⟨rfl, rfl, fun o ho => by cases ho⟩, [], [], rfl, rfl, twin_nil _ _, fun h => by cases h⟩
    hc1'
  rw [hc1'] at h1'
  cases h1'
  have hd0 : d1.instructions = cd := by rw [hd]; exact List.nil_append _
  have hd1 : d1.instructions = cd1 := by rw [hd']; exact List.nil_append _
  have hA : InStep c.constants
      (vm.NewWithState d1.Bytecode (List.replicate GlobalsSize Object.nil))
      (vm.New c.Bytecode) := by
    refine ⟨rfl, ?_, fun i hi => absurd hi (Nat.not_lt_zero i), rfl, ?_,
      fun i o hi => absurd hi (Nat.not_lt_zero i), ?_, sc1, rfl⟩
    · show StackSize ≤ (List.replicate StackSize Object.nil).length
      rw [List.length_replicate]
    · intro i o ho
      have ho' : d1.constants[i]? = some o := ho
      show c.constants[i]? = some o
      rw [hsC.1, e2']
      obtain ⟨hlt, _⟩ := List.getElem?_eq_some.mp ho'
      rw [List.getElem?_append_left hlt]
      exact ho'
    · intro o ho
      have ho' : o ∈ List.replicate GlobalsSize Object.nil := ho
      rw [List.eq_of_mem_replicate ho']
      rfl
  have nfA : ¬ Fault (vm.NewWithState d1.Bytecode (List.replicate GlobalsSize Object.nil)) 0 :=
    fun hf => not_ok_of_fault hf hr1
  obtain ⟨A1, M1, rA, rM, hs1, iA, iM, _⟩ := T1.2 c.constants
    (vm.NewWithState d1.Bytecode (List.replicate GlobalsSize Object.nil)) (vm.New c.Bytecode)
    [] [] [] I2'
    (by show d1.instructions = _; rw [hd0]; simp) rfl
    (by show c.instructions = _; rw [hic, hd1]; simp) rfl
    (by show d1.instructions.length < 65536; omega) hcl hA nfA
  have eA : A = A1 := by
    obtain ⟨n, hn⟩ := runFrom_of_reach_end rA (by
      rw [iA]
      show d1.instructions.length ≤ _
      rw [hd0]
      simp)
    have e := runFrom_det hr1 hn
    injection e
  subst eA
  have spA : A.sp = 0 := program_leaves_no_value P1 d1 f1 _ A hc1' rfl rfl (by omega) hr1
  -- the second line in both machines
  have hB : InStep c.constants (vm.NewWithState d2.Bytecode A.globals) M1 := by
    obtain ⟨a1, a2, _, a4, _, _, a7, _, a9⟩ := hs1
    refine ⟨by rw [a1, spA]; rfl, a2, fun i hi => absurd hi (Nat.not_lt_zero i), a4, ?_,
      fun i o hi => absurd hi (Nat.not_lt_zero i), a7, hsC.2.2, a9⟩
    intro i o ho
    have ho' : d2.constants[i]? = some o := ho
    rw [a9, hsC.1]
    exact ho'
  have nfB : ¬ Fault (vm.NewWithState d2.Bytecode A.globals) 0 :=
    fun hf => not_ok_of_fault hf hr2
  obtain ⟨B1, M2, rB, rM2, hs2, iB, iM2, hp⟩ := T2.2 c.constants
    (vm.NewWithState d2.Bytecode A.globals) M1 [] [] d1.instructions []
    (by show d2.instructions = _; rw [hi2']; simp) rfl
    (by rw [iM]; show c.instructions = _; rw [hic]; simp) rfl
    (by show d2.instructions.length < 65536; omega) (by rw [iM]; exact hcl) hB nfB
  have eB : B = B1 := by
    obtain ⟨n, hn⟩ := runFrom_of_reach_end rB (by
      rw [iB]
      show d2.instructions.length ≤ _
      rw [hi2']
      exact Nat.le_add_left _ _)
    have e := runFrom_det hr2 hn
    injection e
  subst eB
  have rAll : Reach (vm.New c.Bytecode) 0 M2 (d1.instructions.length + I2.length) :=
    Reach.trans (rM.cast rfl (by rw [hd0]; simp)) rM2
  obtain ⟨fuel, hf⟩ := runFrom_of_reach_end rAll (by
    rw [iM2, iM]
    show c.instructions.length ≤ _
    rw [hic, List.length_append, l2])
  exact ⟨c, fuel, M2, hcomp, hf, hs2.2.2.2.1, hp rfl⟩

end compiler

namespace compiler

open object vm ast

/-- The run of the line `let g = false;` on a fresh machine and the run of the
line `g;` on a machine with the globals that the first has left. -/
theorem session_of_two_lines :
    ∃ A B f1 f2,
      (vm.NewWithState ⟨[code.OpFalse, code.OpSetGlobal, 0, 0], []⟩
        (List.replicate GlobalsSize Object.nil)).Run f1 = some (.ok A)
      ∧ (vm.NewWithState ⟨[code.OpGetGlobal, 0, 0, code.OpPop], []⟩ A.globals).Run f2
        = some (.ok B) := by
  have mA : Mach [code.OpFalse, code.OpSetGlobal, 0, 0]
      (vm.NewWithState ⟨[code.OpFalse, code.OpSetGlobal, 0, 0], []⟩
        (List.replicate GlobalsSize Object.nil)) 0 Object.nil := by
    refine ⟨rfl, rfl, ?_, ?_⟩
    · show (List.replicate StackSize Object.nil).length = _
      rw [List.length_replicate]
    · show (List.replicate GlobalsSize Object.nil)[0]? = _
      rw [List.getElem?_replicate, if_pos (by decide)]
  obtain ⟨A, rA, mA'⟩ := mach_false_set _ _ 0 0 _ [] [] mA rfl rfl (by decide)
  obtain ⟨f1, h1⟩ := runFrom_of_reach_end rA (by rw [mA'.1]; exact Nat.le_refl _)
  have mB : Mach [code.OpGetGlobal, 0, 0, code.OpPop]
      (vm.NewWithState ⟨[code.OpGetGlobal, 0, 0, code.OpPop], []⟩ A.globals) 0 False := by
    refine ⟨rfl, rfl, ?_, mA'.2.2.2⟩
    show (List.replicate StackSize Object.nil).length = _
    rw [List.length_replicate]
  obtain ⟨B1, r1, p1⟩ := exec_OpGetGlobal
    (vm.NewWithState ⟨[code.OpGetGlobal, 0, 0, code.OpPop], []⟩ A.globals) [] [code.OpPop] 0
    False rfl (by decide) mB.2.2.2 (by show 0 < StackSize; decide)
    (by show 0 < (List.replicate StackSize Object.nil).length
        rw [List.length_replicate]; decide)
  obtain ⟨B, r2, mB'⟩ := mach_pop _ B1 0 3 _ [code.OpGetGlobal, 0, 0] [] (mach_of_pushed mB p1)
    rfl rfl (by decide)
  obtain ⟨f2, h2⟩ := runFrom_of_reach_end (Reach.trans r1 r2) (by
    rw [mB'.1]; exact Nat.le_refl _)
  exact ⟨A, B, f1, f2, h1, h2⟩

/-- Witness of the amended C24: the lines `let g = false;` and `g;` of a
session, and the program `let g = false; g;`. -/
theorem repl_matches_single_run_witness :
    ∃ d1 d2 A B f1 f2,
      (∃ s ∈ [Statement.ExpressionStatement (.Identifier "g")], s.isReturn = false)
      ∧ d1.instructions.length + d2.instructions.length < 65536
      ∧ (NewWithState NewSymbolTable []).Compile
          (.Program [.LetStatement "g" (.Boolean false)]) = .ok d1
      ∧ (vm.NewWithState d1.Bytecode (List.replicate GlobalsSize Object.nil)).Run f1
          = some (.ok A)
      ∧ (NewWithState d1.symbolTable d1.constants).Compile
          (.Program [.ExpressionStatement (.Identifier "g")]) = .ok d2
      ∧ (vm.NewWithState d2.Bytecode A.globals).Run f2 = some (.ok B)
      ∧ ∃ c fuel M, New.Compile (.Program ([.LetStatement "g" (.Boolean false)]
            ++ [.ExpressionStatement (.Identifier "g")])) = .ok c
        ∧ (vm.New c.Bytecode).Run fuel = some (.ok M)
        ∧ M.globals = B.globals ∧ M.LastPoppedStackElem = B.LastPoppedStackElem := by
  obtain ⟨A, B, f1, f2, h1, h2⟩ := session_of_two_lines
  exact ⟨{ instructions := [code.OpFalse, code.OpSetGlobal, 0, 0], constants := [],
           lastInstruction := ⟨code.OpSetGlobal, 1⟩, previousInstruction := ⟨code.OpFalse, 0⟩,
           symbolTable := (NewSymbolTable.Define "g").2 },
         { instructions := [code.OpGetGlobal, 0, 0, code.OpPop], constants := [],
           lastInstruction := ⟨code.OpPop, 3⟩, previousInstruction := ⟨code.OpGetGlobal, 0⟩,
           symbolTable := (NewSymbolTable.Define "g").2 },
         A, B, f1, f2, ⟨_, List.mem_singleton.mpr rfl, rfl⟩, by decide, rfl, h1, rfl, h2,
         repl_matches_single_run [.LetStatement "g" (.Boolean false)]
           [.ExpressionStatement (.Identifier "g")] _ _ A B f1 f2
           ⟨_, List.mem_singleton.mpr rfl, rfl⟩ (by decide) rfl h1 rfl h2⟩

end compiler

namespace compiler

open object vm ast

/-! ### Sessions that differ from a single run -/

/-- The run of the code of `true;` leaves True in the slot 0. -/
theorem true_line_run (vm0 : VM) (h : vm0.instructions = [code.OpTrue, code.OpPop])
    (hsp : vm0.sp = 0) (hl : vm0.stack.length = StackSize) :
    ∃ fuel vm1, vm0.Run fuel = some (.ok vm1) ∧ vm1.LastPoppedStackElem = some vm.True
      ∧ vm1.globals = vm0.globals := by
  obtain ⟨vm1, r1, p1⟩ := exec_singleton vm0 [] [code.OpPop] code.OpTrue vm.True
    (by rw [h]; rfl) (Or.inl ⟨rfl, rfl⟩) (by rw [hsp]; decide) (by rw [hsp, hl]; decide)
  obtain ⟨s1, t1, _, _, g1, _, i1, _⟩ := p1
  have hx : vm1.stack[vm1.sp - 1]? = some vm.True := by
    rw [s1, Nat.add_sub_cancel]
    exact t1
  obtain ⟨hi, hlt⟩ := ins_at vm1 [code.OpTrue] [] code.OpPop (by rw [i1, h]; rfl)
  have hi' : vm1.instructions[1]? = some code.OpPop := hi
  have hlt' : 1 < vm1.instructions.length := hlt
  have hs : vm1.step 1 = .ok ({ vm1 with sp := vm1.sp - 1 }, 1 + 1) := by
    rw [step_OpPop vm1 _ hi', pop_eq vm1 _ (by omega) hx]
  obtain ⟨fuel, hf⟩ := runFrom_of_reach_end (Reach.trans r1 (Reach.step hlt' hs)) (by
    show vm1.instructions.length ≤ _
    rw [i1, h]
    decide)
  exact ⟨fuel, _, hf, hx, g1⟩

/-- The line `return 1;` behind the line `true;`: the second compiler emits no
code, so the second machine has popped nothing and its slot 0 is empty, while
the single run of `true; return 1;` has popped True. -/
theorem return_line_differs :
    ∃ d1 d2 A B f1 f2 c fuel M,
      (NewWithState NewSymbolTable []).Compile (.Program [trueStatement]) = .ok d1
      ∧ (vm.NewWithState d1.Bytecode (List.replicate GlobalsSize Object.nil)).Run f1
          = some (.ok A)
      ∧ (NewWithState d1.symbolTable d1.constants).Compile
          (.Program [.ReturnStatement (.IntegerLiteral 1)]) = .ok d2
      ∧ (vm.NewWithState d2.Bytecode A.globals).Run f2 = some (.ok B)
      ∧ New.Compile (.Program ([trueStatement] ++ [.ReturnStatement (.IntegerLiteral 1)]))
          = .ok c
      ∧ (vm.New c.Bytecode).Run fuel = some (.ok M)
      ∧ M.LastPoppedStackElem = some vm.True ∧ B.LastPoppedStackElem = some Object.nil := by
  have hlen : (List.replicate StackSize Object.nil).length = StackSize := List.length_replicate _ _
  obtain ⟨f1, A, hA, _, _⟩ := true_line_run
    (vm.NewWithState ⟨[code.OpTrue, code.OpPop], []⟩ (List.replicate GlobalsSize Object.nil))
    rfl rfl hlen
  obtain ⟨fuel, M, hM, hpM, _⟩ := true_line_run (vm.New ⟨[code.OpTrue, code.OpPop], []⟩)
    rfl rfl hlen
  refine ⟨{ instructions := [code.OpTrue, code.OpPop], constants := [],
            lastInstruction := ⟨code.OpPop, 1⟩, previousInstruction := ⟨code.OpTrue, 0⟩,
            symbolTable := NewSymbolTable },
          NewWithState NewSymbolTable [], A, vm.NewWithState ⟨[], []⟩ A.globals, f1, 1,
          { instructions := [code.OpTrue, code.OpPop], constants := [],
            lastInstruction := ⟨code.OpPop, 1⟩, previousInstruction := ⟨code.OpTrue, 0⟩,
            symbolTable := NewSymbolTable },
          fuel, M, rfl, hA, rfl, rfl, rfl, hM, hpM, ?_⟩
  show (List.replicate StackSize Object.nil)[0]? = _
  rw [List.getElem?_replicate, if_pos (by decide)]

end compiler

namespace compiler

open object vm ast

/-- The code of `wrapLast` at the start of a stream, where the global `g` has
the index 0. -/
theorem compile_last_line :
    (NewWithState (NewSymbolTable.Define "g").2 []).CompileStatements [wrapLast]
      = .ok { instructions := [16, 0, 0, 13, 0, 10, 6, 14, 0, 22, 6, 2, 6, 2, 6, 2, 6, 2, 6, 2,
                6, 12, 2],
              constants := [], lastInstruction := ⟨2, 22⟩, previousInstruction := ⟨12, 21⟩,
              symbolTable := (NewSymbolTable.Define "g").2 } := by decide!

/-- The statement `wrapFirst` and `n` statements `true;` from a new compiler. -/
theorem compile_first_lines (n : Nat) :
    ∃ d1, New.CompileStatements ([wrapFirst] ++ List.replicate n trueStatement) = .ok d1
      ∧ d1.instructions = wrapFirstCode ++ truePad n ∧ d1.constants = []
      ∧ d1.symbolTable = (NewSymbolTable.Define "g").2 := by
  have h0 : New.CompileStatement wrapFirst
      = .ok { instructions := [6, 13, 0, 8, 6, 14, 0, 13, 7, 17, 0, 0, 6, 2], constants := [],
              lastInstruction := ⟨2, 13⟩, previousInstruction := ⟨6, 12⟩,
              symbolTable := (NewSymbolTable.Define "g").2 } := by decide!
  obtain ⟨c', h1, h2, h3, h4⟩ := compile_truePad n
    { instructions := [6, 13, 0, 8, 6, 14, 0, 13, 7, 17, 0, 0, 6, 2], constants := [],
      lastInstruction := ⟨2, 13⟩, previousInstruction := ⟨6, 12⟩,
      symbolTable := (NewSymbolTable.Define "g").2 } []
  refine ⟨c', ?_, h2, h3, h4⟩
  rw [List.singleton_append, compile_cons, h0]
  show Compiler.CompileStatements _ (List.replicate n trueStatement) = _
  rw [← List.append_nil (List.replicate n trueStatement), h1]
  rfl

/-- The loop of `Run` on the code of `wrapFirst` and `n` statements `true;`
leaves the global 0 empty. -/
theorem first_lines_run (n : Nat) (vm0 : VM)
    (m : Mach (wrapFirstCode ++ truePad n) vm0 0 Object.nil) :
    ∃ vm1, Reach vm0 0 vm1 (14 + 2 * n) ∧ Mach (wrapFirstCode ++ truePad n) vm1 0 Object.nil := by
  obtain ⟨vmA, rA, mA⟩ := mach_true_jnt _ vm0 0 0 8 _ []
    ([6, 14, 0, 13, 7, 17, 0, 0, 6, 2] ++ truePad n) m rfl rfl (by decide) (by decide)
  obtain ⟨vmB, rB, mB⟩ := mach_push _ vmA 0 4 _ [6, 13, 0, 8]
    ([14, 0, 13, 7, 17, 0, 0, 6, 2] ++ truePad n) 6 mA rfl rfl (Or.inl rfl) (by decide)
  have rC := (exec_OpJump vmB [6, 13, 0, 8, 6] ([7, 17, 0, 0, 6, 2] ++ truePad n)
    13 (by rw [mB.1]; rfl) (by decide)).cast (show _ = 5 from rfl) rfl
  obtain ⟨vmD, rD, mD⟩ := mach_pop _ vmB 0 13 _ [6, 13, 0, 8, 6, 14, 0, 13, 7, 17, 0, 0, 6]
    (truePad n) mB rfl rfl (by decide)
  obtain ⟨vmE, rE, mE⟩ := mach_pad _ Object.nil 0 (by decide) n vmD 14 wrapFirstCode
    [] mD (by simp) rfl
  exact ⟨vmE, Reach.trans rA (Reach.trans rB (Reach.trans rC (Reach.trans rD rE))), mE⟩

/-- The loop of `Run` on the code of `wrapLast` at the start of a stream, with
the global 0 empty, takes the consequence and leaves the global 0 empty. -/
theorem last_line_run (vm0 : VM)
    (m : Mach [16, 0, 0, 13, 0, 10, 6, 14, 0, 22, 6, 2, 6, 2, 6, 2, 6, 2, 6, 2, 6, 12, 2] vm0 0
      Object.nil) :
    ∃ vm1, Reach vm0 0 vm1 23
      ∧ Mach [16, 0, 0, 13, 0, 10, 6, 14, 0, 22, 6, 2, 6, 2, 6, 2, 6, 2, 6, 2, 6, 12, 2] vm1 0
          Object.nil := by
  obtain ⟨vmA, rA, mA⟩ := mach_global_jnt _ vm0 0 0 10 _ []
    [6, 14, 0, 22, 6, 2, 6, 2, 6, 2, 6, 2, 6, 2, 6, 12, 2] m rfl rfl (by decide) (by decide)
  have hA : (if isTruthy Object.nil then 0 + 6 else 10) = 6 := rfl
  rw [hA] at rA
  obtain ⟨vmB, rB, mB⟩ := mach_push _ vmA 0 6 _ [16, 0, 0, 13, 0, 10]
    [14, 0, 22, 6, 2, 6, 2, 6, 2, 6, 2, 6, 2, 6, 12, 2] 6 mA rfl rfl (Or.inl rfl) (by decide)
  have rC := (exec_OpJump vmB [16, 0, 0, 13, 0, 10, 6] [6, 2, 6, 2, 6, 2, 6, 2, 6, 2, 6, 12, 2]
    22 (by rw [mB.1]; rfl) (by decide)).cast (show _ = 6 + 1 from rfl) rfl
  obtain ⟨vmD, rD, mD⟩ := mach_pop _ vmB 0 22 _
    [16, 0, 0, 13, 0, 10, 6, 14, 0, 22, 6, 2, 6, 2, 6, 2, 6, 2, 6, 2, 6, 12] [] mB rfl rfl
    (by decide)
  exact ⟨vmD, Reach.trans rA (Reach.trans rB (Reach.trans rC rD)), mD⟩

end compiler

namespace compiler

open object vm ast

/-- The loop of `Run` on the stream of `wrapProgram 32754` comes to the end of
the stream with False in the global 0: the OpJump of the last conditional leads
back into the alternative of the first, which sets the global. -/
theorem wrap_run_sets_global (n : Nat) (hn : n = 32754) (vm0 : VM)
    (m : Mach (wrapFirstCode ++ truePad n ++ wrapLastCode) vm0 0 Object.nil) :
    ∃ vm1, Reach vm0 0 vm1 65545 ∧ vm1.globals[0]? = some vm.False
      ∧ vm1.instructions.length = 65545 := by
  have hl : (wrapFirstCode ++ truePad n).length = 14 + 2 * n := by
    rw [List.length_append, truePad_length]; rfl
  obtain ⟨vmA, rA, mA⟩ := mach_true_jnt _ vm0 0 0 8 _ []
    ([6, 14, 0, 13, 7, 17, 0, 0, 6, 2] ++ truePad n ++ wrapLastCode) m rfl rfl
    (by decide) (by decide)
  obtain ⟨vmB, rB, mB⟩ := mach_push _ vmA 0 4 _ [6, 13, 0, 8]
    ([14, 0, 13, 7, 17, 0, 0, 6, 2] ++ truePad n ++ wrapLastCode) 6 mA rfl rfl
    (Or.inl rfl) (by decide)
  have rC := (exec_OpJump vmB [6, 13, 0, 8, 6] ([7, 17, 0, 0, 6, 2] ++ truePad n ++ wrapLastCode)
    13 (by rw [mB.1]; rfl) (by decide)).cast (show _ = 5 from rfl) rfl
  obtain ⟨vmD, rD, mD⟩ := mach_pop _ vmB 0 13 _ [6, 13, 0, 8, 6, 14, 0, 13, 7, 17, 0, 0, 6]
    (truePad n ++ wrapLastCode) mB rfl rfl (by decide)
  obtain ⟨vmE, rE, mE⟩ := mach_pad _ Object.nil 0 (by decide) n vmD 14 wrapFirstCode
    wrapLastCode mD rfl rfl
  obtain ⟨vmF, rF, mF⟩ := mach_global_jnt _ vmE 0 (14 + 2 * n) 65532 _
    (wrapFirstCode ++ truePad n)
    [6, 14, 0, 8, 6, 2, 6, 2, 6, 2, 6, 2, 6, 2, 6, 12, 2] mE
    (by simp [wrapLastCode]) hl (by decide) (by decide)
  have hF : (if isTruthy Object.nil then 14 + 2 * n + 6 else 65532) = 14 + 2 * n + 6 := rfl
  rw [hF] at rF
  obtain ⟨vmG, rG, mG⟩ := mach_push _ vmF 0 (14 + 2 * n + 6) _
    (wrapFirstCode ++ truePad n ++ [16, 0, 0, 13, 255, 252])
    [14, 0, 8, 6, 2, 6, 2, 6, 2, 6, 2, 6, 2, 6, 12, 2] 6 mF
    (by simp [wrapLastCode]) (by rw [List.length_append, hl]; rfl) (Or.inl rfl) (by decide)
  have rH := (exec_OpJump vmG (wrapFirstCode ++ truePad n ++ [16, 0, 0, 13, 255, 252, 6])
    [6, 2, 6, 2, 6, 2, 6, 2, 6, 2, 6, 12, 2] 8
    (by rw [mG.1]; simp [wrapLastCode]) (by decide)).cast
    (show _ = 14 + 2 * n + 6 + 1 by rw [List.length_append, hl]; rfl) rfl
  obtain ⟨vmI, rI, mI⟩ := mach_false_set _ vmG 1 8 _ [6, 13, 0, 8, 6, 14, 0, 13]
    ([6, 2] ++ truePad n ++ wrapLastCode) mG rfl rfl (by decide)
  obtain ⟨vmJ, rJ, mJ⟩ := mach_push _ vmI 1 12 _ [6, 13, 0, 8, 6, 14, 0, 13, 7, 17, 0, 0]
    ([2] ++ truePad n ++ wrapLastCode) 6 mI rfl rfl (Or.inl rfl) (by decide)
  obtain ⟨vmK, rK, mK⟩ := mach_pop _ vmJ 1 13 _ [6, 13, 0, 8, 6, 14, 0, 13, 7, 17, 0, 0, 6]
    (truePad n ++ wrapLastCode) mJ rfl rfl (by decide)
  obtain ⟨vmL, rL, mL⟩ := mach_pad _ False 1 (by decide) n vmK 14 wrapFirstCode
    wrapLastCode mK rfl rfl
  obtain ⟨vmM, rM, mM⟩ := mach_global_jnt _ vmL 1 (14 + 2 * n) 65532 _
    (wrapFirstCode ++ truePad n)
    [6, 14, 0, 8, 6, 2, 6, 2, 6, 2, 6, 2, 6, 2, 6, 12, 2] mL
    (by simp [wrapLastCode]) hl (by decide) (by decide)
  have hM : (if isTruthy False then 14 + 2 * n + 6 else 65532) = 65532 := rfl
  rw [hM] at rM
  obtain ⟨vmN, rN, mN⟩ := mach_pad _ False 1 (by decide) 5 vmM 65532
    (wrapFirstCode ++ truePad n ++ [16, 0, 0, 13, 255, 252, 6, 14, 0, 8]) [6, 12, 2] mM
    (by simp [wrapLastCode, truePad]) (by rw [List.length_append, hl]; simp; omega)
  obtain ⟨vmO, rO, mO⟩ := mach_true_bang _ vmN 1 (65532 + 2 * 5) _
    (wrapFirstCode ++ truePad n ++ [16, 0, 0, 13, 255, 252, 6, 14, 0, 8] ++ truePad 5) [2] mN
    (by simp [wrapLastCode, truePad])
    (by rw [List.length_append, List.length_append, hl]; simp [truePad]; omega) (by decide)
  obtain ⟨vmP, rP, mP⟩ := mach_pop _ vmO 1 (65532 + 2 * 5 + 2) _
    (wrapFirstCode ++ truePad n ++ [16, 0, 0, 13, 255, 252, 6, 14, 0, 8] ++ truePad 5 ++ [6, 12])
    [] mO (by simp [wrapLastCode, truePad])
    (by rw [List.length_append, List.length_append, List.length_append, hl]
        simp [truePad]; omega) (by decide)
  refine ⟨vmP, ?_, mP.2.2.2, ?_⟩
  · exact Reach.trans rA (Reach.trans rB (Reach.trans rC (Reach.trans rD (Reach.trans rE
      (Reach.trans rF (Reach.trans rG (Reach.trans rH (Reach.trans rI (Reach.trans rJ
      (Reach.trans rK (Reach.trans rL (Reach.trans rM (Reach.trans rN
      (Reach.trans rO rP))))))))))))))
  · rw [mP.1, List.length_append, hl]
    simp [wrapLastCode]
    omega

/-- The line `wrapLast` behind the lines `wrapFirst; true; ... true;` with 32754
statements `true;`: the second machine takes the consequence of the
conditional and leaves the global `g` empty, while in the single run, on a
stream of 65545 bytes, the OpJump behind that consequence has the target 65544
written as 8 and the loop sets `g` to False. -/
theorem long_session_differs :
    ∃ d1 d2 A B f1 f2 c fuel M,
      (∃ s ∈ [wrapLast], s.isReturn = false)
      ∧ (NewWithState NewSymbolTable []).Compile
          (.Program ([wrapFirst] ++ List.replicate 32754 trueStatement)) = .ok d1
      ∧ (vm.NewWithState d1.Bytecode (List.replicate GlobalsSize Object.nil)).Run f1
          = some (.ok A)
      ∧ (NewWithState d1.symbolTable d1.constants).Compile (.Program [wrapLast]) = .ok d2
      ∧ (vm.NewWithState d2.Bytecode A.globals).Run f2 = some (.ok B)
      ∧ New.Compile (.Program (([wrapFirst] ++ List.replicate 32754 trueStatement)
          ++ [wrapLast])) = .ok c
      ∧ d1.instructions.length + d2.instructions.length = 65545
      ∧ (vm.New c.Bytecode).Run fuel = some (.ok M)
      ∧ M.globals[0]? = some vm.False ∧ B.globals[0]? = some Object.nil := by
  have hst : (List.replicate StackSize Object.nil).length = StackSize := List.length_replicate _ _
  obtain ⟨d1, hc1, hi1, hk1, hy1⟩ := compile_first_lines 32754
  have mA : Mach (wrapFirstCode ++ truePad 32754)
      (vm.NewWithState d1.Bytecode (List.replicate GlobalsSize Object.nil)) 0 Object.nil := by
    refine ⟨hi1, rfl, hst, ?_⟩
    show (List.replicate GlobalsSize Object.nil)[0]? = _
    rw [List.getElem?_replicate, if_pos (by decide)]
  obtain ⟨A, rA, mA'⟩ := first_lines_run 32754 _ mA
  obtain ⟨f1, hA⟩ := runFrom_of_reach_end rA (by
    rw [mA'.1, List.length_append, truePad_length]
    exact Nat.le_refl _)
  have hc2 : (NewWithState d1.symbolTable d1.constants).CompileStatements [wrapLast]
      = .ok { instructions := [16, 0, 0, 13, 0, 10, 6, 14, 0, 22, 6, 2, 6, 2, 6, 2, 6, 2, 6, 2,
                6, 12, 2],
              constants := [], lastInstruction := ⟨2, 22⟩, previousInstruction := ⟨12, 21⟩,
              symbolTable := (NewSymbolTable.Define "g").2 } := by
    rw [hy1, hk1]
    exact compile_last_line
  have mB : Mach [16, 0, 0, 13, 0, 10, 6, 14, 0, 22, 6, 2, 6, 2, 6, 2, 6, 2, 6, 2, 6, 12, 2]
      (vm.NewWithState ⟨[16, 0, 0, 13, 0, 10, 6, 14, 0, 22, 6, 2, 6, 2, 6, 2, 6, 2, 6, 2, 6, 12,
        2], []⟩ A.globals) 0 Object.nil := ⟨rfl, rfl, hst, mA'.2.2.2⟩
  obtain ⟨B, rB, mB'⟩ := last_line_run _ mB
  obtain ⟨f2, hB⟩ := runFrom_of_reach_end rB (by rw [mB'.1]; exact Nat.le_refl _)
  obtain ⟨c, hc, hi⟩ := compile_wrap 32754 rfl
  have mM : Mach (wrapFirstCode ++ truePad 32754 ++ wrapLastCode) (vm.New c.Bytecode) 0
      Object.nil := by
    refine ⟨hi, rfl, hst, ?_⟩
    show (List.replicate GlobalsSize Object.nil)[0]? = _
    rw [List.getElem?_replicate, if_pos (by decide)]
  obtain ⟨M, rM, hg, hlen⟩ := wrap_run_sets_global 32754 rfl _ mM
  obtain ⟨fuel, hM⟩ := runFrom_of_reach_end rM (by rw [hlen])
  refine ⟨d1, _, A, B, f1, f2, c, fuel, M, ⟨_, List.mem_singleton.mpr rfl, rfl⟩, hc1, hA, hc2,
    hB, hc, ?_, hM, hg, mB'.2.2.2⟩
  rw [hi1, List.length_append, truePad_length]
  rfl

/-- C24 (counterexample): two sessions of two lines that compile and run
without error and differ from the single run of both lines. In the first the
second line is `return 1;`, for which no code is emitted: the second machine
has popped nothing, the single run has popped True. In the second the two
streams have 65545 bytes together: a jump target of the single stream does not
fit its operand of two bytes, and the single run sets the global `g`, which
the second machine leaves empty. -/
theorem repl_differs_from_single_run :
    (∃ d1 d2 A B f1 f2 c fuel M,
      (NewWithState NewSymbolTable []).Compile (.Program [trueStatement]) = .ok d1
      ∧ (vm.NewWithState d1.Bytecode (List.replicate GlobalsSize Object.nil)).Run f1
          = some (.ok A)
      ∧ (NewWithState d1.symbolTable d1.constants).Compile
          (.Program [.ReturnStatement (.IntegerLiteral 1)]) = .ok d2
      ∧ (vm.NewWithState d2.Bytecode A.globals).Run f2 = some (.ok B)
      ∧ New.Compile (.Program ([trueStatement] ++ [.ReturnStatement (.IntegerLiteral 1)]))
          = .ok c
      ∧ (vm.New c.Bytecode).Run fuel = some (.ok M)
      ∧ M.LastPoppedStackElem ≠ B.LastPoppedStackElem)
    ∧ (∃ d1 d2 A B f1 f2 c fuel M,
      (∃ s ∈ [wrapLast], s.isReturn = false)
      ∧ (NewWithState NewSymbolTable []).Compile
          (.Program ([wrapFirst] ++ List.replicate 32754 trueStatement)) = .ok d1
      ∧ (vm.NewWithState d1.Bytecode (List.replicate GlobalsSize Object.nil)).Run f1
          = some (.ok A)
      ∧ (NewWithState d1.symbolTable d1.constants).Compile (.Program [wrapLast]) = .ok d2
      ∧ (vm.NewWithState d2.Bytecode A.globals).Run f2 = some (.ok B)
      ∧ New.Compile (.Program (([wrapFirst] ++ List.replicate 32754 trueStatement)
          ++ [wrapLast])) = .ok c
      ∧ (vm.New c.Bytecode).Run fuel = some (.ok M)
      ∧ M.globals ≠ B.globals) := by
  constructor
  · obtain ⟨d1, d2, A, B, f1, f2, c, fuel, M, h1, h2, h3, h4, h5, h6, h7, h8⟩ :=
      return_line_differs
    refine ⟨d1, d2, A, B, f1, f2, c, fuel, M, h1, h2, h3, h4, h5, h6, ?_⟩
    rw [h7, h8]
    intro h
    cases h
  · obtain ⟨d1, d2, A, B, f1, f2, c, fuel, M, h0, h1, h2, h3, h4, h5, _, h6, h7, h8⟩ :=
      long_session_differs
    refine ⟨d1, d2, A, B, f1, f2, c, fuel, M, h0, h1, h2, h3, h4, h5, h6, ?_⟩
    intro h
    rw [h, h8] at h7
    cases h7

end compiler

namespace compiler

open object ast

/-! ### Patching an operand in place -/

/-- C32: let an instruction with one operand of 16 bits start at `opPos`, that
is, the stream is `A`, an opcode with the declared widths `[2]`, two operand
bytes and `B`, with `opPos` the length of `A`. Then `changeOperand(opPos,
operand)` returns, leaves the length of the stream, the opcode byte at `opPos`
and every byte other than those at `opPos+1` and `opPos+2` as they are, and
sets these two bytes to the big-endian bytes of the operand (of its low 16
bits, which for an operand below 65536 `ReadUint16` reads back as the operand);
the other fields of the compiler are unchanged. -/
theorem changeOperand_frame (c : Compiler) (A B : List Nat) (op x y operand : Nat)
    (hi : c.instructions = A ++ op :: x :: y :: B)
    (hw : code.operandWidths op = some [2]) :
    ∃ c1, c.changeOperand A.length operand = some c1
      ∧ c1.instructions.length = c.instructions.length
      ∧ c1.instructions[A.length]? = some op
      ∧ (∀ i, i ≠ A.length + 1 → i ≠ A.length + 2 → c1.instructions[i]? = c.instructions[i]?)
      ∧ (c1.instructions.drop (A.length + 1)).take 2 = code.bigEndian 2 operand
      ∧ (operand < 65536 → code.ReadUint16 (c1.instructions.drop (A.length + 1)) = some operand)
      ∧ c1.constants = c.constants ∧ c1.symbolTable = c.symbolTable
      ∧ c1.lastInstruction = c.lastInstruction
      ∧ c1.previousInstruction = c.previousInstruction := by
  have hdrop : ∀ (u v : Nat), (A ++ op :: u :: v :: B).drop (A.length + 1) = u :: v :: B := by
    intro u v
    rw [show A ++ op :: u :: v :: B = (A ++ [op]) ++ (u :: v :: B) by simp]
    rw [List.drop_left' (by simp)]
  refine ⟨{ c with instructions := A ++ op :: (operand / 256 % 256) :: (operand % 256) :: B },
    changeOperand_at c A B op x y operand hi hw, ?_, ?_, ?_, ?_, ?_, rfl, rfl, rfl, rfl⟩
  · rw [hi]
    simp
  · show (A ++ op :: (operand / 256 % 256) :: (operand % 256) :: B)[A.length]? = _
    rw [List.getElem?_append_right (Nat.le_refl _)]
    simp
  · intro i h1 h2
    show (A ++ op :: (operand / 256 % 256) :: (operand % 256) :: B)[i]? = _
    rw [hi]
    by_cases hlt : i < A.length
    · rw [List.getElem?_append_left hlt, List.getElem?_append_left hlt]
    · have hle : A.length ≤ i := Nat.le_of_not_lt hlt
      rw [List.getElem?_append_right hle, List.getElem?_append_right hle]
      obtain ⟨k, hk⟩ : ∃ k, i - A.length = k := ⟨_, rfl⟩
      rw [hk]
      match k, hk with
      | 0, _ => rfl
      | 1, hk => exact absurd (by omega) h1
      | 2, hk => exact absurd (by omega) h2
      | k + 3, _ => rfl
  · show ((A ++ op :: (operand / 256 % 256) :: (operand % 256) :: B).drop (A.length + 1)).take 2
      = _
    rw [hdrop]
    simp [code.bigEndian]
  · intro hlt
    show code.ReadUint16
      ((A ++ op :: (operand / 256 % 256) :: (operand % 256) :: B).drop (A.length + 1)) = _
    rw [hdrop]
    show some (operand / 256 % 256 * 256 + operand % 256) = _
    rw [vm.u16_decode, Nat.mod_eq_of_lt hlt]

/-- Witness of C32: the placeholder 9999 of an OpJumpNotTruthy behind an OpTrue
is set to 7. -/
theorem changeOperand_frame_witness :
    ∃ c1, Compiler.changeOperand
        { New with instructions := [code.OpTrue, code.OpJumpNotTruthy, 39, 15, code.OpPop] }
        [code.OpTrue].length 7 = some c1
      ∧ c1.instructions.length
        = (Compiler.instructions
            { New with instructions := [code.OpTrue, code.OpJumpNotTruthy, 39, 15, code.OpPop] }).length
      ∧ c1.instructions[[code.OpTrue].length]? = some code.OpJumpNotTruthy
      ∧ (∀ i, i ≠ [code.OpTrue].length + 1 → i ≠ [code.OpTrue].length + 2 →
          c1.instructions[i]? = (Compiler.instructions
            { New with instructions := [code.OpTrue, code.OpJumpNotTruthy, 39, 15, code.OpPop] })[i]?)
      ∧ (c1.instructions.drop ([code.OpTrue].length + 1)).take 2 = code.bigEndian 2 7
      ∧ ((7 : Nat) < 65536 →
          code.ReadUint16 (c1.instructions.drop ([code.OpTrue].length + 1)) = some 7)
      ∧ c1.constants = New.constants ∧ c1.symbolTable = New.symbolTable
      ∧ c1.lastInstruction = New.lastInstruction
      ∧ c1.previousInstruction = New.previousInstruction :=
  changeOperand_frame
    { New with instructions := [code.OpTrue, code.OpJumpNotTruthy, 39, 15, code.OpPop] }
    [code.OpTrue] [code.OpPop] code.OpJumpNotTruthy 39 15 7 rfl rfl

end compiler

namespace vm

open object

/-! ### The Booleans of the machine -/

theorem canonical_bool (p : Nat) (v : Bool) :
    canonical (.Boolean p v) = true ↔ (Object.Boolean p v = True ∨ Object.Boolean p v = False) := by
  rw [canonical]
  constructor
  · intro h
    cases v with
    | true =>
      have : p = 1 := by simpa using h
      subst this
      exact Or.inl rfl
    | false =>
      have : p = 2 := by simpa using h
      subst this
      exact Or.inr rfl
  · rintro (h | h)
    · cases h; rfl
    · cases h; rfl

theorem canonical_native (b : Bool) : canonical (nativeBoolToBooleanObject b) = true := by
  cases b <;> rfl

theorem canonicalList_iff (es : List Object) :
    canonicalList es = true ↔ ∀ o ∈ es, canonical o = true := by
  induction es with
  | nil => simp [canonicalList]
  | cons a rest ih =>
    rw [canonicalList, Bool.and_eq_true, ih]
    simp

theorem canonicalPairs_iff (ps : List (HashKey × Object × Object)) :
    canonicalPairs ps = true
      ↔ ∀ x ∈ ps, canonical x.2.1 = true ∧ canonical x.2.2 = true := by
  induction ps with
  | nil => simp [canonicalPairs]
  | cons a rest ih =>
    obtain ⟨k, u, v⟩ := a
    rw [canonicalPairs, Bool.and_eq_true, Bool.and_eq_true, ih]
    simp

mutual
theorem canonical_of_boolFree : ∀ (o : Object), boolFree o = true → canonical o = true
  | .nil, _ => rfl
  | .Integer _, _ => rfl
  | .Boolean _ _, h => by cases h
  | .Null _, _ => rfl
  | .String _ _, _ => rfl
  | .Array _ es, h => by
    rw [canonical]
    rw [boolFree] at h
    exact canonicalList_of_boolFree es h
  | .Hash _ ps, h => by
    rw [canonical]
    rw [boolFree] at h
    exact canonicalPairs_of_boolFree ps h
theorem canonicalList_of_boolFree : ∀ (es : List Object),
    boolFreeList es = true → canonicalList es = true
  | [], _ => rfl
  | o :: os, h => by
    rw [boolFreeList, Bool.and_eq_true] at h
    rw [canonicalList, Bool.and_eq_true]
    exact ⟨canonical_of_boolFree o h.1, canonicalList_of_boolFree os h.2⟩
theorem canonicalPairs_of_boolFree : ∀ (ps : List (HashKey × Object × Object)),
    boolFreePairs ps = true → canonicalPairs ps = true
  | [], _ => rfl
  | (_, k, v) :: ps, h => by
    rw [boolFreePairs, Bool.and_eq_true, Bool.and_eq_true] at h
    rw [canonicalPairs, Bool.and_eq_true, Bool.and_eq_true]
    exact ⟨⟨canonical_of_boolFree k h.1.1, canonical_of_boolFree v h.1.2⟩,
      canonicalPairs_of_boolFree ps h.2⟩
end

theorem mem_mapSet {α : Type} (m : List (HashKey × α)) (k : HashKey) (v : α) :
    ∀ x ∈ mapSet m k v, x = (k, v) ∨ x ∈ m := by
  induction m with
  | nil =>
    intro x hx
    simp only [mapSet, List.mem_singleton] at hx
    exact Or.inl hx
  | cons a rest ih =>
    obtain ⟨k', v'⟩ := a
    intro x hx
    rw [mapSet] at hx
    split_ifs at hx
    · rcases List.mem_cons.mp hx with h | h
      · exact Or.inl h
      · exact Or.inr (List.mem_cons_of_mem _ h)
    · rcases List.mem_cons.mp hx with h | h
      · exact Or.inr (h ▸ List.mem_cons_self _ _)
      · rcases ih x h with h' | h'
        · exact Or.inl h'
        · exact Or.inr (List.mem_cons_of_mem _ h')

theorem mem_of_mapGet {α : Type} (m : List (HashKey × α)) (k : HashKey) (v : α) :
    mapGet m k = some v → ∃ k', (k', v) ∈ m := by
  induction m with
  | nil => intro h; cases h
  | cons a rest ih =>
    obtain ⟨k', v'⟩ := a
    intro h
    rw [mapGet] at h
    split_ifs at h
    · cases h
      exact ⟨k', List.mem_cons_self _ _⟩
    · obtain ⟨k'', hk⟩ := ih h
      exact ⟨k'', List.mem_cons_of_mem _ hk⟩

theorem buildHashLoop_canonical (stack : List Object) (hs : ∀ o ∈ stack, canonical o = true) :
    ∀ (n i : Nat) (acc res : List (HashKey × Object × Object)),
      canonicalPairs acc = true → buildHashLoop stack n i acc = .ok res →
      canonicalPairs res = true := by
  intro n
  induction n with
  | zero =>
    intro i acc res ha h
    rw [buildHashLoop] at h
    cases h
    exact ha
  | succ k ih =>
    intro i acc res ha h
    rw [buildHashLoop] at h
    cases h1 : stack[i]? with
    | none => simp only [h1] at h; cases h
    | some key =>
      cases h2 : stack[i + 1]? with
      | none => simp only [h1, h2] at h; cases h
      | some value =>
        simp only [h1, h2] at h
        cases h3 : key.HashKey with
        | none =>
          simp only [h3] at h
          cases h4 : key.Type with
          | none => simp only [h4] at h; cases h
          | some t => simp only [h4] at h; cases h
        | some hk =>
          simp only [h3] at h
          refine ih (i + 2) _ res ?_ h
          rw [canonicalPairs_iff] at ha ⊢
          intro x hx
          rcases mem_mapSet acc hk (key, value) x hx with e | e
          · rw [e]
            exact ⟨hs key (List.getElem?_mem h1), hs value (List.getElem?_mem h2)⟩
          · exact ha x e

theorem buildHash_canonical (vm : VM) (a b : Int) (o : Object)
    (hs : ∀ o ∈ vm.stack, canonical o = true) (h : vm.buildHash a b = .ok o) :
    canonical o = true := by
  unfold VM.buildHash at h
  split_ifs at h
  · cases h; rfl
  · cases hl : buildHashLoop vm.stack ((b.toNat - a.toNat + 1) / 2) a.toNat [] with
    | ok pairs =>
      rw [hl] at h
      cases h
      rw [canonical]
      exact buildHashLoop_canonical vm.stack hs _ _ [] pairs rfl hl
    | error msg x => rw [hl] at h; cases h
    | panic => rw [hl] at h; cases h

theorem buildArray_canonical (vm : VM) (a b : Int) (o : Object)
    (hs : ∀ o ∈ vm.stack, canonical o = true) (h : vm.buildArray a b = some o) :
    canonical o = true := by
  unfold VM.buildArray at h
  split_ifs at h
  · cases h; rfl
  · cases h
    rw [canonical, canonicalList_iff]
    intro x hx
    exact hs x (List.mem_of_mem_drop (List.mem_of_mem_take hx))

end vm

namespace vm

open object

theorem push_canonical {vm vm1 : VM} {o : Object} (hc : vm.Canonical) (ho : canonical o = true)
    (h : vm.push o = .ok vm1) : vm1.Canonical := by
  unfold VM.push at h
  split_ifs at h
  cases h
  obtain ⟨h1, h2, h3, h4⟩ := hc
  refine ⟨by show (vm.stack.set vm.sp o).length = _; rw [List.length_set]; exact h1, ?_, h3, h4⟩
  intro x hx
  have hx' : x ∈ vm.stack.set vm.sp o := hx
  rcases List.mem_or_eq_of_mem_set hx' with e | e
  · exact h2 x e
  · rw [e]; exact ho

theorem pop_canonical {vm vm1 : VM} {o : Object} (hc : vm.Canonical)
    (h : vm.pop = some (o, vm1)) : canonical o = true ∧ vm1.Canonical := by
  unfold VM.pop at h
  split_ifs at h
  cases hs : vm.stack[vm.sp - 1]? with
  | none => rw [hs] at h; cases h
  | some x =>
    rw [hs] at h
    cases h
    exact ⟨hc.2.1 _ (List.getElem?_mem hs), hc⟩

/-- A machine that differs in `sp` and `heap` only. -/
theorem canonical_frame {vm : VM} (hc : vm.Canonical) (sp heap : Nat) :
    VM.Canonical { vm with sp := sp, heap := heap } := hc

theorem intop_canonical {vm vm1 : VM} {op : Nat} {l r : Int} (hc : vm.Canonical)
    (h : vm.executeBinaryIntegerOperation op l r = .ok vm1) : vm1.Canonical := by
  unfold VM.executeBinaryIntegerOperation at h
  split_ifs at h <;> exact push_canonical hc (by rfl) h

theorem strop_canonical {vm vm1 : VM} {op : Nat} {l r : List Nat} (hc : vm.Canonical)
    (h : vm.executeBinaryStringOperation op l r = .ok vm1) : vm1.Canonical := by
  unfold VM.executeBinaryStringOperation at h
  split_ifs at h
  exact push_canonical (canonical_frame hc vm.sp (vm.heap + 1)) (by rfl) h

theorem binop_canonical {vm vm1 : VM} {op : Nat} (hc : vm.Canonical)
    (h : vm.executeBinaryOperation op = .ok vm1) : vm1.Canonical := by
  unfold VM.executeBinaryOperation at h
  cases h1 : vm.pop with
  | none => rw [h1] at h; cases h
  | some p1 =>
    obtain ⟨right, v1⟩ := p1
    rw [h1] at h
    obtain ⟨_, c1⟩ := pop_canonical hc h1
    cases h2 : v1.pop with
    | none => simp only [h2] at h; cases h
    | some p2 =>
      obtain ⟨left, v2⟩ := p2
      simp only [h2] at h
      obtain ⟨_, c2⟩ := pop_canonical c1 h2
      cases left <;> cases right <;> simp only [Object.Type] at h <;>
        first
          | exact intop_canonical c2 h
          | exact strop_canonical c2 h
          | cases h

theorem intcmp_canonical {vm vm1 : VM} {op : Nat} {l r : Int} (hc : vm.Canonical)
    (h : vm.executeIntegerComparison op l r = .ok vm1) : vm1.Canonical := by
  unfold VM.executeIntegerComparison at h
  split_ifs at h <;> exact push_canonical hc (canonical_native _) h

theorem objcmp_canonical {vm vm1 : VM} {op : Nat} {l r : Object} (hc : vm.Canonical)
    (h : vm.executeObjectComparison op l r = .ok vm1) : vm1.Canonical := by
  unfold VM.executeObjectComparison at h
  split_ifs at h
  · exact push_canonical hc (canonical_native _) h
  · exact push_canonical hc (canonical_native _) h
  · cases hl : l.Type <;> cases hr : r.Type <;> simp only [hl, hr] at h <;> cases h

theorem cmp_canonical {vm vm1 : VM} {op : Nat} (hc : vm.Canonical)
    (h : vm.executeComparison op = .ok vm1) : vm1.Canonical := by
  unfold VM.executeComparison at h
  cases h1 : vm.pop with
  | none => rw [h1] at h; cases h
  | some p1 =>
    obtain ⟨right, v1⟩ := p1
    rw [h1] at h
    obtain ⟨_, c1⟩ := pop_canonical hc h1
    cases h2 : v1.pop with
    | none => simp only [h2] at h; cases h
    | some p2 =>
      obtain ⟨left, v2⟩ := p2
      simp only [h2] at h
      obtain ⟨_, c2⟩ := pop_canonical c1 h2
      cases left with
      | nil => cases h
      | Integer l =>
        cases right with
        | nil => cases h
        | Integer r => exact intcmp_canonical c2 h
        | _ => exact objcmp_canonical c2 h
      | _ => exact objcmp_canonical c2 h

theorem minus_canonical {vm vm1 : VM} (hc : vm.Canonical)
    (h : vm.executeMinusOperator = .ok vm1) : vm1.Canonical := by
  unfold VM.executeMinusOperator at h
  cases h1 : vm.pop with
  | none => rw [h1] at h; cases h
  | some p1 =>
    obtain ⟨o, v1⟩ := p1
    rw [h1] at h
    obtain ⟨_, c1⟩ := pop_canonical hc h1
    cases o <;> simp only [Object.Type] at h <;>
      first
        | exact push_canonical c1 (by rfl) h
        | cases h

theorem bang_canonical {vm vm1 : VM} (hc : vm.Canonical)
    (h : vm.executeBangOperator = .ok vm1) : vm1.Canonical := by
  unfold VM.executeBangOperator at h
  cases h1 : vm.pop with
  | none => rw [h1] at h; cases h
  | some p1 =>
    obtain ⟨o, v1⟩ := p1
    rw [h1] at h
    obtain ⟨_, c1⟩ := pop_canonical hc h1
    simp only at h
    split_ifs at h <;> exact push_canonical c1 (by rfl) h

theorem index_canonical {vm vm1 : VM} {left index : Object} (hc : vm.Canonical)
    (hl : canonical left = true) (h : vm.executeIndexExpression left index = .ok vm1) :
    vm1.Canonical := by
  unfold VM.executeIndexExpression at h
  cases left with
  | nil => cases h
  | Integer _ => cases h
  | Boolean _ _ => cases h
  | Null _ => cases h
  | Array p es =>
    rw [canonical, canonicalList_iff] at hl
    cases index with
    | Integer i =>
      simp only [VM.executeArrayIndex] at h
      split_ifs at h
      · exact push_canonical hc (by rfl) h
      · cases he : es[i.toNat]? with
        | none => rw [he] at h; cases h
        | some e =>
          rw [he] at h
          exact push_canonical hc (hl e (List.getElem?_mem he)) h
    | _ => cases h
  | Hash p ps =>
    rw [canonical, canonicalPairs_iff] at hl
    simp only [VM.executeHashIndex] at h
    cases hk : index.HashKey with
    | none =>
      simp only [hk] at h
      cases ht : index.Type with
      | none => simp only [ht] at h; cases h
      | some t => simp only [ht] at h; cases h
    | some key =>
      simp only [hk] at h
      cases hg : mapGet ps key with
      | none =>
        simp only [hg] at h
        exact push_canonical hc (by rfl) h
      | some pair =>
        simp only [hg] at h
        obtain ⟨k', hm⟩ := mem_of_mapGet ps key pair hg
        exact push_canonical hc (hl _ hm).2 h
  | String p str =>
    cases index with
    | Integer i =>
      simp only [VM.executeStringIndex] at h
      split_ifs at h
      · exact push_canonical hc (by rfl) h
      · cases he : str[i.toNat]? with
        | none => rw [he] at h; cases h
        | some e =>
          rw [he] at h
          exact push_canonical (canonical_frame hc vm.sp (vm.heap + 1)) (by rfl) h
    | _ => cases h

end vm

namespace vm

open object

theorem step_OpIndex (vm : VM) (ip : Nat)
    (hi : vm.instructions[ip]? = some code.OpIndex) :
    vm.step ip = (match vm.pop with
      | none => .panic
      | some (index, vm1) =>
        match vm1.pop with
        | none => .panic
        | some (left, vm2) => goOn (ip + 1) (vm2.executeIndexExpression left index)) := by
  rw [VM.step, hi]
  simp only [code.OpConstant, code.OpAdd, code.OpPop, code.OpSub, code.OpMul, code.OpDiv, code.OpTrue, code.OpFalse, code.OpEqual, code.OpNotEqual, code.OpGreaterThan, code.OpMinus, code.OpBang, code.OpJumpNotTruthy, code.OpJump, code.OpNull, code.OpGetGlobal, code.OpSetGlobal, code.OpArray, code.OpHash, code.OpIndex,
    Nat.reduceEqDiff, if_false, if_true, or_self, or_false, false_or, or_true, true_or]
  try rfl

/-- A byte without a case in the switch of `Run` only advances `ip`. -/
theorem step_other (vm : VM) (ip op : Nat) (hi : vm.instructions[ip]? = some op)
    (hne : ∀ x ∈ [code.OpConstant, code.OpAdd, code.OpPop, code.OpSub, code.OpMul, code.OpDiv, code.OpTrue, code.OpFalse, code.OpEqual, code.OpNotEqual, code.OpGreaterThan, code.OpMinus, code.OpBang, code.OpJumpNotTruthy, code.OpJump, code.OpNull, code.OpGetGlobal, code.OpSetGlobal, code.OpArray, code.OpHash, code.OpIndex], op ≠ x) :
    vm.step ip = .ok (vm, ip + 1) := by
  have h_OpConstant : op ≠ code.OpConstant := hne _ (by simp)
  have h_OpAdd : op ≠ code.OpAdd := hne _ (by simp)
  have h_OpSub : op ≠ code.OpSub := hne _ (by simp)
  have h_OpMul : op ≠ code.OpMul := hne _ (by simp)
  have h_OpDiv : op ≠ code.OpDiv := hne _ (by simp)
  have h_OpPop : op ≠ code.OpPop := hne _ (by simp)
  have h_OpTrue : op ≠ code.OpTrue := hne _ (by simp)
  have h_OpFalse : op ≠ code.OpFalse := hne _ (by simp)
  have h_OpEqual : op ≠ code.OpEqual := hne _ (by simp)
  have h_OpNotEqual : op ≠ code.OpNotEqual := hne _ (by simp)
  have h_OpGreaterThan : op ≠ code.OpGreaterThan := hne _ (by simp)
  have h_OpBang : op ≠ code.OpBang := hne _ (by simp)
  have h_OpMinus : op ≠ code.OpMinus := hne _ (by simp)
  have h_OpJump : op ≠ code.OpJump := hne _ (by simp)
  have h_OpJumpNotTruthy : op ≠ code.OpJumpNotTruthy := hne _ (by simp)
  have h_OpNull : op ≠ code.OpNull := hne _ (by simp)
  have h_OpSetGlobal : op ≠ code.OpSetGlobal := hne _ (by simp)
  have h_OpGetGlobal : op ≠ code.OpGetGlobal := hne _ (by simp)
  have h_OpArray : op ≠ code.OpArray := hne _ (by simp)
  have h_OpHash : op ≠ code.OpHash := hne _ (by simp)
  have h_OpIndex : op ≠ code.OpIndex := hne _ (by simp)
  rw [VM.step, hi]
  simp only [h_OpConstant, h_OpAdd, h_OpSub, h_OpMul, h_OpDiv, h_OpPop, h_OpTrue, h_OpFalse, h_OpEqual, h_OpNotEqual, h_OpGreaterThan, h_OpBang, h_OpMinus, h_OpJump, h_OpJumpNotTruthy, h_OpNull, h_OpSetGlobal, h_OpGetGlobal, h_OpArray, h_OpHash, h_OpIndex, if_false, or_self]

theorem goOn_canonical {n next : Nat} {r : Result VM} {vm1 : VM}
    (h : goOn n r = .ok (vm1, next)) (hr : ∀ v, r = .ok v → v.Canonical) : vm1.Canonical :=
  hr vm1 (goOn_ok h).1

/-- One round of the loop of `Run` keeps every Boolean of the machine one of
the two singletons. -/
theorem step_canonical {vm vm1 : VM} {ip next : Nat} (hc : vm.Canonical)
    (h : vm.step ip = .ok (vm1, next)) : vm1.Canonical := by
  cases hop : vm.instructions[ip]? with
  | none =>
    unfold VM.step at h
    rw [hop] at h
    cases h
  | some op =>
    by_cases h_OpConstant : op = code.OpConstant
    · subst h_OpConstant
      rw [step_OpConstant vm ip hop] at h
      cases ho : vm.operand ip with
      | none => simp only [ho] at h; cases h
      | some k =>
        simp only [ho] at h
        cases hk : vm.constants[k]? with
        | none => simp only [hk] at h; cases h
        | some o =>
          simp only [hk] at h
          exact goOn_canonical h
            (fun v hv => push_canonical hc (hc.2.2.2 o (List.getElem?_mem hk)) hv)
    by_cases h_OpAdd : op = code.OpAdd
    · subst h_OpAdd
      rw [step_OpAdd vm ip hop] at h
      exact goOn_canonical h (fun v hv => binop_canonical hc hv)
    by_cases h_OpSub : op = code.OpSub
    · subst h_OpSub
      rw [step_OpSub vm ip hop] at h
      exact goOn_canonical h (fun v hv => binop_canonical hc hv)
    by_cases h_OpMul : op = code.OpMul
    · subst h_OpMul
      rw [step_OpMul vm ip hop] at h
      exact goOn_canonical h (fun v hv => binop_canonical hc hv)
    by_cases h_OpDiv : op = code.OpDiv
    · subst h_OpDiv
      rw [step_OpDiv vm ip hop] at h
      exact goOn_canonical h (fun v hv => binop_canonical hc hv)
    by_cases h_OpPop : op = code.OpPop
    · subst h_OpPop
      rw [step_OpPop vm ip hop] at h
      cases hp : vm.pop with
      | none => simp only [hp] at h; cases h
      | some p =>
        obtain ⟨o, v⟩ := p
        simp only [hp] at h
        cases h
        exact (pop_canonical hc hp).2
    by_cases h_OpTrue : op = code.OpTrue
    · subst h_OpTrue
      rw [step_OpTrue vm ip hop] at h
      exact goOn_canonical h (fun v hv => push_canonical hc (by rfl) hv)
    by_cases h_OpFalse : op = code.OpFalse
    · subst h_OpFalse
      rw [step_OpFalse vm ip hop] at h
      exact goOn_canonical h (fun v hv => push_canonical hc (by rfl) hv)
    by_cases h_OpEqual : op = code.OpEqual
    · subst h_OpEqual
      rw [step_OpEqual vm ip hop] at h
      exact goOn_canonical h (fun v hv => cmp_canonical hc hv)
    by_cases h_OpNotEqual : op = code.OpNotEqual
    · subst h_OpNotEqual
      rw [step_OpNotEqual vm ip hop] at h
      exact goOn_canonical h (fun v hv => cmp_canonical hc hv)
    by_cases h_OpGreaterThan : op = code.OpGreaterThan
    · subst h_OpGreaterThan
      rw [step_OpGreaterThan vm ip hop] at h
      exact goOn_canonical h (fun v hv => cmp_canonical hc hv)
    by_cases h_OpBang : op = code.OpBang
    · subst h_OpBang
      rw [step_OpBang vm ip hop] at h
      exact goOn_canonical h (fun v hv => bang_canonical hc hv)
    by_cases h_OpMinus : op = code.OpMinus
    · subst h_OpMinus
      rw [step_OpMinus vm ip hop] at h
      exact goOn_canonical h (fun v hv => minus_canonical hc hv)
    by_cases h_OpJump : op = code.OpJump
    · subst h_OpJump
      rw [step_OpJump vm ip hop] at h
      cases ho : vm.operand ip with
      | none => simp only [ho] at h; cases h
      | some k =>
        simp only [ho] at h
        cases h
        exact hc
    by_cases h_OpJumpNotTruthy : op = code.OpJumpNotTruthy
    · subst h_OpJumpNotTruthy
      rw [step_OpJumpNotTruthy vm ip hop] at h
      cases ho : vm.operand ip with
      | none => simp only [ho] at h; cases h
      | some k =>
        simp only [ho] at h
        cases hp : vm.pop with
        | none => simp only [hp] at h; cases h
        | some p =>
          obtain ⟨o, v⟩ := p
          simp only [hp] at h
          split_ifs at h <;> cases h <;> exact (pop_canonical hc hp).2
    by_cases h_OpNull : op = code.OpNull
    · subst h_OpNull
      rw [step_OpNull vm ip hop] at h
      exact goOn_canonical h (fun v hv => push_canonical hc (by rfl) hv)
    by_cases h_OpSetGlobal : op = code.OpSetGlobal
    · subst h_OpSetGlobal
      rw [step_OpSetGlobal vm ip hop] at h
      cases ho : vm.operand ip with
      | none => simp only [ho] at h; cases h
      | some k =>
        simp only [ho] at h
        cases hp : vm.pop with
        | none => simp only [hp] at h; cases h
        | some p =>
          obtain ⟨o, v⟩ := p
          simp only [hp] at h
          obtain ⟨co, cv⟩ := pop_canonical hc hp
          split_ifs at h
          cases h
          refine ⟨cv.1, cv.2.1, ?_, cv.2.2.2⟩
          intro x hx
          have hx' : x ∈ v.globals.set k o := hx
          rcases List.mem_or_eq_of_mem_set hx' with e | e
          · exact cv.2.2.1 x e
          · rw [e]; exact co
    by_cases h_OpGetGlobal : op = code.OpGetGlobal
    · subst h_OpGetGlobal
      rw [step_OpGetGlobal vm ip hop] at h
      cases ho : vm.operand ip with
      | none => simp only [ho] at h; cases h
      | some k =>
        simp only [ho] at h
        cases hk : vm.globals[k]? with
        | none => simp only [hk] at h; cases h
        | some o =>
          simp only [hk] at h
          exact goOn_canonical h
            (fun v hv => push_canonical hc (hc.2.2.1 o (List.getElem?_mem hk)) hv)
    by_cases h_OpArray : op = code.OpArray
    · subst h_OpArray
      rw [step_OpArray vm ip hop] at h
      cases ho : vm.operand ip with
      | none => simp only [ho] at h; cases h
      | some k =>
        simp only [ho] at h
        cases hb : vm.buildArray ((vm.sp : Int) - k) vm.sp with
        | none => simp only [hb] at h; cases h
        | some arr =>
          simp only [hb] at h
          exact goOn_canonical h (fun v hv =>
            push_canonical (canonical_frame hc (vm.sp - k) (vm.heap + 1))
              (buildArray_canonical vm _ _ arr hc.2.1 hb) hv)
    by_cases h_OpHash : op = code.OpHash
    · subst h_OpHash
      rw [step_OpHash vm ip hop] at h
      cases ho : vm.operand ip with
      | none => simp only [ho] at h; cases h
      | some k =>
        simp only [ho] at h
        cases hb : vm.buildHash ((vm.sp : Int) - k) vm.sp with
        | panic => simp only [hb] at h; cases h
        | error msg x => simp only [hb] at h; cases h
        | ok hash =>
          simp only [hb] at h
          exact goOn_canonical h (fun v hv =>
            push_canonical (canonical_frame hc (vm.sp - k) (vm.heap + 1))
              (buildHash_canonical vm _ _ hash hc.2.1 hb) hv)
    by_cases h_OpIndex : op = code.OpIndex
    · subst h_OpIndex
      rw [step_OpIndex vm ip hop] at h
      cases hp : vm.pop with
      | none => simp only [hp] at h; cases h
      | some p =>
        obtain ⟨index, v1⟩ := p
        simp only [hp] at h
        obtain ⟨_, c1⟩ := pop_canonical hc hp
        cases hp2 : v1.pop with
        | none => simp only [hp2] at h; cases h
        | some p2 =>
          obtain ⟨left, v2⟩ := p2
          simp only [hp2] at h
          obtain ⟨cl, c2⟩ := pop_canonical c1 hp2
          exact goOn_canonical h (fun v hv => index_canonical c2 cl hv)
    have hne : ∀ x ∈ [code.OpConstant, code.OpAdd, code.OpPop, code.OpSub, code.OpMul, code.OpDiv, code.OpTrue, code.OpFalse, code.OpEqual, code.OpNotEqual, code.OpGreaterThan, code.OpMinus, code.OpBang, code.OpJumpNotTruthy, code.OpJump, code.OpNull, code.OpGetGlobal, code.OpSetGlobal, code.OpArray, code.OpHash, code.OpIndex], op ≠ x := by
      intro x hx
      simp only [List.mem_cons, List.mem_singleton, List.not_mem_nil, or_false] at hx
      rcases hx with rfl | rfl | rfl | rfl | rfl | rfl | rfl | rfl | rfl | rfl | rfl | rfl | rfl | rfl | rfl | rfl | rfl | rfl | rfl | rfl | rfl <;> assumption
    rw [step_other vm ip op hop hne] at h
    cases h
    exact hc

theorem steps_canonical : ∀ (n : Nat) (vm vm1 : VM) (ip ip1 : Nat), vm.Canonical →
    VM.steps n vm ip = some (vm1, ip1) → vm1.Canonical := by
  intro n
  induction n with
  | zero =>
    intro vm vm1 ip ip1 hc h
    simp only [VM.steps, Option.some.injEq, Prod.mk.injEq] at h
    rw [← h.1]
    exact hc
  | succ k ih =>
    intro vm vm1 ip ip1 hc h
    simp only [VM.steps] at h
    split_ifs at h
    cases hs : vm.step ip with
    | ok p =>
      obtain ⟨v, nx⟩ := p
      rw [hs] at h
      exact ih v vm1 nx ip1 (step_canonical hc hs) h
    | error msg x => rw [hs] at h; cases h
    | panic => rw [hs] at h; cases h

theorem new_canonical (bc : compiler.Bytecode) (hfree : ∀ o ∈ bc.Constants, boolFree o = true) :
    (New bc).Canonical := by
  refine ⟨List.length_replicate _ _, ?_, ?_, fun o ho => canonical_of_boolFree o (hfree o ho)⟩
  · intro o ho
    have ho' : o ∈ List.replicate StackSize Object.nil := ho
    rw [List.eq_of_mem_replicate ho']
    rfl
  · intro o ho
    have ho' : o ∈ List.replicate GlobalsSize Object.nil := ho
    rw [List.eq_of_mem_replicate ho']
    rfl

end vm

namespace vm

open object

theorem push_top {vm vm1 : VM} {o : Object} (h : vm.push o = .ok vm1) :
    vm1.stack[vm1.sp - 1]? = some o := by
  unfold VM.push at h
  split_ifs at h with h1 h2
  cases h
  show (vm.stack.set vm.sp o)[vm.sp + 1 - 1]? = some o
  rw [Nat.add_sub_cancel, List.getElem?_set_self h2]

theorem native_cases (b : Bool) :
    nativeBoolToBooleanObject b = True ∨ nativeBoolToBooleanObject b = False := by
  cases b
  · exact Or.inr rfl
  · exact Or.inl rfl

theorem top_of_eq {vm1 : VM} {o : Object} (h : vm1.stack[vm1.sp - 1]? = some o)
    (ho : o = True ∨ o = False) :
    vm1.stack[vm1.sp - 1]? = some True ∨ vm1.stack[vm1.sp - 1]? = some False := by
  rcases ho with e | e
  · exact Or.inl (by rw [h, e])
  · exact Or.inr (by rw [h, e])

theorem cmp_top {vm vm1 : VM} {op : Nat} (h : vm.executeComparison op = .ok vm1) :
    vm1.stack[vm1.sp - 1]? = some True ∨ vm1.stack[vm1.sp - 1]? = some False := by
  have hint : ∀ (v : VM) (l r : Int), v.executeIntegerComparison op l r = .ok vm1 →
      vm1.stack[vm1.sp - 1]? = some True ∨ vm1.stack[vm1.sp - 1]? = some False := by
    intro v l r hv
    unfold VM.executeIntegerComparison at hv
    split_ifs at hv <;> exact top_of_eq (push_top hv) (native_cases _)
  have hobj : ∀ (v : VM) (l r : Object), v.executeObjectComparison op l r = .ok vm1 →
      vm1.stack[vm1.sp - 1]? = some True ∨ vm1.stack[vm1.sp - 1]? = some False := by
    intro v l r hv
    unfold VM.executeObjectComparison at hv
    split_ifs at hv
    · exact top_of_eq (push_top hv) (native_cases _)
    · exact top_of_eq (push_top hv) (native_cases _)
    · cases hl : l.Type <;> cases hr : r.Type <;> simp only [hl, hr] at hv <;> cases hv
  unfold VM.executeComparison at h
  cases h1 : vm.pop with
  | none => rw [h1] at h; cases h
  | some p1 =>
    obtain ⟨right, v1⟩ := p1
    rw [h1] at h
    cases h2 : v1.pop with
    | none => simp only [h2] at h; cases h
    | some p2 =>
      obtain ⟨left, v2⟩ := p2
      simp only [h2] at h
      cases left with
      | nil => cases h
      | Integer l =>
        cases right with
        | nil => cases h
        | Integer r => exact hint _ _ _ h
        | _ => exact hobj _ _ _ h
      | _ => exact hobj _ _ _ h

theorem bang_top {vm vm1 : VM} (h : vm.executeBangOperator = .ok vm1) :
    vm1.stack[vm1.sp - 1]? = some True ∨ vm1.stack[vm1.sp - 1]? = some False := by
  unfold VM.executeBangOperator at h
  cases h1 : vm.pop with
  | none => rw [h1] at h; cases h
  | some p1 =>
    obtain ⟨o, v1⟩ := p1
    rw [h1] at h
    simp only at h
    split_ifs at h
    · exact Or.inr (push_top h)
    · exact Or.inl (push_top h)
    · exact Or.inl (push_top h)
    · exact Or.inr (push_top h)

/-- The instructions that push a Boolean push `True` or `False`. -/
theorem boolean_push (vm vm1 : VM) (ip next op : Nat) (hop : vm.instructions[ip]? = some op)
    (hmem : op ∈ [code.OpTrue, code.OpFalse, code.OpEqual, code.OpNotEqual, code.OpGreaterThan,
      code.OpBang])
    (h : vm.step ip = .ok (vm1, next)) :
    vm1.stack[vm1.sp - 1]? = some True ∨ vm1.stack[vm1.sp - 1]? = some False := by
  simp only [List.mem_cons, List.mem_singleton, List.not_mem_nil, or_false] at hmem
  rcases hmem with rfl | rfl | rfl | rfl | rfl | rfl
  · rw [step_OpTrue vm ip hop] at h
    exact Or.inl (push_top (goOn_ok h).1)
  · rw [step_OpFalse vm ip hop] at h
    exact Or.inr (push_top (goOn_ok h).1)
  · rw [step_OpEqual vm ip hop] at h
    exact cmp_top (goOn_ok h).1
  · rw [step_OpNotEqual vm ip hop] at h
    exact cmp_top (goOn_ok h).1
  · rw [step_OpGreaterThan vm ip hop] at h
    exact cmp_top (goOn_ok h).1
  · rw [step_OpBang vm ip hop] at h
    exact bang_top (goOn_ok h).1

/-- Two Booleans that are singletons are the same object exactly when they have
the same truth value. -/
theorem same_of_canonical (p q : Nat) (a b : Bool) (h1 : canonical (.Boolean p a) = true)
    (h2 : canonical (.Boolean q b) = true) :
    Object.same (.Boolean q b) (.Boolean p a) = (a == b) := by
  rcases (canonical_bool p a).mp h1 with e | e <;> rcases (canonical_bool q b).mp h2 with f | f <;>
    cases e <;> cases f <;> rfl

/-- OpEqual and OpNotEqual on two Booleans at the top of the stack of a machine
whose Booleans are the singletons. -/
theorem boolean_compare (vm : VM) (op : Nat) (p q : Nat) (a b : Bool) (hc : vm.Canonical)
    (h0 : 2 ≤ vm.sp) (hl : vm.stack[vm.sp - 2]? = some (.Boolean p a))
    (hr : vm.stack[vm.sp - 1]? = some (.Boolean q b)) (r : Bool)
    (hop : (op = code.OpEqual ∧ r = (a == b)) ∨ (op = code.OpNotEqual ∧ r = !(a == b))) :
    ∃ vm1, vm.executeComparison op = .ok vm1 ∧ vm1.sp = vm.sp - 1
      ∧ vm1.stack[vm1.sp - 1]? = some (nativeBoolToBooleanObject r) := by
  obtain ⟨hp1, hp2⟩ := pop_two vm _ _ h0 hl hr
  have hlt : vm.sp - 1 < vm.stack.length := (List.getElem?_eq_some.mp hr).1
  have hsame := same_of_canonical p q a b (hc.2.1 _ (List.getElem?_mem hl))
    (hc.2.1 _ (List.getElem?_mem hr))
  have hpush := push_eq { vm with sp := vm.sp - 2 } (nativeBoolToBooleanObject r)
    (by show vm.sp - 2 < StackSize; rw [hc.1] at hlt; omega)
    (by show vm.sp - 2 < vm.stack.length; omega)
  refine ⟨_, ?_, ?_, push_top hpush⟩
  · unfold VM.executeComparison
    rw [hp1]
    simp only [hp2]
    unfold VM.executeObjectComparison
    rcases hop with ⟨rfl, rfl⟩ | ⟨rfl, rfl⟩
    · rw [if_pos rfl, hsame]
      exact hpush
    · rw [if_neg (by decide), if_pos rfl, hsame]
      exact hpush
  · show vm.sp - 2 + 1 = vm.sp - 1
    omega

end vm

namespace vm

open object

/-- C34: on bytecode whose constants hold no Booleans, in every state that the
loop of `Run` reaches from a new machine, every Boolean of the stack, the
globals and the constants is one of the singletons `True` and `False`; an
OpTrue, OpFalse, comparison or OpBang that ends without error has pushed `True`
or `False`; and on two Boolean operands OpEqual ends without error and pushes
`True` exactly when they have the same truth value and `False` otherwise, and
OpNotEqual pushes `True` exactly when they differ. -/
theorem boolean_equality (bc : compiler.Bytecode) (vm : VM) (ip : Nat)
    (hfree : ∀ o ∈ bc.Constants, boolFree o = true)
    (hr : Reach (New bc) 0 vm ip) :
    (∀ o p v, (o ∈ vm.stack ∨ o ∈ vm.globals ∨ o ∈ vm.constants) → o = .Boolean p v →
        o = True ∨ o = False)
    ∧ (∀ op vm1 next, vm.instructions[ip]? = some op →
        op ∈ [code.OpTrue, code.OpFalse, code.OpEqual, code.OpNotEqual, code.OpGreaterThan,
          code.OpBang] →
        vm.step ip = .ok (vm1, next) →
        vm1.stack[vm1.sp - 1]? = some True ∨ vm1.stack[vm1.sp - 1]? = some False)
    ∧ (∀ p q a b, 2 ≤ vm.sp → vm.stack[vm.sp - 2]? = some (.Boolean p a) →
        vm.stack[vm.sp - 1]? = some (.Boolean q b) →
        (vm.instructions[ip]? = some code.OpEqual →
          ∃ vm1, vm.step ip = .ok (vm1, ip + 1) ∧ vm1.sp = vm.sp - 1
            ∧ (vm1.stack[vm1.sp - 1]? = some True ↔ a = b)
            ∧ (vm1.stack[vm1.sp - 1]? = some False ↔ a ≠ b))
        ∧ (vm.instructions[ip]? = some code.OpNotEqual →
          ∃ vm1, vm.step ip = .ok (vm1, ip + 1) ∧ vm1.sp = vm.sp - 1
            ∧ (vm1.stack[vm1.sp - 1]? = some True ↔ a ≠ b)
            ∧ (vm1.stack[vm1.sp - 1]? = some False ↔ a = b))) := by
  obtain ⟨n, hn⟩ := hr
  have hc : vm.Canonical := steps_canonical n _ vm 0 ip (new_canonical bc hfree) hn
  refine ⟨?_, fun op vm1 next hop hmem h => boolean_push vm vm1 ip next op hop hmem h, ?_⟩
  · intro o p v ho e
    have hco : canonical o = true := by
      rcases ho with h | h | h
      · exact hc.2.1 o h
      · exact hc.2.2.1 o h
      · exact hc.2.2.2 o h
    rw [e] at hco ⊢
    exact (canonical_bool p v).mp hco
  · intro p q a b h0 hl hr
    constructor
    · intro hop
      obtain ⟨vm1, h1, h2, h3⟩ := boolean_compare vm code.OpEqual p q a b hc h0 hl hr (a == b)
        (Or.inl ⟨rfl, rfl⟩)
      refine ⟨vm1, by rw [step_OpEqual vm ip hop, h1]; rfl, h2, ?_, ?_⟩
      · rw [h3]
        cases a <;> cases b <;> decide
      · rw [h3]
        cases a <;> cases b <;> decide
    · intro hop
      obtain ⟨vm1, h1, h2, h3⟩ := boolean_compare vm code.OpNotEqual p q a b hc h0 hl hr
        (!(a == b)) (Or.inr ⟨rfl, rfl⟩)
      refine ⟨vm1, by rw [step_OpNotEqual vm ip hop, h1]; rfl, h2, ?_, ?_⟩
      · rw [h3]
        cases a <;> cases b <;> decide
      · rw [h3]
        cases a <;> cases b <;> decide

/-- The loop of `Run` on the bytecode of `(1 < 2) == true;` comes to the OpEqual
with two Booleans True on the stack. -/
theorem less_than_then_true :
    ∃ vm, Reach (New ⟨[code.OpConstant, 0, 0, code.OpConstant, 0, 1, code.OpGreaterThan,
          code.OpTrue, code.OpEqual, code.OpPop], [.Integer 2, .Integer 1]⟩) 0 vm 8
      ∧ vm.instructions[8]? = some code.OpEqual ∧ vm.sp = 2
      ∧ vm.stack[0]? = some True ∧ vm.stack[1]? = some True := by
  have hlen : (List.replicate StackSize Object.nil).length = StackSize := List.length_replicate _ _
  obtain ⟨v1, r1, p1⟩ := exec_OpConstant
    (New ⟨[code.OpConstant, 0, 0, code.OpConstant, 0, 1, code.OpGreaterThan,
          code.OpTrue, code.OpEqual, code.OpPop], [.Integer 2, .Integer 1]⟩)
    [] [code.OpConstant, 0, 1, code.OpGreaterThan, code.OpTrue, code.OpEqual, code.OpPop] 0
    (.Integer 2) rfl (by decide) rfl (by show 0 < StackSize; decide)
    (by show 0 < (List.replicate StackSize Object.nil).length; rw [hlen]; decide)
  have s1 : v1.sp = 1 := p1.1
  have l1 : v1.stack.length = StackSize := by rw [p1.2.2.2.1]; exact hlen
  obtain ⟨v2, r2, p2⟩ := exec_OpConstant v1 [code.OpConstant, 0, 0]
    [code.OpGreaterThan, code.OpTrue, code.OpEqual, code.OpPop] 1 (.Integer 1)
    (by rw [p1.2.2.2.2.2.2.1]; rfl) (by decide) (by rw [p1.2.2.2.2.2.1]; rfl)
    (by rw [s1]; decide) (by rw [s1, l1]; decide)
  obtain ⟨v3, r3, p3⟩ := exec_compare _ v1 v2 [code.OpConstant, 0, 0, code.OpConstant, 0, 1]
    [code.OpTrue, code.OpEqual, code.OpPop] code.OpGreaterThan 2 1 true p1 p2
    (by rw [p2.2.2.2.2.2.2.1, p1.2.2.2.2.2.2.1]; rfl) (by show 0 < StackSize; decide)
    (Or.inl ⟨rfl, by decide⟩)
  have s3 : v3.sp = 1 := p3.1
  have l3 : v3.stack.length = StackSize := by rw [p3.2.2.2.1]; exact hlen
  obtain ⟨v4, r4, p4⟩ := exec_singleton v3
    [code.OpConstant, 0, 0, code.OpConstant, 0, 1, code.OpGreaterThan] [code.OpEqual, code.OpPop]
    code.OpTrue True (by rw [p3.2.2.2.2.2.2.1]; rfl) (Or.inl ⟨rfl, rfl⟩)
    (by rw [s3]; decide) (by rw [s3, l3]; decide)
  refine ⟨v4, Reach.trans r1 (Reach.trans r2 (Reach.trans r3 r4)), ?_, ?_, ?_, ?_⟩
  · rw [p4.2.2.2.2.2.2.1, p3.2.2.2.2.2.2.1]
    rfl
  · rw [p4.1, s3]
  · rw [p4.2.2.1 0 (by rw [s3]; decide)]
    exact p3.2.1
  · have := p4.2.1
    rw [s3] at this
    exact this

/-- Witness of C34: `(1 < 2) == true` is true: the OpEqual of its bytecode finds
two Booleans and pushes `True`. -/
theorem boolean_equality_witness :
    ∃ vm, (∀ o ∈ [Object.Integer 2, Object.Integer 1], boolFree o = true)
      ∧ Reach (New ⟨[code.OpConstant, 0, 0, code.OpConstant, 0, 1, code.OpGreaterThan,
          code.OpTrue, code.OpEqual, code.OpPop], [.Integer 2, .Integer 1]⟩) 0 vm 8
      ∧ ∃ vm1, vm.step 8 = .ok (vm1, 8 + 1) ∧ vm1.sp = vm.sp - 1
        ∧ (vm1.stack[vm1.sp - 1]? = some True ↔ true = true)
        ∧ (vm1.stack[vm1.sp - 1]? = some False ↔ true ≠ true) := by
  obtain ⟨vm, hr, hi, hsp, h0, h1⟩ := less_than_then_true
  have hfree : ∀ o ∈ [Object.Integer 2, Object.Integer 1], boolFree o = true := by
    intro o ho
    simp only [List.mem_cons, List.mem_singleton, List.not_mem_nil, or_false] at ho
    rcases ho with rfl | rfl <;> rfl
  exact ⟨vm, hfree, hr,
    ((boolean_equality _ vm 8 hfree hr).2.2 1 1 true true (by rw [hsp])
      (by rw [hsp]; exact h0) (by rw [hsp]; exact h1)).1 hi⟩

end vm

namespace compiler

open object vm ast

/-! ### The records of the last two instructions -/

theorem removeLastPop_of_pop (c : Compiler) (X : List Nat)
    (hl : c.lastInstruction = { Opcode := code.OpPop, Position := X.length })
    (hi : c.instructions = X ++ [code.OpPop]) :
    c.removeLastPop
      = some { c with instructions := X, lastInstruction := c.previousInstruction } := by
  unfold Compiler.removeLastPop
  rw [hl, hi]
  simp

theorem recorded_append {ins : List Nat} {r : EmittedInstruction} (x : List Nat)
    (h : Recorded ins r) : Recorded (ins ++ x) r := by
  unfold Recorded at h ⊢
  have hlt : r.Position < ins.length := (List.getElem?_eq_some.mp h).1
  rw [List.getElem?_append_left hlt]
  exact h

theorem recorded_emit (c : Compiler) (op : Nat) (operands rest : List Nat)
    (hm : code.Make op operands = op :: rest) :
    Recorded (c.emit op operands).1.instructions (c.emit op operands).1.lastInstruction := by
  rw [emit_fst, hm]
  show (c.instructions ++ op :: rest)[c.instructions.length]? = some op
  rw [List.getElem?_append_right (Nat.le_refl _)]
  simp

theorem last_eq_of_pop {r : EmittedInstruction} {n : Nat} (h1 : r.Opcode = code.OpPop)
    (h2 : r.Position = n) : r = { Opcode := code.OpPop, Position := n } := by
  cases r with
  | mk o p =>
    simp only at h1 h2
    rw [h1, h2]

theorem inBlock_start (b0 : Compiler) (h : Start b0) : InBlock b0 b0 :=
  ⟨⟨[], by simp, DecodesTo.empty _ _⟩, Or.inl rfl, fun hp => absurd hp h.2⟩

/-- The call `if c.lastInstructionsIsPop() { c.removeLastPop() }` at the end of
a block. -/
theorem drop_in_block (b0 s : Compiler) (hb : Start b0) (h : InBlock b0 s) :
    ∃ s3 v, s.dropLastPop = some s3 ∧ s3.instructions = b0.instructions ++ v
      ∧ DecodesTo (b0.instructions.length + v.length) b0.instructions.length v
      ∧ (s3.lastInstruction = b0.lastInstruction
          ∨ (b0.instructions.length ≤ s3.lastInstruction.Position
              ∧ Recorded s3.instructions s3.lastInstruction))
      ∧ s3.constants = s.constants ∧ s3.symbolTable = s.symbolTable
      ∧ CutsPop s := by
  obtain ⟨⟨cd, hi, hd⟩, hlast, hpop⟩ := h
  by_cases hl : s.lastInstruction.Opcode = code.OpPop
  · obtain ⟨v, hv, hdv, hpos, hprev⟩ := hpop hl
    have hrec := last_eq_of_pop hl hpos
    have hrem := removeLastPop_of_pop s (b0.instructions ++ v) hrec hv
    refine ⟨{ s with instructions := b0.instructions ++ v,
                     lastInstruction := s.previousInstruction }, v,
      dropLastPop_of_pop s (b0.instructions ++ v) hrec hv, rfl, hdv, hprev, rfl, rfl, ?_⟩
    intro _
    refine ⟨_, hrem, hv, ?_⟩
    show Recorded (b0.instructions ++ v) s.previousInstruction
    rcases hprev with e | ⟨_, e⟩
    · rw [e]
      exact recorded_append v hb.1
    · exact e
  · refine ⟨s, cd, dropLastPop_of_ne s hl, hi, hd, hlast, rfl, rfl, ?_⟩
    intro hp
    unfold Compiler.lastInstructionsIsPop at hp
    exact absurd (by simpa using hp) hl

end compiler

namespace compiler

open object vm ast

/-! ### The conditional, with the records of its instructions -/

theorem recorded_at (A B : List Nat) (op n : Nat) (hn : A.length = n) :
    Recorded (A ++ op :: B) { Opcode := op, Position := n } := by
  show (A ++ op :: B)[n]? = some op
  rw [← hn, List.getElem?_append_right (Nat.le_refl _)]
  simp

theorem recorded_patch (A B : List Nat) (op x y x1 y1 : Nat) (r : EmittedInstruction)
    (h : Recorded (A ++ op :: x :: y :: B) r)
    (h1 : r.Position ≤ A.length ∨ A.length + 3 ≤ r.Position) :
    Recorded (A ++ op :: x1 :: y1 :: B) r := by
  unfold Recorded at h ⊢
  rcases h1 with h1 | h1
  · rcases Nat.lt_or_ge r.Position A.length with h2 | h2
    · rw [List.getElem?_append_left h2] at h ⊢
      exact h
    · have e : r.Position = A.length := by omega
      rw [e, List.getElem?_append_right (Nat.le_refl _)] at h ⊢
      simpa using h
  · obtain ⟨k, hk⟩ : ∃ k, r.Position = A.length + 3 + k := ⟨r.Position - (A.length + 3), by omega⟩
    rw [hk] at h ⊢
    rw [List.getElem?_append_right (by omega)] at h ⊢
    have e : A.length + 3 + k - A.length = k + 3 := by omega
    rw [e] at h ⊢
    simpa using h

/-- The conditional up to the patch of its OpJumpNotTruthy, from the state
behind the block of the consequence. -/
theorem if_front (c1 s2 : Compiler) (pre0 cc : List Nat)
    (hi1 : c1.instructions = pre0 ++ cc)
    (hB : InBlock (c1.emit code.OpJumpNotTruthy [9999]).1 s2) :
    ∃ s3 c4 vcode, s2.dropLastPop = some s3
      ∧ s3.instructions = pre0 ++ cc ++ [code.OpJumpNotTruthy, 39, 15] ++ vcode
      ∧ (s3.emit code.OpJump [9999]).1.changeOperand (c1.emit code.OpJumpNotTruthy [9999]).2
          (s3.emit code.OpJump [9999]).1.instructions.length = some c4
      ∧ (s3.emit code.OpJump [9999]).2 = pre0.length + cc.length + 3 + vcode.length
      ∧ c4.instructions = pre0 ++ cc
          ++ [code.OpJumpNotTruthy, (pre0.length + cc.length + 3 + vcode.length + 3) / 256 % 256,
              (pre0.length + cc.length + 3 + vcode.length + 3) % 256]
          ++ vcode ++ [code.OpJump, 39, 15]
      ∧ c4.lastInstruction
          = { Opcode := code.OpJump, Position := pre0.length + cc.length + 3 + vcode.length }
      ∧ DecodesTo (pre0.length + cc.length + 3 + vcode.length) (pre0.length + cc.length + 3) vcode
      ∧ Start c4 ∧ CutsPop s2 := by
  have hb : Start (c1.emit code.OpJumpNotTruthy [9999]).1 :=
    ⟨recorded_emit c1 code.OpJumpNotTruthy [9999] [39, 15] (make_OpJumpNotTruthy 9999),
      by show code.OpJumpNotTruthy ≠ code.OpPop; decide⟩
  obtain ⟨s3, vcode, hd, hi3, hdec, _, _, _, hcut⟩ := drop_in_block _ s2 hb hB
  have e1 : (c1.emit code.OpJumpNotTruthy [9999]).1.instructions
      = pre0 ++ cc ++ [code.OpJumpNotTruthy, 39, 15] := by
    rw [emit_fst, make_OpJumpNotTruthy]
    show c1.instructions ++ _ = _
    rw [hi1]
  have e5 : (pre0 ++ cc ++ [code.OpJumpNotTruthy, 39, 15]).length
      = pre0.length + cc.length + 3 := by
    simp only [List.length_append, List.length_cons, List.length_nil]
  rw [e1, e5] at hdec
  obtain ⟨c4, hch, hjp, hi4, _, _, _⟩ := if_patch c1 s3 pre0 cc vcode hi1 hi3
  have hl4 : c4.lastInstruction
      = { Opcode := code.OpJump, Position := pre0.length + cc.length + 3 + vcode.length } := by
    rw [(changeOperand_fields hch).2.2.1, ← hjp]
    rfl
  refine ⟨s3, c4, vcode, hd, by rw [hi3, e1], hch, hjp, hi4, hl4, hdec, ⟨?_, ?_⟩, hcut⟩
  · rw [hi4, hl4]
    exact recorded_at _ _ _ _
      (by simp only [List.length_append, List.length_cons, List.length_nil])
  · rw [hl4]
    show code.OpJump ≠ code.OpPop
    decide

/-- The conditional with an alternative, from the state behind the block of the
alternative. -/
theorem if_back (c4 s5 : Compiler) (A vcode : List Nat) (n : Nat)
    (hi : c4.instructions = A ++ vcode ++ [code.OpJump, 39, 15])
    (hn : (A ++ vcode).length = n)
    (hl : c4.lastInstruction = { Opcode := code.OpJump, Position := n })
    (hB : InBlock c4 s5) :
    ∃ s7 c7 acode, s5.dropLastPop = some s7
      ∧ s7.instructions = c4.instructions ++ acode
      ∧ s7.changeOperand n s7.instructions.length = some c7
      ∧ c7.instructions = A ++ vcode
          ++ [code.OpJump, (n + 3 + acode.length) / 256 % 256, (n + 3 + acode.length) % 256]
          ++ acode
      ∧ DecodesTo (n + 3 + acode.length) (n + 3) acode
      ∧ n ≤ c7.lastInstruction.Position ∧ Recorded c7.instructions c7.lastInstruction
      ∧ CutsPop s5 := by
  have hb : Start c4 := by
    refine ⟨?_, by rw [hl]; show code.OpJump ≠ code.OpPop; decide⟩
    rw [hi, hl]
    exact recorded_at _ _ _ _ hn
  obtain ⟨s7, acode, hd, hi7, hdec, hlast, _, _, hcut⟩ := drop_in_block _ s5 hb hB
  have e5 : c4.instructions.length = n + 3 := by
    rw [hi, List.length_append, hn]
    rfl
  rw [e5] at hdec
  obtain ⟨c7, hch, hi7c, _, _⟩ := if_tail c4 s7 A vcode acode n hi hn hi7
  have hl7 : c7.lastInstruction = s7.lastInstruction := (changeOperand_fields hch).2.2.1
  have e7 : s7.instructions = (A ++ vcode) ++ code.OpJump :: 39 :: 15 :: acode := by
    rw [hi7, hi]
    simp
  have e7c : c7.instructions = (A ++ vcode) ++ code.OpJump :: ((n + 3 + acode.length) / 256 % 256)
      :: ((n + 3 + acode.length) % 256) :: acode := by
    rw [hi7c]
    simp
  refine ⟨s7, c7, acode, hd, hi7, hch, hi7c, hdec, ?_, ?_, hcut⟩
  · rw [hl7]
    rcases hlast with e | ⟨e, _⟩
    · rw [e, hl]
    · omega
  · rw [hl7, e7c]
    rcases hlast with e | ⟨e1, e2⟩
    · rw [e, hl]
      exact recorded_at _ _ _ _ hn
    · rw [e7] at e2
      exact recorded_patch _ _ _ _ _ _ _ _ e2 (Or.inr (by rw [hn]; omega))

/-- The conditional without alternative: the OpNull is the last instruction. -/
theorem if_close (c4 : Compiler) (A vcode : List Nat) (n : Nat)
    (hi : c4.instructions = A ++ vcode ++ [code.OpJump, 39, 15])
    (hn : (A ++ vcode).length = n) :
    ∃ c6, (c4.emit code.OpNull []).1.changeOperand n
          (c4.emit code.OpNull []).1.instructions.length = some c6
      ∧ c6.instructions = A ++ vcode
          ++ [code.OpJump, (n + 3 + 1) / 256 % 256, (n + 3 + 1) % 256] ++ [code.OpNull]
      ∧ n ≤ c6.lastInstruction.Position ∧ Recorded c6.instructions c6.lastInstruction := by
  obtain ⟨c6, hch, hi6, _⟩ := if_none c4 A vcode n hi hn
  have hl6 : c6.lastInstruction = { Opcode := code.OpNull, Position := n + 3 } := by
    rw [(changeOperand_fields hch).2.2.1]
    show ({ Opcode := code.OpNull, Position := c4.instructions.length } : EmittedInstruction) = _
    rw [hi, List.length_append, hn]
    rfl
  refine ⟨c6, hch, hi6, by rw [hl6]; show n ≤ n + 3; omega, ?_⟩
  rw [hi6, hl6]
  exact recorded_at _ _ _ _ (by rw [List.length_append, hn]; rfl)

end compiler

namespace compiler

open object vm ast

/-! ### The records through `Compile` -/

theorem exprPost_refl (c : Compiler) : ExprPost c c :=
  ⟨⟨[], by simp, DecodesTo.empty _ _⟩, Or.inl rfl⟩

theorem exprPost_simple (c c1 : Compiler) (op : Nat) (h : ExprPost c c1)
    (hw : code.operandWidths op = some [])
    (hj : op ≠ code.OpJump ∧ op ≠ code.OpJumpNotTruthy) :
    ExprPost c (c1.emit op []).1 := by
  obtain ⟨⟨cd, hi, hd⟩, _⟩ := h
  have hwd : code.width op = 0 := by simp [code.width, hw]
  refine ⟨⟨cd ++ [op], ?_, ?_⟩, Or.inr ⟨?_, recorded_emit c1 op [] [] (make_simple op hw)⟩⟩
  · rw [emit_fst, make_simple op hw]
    show c1.instructions ++ [op] = _
    rw [hi, List.append_assoc]
  · refine (hd.mono ?_).andThen (decodes_simple _ _ _ hwd hj)
    simp only [List.length_append]
    omega
  · show c.instructions.length ≤ c1.instructions.length
    rw [hi, List.length_append]
    omega

theorem exprPost_wide (c c1 c2 : Compiler) (op k : Nat) (h : ExprPost c c1)
    (hi2 : c2.instructions = c1.instructions)
    (hw : code.operandWidths op = some [2])
    (hj : op ≠ code.OpJump ∧ op ≠ code.OpJumpNotTruthy) :
    ExprPost c (c2.emit op [k]).1 := by
  obtain ⟨⟨cd, hi, hd⟩, _⟩ := h
  have hwd : code.width op = 2 := by simp [code.width, hw]
  have hm : code.Make op [k] = [op, k / 256 % 256, k % 256] := by
    simp [code.Make, hw, code.putOperands, code.putOperand]
  refine ⟨⟨cd ++ [op, k / 256 % 256, k % 256], ?_, ?_⟩,
    Or.inr ⟨?_, recorded_emit c2 op [k] _ hm⟩⟩
  · rw [emit_fst, hm]
    show c2.instructions ++ _ = _
    rw [hi2, hi, List.append_assoc]
  · refine (hd.mono ?_).andThen (decodes_wide _ _ _ _ _ hwd hj)
    simp only [List.length_append]
    omega
  · show c.instructions.length ≤ c2.instructions.length
    rw [hi2, hi, List.length_append]
    omega

theorem exprPost_trans {c c1 c2 : Compiler} (h1 : ExprPost c c1) (h2 : ExprPost c1 c2) :
    ExprPost c c2 := by
  obtain ⟨⟨cd1, hi1, hd1⟩, hl1⟩ := h1
  obtain ⟨⟨cd2, hi2, hd2⟩, hl2⟩ := h2
  refine ⟨⟨cd1 ++ cd2, by rw [hi2, hi1, List.append_assoc], ?_⟩, ?_⟩
  · refine (hd1.mono ?_).andThen ?_
    · simp only [List.length_append]; omega
    · rw [hi1, List.length_append] at hd2
      rw [List.length_append, ← Nat.add_assoc]
      exact hd2
  · rcases hl2 with e | ⟨e1, e2⟩
    · subst e
      exact hl1
    · refine Or.inr ⟨?_, e2⟩
      rw [hi1, List.length_append] at e1
      omega

end compiler

namespace compiler

open object vm ast

theorem inBlock_pop (b0 s c1 : Compiler) (hB : InBlock b0 s) (he : ExprPost s c1) :
    InBlock b0 (c1.emit code.OpPop []).1 := by
  obtain ⟨⟨cd, hi, hd⟩, hlast, _⟩ := hB
  obtain ⟨⟨ce, hie, hde⟩, hl1⟩ := he
  have e1 : c1.instructions = b0.instructions ++ (cd ++ ce) := by
    rw [hie, hi, List.append_assoc]
  have hv : DecodesTo (b0.instructions.length + (cd ++ ce).length) b0.instructions.length
      (cd ++ ce) := by
    refine (hd.mono ?_).andThen ?_
    · simp only [List.length_append]; omega
    · rw [hi, List.length_append] at hde
      rw [List.length_append, ← Nat.add_assoc]
      exact hde
  have e2 : (c1.emit code.OpPop []).1.instructions = b0.instructions ++ (cd ++ ce) ++ [code.OpPop] := by
    rw [emit_fst, make_simple code.OpPop rfl]
    show c1.instructions ++ [code.OpPop] = _
    rw [e1]
  refine ⟨⟨cd ++ ce ++ [code.OpPop], by rw [e2]; simp only [List.append_assoc], ?_⟩,
    Or.inr ⟨?_, recorded_emit c1 code.OpPop [] [] (make_simple code.OpPop rfl)⟩, fun _ =>
      ⟨cd ++ ce, e2, hv, ?_, ?_⟩⟩
  · refine (hv.mono ?_).andThen (decodes_simple _ _ _ rfl (by decide))
    simp only [List.length_append]; omega
  · show b0.instructions.length ≤ c1.instructions.length
    rw [e1, List.length_append]
    omega
  · show c1.instructions.length = _
    rw [e1]
  · show c1.lastInstruction = b0.lastInstruction
      ∨ (b0.instructions.length ≤ c1.lastInstruction.Position
        ∧ Recorded (b0.instructions ++ (cd ++ ce)) c1.lastInstruction)
    rw [← e1]
    rcases hl1 with e | ⟨e3, e4⟩
    · subst e
      exact hlast
    · refine Or.inr ⟨?_, e4⟩
      rw [hi, List.length_append] at e3
      omega

theorem inBlock_set (b0 s c1 c2 : Compiler) (k : Nat) (hB : InBlock b0 s) (he : ExprPost s c1)
    (hi2 : c2.instructions = c1.instructions) :
    InBlock b0 (c2.emit code.OpSetGlobal [k]).1 := by
  obtain ⟨⟨cd, hi, hd⟩, _, _⟩ := hB
  obtain ⟨⟨ce, hie, hde⟩, _⟩ := he
  have e1 : c1.instructions = b0.instructions ++ (cd ++ ce) := by
    rw [hie, hi, List.append_assoc]
  have hv : DecodesTo (b0.instructions.length + (cd ++ ce).length) b0.instructions.length
      (cd ++ ce) := by
    refine (hd.mono ?_).andThen ?_
    · simp only [List.length_append]; omega
    · rw [hi, List.length_append] at hde
      rw [List.length_append, ← Nat.add_assoc]
      exact hde
  have e2 : (c2.emit code.OpSetGlobal [k]).1.instructions
      = b0.instructions ++ (cd ++ ce) ++ [code.OpSetGlobal, k / 256 % 256, k % 256] := by
    rw [emit_fst, make_OpSetGlobal]
    show c2.instructions ++ _ = _
    rw [hi2, e1]
  refine ⟨⟨cd ++ ce ++ [code.OpSetGlobal, k / 256 % 256, k % 256],
      by rw [e2]; simp only [List.append_assoc], ?_⟩,
    Or.inr ⟨?_, recorded_emit c2 code.OpSetGlobal [k] _ (make_OpSetGlobal k)⟩, fun hp => ?_⟩
  · refine (hv.mono ?_).andThen (decodes_wide _ _ _ _ _ rfl (by decide))
    simp only [List.length_append]; omega
  · show b0.instructions.length ≤ c2.instructions.length
    rw [hi2, e1, List.length_append]
    omega
  · exact absurd hp (by show code.OpSetGlobal ≠ code.OpPop; decide)

/-- The conditional leaves what an expression leaves. -/
theorem exprPost_if (c c7 : Compiler) (cc vcode acode : List Nat)
    (hcc : DecodesTo (c.instructions.length + cc.length) c.instructions.length cc)
    (hv : DecodesTo (c.instructions.length + cc.length + 3 + vcode.length)
      (c.instructions.length + cc.length + 3) vcode)
    (ha : DecodesTo (c.instructions.length + cc.length + 3 + vcode.length + 3 + acode.length)
      (c.instructions.length + cc.length + 3 + vcode.length + 3) acode)
    (hi7 : c7.instructions = c.instructions ++ cc
      ++ [code.OpJumpNotTruthy, (c.instructions.length + cc.length + 3 + vcode.length + 3) / 256 % 256,
          (c.instructions.length + cc.length + 3 + vcode.length + 3) % 256]
      ++ vcode
      ++ [code.OpJump,
          (c.instructions.length + cc.length + 3 + vcode.length + 3 + acode.length) / 256 % 256,
          (c.instructions.length + cc.length + 3 + vcode.length + 3 + acode.length) % 256]
      ++ acode)
    (hp : c.instructions.length + cc.length + 3 + vcode.length ≤ c7.lastInstruction.Position)
    (hr : Recorded c7.instructions c7.lastInstruction) : ExprPost c c7 := by
  refine ⟨⟨cc ++ [code.OpJumpNotTruthy,
          (c.instructions.length + cc.length + 3 + vcode.length + 3) / 256 % 256,
          (c.instructions.length + cc.length + 3 + vcode.length + 3) % 256]
      ++ vcode
      ++ [code.OpJump,
          (c.instructions.length + cc.length + 3 + vcode.length + 3 + acode.length) / 256 % 256,
          (c.instructions.length + cc.length + 3 + vcode.length + 3 + acode.length) % 256]
      ++ acode, by rw [hi7]; simp only [List.append_assoc], ?_⟩, Or.inr ⟨by omega, hr⟩⟩
  refine (decodes_if (c.instructions.length + cc.length + 3 + vcode.length + 3 + acode.length)
    c.instructions.length cc vcode acode (hcc.mono (by omega)) (hv.mono (by omega))
    ha (Nat.le_refl _)).mono ?_
  simp only [List.length_append, List.length_cons, List.length_nil]
  omega

end compiler

namespace compiler

open object vm ast

mutual
/-- An expression leaves whole instructions and a true record of the last
one. -/
theorem rec_expr : ∀ (e : Expression) (c c1 : Compiler),
    c.CompileExpression e = .ok c1 → ExprPost c c1
  | .IntegerLiteral n, c, c1, h => by
    rw [compile_IntegerLiteral] at h
    cases h
    exact exprPost_wide c c _ code.OpConstant _ (exprPost_refl c) rfl rfl (by decide)
  | .Boolean v, c, c1, h => by
    rw [compile_Boolean] at h
    cases v with
    | true =>
      cases h
      exact exprPost_simple c c code.OpTrue (exprPost_refl c) rfl (by decide)
    | false =>
      cases h
      exact exprPost_simple c c code.OpFalse (exprPost_refl c) rfl (by decide)
  | .Identifier x, c, c1, h => by
    rw [compile_Identifier] at h
    cases hr : c.symbolTable.Resolve x with
    | none => rw [hr] at h; cases h
    | some sym =>
      simp only [hr] at h
      cases h
      exact exprPost_wide c c c code.OpGetGlobal _ (exprPost_refl c) rfl rfl (by decide)
  | .PrefixExpression op r, c, c1, h => by
    rw [compile_PrefixExpression] at h
    cases hc : c.CompileExpression r with
    | error msg a => rw [hc] at h; cases h
    | panic => rw [hc] at h; cases h
    | ok c' =>
      simp only [hc] at h
      have h1 := rec_expr r c c' hc
      split_ifs at h
      · cases h
        exact exprPost_simple c c' code.OpBang h1 rfl (by decide)
      · cases h
        exact exprPost_simple c c' code.OpMinus h1 rfl (by decide)
  | .InfixExpression l op r, c, c1, h => by
    by_cases hop : op = "<"
    · subst hop
      rw [compile_InfixExpression_lt] at h
      cases hc : c.CompileExpression r with
      | error msg a => rw [hc] at h; cases h
      | panic => rw [hc] at h; cases h
      | ok c' =>
        simp only [hc] at h
        have h1 := rec_expr r c c' hc
        cases hc2 : c'.CompileExpression l with
        | error msg a => rw [hc2] at h; cases h
        | panic => rw [hc2] at h; cases h
        | ok c'' =>
          simp only [hc2] at h
          have h2 := rec_expr l c' c'' hc2
          cases h
          exact exprPost_simple c c'' code.OpGreaterThan (exprPost_trans h1 h2) rfl (by decide)
    · rw [compile_InfixExpression _ _ _ _ hop] at h
      cases hc : c.CompileExpression l with
      | error msg a => rw [hc] at h; cases h
      | panic => rw [hc] at h; cases h
      | ok c' =>
        simp only [hc] at h
        have h1 := rec_expr l c c' hc
        cases hc2 : c'.CompileExpression r with
        | error msg a => rw [hc2] at h; cases h
        | panic => rw [hc2] at h; cases h
        | ok c'' =>
          simp only [hc2] at h
          have h2 := rec_expr r c' c'' hc2
          split_ifs at h <;> cases h <;>
            exact exprPost_simple c c'' _ (exprPost_trans h1 h2) rfl (by decide)
  | .IfExpression cond cons none, c, c1, h => by
    rw [compile_IfExpression] at h
    cases hc : c.CompileExpression cond with
    | error msg a => rw [hc] at h; cases h
    | panic => rw [hc] at h; cases h
    | ok c' =>
      simp only [hc] at h
      obtain ⟨⟨cc, hi1, hcc⟩, _⟩ := rec_expr cond c c' hc
      cases hcons : (c'.emit code.OpJumpNotTruthy [9999]).1.CompileStatements cons with
      | error msg a => rw [hcons] at h; cases h
      | panic => rw [hcons] at h; cases h
      | ok s2 =>
        simp only [hcons] at h
        have B2 := rec_block cons (c'.emit code.OpJumpNotTruthy [9999]).1 _ s2
          ⟨recorded_emit c' code.OpJumpNotTruthy [9999] [39, 15] (make_OpJumpNotTruthy 9999),
            by show code.OpJumpNotTruthy ≠ code.OpPop; decide⟩
          (inBlock_start _
            ⟨recorded_emit c' code.OpJumpNotTruthy [9999] [39, 15] (make_OpJumpNotTruthy 9999),
              by show code.OpJumpNotTruthy ≠ code.OpPop; decide⟩) hcons
        obtain ⟨s3, c4, vcode, hd, _, hch, hjp, hi4, _, hv, _, _⟩ :=
          if_front c' s2 c.instructions cc hi1 B2
        simp only [hd, hch] at h
        rw [hjp] at h
        obtain ⟨c6, hch6, hi6, hp6, hr6⟩ := if_close c4 _ vcode
          (c.instructions.length + cc.length + 3 + vcode.length) hi4
          (by simp only [List.length_append, List.length_cons, List.length_nil])
        simp only [hch6] at h
        cases h
        exact exprPost_if c _ cc vcode [code.OpNull] hcc hv
          (decodes_simple _ _ _ rfl (by decide)) hi6 hp6 hr6
  | .IfExpression cond cons (some alt), c, c1, h => by
    rw [compile_IfExpression] at h
    cases hc : c.CompileExpression cond with
    | error msg a => rw [hc] at h; cases h
    | panic => rw [hc] at h; cases h
    | ok c' =>
      simp only [hc] at h
      obtain ⟨⟨cc, hi1, hcc⟩, _⟩ := rec_expr cond c c' hc
      cases hcons : (c'.emit code.OpJumpNotTruthy [9999]).1.CompileStatements cons with
      | error msg a => rw [hcons] at h; cases h
      | panic => rw [hcons] at h; cases h
      | ok s2 =>
        simp only [hcons] at h
        have B2 := rec_block cons (c'.emit code.OpJumpNotTruthy [9999]).1 _ s2
          ⟨recorded_emit c' code.OpJumpNotTruthy [9999] [39, 15] (make_OpJumpNotTruthy 9999),
            by show code.OpJumpNotTruthy ≠ code.OpPop; decide⟩
          (inBlock_start _
            ⟨recorded_emit c' code.OpJumpNotTruthy [9999] [39, 15] (make_OpJumpNotTruthy 9999),
              by show code.OpJumpNotTruthy ≠ code.OpPop; decide⟩) hcons
        obtain ⟨s3, c4, vcode, hd, _, hch, hjp, hi4, hl4, hv, hst4, _⟩ :=
          if_front c' s2 c.instructions cc hi1 B2
        simp only [hd, hch] at h
        rw [hjp] at h
        cases halt : c4.CompileStatements alt with
        | error msg a => rw [halt] at h; cases h
        | panic => rw [halt] at h; cases h
        | ok s5 =>
          simp only [halt] at h
          have B4 := rec_block alt c4 c4 s5 hst4 (inBlock_start c4 hst4) halt
          obtain ⟨s7, c7, acode, hd7, _, hch7, hi7, ha, hp7, hr7, _⟩ := if_back c4 s5 _ vcode
            (c.instructions.length + cc.length + 3 + vcode.length) hi4
            (by simp only [List.length_append, List.length_cons, List.length_nil]) hl4 B4
          simp only [hd7, hch7] at h
          cases h
          exact exprPost_if c _ cc vcode acode hcc hv ha hi7 hp7 hr7
  | .StringLiteral _, c, c1, h => by
    cases h
    exact exprPost_refl c
  | .ArrayLiteral _, c, c1, h => by
    cases h
    exact exprPost_refl c
  | .HashLiteral _, c, c1, h => by
    cases h
    exact exprPost_refl c
  | .IndexExpression _ _, c, c1, h => by
    cases h
    exact exprPost_refl c
  | .CallExpression _ _, c, c1, h => by
    cases h
    exact exprPost_refl c
  | .FunctionLiteral _ _, c, c1, h => by
    cases h
    exact exprPost_refl c
/-- A statement keeps the records of a block true. -/
theorem rec_stmt : ∀ (st : Statement) (b0 s s1 : Compiler), Start b0 → InBlock b0 s →
    s.CompileStatement st = .ok s1 → InBlock b0 s1
  | .ExpressionStatement e, b0, s, s1, _, hB, h => by
    rw [compile_ExpressionStatement] at h
    cases hc : s.CompileExpression e with
    | error msg a => rw [hc] at h; cases h
    | panic => rw [hc] at h; cases h
    | ok c' =>
      simp only [hc] at h
      cases h
      exact inBlock_pop b0 s c' hB (rec_expr e s c' hc)
  | .LetStatement name e, b0, s, s1, _, hB, h => by
    rw [compile_LetStatement] at h
    cases hc : s.CompileExpression e with
    | error msg a => rw [hc] at h; cases h
    | panic => rw [hc] at h; cases h
    | ok c' =>
      simp only [hc] at h
      cases h
      exact inBlock_set b0 s c' _ _ hB (rec_expr e s c' hc) rfl
  | .ReturnStatement _, b0, s, s1, _, hB, h => by
    cases h
    exact hB
/-- The loop over the statements of a block keeps its records true. -/
theorem rec_block : ∀ (l : List Statement) (b0 s s1 : Compiler), Start b0 → InBlock b0 s →
    s.CompileStatements l = .ok s1 → InBlock b0 s1
  | [], b0, s, s1, _, hB, h => by
    rw [compile_nil] at h
    cases h
    exact hB
  | st :: rest, b0, s, s1, hb, hB, h => by
    rw [compile_cons] at h
    cases hc : s.CompileStatement st with
    | error msg a => rw [hc] at h; cases h
    | panic => rw [hc] at h; cases h
    | ok c' =>
      simp only [hc] at h
      exact rec_block rest b0 c' s1 hb (rec_stmt st b0 s c' hb hB hc) h
end

end compiler

namespace compiler

open object vm ast

/-! ### The two calls of `removeLastPop` -/

/-- C33: at both places where `Compile` calls `removeLastPop`, behind the block
of the consequence and behind the block of the alternative of a conditional
(whatever the state `c1` in which the OpJumpNotTruthy is emitted), a last
instruction OpPop makes `removeLastPop` return the stream without its final
byte, that byte is an OpPop, and the opcode of the new `lastInstruction` is the
byte stored at its position in the shortened stream. -/
theorem removeLastPop_cuts_pop (c1 s2 : Compiler) (cons : List Statement)
    (hcons : (c1.emit code.OpJumpNotTruthy [9999]).1.CompileStatements cons = .ok s2) :
    (s2.lastInstructionsIsPop = true →
      ∃ r, s2.removeLastPop = some r ∧ s2.instructions = r.instructions ++ [code.OpPop]
        ∧ r.instructions[r.lastInstruction.Position]? = some r.lastInstruction.Opcode)
    ∧ ∃ s3 c4, s2.dropLastPop = some s3
        ∧ (s3.emit code.OpJump [9999]).1.changeOperand (c1.emit code.OpJumpNotTruthy [9999]).2
            (s3.emit code.OpJump [9999]).1.instructions.length = some c4
        ∧ ∀ alt s5, c4.CompileStatements alt = .ok s5 →
            s5.lastInstructionsIsPop = true →
              ∃ r, s5.removeLastPop = some r ∧ s5.instructions = r.instructions ++ [code.OpPop]
                ∧ r.instructions[r.lastInstruction.Position]? = some r.lastInstruction.Opcode := by
  have hb : Start (c1.emit code.OpJumpNotTruthy [9999]).1 :=
    ⟨recorded_emit c1 code.OpJumpNotTruthy [9999] [39, 15] (make_OpJumpNotTruthy 9999),
      by show code.OpJumpNotTruthy ≠ code.OpPop; decide⟩
  have B2 := rec_block cons _ _ s2 hb (inBlock_start _ hb) hcons
  obtain ⟨s3, c4, vcode, hd, _, hch, _, hi4, hl4, _, hst4, hcut⟩ :=
    if_front c1 s2 c1.instructions [] (by simp) B2
  refine ⟨hcut, s3, c4, hd, hch, fun alt s5 halt => ?_⟩
  have B4 := rec_block alt c4 c4 s5 hst4 (inBlock_start c4 hst4) halt
  obtain ⟨_, _, _, _, _, _, _, _, _, _, hcut5⟩ := if_back c4 s5 _ vcode
    (c1.instructions.length + ([] : List Nat).length + 3 + vcode.length) hi4
    (by simp only [List.length_append, List.length_cons, List.length_nil]) hl4 B4
  exact hcut5

/-- Witness of C33: the two blocks of `if (true) { 1 } else { 2 }`. -/
theorem removeLastPop_cuts_pop_witness :
    (Compiler.lastInstructionsIsPop
        { New with
          instructions := [code.OpTrue, code.OpJumpNotTruthy, 39, 15, code.OpConstant, 0, 0,
            code.OpPop]
          constants := [Object.Integer 1]
          lastInstruction := { Opcode := code.OpPop, Position := 7 }
          previousInstruction := { Opcode := code.OpConstant, Position := 4 } } = true →
      ∃ r, Compiler.removeLastPop
          { New with
            instructions := [code.OpTrue, code.OpJumpNotTruthy, 39, 15, code.OpConstant, 0, 0,
              code.OpPop]
            constants := [Object.Integer 1]
            lastInstruction := { Opcode := code.OpPop, Position := 7 }
            previousInstruction := { Opcode := code.OpConstant, Position := 4 } } = some r
        ∧ [code.OpTrue, code.OpJumpNotTruthy, 39, 15, code.OpConstant, 0, 0, code.OpPop]
            = r.instructions ++ [code.OpPop]
        ∧ r.instructions[r.lastInstruction.Position]? = some r.lastInstruction.Opcode)
    ∧ ∃ s3 c4, Compiler.dropLastPop
          { New with
            instructions := [code.OpTrue, code.OpJumpNotTruthy, 39, 15, code.OpConstant, 0, 0,
              code.OpPop]
            constants := [Object.Integer 1]
            lastInstruction := { Opcode := code.OpPop, Position := 7 }
            previousInstruction := { Opcode := code.OpConstant, Position := 4 } } = some s3
        ∧ (s3.emit code.OpJump [9999]).1.changeOperand
            ((New.emit code.OpTrue []).1.emit code.OpJumpNotTruthy [9999]).2
            (s3.emit code.OpJump [9999]).1.instructions.length = some c4
        ∧ ∀ alt s5, c4.CompileStatements alt = .ok s5 →
            s5.lastInstructionsIsPop = true →
              ∃ r, s5.removeLastPop = some r ∧ s5.instructions = r.instructions ++ [code.OpPop]
                ∧ r.instructions[r.lastInstruction.Position]? = some r.lastInstruction.Opcode :=
  removeLastPop_cuts_pop (New.emit code.OpTrue []).1 _
    [.ExpressionStatement (.IntegerLiteral 1)] rfl

end compiler

namespace compiler

open object vm ast

/-! ### The targets of the two jumps of a conditional -/

theorem instructionsFrom_wide (pos op x y : Nat) (rest : List Nat) (hw : code.width op = 2) :
    code.instructionsFrom 0 pos (op :: x :: y :: rest)
      = (pos, op, [x, y]) :: code.instructionsFrom 0 (pos + 3) rest := by
  simp [code.instructionsFrom, hw]

theorem read_two_bytes (t : Nat) (h : t < 65536) :
    code.ReadUint16 [t / 256 % 256, t % 256] = some t := by
  show some (t / 256 % 256 * 256 + t % 256) = some t
  rw [u16_decode, Nat.mod_eq_of_lt h]

/-- The instructions of a conditional: the two jumps stand behind the code of
the condition and behind the code of the consequence, and the code of the
alternative starts behind the OpJump. -/
theorem decode_if (hi1 hi2 off : Nat) (cc vcode acode : List Nat) (b1 b2 b3 b4 : Nat)
    (hcc : DecodesTo hi1 off cc) (hv : DecodesTo hi2 (off + cc.length + 3) vcode) :
    (off + cc.length, code.OpJumpNotTruthy, [b1, b2])
        ∈ code.instructionsFrom 0 off
            (cc ++ [code.OpJumpNotTruthy, b1, b2] ++ vcode ++ [code.OpJump, b3, b4] ++ acode)
      ∧ (off + cc.length + 3 + vcode.length, code.OpJump, [b3, b4])
        ∈ code.instructionsFrom 0 off
            (cc ++ [code.OpJumpNotTruthy, b1, b2] ++ vcode ++ [code.OpJump, b3, b4] ++ acode)
      ∧ ∀ op rest, acode = op :: rest →
          (off + cc.length + 3 + vcode.length + 3, op, rest.take (code.width op))
            ∈ code.instructionsFrom 0 off
                (cc ++ [code.OpJumpNotTruthy, b1, b2] ++ vcode ++ [code.OpJump, b3, b4]
                  ++ acode) := by
  obtain ⟨D1, h1, _⟩ := hcc
  obtain ⟨D2, h2, _⟩ := hv
  have e : code.instructionsFrom 0 off
      (cc ++ [code.OpJumpNotTruthy, b1, b2] ++ vcode ++ [code.OpJump, b3, b4] ++ acode)
      = D1 ++ (off + cc.length, code.OpJumpNotTruthy, [b1, b2]) :: (D2
          ++ (off + cc.length + 3 + vcode.length, code.OpJump, [b3, b4])
            :: code.instructionsFrom 0 (off + cc.length + 3 + vcode.length + 3) acode) := by
    have a1 : cc ++ [code.OpJumpNotTruthy, b1, b2] ++ vcode ++ [code.OpJump, b3, b4] ++ acode
        = cc ++ (code.OpJumpNotTruthy :: b1 :: b2 :: (vcode ++ (code.OpJump :: b3 :: b4 :: acode))) := by
      simp
    rw [a1, h1, instructionsFrom_wide _ code.OpJumpNotTruthy _ _ _ rfl, h2,
      instructionsFrom_wide _ code.OpJump _ _ _ rfl]
  rw [e]
  refine ⟨by simp, by simp, fun op rest ha => ?_⟩
  subst ha
  have : code.instructionsFrom 0 (off + cc.length + 3 + vcode.length + 3) (op :: rest)
      = (off + cc.length + 3 + vcode.length + 3, op, rest.take (code.width op))
        :: code.instructionsFrom (code.width op) (off + cc.length + 3 + vcode.length + 3 + 1) rest := by
    simp [code.instructionsFrom]
  rw [this]
  simp

end compiler

namespace compiler

open object vm ast

/-- The operands of the two jumps of a conditional in a stream shorter than
65536 bytes. -/
theorem if_operands (c c1 : Compiler) (cc vcode acode : List Nat)
    (hcc : DecodesTo (c.instructions.length + cc.length) c.instructions.length cc)
    (hv : DecodesTo (c.instructions.length + cc.length + 3 + vcode.length)
      (c.instructions.length + cc.length + 3) vcode)
    (hi : c1.instructions = c.instructions ++ cc
      ++ [code.OpJumpNotTruthy, (c.instructions.length + cc.length + 3 + vcode.length + 3) / 256 % 256,
          (c.instructions.length + cc.length + 3 + vcode.length + 3) % 256]
      ++ vcode
      ++ [code.OpJump,
          (c.instructions.length + cc.length + 3 + vcode.length + 3 + acode.length) / 256 % 256,
          (c.instructions.length + cc.length + 3 + vcode.length + 3 + acode.length) % 256]
      ++ acode)
    (hlen : c1.instructions.length < 65536) :
    ∃ b1 b2 b3 b4,
      c1.instructions = c.instructions
        ++ (cc ++ [code.OpJumpNotTruthy, b1, b2] ++ vcode ++ [code.OpJump, b3, b4] ++ acode)
      ∧ code.ReadUint16 [b1, b2]
          = some (c.instructions.length + cc.length + 3 + vcode.length + 3)
      ∧ code.ReadUint16 [b3, b4]
          = some (c.instructions.length + cc.length + 3 + vcode.length + 3 + acode.length)
      ∧ c.instructions.length + cc.length + 3 + vcode.length + 3 + acode.length
          = c1.instructions.length
      ∧ (c.instructions.length + cc.length, code.OpJumpNotTruthy, [b1, b2])
          ∈ code.instructionsFrom 0 c.instructions.length
              (cc ++ [code.OpJumpNotTruthy, b1, b2] ++ vcode ++ [code.OpJump, b3, b4] ++ acode)
      ∧ (c.instructions.length + cc.length + 3 + vcode.length, code.OpJump, [b3, b4])
          ∈ code.instructionsFrom 0 c.instructions.length
              (cc ++ [code.OpJumpNotTruthy, b1, b2] ++ vcode ++ [code.OpJump, b3, b4] ++ acode)
      ∧ (acode = [] ∨ ∃ op ops,
          (c.instructions.length + cc.length + 3 + vcode.length + 3, op, ops)
            ∈ code.instructionsFrom 0 c.instructions.length
                (cc ++ [code.OpJumpNotTruthy, b1, b2] ++ vcode ++ [code.OpJump, b3, b4] ++ acode)
          ∧ acode.head? = some op) := by
  have hl : c.instructions.length + cc.length + 3 + vcode.length + 3 + acode.length
      = c1.instructions.length := by
    rw [hi]
    simp only [List.length_append, List.length_cons, List.length_nil]
  obtain ⟨m1, m2, m3⟩ := decode_if _ _ c.instructions.length cc vcode acode
    ((c.instructions.length + cc.length + 3 + vcode.length + 3) / 256 % 256)
    ((c.instructions.length + cc.length + 3 + vcode.length + 3) % 256)
    ((c.instructions.length + cc.length + 3 + vcode.length + 3 + acode.length) / 256 % 256)
    ((c.instructions.length + cc.length + 3 + vcode.length + 3 + acode.length) % 256) hcc hv
  refine ⟨_, _, _, _, by rw [hi]; simp only [List.append_assoc], read_two_bytes _ (by omega),
    read_two_bytes _ (by omega), hl, m1, m2, ?_⟩
  cases ha : acode with
  | nil => exact Or.inl rfl
  | cons op rest =>
    refine Or.inr ⟨op, rest.take (code.width op), ?_, rfl⟩
    have := m3 op rest ha
    rw [ha] at this
    exact this

/-- C31: when `Compile` of an IfExpression returns no error and the stream is
shorter than 65536 bytes, the code appended is the code `cc` of the condition,
the OpJumpNotTruthy, the code `vcode` of the consequence, the OpJump, and the
code `acode` of the alternative, which is the one OpNull when there is no
alternative. The operand of the OpJumpNotTruthy is the offset behind the OpJump,
where `acode` starts; the operand of the OpJump is the offset behind `acode`,
which is the end of the stream. The two jumps are instructions of the appended
code, and the first target is the start of an instruction of it unless `acode`
is empty. -/
theorem if_jump_targets (c c1 : Compiler) (cond : Expression) (cons : List Statement)
    (alt : Option (List Statement))
    (h : c.CompileExpression (.IfExpression cond cons alt) = .ok c1)
    (hlen : c1.instructions.length < 65536) :
    ∃ cc vcode acode b1 b2 b3 b4,
      c1.instructions = c.instructions
        ++ (cc ++ [code.OpJumpNotTruthy, b1, b2] ++ vcode ++ [code.OpJump, b3, b4] ++ acode)
      ∧ code.ReadUint16 [b1, b2]
          = some (c.instructions.length + cc.length + 3 + vcode.length + 3)
      ∧ code.ReadUint16 [b3, b4]
          = some (c.instructions.length + cc.length + 3 + vcode.length + 3 + acode.length)
      ∧ c.instructions.length + cc.length + 3 + vcode.length + 3 + acode.length
          = c1.instructions.length
      ∧ (c.instructions.length + cc.length, code.OpJumpNotTruthy, [b1, b2])
          ∈ code.instructionsFrom 0 c.instructions.length
              (cc ++ [code.OpJumpNotTruthy, b1, b2] ++ vcode ++ [code.OpJump, b3, b4] ++ acode)
      ∧ (c.instructions.length + cc.length + 3 + vcode.length, code.OpJump, [b3, b4])
          ∈ code.instructionsFrom 0 c.instructions.length
              (cc ++ [code.OpJumpNotTruthy, b1, b2] ++ vcode ++ [code.OpJump, b3, b4] ++ acode)
      ∧ (acode = [] ∨ ∃ op ops,
          (c.instructions.length + cc.length + 3 + vcode.length + 3, op, ops)
            ∈ code.instructionsFrom 0 c.instructions.length
                (cc ++ [code.OpJumpNotTruthy, b1, b2] ++ vcode ++ [code.OpJump, b3, b4] ++ acode)
          ∧ acode.head? = some op)
      ∧ (alt = none → acode = [code.OpNull])
      ∧ ∃ c2 s2 s3 c4, c.CompileExpression cond = .ok c2
          ∧ c2.instructions = c.instructions ++ cc
          ∧ (c2.emit code.OpJumpNotTruthy [9999]).1.CompileStatements cons = .ok s2
          ∧ s2.dropLastPop = some s3
          ∧ s3.instructions = c.instructions ++ cc ++ [code.OpJumpNotTruthy, 39, 15] ++ vcode
          ∧ (s3.emit code.OpJump [9999]).1.changeOperand (c2.emit code.OpJumpNotTruthy [9999]).2
              (s3.emit code.OpJump [9999]).1.instructions.length = some c4
          ∧ ∀ a, alt = some a → ∃ s5 s7, c4.CompileStatements a = .ok s5
              ∧ s5.dropLastPop = some s7 ∧ s7.instructions = c4.instructions ++ acode := by
  have hstart : ∀ c2 : Compiler, Start (c2.emit code.OpJumpNotTruthy [9999]).1 := fun c2 =>
    ⟨recorded_emit c2 code.OpJumpNotTruthy [9999] [39, 15] (make_OpJumpNotTruthy 9999),
      by show code.OpJumpNotTruthy ≠ code.OpPop; decide⟩
  rw [compile_IfExpression] at h
  cases hc : c.CompileExpression cond with
  | error msg a => rw [hc] at h; cases h
  | panic => rw [hc] at h; cases h
  | ok c2 =>
    simp only [hc] at h
    obtain ⟨⟨cc, hi1, hcc⟩, _⟩ := rec_expr cond c c2 hc
    cases hcons : (c2.emit code.OpJumpNotTruthy [9999]).1.CompileStatements cons with
    | error msg a => rw [hcons] at h; cases h
    | panic => rw [hcons] at h; cases h
    | ok s2 =>
      simp only [hcons] at h
      have B2 := rec_block cons _ _ s2 (hstart c2) (inBlock_start _ (hstart c2)) hcons
      obtain ⟨s3, c4, vcode, hd, hi3, hch, hjp, hi4, hl4, hv, hst4, _⟩ :=
        if_front c2 s2 c.instructions cc hi1 B2
      simp only [hd, hch] at h
      rw [hjp] at h
      cases alt with
      | none =>
        simp only at h
        obtain ⟨c6, hch6, hi6, _, _⟩ := if_close c4 _ vcode
          (c.instructions.length + cc.length + 3 + vcode.length) hi4
          (by simp only [List.length_append, List.length_cons, List.length_nil])
        simp only [hch6] at h
        cases h
        obtain ⟨b1, b2, b3, b4, q1, q2, q3, q4, q5, q6, q7⟩ :=
          if_operands c c1 cc vcode [code.OpNull] hcc hv hi6 hlen
        refine ⟨cc, vcode, [code.OpNull], b1, b2, b3, b4, q1, q2, q3, q4, q5, q6, q7,
          fun _ => rfl, c2, s2, s3, c4, rfl, hi1, hcons, hd, hi3, hch, ?_⟩
        intro a ha
        cases ha
      | some a =>
        simp only at h
        cases halt : c4.CompileStatements a with
        | error msg a => rw [halt] at h; cases h
        | panic => rw [halt] at h; cases h
        | ok s5 =>
          simp only [halt] at h
          have B4 := rec_block a c4 c4 s5 hst4 (inBlock_start c4 hst4) halt
          obtain ⟨s7, c7, acode, hd7, hi7s, hch7, hi7, _, _, _, _⟩ := if_back c4 s5 _ vcode
            (c.instructions.length + cc.length + 3 + vcode.length) hi4
            (by simp only [List.length_append, List.length_cons, List.length_nil]) hl4 B4
          simp only [hd7, hch7] at h
          cases h
          obtain ⟨b1, b2, b3, b4, q1, q2, q3, q4, q5, q6, q7⟩ :=
            if_operands c c1 cc vcode acode hcc hv hi7 hlen
          refine ⟨cc, vcode, acode, b1, b2, b3, b4, q1, q2, q3, q4, q5, q6, q7,
            ?_, c2, s2, s3, c4, rfl, hi1, hcons, hd, hi3, hch, ?_⟩
          · intro ha
            cases ha
          · intro a' ha
            cases ha
            exact ⟨s5, s7, halt, hd7, hi7s⟩

end compiler

namespace compiler

open object vm ast

/-- Witness of C31: `if (true) { 1 }` compiled by a new compiler. -/
theorem if_jump_targets_witness :
    ∃ c1, New.CompileExpression
        (.IfExpression (.Boolean true) [.ExpressionStatement (.IntegerLiteral 1)] none) = .ok c1
      ∧ c1.instructions = [code.OpTrue, code.OpJumpNotTruthy, 0, 10, code.OpConstant, 0, 0,
          code.OpJump, 0, 11, code.OpNull]
      ∧ ∃ cc vcode acode b1 b2 b3 b4,
        c1.instructions = New.instructions
          ++ (cc ++ [code.OpJumpNotTruthy, b1, b2] ++ vcode ++ [code.OpJump, b3, b4] ++ acode)
        ∧ code.ReadUint16 [b1, b2]
            = some (New.instructions.length + cc.length + 3 + vcode.length + 3)
        ∧ code.ReadUint16 [b3, b4]
            = some (New.instructions.length + cc.length + 3 + vcode.length + 3 + acode.length)
        ∧ New.instructions.length + cc.length + 3 + vcode.length + 3 + acode.length
            = c1.instructions.length
        ∧ (New.instructions.length + cc.length, code.OpJumpNotTruthy, [b1, b2])
            ∈ code.instructionsFrom 0 New.instructions.length
                (cc ++ [code.OpJumpNotTruthy, b1, b2] ++ vcode ++ [code.OpJump, b3, b4] ++ acode)
        ∧ (New.instructions.length + cc.length + 3 + vcode.length, code.OpJump, [b3, b4])
            ∈ code.instructionsFrom 0 New.instructions.length
                (cc ++ [code.OpJumpNotTruthy, b1, b2] ++ vcode ++ [code.OpJump, b3, b4] ++ acode)
        ∧ (acode = [] ∨ ∃ op ops,
            (New.instructions.length + cc.length + 3 + vcode.length + 3, op, ops)
              ∈ code.instructionsFrom 0 New.instructions.length
                  (cc ++ [code.OpJumpNotTruthy, b1, b2] ++ vcode ++ [code.OpJump, b3, b4] ++ acode)
            ∧ acode.head? = some op)
        ∧ ((none : Option (List Statement)) = none → acode = [code.OpNull])
        ∧ ∃ c2 s2 s3 c4, New.CompileExpression (.Boolean true) = .ok c2
            ∧ c2.instructions = New.instructions ++ cc
            ∧ (c2.emit code.OpJumpNotTruthy [9999]).1.CompileStatements
                [.ExpressionStatement (.IntegerLiteral 1)] = .ok s2
            ∧ s2.dropLastPop = some s3
            ∧ s3.instructions = New.instructions ++ cc ++ [code.OpJumpNotTruthy, 39, 15] ++ vcode
            ∧ (s3.emit code.OpJump [9999]).1.changeOperand (c2.emit code.OpJumpNotTruthy [9999]).2
                (s3.emit code.OpJump [9999]).1.instructions.length = some c4
            ∧ ∀ a, (none : Option (List Statement)) = some a → ∃ s5 s7,
                c4.CompileStatements a = .ok s5
                ∧ s5.dropLastPop = some s7 ∧ s7.instructions = c4.instructions ++ acode :=
  ⟨_, rfl, rfl, if_jump_targets New _ (.Boolean true)
    [.ExpressionStatement (.IntegerLiteral 1)] none rfl (by decide)⟩

end compiler


namespace vm

open object

/-! ### The number of instructions that compiled code executes -/

theorem faultIn_mono {n m : Nat} {vm : VM} {ip : Nat} (h : FaultIn n vm ip) (hle : n ≤ m) :
    FaultIn m vm ip := by
  obtain ⟨k, rfl⟩ : ∃ k, m = n + k := ⟨m - n, by omega⟩
  rcases h with ⟨msg, vm1, h⟩ | h
  · exact Or.inl ⟨msg, vm1, runFrom_mono k h⟩
  · exact Or.inr (runFrom_mono k h)

theorem faultIn_of_steps {k m : Nat} {vm vm1 : VM} {ip ip1 : Nat}
    (h1 : VM.steps k vm ip = some (vm1, ip1)) (h2 : FaultIn m vm1 ip1) :
    FaultIn (k + m) vm ip := by
  unfold FaultIn
  rw [runFrom_steps m h1]
  exact h2

theorem step_in {vm : VM} {ip : Nat} (hlt : ip < vm.instructions.length) :
    FaultIn 1 vm ip ∨ ∃ vm1 next, vm.step ip = .ok (vm1, next)
      ∧ VM.steps 1 vm ip = some (vm1, next) := by
  cases h : vm.step ip with
  | ok p => exact Or.inr ⟨p.1, p.2, rfl, by simp [VM.steps, hlt, h]⟩
  | error msg p => exact Or.inl (Or.inl ⟨msg, p.1, by simp [VM.runFrom, hlt, h]⟩)
  | panic => exact Or.inl (Or.inr (by simp [VM.runFrom, hlt, h]))

theorem execIn_nil (off : Nat) : ExecIn off [] := by
  intro vm pre post _ _ _
  exact Or.inr ⟨0, vm, Nat.le_refl _, rfl, rfl⟩

theorem execIn_seq {off : Nat} {c1 c2 : List Nat} (h1 : ExecIn off c1)
    (h2 : ExecIn (off + c1.length) c2) : ExecIn off (c1 ++ c2) := by
  intro vm pre post hins hpre hlen
  rcases h1 vm pre (c2 ++ post) (by rw [hins]; simp) hpre hlen with hf | ⟨k1, vm1, b1, r1, i1⟩
  · exact Or.inl (faultIn_mono hf (by simp))
  · rcases h2 vm1 (pre ++ c1) post (by rw [i1, hins]; simp) (by simp [hpre])
        (by rw [i1]; exact hlen) with hf | ⟨k2, vm2, b2, r2, i2⟩
    · exact Or.inl (faultIn_mono (faultIn_of_steps r1 hf) (by rw [List.length_append]; omega))
    · refine Or.inr ⟨k1 + k2, vm2, by rw [List.length_append]; omega, ?_, by rw [i2, i1]⟩
      rw [List.length_append, ← Nat.add_assoc]
      exact steps_trans r1 r2

/-- An instruction whose rounds that end without error go on behind it. -/
theorem execIn_of_step (off op : Nat) (rest : List Nat)
    (h : ∀ (vm vm1 : VM) (next : Nat), vm.instructions[off]? = some op →
      vm.step off = .ok (vm1, next) →
      next = off + (op :: rest).length ∧ vm1.instructions = vm.instructions) :
    ExecIn off (op :: rest) := by
  intro vm pre post hins hpre hlen
  have h' : vm.instructions = pre ++ op :: (rest ++ post) := by rw [hins]; simp
  obtain ⟨hi, hlt⟩ := ins_at vm pre _ _ h'
  rw [hpre] at hi hlt
  rcases step_in hlt with hf | ⟨vm1, next, hs, h1⟩
  · exact Or.inl (faultIn_mono hf (by simp))
  · obtain ⟨e1, e3⟩ := h vm vm1 next hi hs
    refine Or.inr ⟨1, vm1, by simp, ?_, e3⟩
    rw [← e1]
    exact h1

theorem execIn_simple (off op : Nat)
    (hop : op = code.OpTrue ∨ op = code.OpFalse ∨ op = code.OpNull) : ExecIn off [op] := by
  apply execIn_of_step
  intro vm vm1 next hi hs
  rcases hop with rfl | rfl | rfl
  · rw [step_OpTrue vm _ hi] at hs
    obtain ⟨e1, e2⟩ := goOn_ok hs
    exact ⟨e2, (push_ok e1).2⟩
  · rw [step_OpFalse vm _ hi] at hs
    obtain ⟨e1, e2⟩ := goOn_ok hs
    exact ⟨e2, (push_ok e1).2⟩
  · rw [step_OpNull vm _ hi] at hs
    obtain ⟨e1, e2⟩ := goOn_ok hs
    exact ⟨e2, (push_ok e1).2⟩

theorem execIn_wide (off op hi lo : Nat)
    (hop : op = code.OpConstant ∨ op = code.OpGetGlobal) : ExecIn off [op, hi, lo] := by
  apply execIn_of_step
  intro vm vm1 next hi hs
  rcases hop with rfl | rfl
  · rw [step_OpConstant vm _ hi] at hs
    cases ho : vm.operand off with
    | none => rw [ho] at hs; cases hs
    | some k =>
      simp only [ho] at hs
      cases hc : vm.constants[k]? with
      | none => rw [hc] at hs; cases hs
      | some o =>
        simp only [hc] at hs
        obtain ⟨e1, e2⟩ := goOn_ok hs
        exact ⟨e2, (push_ok e1).2⟩
  · rw [step_OpGetGlobal vm _ hi] at hs
    cases ho : vm.operand off with
    | none => rw [ho] at hs; cases hs
    | some k =>
      simp only [ho] at hs
      cases hc : vm.globals[k]? with
      | none => rw [hc] at hs; cases hs
      | some o =>
        simp only [hc] at hs
        obtain ⟨e1, e2⟩ := goOn_ok hs
        exact ⟨e2, (push_ok e1).2⟩

theorem execIn_unary (off op : Nat)
    (hop : op = code.OpBang ∨ op = code.OpMinus) : ExecIn off [op] := by
  apply execIn_of_step
  intro vm vm1 next hi hs
  rcases hop with rfl | rfl
  · rw [step_OpBang vm _ hi] at hs
    obtain ⟨e1, e2⟩ := goOn_ok hs
    exact ⟨e2, (bang_ok e1).2⟩
  · rw [step_OpMinus vm _ hi] at hs
    obtain ⟨e1, e2⟩ := goOn_ok hs
    exact ⟨e2, (minus_ok e1).2⟩

theorem execIn_binary (off op : Nat)
    (hop : op = code.OpAdd ∨ op = code.OpSub ∨ op = code.OpMul ∨ op = code.OpDiv
        ∨ op = code.OpGreaterThan ∨ op = code.OpEqual ∨ op = code.OpNotEqual) :
    ExecIn off [op] := by
  apply execIn_of_step
  intro vm vm1 next hi hs
  rcases hop with rfl | rfl | rfl | rfl | rfl | rfl | rfl
  · rw [step_OpAdd vm _ hi] at hs
    obtain ⟨e1, e2⟩ := goOn_ok hs
    exact ⟨e2, (binop_ok e1).2⟩
  · rw [step_OpSub vm _ hi] at hs
    obtain ⟨e1, e2⟩ := goOn_ok hs
    exact ⟨e2, (binop_ok e1).2⟩
  · rw [step_OpMul vm _ hi] at hs
    obtain ⟨e1, e2⟩ := goOn_ok hs
    exact ⟨e2, (binop_ok e1).2⟩
  · rw [step_OpDiv vm _ hi] at hs
    obtain ⟨e1, e2⟩ := goOn_ok hs
    exact ⟨e2, (binop_ok e1).2⟩
  · rw [step_OpGreaterThan vm _ hi] at hs
    obtain ⟨e1, e2⟩ := goOn_ok hs
    exact ⟨e2, (cmp_ok e1).2⟩
  · rw [step_OpEqual vm _ hi] at hs
    obtain ⟨e1, e2⟩ := goOn_ok hs
    exact ⟨e2, (cmp_ok e1).2⟩
  · rw [step_OpNotEqual vm _ hi] at hs
    obtain ⟨e1, e2⟩ := goOn_ok hs
    exact ⟨e2, (cmp_ok e1).2⟩

theorem execIn_pop (off : Nat) : ExecIn off [code.OpPop] := by
  apply execIn_of_step
  intro vm vm1 next hi hs
  rw [step_OpPop vm _ hi] at hs
  cases hp : vm.pop with
  | none => rw [hp] at hs; cases hs
  | some p =>
    obtain ⟨o, m1⟩ := p
    simp only [hp, Result.ok.injEq, Prod.mk.injEq] at hs
    obtain ⟨e3, e4⟩ := pop_some hp
    obtain ⟨rfl, rfl⟩ := hs
    exact ⟨rfl, e4⟩

theorem execIn_setGlobal (off hi lo : Nat) : ExecIn off [code.OpSetGlobal, hi, lo] := by
  apply execIn_of_step
  intro vm vm1 next hi hs
  rw [step_OpSetGlobal vm _ hi] at hs
  cases ho : vm.operand off with
  | none => rw [ho] at hs; cases hs
  | some k =>
    simp only [ho] at hs
    cases hp : vm.pop with
    | none => rw [hp] at hs; cases hs
    | some p =>
      obtain ⟨o, m1⟩ := p
      simp only [hp] at hs
      obtain ⟨e3, e4⟩ := pop_some hp
      split_ifs at hs
      simp only [Result.ok.injEq, Prod.mk.injEq] at hs
      obtain ⟨rfl, rfl⟩ := hs
      exact ⟨rfl, e4⟩

/-- OpJumpNotTruthy in its context fails, or goes on in one round behind itself
or at its target. -/
theorem jnt_in (vm : VM) (pre post : List Nat) (t : Nat)
    (h : vm.instructions = pre ++ [code.OpJumpNotTruthy, t / 256 % 256, t % 256] ++ post)
    (ht : t < 65536) :
    FaultIn 1 vm pre.length ∨ ∃ vm1, vm1.instructions = vm.instructions
      ∧ (VM.steps 1 vm pre.length = some (vm1, pre.length + 3)
          ∨ VM.steps 1 vm pre.length = some (vm1, t)) := by
  have h' : vm.instructions
      = pre ++ code.OpJumpNotTruthy :: (t / 256 % 256) :: (t % 256) :: post := by
    simpa using h
  obtain ⟨hi, hlt⟩ := ins_at vm pre _ _ h'
  have hop := operand_at vm pre _ _ _ _ h'
  rw [u16_decode, Nat.mod_eq_of_lt ht] at hop
  rcases step_in hlt with hf | ⟨vm1, next, hs, hr⟩
  · exact Or.inl hf
  · rw [step_OpJumpNotTruthy vm _ hi] at hs
    simp only [hop] at hs
    cases hp : vm.pop with
    | none => rw [hp] at hs; cases hs
    | some p =>
      obtain ⟨o, m1⟩ := p
      simp only [hp] at hs
      obtain ⟨e3, e4⟩ := pop_some hp
      split_ifs at hs
      · simp only [Result.ok.injEq, Prod.mk.injEq] at hs
        obtain ⟨rfl, rfl⟩ := hs
        exact Or.inr ⟨_, e4, Or.inr hr⟩
      · simp only [Result.ok.injEq, Prod.mk.injEq] at hs
        obtain ⟨rfl, rfl⟩ := hs
        exact Or.inr ⟨_, e4, Or.inl hr⟩

/-- OpJump in its context goes on at its target in one round. -/
theorem jump_in (vm : VM) (pre post : List Nat) (t : Nat)
    (h : vm.instructions = pre ++ [code.OpJump, t / 256 % 256, t % 256] ++ post)
    (ht : t < 65536) :
    VM.steps 1 vm pre.length = some (vm, t) := by
  have h' : vm.instructions = pre ++ code.OpJump :: (t / 256 % 256) :: (t % 256) :: post := by
    simpa using h
  obtain ⟨hi, hlt⟩ := ins_at vm pre _ _ h'
  have hop := operand_at vm pre _ _ _ _ h'
  rw [u16_decode, Nat.mod_eq_of_lt ht] at hop
  have hs : vm.step pre.length = .ok (vm, t) := by
    rw [step_OpJump vm _ hi]
    simp only [hop]
  simp [VM.steps, hlt, hs]

end vm

namespace vm

open object

/-- The code of a conditional executes at most as many instructions as it has
bytes. -/
theorem execIn_if_aux (off : Nat) (cc cons alt J1 J2 : List Nat) (hcc : ExecIn off cc)
    (hcons : ExecIn (off + cc.length + 3) cons)
    (halt : ExecIn (off + cc.length + 3 + cons.length + 3) alt)
    (hJ1 : J1 = [code.OpJumpNotTruthy, (off + cc.length + 3 + cons.length + 3) / 256 % 256,
              (off + cc.length + 3 + cons.length + 3) % 256])
    (hJ2 : J2 = [code.OpJump, (off + cc.length + 3 + cons.length + 3 + alt.length) / 256 % 256,
            (off + cc.length + 3 + cons.length + 3 + alt.length) % 256]) :
    ExecIn off (cc ++ J1 ++ cons ++ J2 ++ alt) := by
  intro vm pre post hins hpre hlen
  have l1 : J1.length = 3 := by rw [hJ1]; rfl
  have l2 : J2.length = 3 := by rw [hJ2]; rfl
  have hl := congrArg List.length hins
  simp only [List.length_append, l1, l2] at hl
  have e5 : (cc ++ J1 ++ cons ++ J2 ++ alt).length
      = cc.length + 3 + cons.length + 3 + alt.length := by
    simp only [List.length_append, l1, l2]
  rw [e5]
  rcases hcc vm pre (J1 ++ cons ++ J2 ++ alt ++ post)
      (by rw [hins]; simp only [List.append_assoc]) hpre hlen
    with hf | ⟨k1, vm1, b1, r1, i1⟩
  · exact Or.inl (faultIn_mono hf (by omega))
  rcases jnt_in vm1 (pre ++ cc) (cons ++ J2 ++ alt ++ post)
      (off + cc.length + 3 + cons.length + 3)
      (by rw [i1, hins, ← hJ1]; simp only [List.append_assoc]) (by omega)
    with hf | ⟨vm2, i2, r2⟩
  · rw [List.length_append, hpre] at hf
    exact Or.inl (faultIn_mono (faultIn_of_steps r1 hf) (by omega))
  rw [List.length_append, hpre] at r2
  rcases r2 with r2 | r2
  · rcases hcons vm2 (pre ++ cc ++ J1) (J2 ++ alt ++ post)
        (by rw [i2, i1, hins]; simp only [List.append_assoc])
        (by simp only [List.length_append, l1]; omega)
        (by rw [i2, i1]; exact hlen)
      with hf | ⟨k3, vm3, b3, r3, i3⟩
    · exact Or.inl (faultIn_mono (faultIn_of_steps (steps_trans r1 r2) hf) (by omega))
    have r4 := jump_in vm3 (pre ++ cc ++ J1 ++ cons) (alt ++ post)
        (off + cc.length + 3 + cons.length + 3 + alt.length)
        (by rw [i3, i2, i1, hins, ← hJ2]; simp only [List.append_assoc]) (by omega)
    have e4 : (pre ++ cc ++ J1 ++ cons).length = off + cc.length + 3 + cons.length := by
      simp only [List.length_append, l1]; omega
    rw [e4] at r4
    refine Or.inr ⟨k1 + 1 + k3 + 1, vm3, by omega, ?_, by rw [i3, i2, i1]⟩
    have := steps_trans (steps_trans (steps_trans r1 r2) r3) r4
    rw [show off + (cc.length + 3 + cons.length + 3 + alt.length)
      = off + cc.length + 3 + cons.length + 3 + alt.length by omega]
    exact this
  · rcases halt vm2 (pre ++ cc ++ J1 ++ cons ++ J2) post
        (by rw [i2, i1, hins]; simp only [List.append_assoc])
        (by simp only [List.length_append, l1, l2]; omega)
        (by rw [i2, i1]; exact hlen)
      with hf | ⟨k3, vm3, b3, r3, i3⟩
    · exact Or.inl (faultIn_mono (faultIn_of_steps (steps_trans r1 r2) hf) (by omega))
    refine Or.inr ⟨k1 + 1 + k3, vm3, by omega, ?_, by rw [i3, i2, i1]⟩
    have := steps_trans (steps_trans r1 r2) r3
    rw [show off + (cc.length + 3 + cons.length + 3 + alt.length)
      = off + cc.length + 3 + cons.length + 3 + alt.length by omega]
    exact this

theorem execIn_if (off : Nat) (cc cons alt : List Nat) (hcc : ExecIn off cc)
    (hcons : ExecIn (off + cc.length + 3) cons)
    (halt : ExecIn (off + cc.length + 3 + cons.length + 3) alt) :
    ExecIn off
      (cc ++ [code.OpJumpNotTruthy, (off + cc.length + 3 + cons.length + 3) / 256 % 256,
              (off + cc.length + 3 + cons.length + 3) % 256]
        ++ cons
        ++ [code.OpJump, (off + cc.length + 3 + cons.length + 3 + alt.length) / 256 % 256,
            (off + cc.length + 3 + cons.length + 3 + alt.length) % 256]
        ++ alt) :=
  execIn_if_aux off cc cons alt _ _ hcc hcons halt rfl rfl

end vm

namespace compiler

open object vm ast

/-- Compiled code executes at most as many instructions as it has bytes. -/
theorem shape_steps {b : Bool} {k : Kind} {off : Nat} {cd : List Nat} (h : Shape b k off cd) :
    ExecIn off cd := by
  induction h with
  | skipExpr off hs => exact execIn_nil off
  | skipStmt off hs => exact execIn_nil off
  | simple off op hop =>
    exact execIn_simple off op (hop.elim Or.inl (fun h => Or.inr (Or.inl h)))
  | wide off op hi lo hop => exact execIn_wide off op hi lo hop
  | unary off op c1 hop _ ih => exact execIn_seq ih (execIn_unary (off + c1.length) op hop)
  | binary off op c1 c2 hop _ _ ih1 ih2 =>
    exact execIn_seq (execIn_seq ih1 ih2) (execIn_binary (off + (c1 ++ c2).length) op hop)
  | ifThen off cc cons _ _ ih1 ih2 =>
    exact execIn_if off cc cons [code.OpNull] ih1 ih2 (execIn_simple _ _ (Or.inr (Or.inr rfl)))
  | ifThenElse off cc cons alt _ _ _ ih1 ih2 ih3 => exact execIn_if off cc cons alt ih1 ih2 ih3
  | exprStmt off c1 _ ih => exact execIn_seq ih (execIn_pop (off + c1.length))
  | letStmt off c1 hi lo _ ih => exact execIn_seq ih (execIn_setGlobal (off + c1.length) hi lo)
  | nil off => exact execIn_nil off
  | snoc off c1 c2 _ _ ih1 ih2 => exact execIn_seq ih1 ih2
  | ofBlock off c1 _ ih => exact ih
  | ofExpr off c1 c2 _ _ ih1 ih2 => exact execIn_seq ih1 ih2

end compiler

namespace compiler

open object vm ast

/-- C35: for every program on which `Compile` returns no error, every OpJump
and OpJumpNotTruthy of the stream is patched with an offset `t` behind the
position of the jump (its operand is the two low bytes of `t`, and reads back as
`t` when the stream is shorter than 65536 bytes); and when the stream is
shorter than 65536 bytes, `Run` on a machine with these instructions ends:
either with an error or a panic within as many rounds of its loop as the stream
has bytes, or with no error after `k` instructions, `k` at most the number of
bytes, so that `Run` returns with one more round than the stream has bytes. -/
theorem run_terminates (p : List Statement) (c : Compiler)
    (hc : New.Compile (.Program p) = .ok c) :
    (∀ pos op operand, (pos, op, operand) ∈ code.instructionsOf c.instructions →
      op = code.OpJump ∨ op = code.OpJumpNotTruthy →
      ∃ t, pos < t ∧ t < c.instructions.length ∧ operand = [t / 256 % 256, t % 256]
        ∧ (c.instructions.length < 65536 → code.ReadUint16 operand = some t))
    ∧ (c.instructions.length < 65536 → ∀ m : VM, m.instructions = c.instructions →
        ((∃ msg m1, VM.Run c.instructions.length m = some (.error msg m1))
          ∨ VM.Run c.instructions.length m = some .panic
          ∨ ∃ k m1, k ≤ c.instructions.length
              ∧ VM.steps k m 0 = some (m1, c.instructions.length)
              ∧ VM.Run (k + 1) m = some (.ok m1))
        ∧ ∃ r, VM.Run (c.instructions.length + 1) m = some r) := by
  have B := shape_of_block p false [] New c (fun h => by cases h)
    (block_start false New (by decide)) hc
  obtain ⟨cd, hi, hsh, _⟩ := B
  have hcd : c.instructions = cd := by rw [hi]; rfl
  constructor
  · intro pos op operand hmem hop
    obtain ⟨D, hD, hok⟩ := shape_decodes hsh
    have hmem' : (pos, op, operand) ∈ D := by
      have := hD []
      rw [List.append_nil] at this
      rw [code.instructionsOf, hcd] at hmem
      have e0 : code.instructionsFrom 0 ([] : List Nat).length cd = D := by
        rw [this]
        simp [code.instructionsFrom]
      rw [← e0]
      exact hmem
    obtain ⟨t, t1, t2, t3⟩ := hok _ hmem' hop
    have t1' : pos < t := t1
    have t3' : operand = [t / 256 % 256, t % 256] := t3
    have t2' : t < c.instructions.length := by
      rw [hcd]
      simp only [Kind.slack, List.length_nil] at t2
      omega
    refine ⟨t, t1', t2', t3', fun hlen => ?_⟩
    rw [t3']
    exact read_two_bytes t (by omega)
  · intro hlen m hm
    have key : FaultIn cd.length m 0 ∨ ∃ k m1, k ≤ cd.length
        ∧ VM.steps k m 0 = some (m1, 0 + cd.length) ∧ m1.instructions = m.instructions :=
      shape_steps hsh m [] [] (by rw [hm, hcd]; simp) rfl (by rw [hm]; exact hlen)
    rw [← hcd] at key
    rcases key with hf | ⟨k, m1, hk, hs, hi1⟩
    · refine ⟨?_, ?_⟩
      · rcases hf with h1 | h1
        · exact Or.inl h1
        · exact Or.inr (Or.inl h1)
      · rcases hf with ⟨msg, m1, h1⟩ | h1
        · exact ⟨_, runFrom_mono 1 h1⟩
        · exact ⟨_, runFrom_mono 1 h1⟩
    · rw [Nat.zero_add] at hs
      have hend : VM.runFrom 1 m1 c.instructions.length = some (.ok m1) := by
        simp [VM.runFrom, hi1, hm]
      have hrun : VM.Run (k + 1) m = some (.ok m1) := by
        show VM.runFrom (k + 1) m 0 = _
        rw [runFrom_steps 1 hs]
        exact hend
      refine ⟨Or.inr (Or.inr ⟨k, m1, hk, hs, hrun⟩), .ok m1, ?_⟩
      obtain ⟨j, hj⟩ : ∃ j, c.instructions.length + 1 = (k + 1) + j :=
        ⟨c.instructions.length - k, by omega⟩
      rw [hj]
      exact runFrom_mono j hrun

end compiler

namespace compiler

open object vm ast

/-- Witness of C35: the program `if (1 > 2) { 10 } else { 20 };`. -/
theorem run_terminates_witness :
    New.Compile (.Program (ifElseProgram
        (.InfixExpression (.IntegerLiteral 1) ">" (.IntegerLiteral 2)) 10 20))
      = .ok { instructions := [0, 0, 0, 0, 0, 1, 10, 13, 0, 16, 0, 0, 2, 14, 0, 19, 0, 0, 3, 2],
              constants := [.Integer 1, .Integer 2, .Integer 10, .Integer 20],
              lastInstruction := ⟨2, 19⟩, previousInstruction := ⟨0, 16⟩,
              symbolTable := NewSymbolTable }
    ∧ (∃ t, 7 < t ∧ t < 20 ∧ [0, 16] = [t / 256 % 256, t % 256]
        ∧ ((20 : Nat) < 65536 → code.ReadUint16 [0, 16] = some t))
    ∧ (((∃ msg m1, VM.Run 20 (vm.New
              { Instructions := [0, 0, 0, 0, 0, 1, 10, 13, 0, 16, 0, 0, 2, 14, 0, 19, 0, 0, 3, 2],
                Constants := [.Integer 1, .Integer 2, .Integer 10, .Integer 20] })
            = some (.error msg m1))
        ∨ VM.Run 20 (vm.New
              { Instructions := [0, 0, 0, 0, 0, 1, 10, 13, 0, 16, 0, 0, 2, 14, 0, 19, 0, 0, 3, 2],
                Constants := [.Integer 1, .Integer 2, .Integer 10, .Integer 20] })
            = some .panic
        ∨ ∃ k m1, k ≤ 20
            ∧ VM.steps k (vm.New
                { Instructions := [0, 0, 0, 0, 0, 1, 10, 13, 0, 16, 0, 0, 2, 14, 0, 19, 0, 0, 3, 2],
                  Constants := [.Integer 1, .Integer 2, .Integer 10, .Integer 20] }) 0
              = some (m1, 20)
            ∧ VM.Run (k + 1) (vm.New
                { Instructions := [0, 0, 0, 0, 0, 1, 10, 13, 0, 16, 0, 0, 2, 14, 0, 19, 0, 0, 3, 2],
                  Constants := [.Integer 1, .Integer 2, .Integer 10, .Integer 20] })
              = some (.ok m1))
      ∧ ∃ r, VM.Run (20 + 1) (vm.New
              { Instructions := [0, 0, 0, 0, 0, 1, 10, 13, 0, 16, 0, 0, 2, 14, 0, 19, 0, 0, 3, 2],
                Constants := [.Integer 1, .Integer 2, .Integer 10, .Integer 20] }) = some r) :=
  ⟨(by decide!),
    (run_terminates
      (ifElseProgram (.InfixExpression (.IntegerLiteral 1) ">" (.IntegerLiteral 2)) 10 20)
      ({ instructions := [0, 0, 0, 0, 0, 1, 10, 13, 0, 16, 0, 0, 2, 14, 0, 19, 0, 0, 3, 2],
         constants := [.Integer 1, .Integer 2, .Integer 10, .Integer 20],
         lastInstruction := ⟨2, 19⟩, previousInstruction := ⟨0, 16⟩,
         symbolTable := NewSymbolTable } : Compiler)
      (by decide!)).1 7 code.OpJumpNotTruthy [0, 16] (by decide!) (Or.inr rfl),
    (run_terminates
      (ifElseProgram (.InfixExpression (.IntegerLiteral 1) ">" (.IntegerLiteral 2)) 10 20)
      ({ instructions := [0, 0, 0, 0, 0, 1, 10, 13, 0, 16, 0, 0, 2, 14, 0, 19, 0, 0, 3, 2],
         constants := [.Integer 1, .Integer 2, .Integer 10, .Integer 20],
         lastInstruction := ⟨2, 19⟩, previousInstruction := ⟨0, 16⟩,
         symbolTable := NewSymbolTable } : Compiler)
      (by decide!)).2 (by decide) _ rfl⟩

end compiler

namespace compiler2

open ast

/-- The method `Compiler` of the earlier stage only appends to the stream. -/
theorem appends_expr : ∀ (e : Expression) (c c1 : Compiler),
    c.CompilerExpression e = .ok c1 → ∃ cd, c1.instructions = c.instructions ++ cd
  | .IntegerLiteral n, c, c1, h => by
    cases h
    exact ⟨_, rfl⟩
  | .Boolean v, c, c1, h => by
    cases v with
    | true => cases h; exact ⟨_, rfl⟩
    | false => cases h; exact ⟨_, rfl⟩
  | .PrefixExpression op r, c, c1, h => by
    rw [compiler_PrefixExpression] at h
    cases hc : c.CompilerExpression r with
    | error msg a => rw [hc] at h; cases h
    | panic => rw [hc] at h; cases h
    | ok c' =>
      simp only [hc] at h
      obtain ⟨cd, hi⟩ := appends_expr r c c' hc
      split_ifs at h
      · cases h
        exact ⟨cd ++ code.Make code.OpBang [], by
          show c'.instructions ++ _ = _
          rw [hi, List.append_assoc]⟩
      · cases h
        exact ⟨cd ++ code.Make code.OpMinus [], by
          show c'.instructions ++ _ = _
          rw [hi, List.append_assoc]⟩
  | .InfixExpression l op r, c, c1, h => by
    by_cases hop : op = "<"
    · subst hop
      rw [compiler_InfixExpression_lt] at h
      cases hc : c.CompilerExpression r with
      | error msg a => rw [hc] at h; cases h
      | panic => rw [hc] at h; cases h
      | ok c' =>
        simp only [hc] at h
        obtain ⟨cd1, hi1⟩ := appends_expr r c c' hc
        cases hc2 : c'.CompilerExpression l with
        | error msg a => rw [hc2] at h; cases h
        | panic => rw [hc2] at h; cases h
        | ok c'' =>
          simp only [hc2] at h
          obtain ⟨cd2, hi2⟩ := appends_expr l c' c'' hc2
          cases h
          exact ⟨cd1 ++ cd2 ++ code.Make code.OpGreaterThan [], by
            show c''.instructions ++ _ = _
            rw [hi2, hi1]
            simp only [List.append_assoc]⟩
    · rw [compiler_InfixExpression _ _ _ _ hop] at h
      cases hc : c.CompilerExpression l with
      | error msg a => rw [hc] at h; cases h
      | panic => rw [hc] at h; cases h
      | ok c' =>
        simp only [hc] at h
        obtain ⟨cd1, hi1⟩ := appends_expr l c c' hc
        cases hc2 : c'.CompilerExpression r with
        | error msg a => rw [hc2] at h; cases h
        | panic => rw [hc2] at h; cases h
        | ok c'' =>
          simp only [hc2] at h
          obtain ⟨cd2, hi2⟩ := appends_expr r c' c'' hc2
          have key : ∀ opc, ∃ cd, (c''.emit opc []).1.instructions = c.instructions ++ cd :=
            fun opc => ⟨cd1 ++ cd2 ++ code.Make opc [], by
              show c''.instructions ++ _ = _
              rw [hi2, hi1]
              simp only [List.append_assoc]⟩
          split_ifs at h <;> cases h <;> exact key _
  | .StringLiteral _, c, c1, h => by
    cases h
    exact ⟨[], by simp⟩
  | .Identifier _, c, c1, h => by
    cases h
    exact ⟨[], by simp⟩
  | .IfExpression _ _ _, c, c1, h => by
    cases h
    exact ⟨[], by simp⟩
  | .ArrayLiteral _, c, c1, h => by
    cases h
    exact ⟨[], by simp⟩
  | .HashLiteral _, c, c1, h => by
    cases h
    exact ⟨[], by simp⟩
  | .IndexExpression _ _, c, c1, h => by
    cases h
    exact ⟨[], by simp⟩
  | .CallExpression _ _, c, c1, h => by
    cases h
    exact ⟨[], by simp⟩
  | .FunctionLiteral _ _, c, c1, h => by
    cases h
    exact ⟨[], by simp⟩

end compiler2

namespace compiler

open ast

/-- C17: in both compilers the infix expression `l < r` compiles exactly as
`r > l` does, from every compiler state: the result is the same, also when an
operand fails to compile, and it is the result of compiling `r`, then `l`, and
then emitting OpGreaterThan. When both operands compile, `r` appends its code
`cr` to the stream, `l` appends its code `cl` behind it, and the stream of the
result is the stream of the start, `cr`, `cl` and the one byte OpGreaterThan,
with the constants (and the symbol table) that the operands left. -/
theorem less_than_swaps (l r : Expression) (c2 : compiler2.Compiler) (c4 : Compiler) :
    c2.Compiler (.Expression (.InfixExpression l "<" r))
      = c2.Compiler (.Expression (.InfixExpression r ">" l))
    ∧ c4.Compile (.Expression (.InfixExpression l "<" r))
      = c4.Compile (.Expression (.InfixExpression r ">" l))
    ∧ c2.Compiler (.Expression (.InfixExpression l "<" r))
      = (match c2.Compiler (.Expression r) with
        | .ok c1 =>
          match c1.Compiler (.Expression l) with
          | .ok c3 => .ok (c3.emit code.OpGreaterThan []).1
          | e => e
        | e => e)
    ∧ c4.Compile (.Expression (.InfixExpression l "<" r))
      = (match c4.Compile (.Expression r) with
        | .ok c1 =>
          match c1.Compile (.Expression l) with
          | .ok c3 => .ok (c3.emit code.OpGreaterThan []).1
          | e => e
        | e => e)
    ∧ (∀ c1 c3 : compiler2.Compiler, c2.Compiler (.Expression r) = .ok c1 →
        c1.Compiler (.Expression l) = .ok c3 →
        ∃ cr cl y, c1.instructions = c2.instructions ++ cr
          ∧ c3.instructions = c1.instructions ++ cl
          ∧ c2.Compiler (.Expression (.InfixExpression l "<" r)) = .ok y
          ∧ c2.Compiler (.Expression (.InfixExpression r ">" l)) = .ok y
          ∧ y.instructions = c2.instructions ++ cr ++ cl ++ [code.OpGreaterThan]
          ∧ y.constants = c3.constants)
    ∧ (∀ c1 c3 : Compiler, c4.Compile (.Expression r) = .ok c1 →
        c1.Compile (.Expression l) = .ok c3 →
        ∃ cr cl y, c1.instructions = c4.instructions ++ cr
          ∧ c3.instructions = c1.instructions ++ cl
          ∧ c4.Compile (.Expression (.InfixExpression l "<" r)) = .ok y
          ∧ c4.Compile (.Expression (.InfixExpression r ">" l)) = .ok y
          ∧ y.instructions = c4.instructions ++ cr ++ cl ++ [code.OpGreaterThan]
          ∧ y.constants = c3.constants ∧ y.symbolTable = c3.symbolTable) := by
  have e2 : c2.Compiler (.Expression (.InfixExpression l "<" r))
      = c2.Compiler (.Expression (.InfixExpression r ">" l)) := by
    show c2.CompilerExpression _ = c2.CompilerExpression _
    rw [compiler2.compiler_InfixExpression_lt, compiler2.compiler_InfixExpression_gt]
  have e4 : c4.Compile (.Expression (.InfixExpression l "<" r))
      = c4.Compile (.Expression (.InfixExpression r ">" l)) := by
    show c4.CompileExpression _ = c4.CompileExpression _
    rw [compile_InfixExpression_lt, compile_InfixExpression _ _ _ _ (by decide)]
    simp only [show ¬ (">" = "+") by decide, show ¬ (">" = "-") by decide,
      show ¬ (">" = "*") by decide, show ¬ (">" = "/") by decide, if_false, if_true]
  refine ⟨e2, e4, compiler2.compiler_InfixExpression_lt c2 l r,
    compile_InfixExpression_lt c4 l r, ?_, ?_⟩
  · intro c1 c3 h1 h2
    obtain ⟨cr, hr⟩ := compiler2.appends_expr r c2 c1 h1
    obtain ⟨cl, hl⟩ := compiler2.appends_expr l c1 c3 h2
    have e : c2.Compiler (.Expression (.InfixExpression l "<" r))
        = .ok (c3.emit code.OpGreaterThan []).1 := by
      replace h1 : c2.CompilerExpression r = .ok c1 := h1
      replace h2 : c1.CompilerExpression l = .ok c3 := h2
      show c2.CompilerExpression _ = _
      rw [compiler2.compiler_InfixExpression_lt, h1]
      simp only [h2]
    refine ⟨cr, cl, _, hr, hl, e, by rw [← e2]; exact e, ?_, rfl⟩
    show c3.instructions ++ [code.OpGreaterThan] = _
    rw [hl, hr]
  · intro c1 c3 h1 h2
    obtain ⟨⟨cr, hr, _⟩, _⟩ := rec_expr r c4 c1 h1
    obtain ⟨⟨cl, hl, _⟩, _⟩ := rec_expr l c1 c3 h2
    have e : c4.Compile (.Expression (.InfixExpression l "<" r))
        = .ok (c3.emit code.OpGreaterThan []).1 := by
      replace h1 : c4.CompileExpression r = .ok c1 := h1
      replace h2 : c1.CompileExpression l = .ok c3 := h2
      show c4.CompileExpression _ = _
      rw [compile_InfixExpression_lt, h1]
      simp only [h2]
    refine ⟨cr, cl, _, hr, hl, e, by rw [← e4]; exact e, ?_, rfl, rfl⟩
    show c3.instructions ++ [code.OpGreaterThan] = _
    rw [hl, hr]

/-- Witness of C17: `1 < 2` in both compilers, from their new states. -/
theorem less_than_swaps_witness :
    (∃ cr cl y, [code.OpConstant, 0, 0] = compiler2.New.instructions ++ cr
        ∧ [code.OpConstant, 0, 0, code.OpConstant, 0, 1] = [code.OpConstant, 0, 0] ++ cl
        ∧ compiler2.New.Compiler
            (.Expression (.InfixExpression (.IntegerLiteral 1) "<" (.IntegerLiteral 2))) = .ok y
        ∧ compiler2.New.Compiler
            (.Expression (.InfixExpression (.IntegerLiteral 2) ">" (.IntegerLiteral 1))) = .ok y
        ∧ y.instructions = compiler2.New.instructions ++ cr ++ cl ++ [code.OpGreaterThan]
        ∧ y.constants = [object.Object.Integer 2, object.Object.Integer 1])
    ∧ (∃ cr cl y, [code.OpConstant, 0, 0] = New.instructions ++ cr
        ∧ [code.OpConstant, 0, 0, code.OpConstant, 0, 1] = [code.OpConstant, 0, 0] ++ cl
        ∧ New.Compile
            (.Expression (.InfixExpression (.IntegerLiteral 1) "<" (.IntegerLiteral 2))) = .ok y
        ∧ New.Compile
            (.Expression (.InfixExpression (.IntegerLiteral 2) ">" (.IntegerLiteral 1))) = .ok y
        ∧ y.instructions = New.instructions ++ cr ++ cl ++ [code.OpGreaterThan]
        ∧ y.constants = [object.Object.Integer 2, object.Object.Integer 1]
        ∧ y.symbolTable = New.symbolTable) :=
  ⟨(less_than_swaps (.IntegerLiteral 1) (.IntegerLiteral 2) compiler2.New New).2.2.2.2.1
      ((compiler2.New.addConstant (.Integer 2)).1.emit code.OpConstant [0]).1
      (((((compiler2.New.addConstant (.Integer 2)).1.emit code.OpConstant [0]).1.addConstant
        (.Integer 1)).1).emit code.OpConstant [1]).1 rfl rfl,
    (less_than_swaps (.IntegerLiteral 1) (.IntegerLiteral 2) compiler2.New New).2.2.2.2.2
      ((New.addConstant (.Integer 2)).1.emit code.OpConstant [0]).1
      (((((New.addConstant (.Integer 2)).1.emit code.OpConstant [0]).1.addConstant
        (.Integer 1)).1).emit code.OpConstant [1]).1 rfl rfl⟩

end compiler

namespace compiler

open object vm ast

/-! ### Both placeholders of a conditional are replaced -/

/-- The code that `Compile` appends for a conditional, with the operands of its
two jumps. -/
theorem if_layout (c c1 : Compiler) (cond : Expression) (cons : List Statement)
    (alt : Option (List Statement))
    (h : c.CompileExpression (.IfExpression cond cons alt) = .ok c1) :
    ∃ cc vcode acode,
      c1.instructions = c.instructions
        ++ (cc
          ++ [code.OpJumpNotTruthy,
              (c.instructions.length + cc.length + 3 + vcode.length + 3) / 256 % 256,
              (c.instructions.length + cc.length + 3 + vcode.length + 3) % 256]
          ++ vcode
          ++ [code.OpJump,
              (c.instructions.length + cc.length + 3 + vcode.length + 3 + acode.length)
                / 256 % 256,
              (c.instructions.length + cc.length + 3 + vcode.length + 3 + acode.length) % 256]
          ++ acode)
      ∧ (alt = none → acode = [code.OpNull])
      ∧ ∃ c2 s2 s3 c4, c.CompileExpression cond = .ok c2
          ∧ c2.instructions = c.instructions ++ cc
          ∧ (c2.emit code.OpJumpNotTruthy [9999]).1.CompileStatements cons = .ok s2
          ∧ s2.dropLastPop = some s3
          ∧ s3.instructions = c.instructions ++ cc ++ [code.OpJumpNotTruthy, 39, 15] ++ vcode
          ∧ (s3.emit code.OpJump [9999]).1.changeOperand (c2.emit code.OpJumpNotTruthy [9999]).2
              (s3.emit code.OpJump [9999]).1.instructions.length = some c4
          ∧ ∀ a, alt = some a → ∃ s5 s7, c4.CompileStatements a = .ok s5
              ∧ s5.dropLastPop = some s7 ∧ s7.instructions = c4.instructions ++ acode := by
  have hstart : ∀ c2 : Compiler, Start (c2.emit code.OpJumpNotTruthy [9999]).1 := fun c2 =>
    ⟨recorded_emit c2 code.OpJumpNotTruthy [9999] [39, 15] (make_OpJumpNotTruthy 9999),
      by show code.OpJumpNotTruthy ≠ code.OpPop; decide⟩
  rw [compile_IfExpression] at h
  cases hc : c.CompileExpression cond with
  | error msg a => rw [hc] at h; cases h
  | panic => rw [hc] at h; cases h
  | ok c2 =>
    simp only [hc] at h
    obtain ⟨⟨cc, hi1, _⟩, _⟩ := rec_expr cond c c2 hc
    cases hcons : (c2.emit code.OpJumpNotTruthy [9999]).1.CompileStatements cons with
    | error msg a => rw [hcons] at h; cases h
    | panic => rw [hcons] at h; cases h
    | ok s2 =>
      simp only [hcons] at h
      have B2 := rec_block cons _ _ s2 (hstart c2) (inBlock_start _ (hstart c2)) hcons
      obtain ⟨s3, c4, vcode, hd, hi3, hch, hjp, hi4, hl4, _, hst4, _⟩ :=
        if_front c2 s2 c.instructions cc hi1 B2
      simp only [hd, hch] at h
      rw [hjp] at h
      cases alt with
      | none =>
        simp only at h
        obtain ⟨c6, hch6, hi6, _, _⟩ := if_close c4 _ vcode
          (c.instructions.length + cc.length + 3 + vcode.length) hi4
          (by simp only [List.length_append, List.length_cons, List.length_nil])
        simp only [hch6] at h
        cases h
        refine ⟨cc, vcode, [code.OpNull],
          by rw [hi6]; simp only [List.append_assoc, List.length_singleton],
          fun _ => rfl, c2, s2, s3, c4, rfl, hi1, hcons, hd, hi3, hch, ?_⟩
        intro a ha
        cases ha
      | some a =>
        simp only at h
        cases halt : c4.CompileStatements a with
        | error msg a => rw [halt] at h; cases h
        | panic => rw [halt] at h; cases h
        | ok s5 =>
          simp only [halt] at h
          have B4 := rec_block a c4 c4 s5 hst4 (inBlock_start c4 hst4) halt
          obtain ⟨s7, c7, acode, hd7, hi7s, hch7, hi7, _, _, _, _⟩ := if_back c4 s5 _ vcode
            (c.instructions.length + cc.length + 3 + vcode.length) hi4
            (by simp only [List.length_append, List.length_cons, List.length_nil]) hl4 B4
          simp only [hd7, hch7] at h
          cases h
          refine ⟨cc, vcode, acode, by rw [hi7]; simp only [List.append_assoc], ?_,
            c2, s2, s3, c4, rfl, hi1, hcons, hd, hi3, hch, ?_⟩
          · intro ha
            cases ha
          · intro a' ha
            cases ha
            exact ⟨s5, s7, halt, hd7, hi7s⟩

/-- C6 (amended): for every program on which `Compile` returns no error, every
OpJump and OpJumpNotTruthy instruction of the resulting stream has as operand
the two bytes of an offset behind the instruction and inside the stream, so no
jump has the operand 9999 when the stream is at most 9999 bytes long. And
`Compile` of every IfExpression that returns no error, from every state, has
replaced both placeholders: the code appended is the code `cc` of the
condition, the OpJumpNotTruthy, the code `vcode` of the consequence, the OpJump
and the code `acode` of the alternative (the one OpNull when there is none);
the operand of the OpJumpNotTruthy is the two bytes of the offset behind the
OpJump, and the operand of the OpJump the two bytes of the offset behind
`acode`. -/
theorem jumps_patched :
    (∀ (p : List Statement) (c : Compiler), New.Compile (.Program p) = .ok c →
      ∀ pos op operand, (pos, op, operand) ∈ code.instructionsOf c.instructions →
        op = code.OpJump ∨ op = code.OpJumpNotTruthy →
        (∃ t, pos < t ∧ t < c.instructions.length ∧ operand = [t / 256 % 256, t % 256])
        ∧ (c.instructions.length ≤ 9999 → code.ReadUint16 operand ≠ some 9999))
    ∧ (∀ (c c1 : Compiler) (cond : Expression) (cons : List Statement)
        (alt : Option (List Statement)),
      c.Compile (.Expression (.IfExpression cond cons alt)) = .ok c1 →
      ∃ cc vcode acode,
        c1.instructions = c.instructions
          ++ (cc
            ++ [code.OpJumpNotTruthy,
                (c.instructions.length + cc.length + 3 + vcode.length + 3) / 256 % 256,
                (c.instructions.length + cc.length + 3 + vcode.length + 3) % 256]
            ++ vcode
            ++ [code.OpJump,
                (c.instructions.length + cc.length + 3 + vcode.length + 3 + acode.length)
                  / 256 % 256,
                (c.instructions.length + cc.length + 3 + vcode.length + 3 + acode.length) % 256]
            ++ acode)
        ∧ (alt = none → acode = [code.OpNull])
        ∧ ∃ c2 s2 s3 c4, c.CompileExpression cond = .ok c2
            ∧ c2.instructions = c.instructions ++ cc
            ∧ (c2.emit code.OpJumpNotTruthy [9999]).1.CompileStatements cons = .ok s2
            ∧ s2.dropLastPop = some s3
            ∧ s3.instructions = c.instructions ++ cc ++ [code.OpJumpNotTruthy, 39, 15] ++ vcode
            ∧ (s3.emit code.OpJump [9999]).1.changeOperand
                (c2.emit code.OpJumpNotTruthy [9999]).2
                (s3.emit code.OpJump [9999]).1.instructions.length = some c4
            ∧ ∀ a, alt = some a → ∃ s5 s7, c4.CompileStatements a = .ok s5
                ∧ s5.dropLastPop = some s7 ∧ s7.instructions = c4.instructions ++ acode) := by
  refine ⟨?_, fun c c1 cond cons alt h => if_layout c c1 cond cons alt h⟩
  intro p c hc pos op operand hmem hop
  have B := shape_of_block p false [] New c (fun h => by cases h)
    (block_start false New (by decide)) hc
  obtain ⟨cd, hi, hsh, _⟩ := B
  obtain ⟨D, hD, hok⟩ := shape_decodes hsh
  have hcd : c.instructions = cd := by rw [hi]; rfl
  have hmem' : (pos, op, operand) ∈ D := by
    have := hD []
    rw [List.append_nil] at this
    rw [code.instructionsOf, hcd] at hmem
    have e0 : code.instructionsFrom 0 ([] : List Nat).length cd = D := by
      rw [this]
      simp [code.instructionsFrom]
    rw [← e0]
    exact hmem
  obtain ⟨t, t1, t2, t3⟩ := hok _ hmem' hop
  have t1' : pos < t := t1
  have t3' : operand = [t / 256 % 256, t % 256] := t3
  have t2' : t < c.instructions.length := by
    rw [hcd]
    simp only [Kind.slack, List.length_nil] at t2
    omega
  refine ⟨⟨t, t1', t2', t3'⟩, fun hlen => ?_⟩
  rw [t3']
  show some (t / 256 % 256 * 256 + t % 256) ≠ some 9999
  intro h
  injection h with h
  omega

end compiler

namespace compiler

open object vm ast

/-- Witness of the amended C6: in the 20 bytes of `if (1 > 2) { 10 } else { 20 }`
the OpJumpNotTruthy at offset 7 has the operand 16, and `Compile` of
`if (true) { 1 }` by a new compiler patches its jumps to the offsets 10 and 11. -/
theorem jumps_patched_witness :
    New.Compile (.Program (ifElseProgram
        (.InfixExpression (.IntegerLiteral 1) ">" (.IntegerLiteral 2)) 10 20))
      = .ok { instructions := [0, 0, 0, 0, 0, 1, 10, 13, 0, 16, 0, 0, 2, 14, 0, 19, 0, 0, 3, 2],
              constants := [.Integer 1, .Integer 2, .Integer 10, .Integer 20],
              lastInstruction := ⟨2, 19⟩, previousInstruction := ⟨0, 16⟩,
              symbolTable := NewSymbolTable }
    ∧ (7, code.OpJumpNotTruthy, [0, 16]) ∈ code.instructionsOf
        [0, 0, 0, 0, 0, 1, 10, 13, 0, 16, 0, 0, 2, 14, 0, 19, 0, 0, 3, 2]
    ∧ ((∃ t, 7 < t ∧ t < 20 ∧ [0, 16] = [t / 256 % 256, t % 256])
      ∧ (20 ≤ 9999 → code.ReadUint16 [0, 16] ≠ some 9999))
    ∧ ∃ c1, New.Compile (.Expression
          (.IfExpression (.Boolean true) [.ExpressionStatement (.IntegerLiteral 1)] none))
        = .ok c1
      ∧ c1.instructions = [code.OpTrue, code.OpJumpNotTruthy, 0, 10, code.OpConstant, 0, 0,
          code.OpJump, 0, 11, code.OpNull]
      ∧ ∃ cc vcode acode,
        c1.instructions = New.instructions
          ++ (cc
            ++ [code.OpJumpNotTruthy,
                (New.instructions.length + cc.length + 3 + vcode.length + 3) / 256 % 256,
                (New.instructions.length + cc.length + 3 + vcode.length + 3) % 256]
            ++ vcode
            ++ [code.OpJump,
                (New.instructions.length + cc.length + 3 + vcode.length + 3 + acode.length)
                  / 256 % 256,
                (New.instructions.length + cc.length + 3 + vcode.length + 3 + acode.length) % 256]
            ++ acode)
        ∧ ((none : Option (List Statement)) = none → acode = [code.OpNull])
        ∧ ∃ c2 s2 s3 c4, New.CompileExpression (.Boolean true) = .ok c2
            ∧ c2.instructions = New.instructions ++ cc
            ∧ (c2.emit code.OpJumpNotTruthy [9999]).1.CompileStatements
                [.ExpressionStatement (.IntegerLiteral 1)] = .ok s2
            ∧ s2.dropLastPop = some s3
            ∧ s3.instructions = New.instructions ++ cc ++ [code.OpJumpNotTruthy, 39, 15] ++ vcode
            ∧ (s3.emit code.OpJump [9999]).1.changeOperand
                (c2.emit code.OpJumpNotTruthy [9999]).2
                (s3.emit code.OpJump [9999]).1.instructions.length = some c4
            ∧ ∀ a, (none : Option (List Statement)) = some a → ∃ s5 s7,
                c4.CompileStatements a = .ok s5
                ∧ s5.dropLastPop = some s7 ∧ s7.instructions = c4.instructions ++ acode :=
  ⟨(by decide!), (by decide!),
    jumps_patched.1
      (ifElseProgram (.InfixExpression (.IntegerLiteral 1) ">" (.IntegerLiteral 2)) 10 20)
      ({ instructions := [0, 0, 0, 0, 0, 1, 10, 13, 0, 16, 0, 0, 2, 14, 0, 19, 0, 0, 3, 2],
         constants := [.Integer 1, .Integer 2, .Integer 10, .Integer 20],
         lastInstruction := ⟨2, 19⟩, previousInstruction := ⟨0, 16⟩,
         symbolTable := NewSymbolTable } : Compiler)
      (by decide!) 7 code.OpJumpNotTruthy [0, 16] (by decide!) (Or.inr rfl),
    _, rfl, rfl,
    jumps_patched.2 New _ (.Boolean true) [.ExpressionStatement (.IntegerLiteral 1)] none rfl⟩

end compiler
